import Mathlib

/-! Roaring containers: a shallow embedding of `roaringarray.go` and `bitmapcontainer.go`.

Machine integers are modelled by `Nat` and `Int`: a `uint64` word is a `Nat` below `2 ^ 64`
(operations that can leave that range are reduced `% 2 ^ 64`), a `uint16` is a `Nat` below
`2 ^ 16`, and a Go `int` is an `Int` (no computation below comes near `2 ^ 63`).
Slices are lists.  A read or write outside a slice panics in Go; the functions on
`roaringArray` return `Option`, with `none` for that panic.
-/

namespace Roaring

/-! ## Data model -/

/-- The type `arrayContainer`: `content []uint16`. -/
structure arrayContainer where
  content : List Nat
deriving DecidableEq, Repr

/-- The type `bitmapContainer`: `cardinality int; bitmap []uint64`. -/
structure bitmapContainer where
  cardinality : Int
  bitmap : List Nat
deriving DecidableEq, Repr

/-- The interface `container`, implemented by the two container types. -/
inductive container where
  | array (ac : arrayContainer)
  | bitmap (bc : bitmapContainer)
deriving DecidableEq, Repr

/-- The type `roaringArray`: `keys []uint16; containers []container; dirty []bool`.  An entry
of `containers` is a value of the interface type, that is a pointer: the address of a
container object in the store (see `store` below), or `none` for `nil`. -/
structure roaringArray where
  keys : List Nat
  containers : List (Option Nat)
  dirty : List Bool
deriving DecidableEq, Repr

/-! ## Numeric constants and bit primitives

These live in files of the package other than the two embedded here; they are modelled from
the specification. -/

/-- Modelled from the spec: the constant `arrayDefaultMaxSize` (`ARRAY_MAX = 4096`), declared
outside the embedded files. -/
def arrayDefaultMaxSize : Int := 4096

/-- Modelled from the spec: the constant `maxCapacity` (`MAX_CAPACITY = 65536`), declared
outside the embedded files. -/
def maxCapacity : Int := 65536

/-- The `uint64` constant `0xffffffffffffffff`. -/
def allOnes : Nat := 0xffffffffffffffff

/-- The `uint64` shift `w << s`. -/
def shl64 (w s : Nat) : Nat := (w <<< s) % 2 ^ 64

/-- The `uint64` subtraction `a - b`, wrapping around. -/
def sub64 (a b : Nat) : Nat := (a + 2 ^ 64 - b) % 2 ^ 64

/-- The `uint64` negation `-a`, wrapping around. -/
def neg64 (a : Nat) : Nat := (2 ^ 64 - a) % 2 ^ 64

/-- The `uint64` complement `^a`. -/
def not64 (a : Nat) : Nat := allOnes ^^^ a

/-- The `uint64` bit clear `a &^ b`. -/
def andNot64 (a b : Nat) : Nat := a &&& not64 b

/-- Modelled from the spec: `popcount(u64)`, the count of set bits of a word (the function is
declared outside the embedded files). -/
def popcount (w : Nat) : Nat := (List.range 64).countP (fun i => w.testBit i)

/-- Modelled from the spec: `popcntSlice(ws)`, the sum of the popcounts across a word slice
(declared outside the embedded files). -/
def popcntSlice (ws : List Nat) : Nat := (ws.map popcount).sum

/-- Modelled from the spec: `popcntAndSlice(a, b)`, the fused popcount of `a & b` over two
slices (declared outside the embedded files). -/
def popcntAndSlice (a b : List Nat) : Nat := (List.zipWith (fun x y => popcount (x &&& y)) a b).sum

/-- Modelled from the spec: `popcntOrSlice(a, b)`, the fused popcount of `a | b` over two
slices (declared outside the embedded files). -/
def popcntOrSlice (a b : List Nat) : Nat := (List.zipWith (fun x y => popcount (x ||| y)) a b).sum

/-- Modelled from the spec: `popcntXorSlice(a, b)`, the fused popcount of `a ^ b` over two
slices (declared outside the embedded files). -/
def popcntXorSlice (a b : List Nat) : Nat := (List.zipWith (fun x y => popcount (x ^^^ y)) a b).sum

/-- Modelled from the spec: `popcntMaskSlice(a, b) = popcount(a &~ b)` over two slices
(declared outside the embedded files). -/
def popcntMaskSlice (a b : List Nat) : Nat :=
  (List.zipWith (fun x y => popcount (andNot64 x y)) a b).sum

/-- The search of `numberOfTrailingZeros`: the first position from `i` on, among the next
`n`, whose bit is set. -/
def numberOfTrailingZeros.go (w : Nat) : Nat → Nat → Nat
  | 0, i => i
  | n + 1, i => if w.testBit i then i else numberOfTrailingZeros.go w n (i + 1)

/-- Modelled from the spec: `numberOfTrailingZeros(u64)`, the index of the lowest set bit
(64 on the zero word, on which the code never calls it); declared outside the embedded files. -/
def numberOfTrailingZeros (w : Nat) : Nat := numberOfTrailingZeros.go w 64 0

/-- The positions of the set bits of one word, ascending. -/
def wordPositions (w : Nat) : List Nat := (List.range 64).filter (fun i => w.testBit i)

/-- Modelled from the spec: `selectBitPosition(w, k)`, the 0-based position of the `k`-th set
bit of `w`, counting from 0 (declared outside the embedded files). -/
def selectBitPosition (w : Nat) (k : Nat) : Nat := (wordPositions w).getD k 0

/-- Whether bit `v` of the bit vector held in the word slice `ws` is set. -/
def getBit (ws : List Nat) (v : Nat) : Bool := (ws.getD (v / 64) 0).testBit (v % 64)

/-- The positions of the set bits of a word slice, ascending. -/
def setPositions (ws : List Nat) : List Nat :=
  (List.range (64 * ws.length)).filter (fun v => getBit ws v)

/-- The slice writes `out[pos] = v0; out[pos+1] = v1; ...`. -/
def writeFrom (out : List Nat) : Nat → List Nat → List Nat
  | _, [] => out
  | pos, v :: vs => writeFrom (out.set pos v) (pos + 1) vs

/-- Modelled from the spec: `fillArrayAND(out, a, b)` extracts the set bits of `a & b` into
an ascending `u16` buffer (declared outside the embedded files). -/
def fillArrayAND (out a b : List Nat) : List Nat :=
  writeFrom out 0 (setPositions (List.zipWith (fun x y => x &&& y) a b))

/-- Modelled from the spec: `fillArrayOR(out, a, b)` extracts the set bits of `a | b` into
an ascending `u16` buffer (declared outside the embedded files). -/
def fillArrayOR (out a b : List Nat) : List Nat :=
  writeFrom out 0 (setPositions (List.zipWith (fun x y => x ||| y) a b))

/-- Modelled from the spec: `fillArrayXOR(out, a, b)` extracts the set bits of `a ^ b` into
an ascending `u16` buffer (declared outside the embedded files). -/
def fillArrayXOR (out a b : List Nat) : List Nat :=
  writeFrom out 0 (setPositions (List.zipWith (fun x y => x ^^^ y) a b))

/-- Modelled from the spec: `fillArrayANDNOT(out, a, b)` extracts the set bits of `a &~ b`
into an ascending `u16` buffer (declared outside the embedded files). -/
def fillArrayANDNOT (out a b : List Nat) : List Nat :=
  writeFrom out 0 (setPositions (List.zipWith (fun x y => andNot64 x y) a b))

/-- The mask of the bits of word `k` whose positions lie in the half-open range
`[first, last)`. -/
def rangeMask (first last : Int) (k : Nat) : Nat :=
  ((List.range 64).filter
    (fun j => decide (first ≤ ((64 * k + j : Nat) : Int) ∧ ((64 * k + j : Nat) : Int) < last))).foldl
    (fun m j => m ||| 2 ^ j) 0

/-- Modelled from the spec: `setBitmapRange(ws, first, last)` sets the bits at the positions
`[first, last)`, half-open (declared outside the embedded files). -/
def setBitmapRange (ws : List Nat) (first last : Int) : List Nat :=
  List.zipWith (fun k w => w ||| rangeMask first last k) (List.range ws.length) ws

/-- Modelled from the spec: `resetBitmapRange(ws, first, last)` clears the bits at the
positions `[first, last)`, half-open (declared outside the embedded files). -/
def resetBitmapRange (ws : List Nat) (first last : Int) : List Nat :=
  List.zipWith (fun k w => andNot64 w (rangeMask first last k)) (List.range ws.length) ws

/-! ## `arrayContainer`

The file of the array container is not among the embedded ones; what the bitmap container
calls of it is modelled from the specification. -/

/-- Modelled from the spec: `arrayContainer.getCardinality`, `cardinality = len(content)`
(the method is declared outside the embedded files). -/
def arrayContainer.getCardinality (ac : arrayContainer) : Int := ac.content.length

/-- The binary search of `arrayContainer.contains` over `content[lo:hi]`. -/
def arrayContainer.contains.search (content : List Nat) (x : Nat) : Nat → Nat → Nat → Bool
  | 0, _, _ => false
  | fuel + 1, lo, hi =>
    if lo < hi then
      let mid := (lo + hi) / 2
      let v := content.getD mid 0
      if v < x then arrayContainer.contains.search content x fuel (mid + 1) hi
      else if x < v then arrayContainer.contains.search content x fuel lo mid
      else true
    else false

/-- Modelled from the spec: `arrayContainer.contains(x)`, a binary search in `content`
(the method is declared outside the embedded files). -/
def arrayContainer.contains (ac : arrayContainer) (x : Nat) : Bool :=
  arrayContainer.contains.search ac.content x (ac.content.length + 1) 0 ac.content.length

/-- Modelled from the spec: `newArrayContainerSize(n)`, an array container of exactly `n`
entries (declared outside the embedded files). -/
def newArrayContainerSize (n : Int) : arrayContainer := ⟨List.replicate n.toNat 0⟩

/-- Modelled from the spec: `newArrayContainerCapacity(n)`, an empty array container with
room for `n` entries (declared outside the embedded files). -/
def newArrayContainerCapacity (_n : Int) : arrayContainer := ⟨[]⟩

/-! ## `bitmapContainer`

A method that mutates its receiver returns an `Effect`: the receiver after the call and the
container the method returns.  The word reads and writes below stay inside the 1024 words that
`newBitmapContainer` allocates; `List.getD` and `List.set` stand for them. -/

/-- The outcome of a method with a pointer receiver: the receiver after the call and the
returned container. -/
structure Effect where
  self : bitmapContainer
  ret : container
deriving DecidableEq, Repr

/-- The function `newBitmapContainer()`: `size := (1 << 16) / 64` zero words. -/
def newBitmapContainer : bitmapContainer := ⟨0, List.replicate ((1 <<< 16) / 64) 0⟩

/-- The method `bitmapContainer.contains(i)`. -/
def bitmapContainer.contains (bc : bitmapContainer) (i : Nat) : Bool :=
  let x := i
  let mask := shl64 1 (x % 64)
  (bc.bitmap.getD (x / 64) 0 &&& mask) != 0

/-- The inner loop of `fillArray` on the word `k`: `for bitset != 0`, at most `fuel` times,
on the state `(container, pos)`. -/
def bitmapContainer.fillArray.inner (k : Nat) : Nat → Nat → List Nat × Nat → List Nat × Nat
  | 0, _, s => s
  | fuel + 1, bitset, s =>
    if bitset ≠ 0 then
      let t := bitset &&& neg64 bitset
      bitmapContainer.fillArray.inner k fuel (bitset ^^^ t)
        (s.1.set s.2 ((k * 64 + popcount (sub64 t 1)) % 2 ^ 16), s.2 + 1)
    else s

/-- The method `bitmapContainer.fillArray(container)`; the result is the buffer after the
call. -/
def bitmapContainer.fillArray (bc : bitmapContainer) (container : List Nat) : List Nat :=
  ((List.range bc.bitmap.length).foldl
    (fun s k => bitmapContainer.fillArray.inner k 65 (bc.bitmap.getD k 0) s) (container, 0)).1

/-- Modelled from the spec: `arrayContainer.loadData(bc)`, which copies all set positions of
the bitmap container into a content of `cardinality` entries, by `fillArray` (the method is
declared outside the embedded files). -/
def arrayContainer.loadData (_ac : arrayContainer) (bc : bitmapContainer) : arrayContainer :=
  ⟨bc.fillArray (List.replicate bc.cardinality.toNat 0)⟩

/-- The method `bitmapContainer.toArrayContainer()`. -/
def bitmapContainer.toArrayContainer (bc : bitmapContainer) : arrayContainer :=
  let ac := newArrayContainerCapacity bc.cardinality
  ac.loadData bc

/-- The method `bitmapContainer.getCardinality()`. -/
def bitmapContainer.getCardinality (bc : bitmapContainer) : Int := bc.cardinality

/-- The method `container.getCardinality()` of the interface. -/
def container.getCardinality : container → Int
  | .array ac => ac.getCardinality
  | .bitmap bc => bc.getCardinality

/-- The method `container.contains(i)` of the interface. -/
def container.contains : container → Nat → Bool
  | .array ac, i => ac.contains i
  | .bitmap bc, i => bc.contains i

/-- The method `bitmapContainer.computeCardinality()`. -/
def bitmapContainer.computeCardinality (bc : bitmapContainer) : bitmapContainer :=
  { bc with cardinality := (popcntSlice bc.bitmap : Nat) }

/-- The method `bitmapContainer.clone()`. -/
def bitmapContainer.clone (bc : bitmapContainer) : bitmapContainer :=
  ⟨bc.cardinality, writeFrom (List.replicate bc.bitmap.length 0) 0 bc.bitmap⟩

/-- The method `bitmapContainer.add(i)`. -/
def bitmapContainer.add (bc : bitmapContainer) (i : Nat) : Effect :=
  let x := i
  let previous := bc.bitmap.getD (x / 64) 0
  let mask := shl64 1 (x % 64)
  let newb := previous ||| mask
  let bc1 : bitmapContainer := { bc with bitmap := bc.bitmap.set (x / 64) newb }
  let bc2 : bitmapContainer :=
    { bc1 with cardinality := bc1.cardinality + (((previous ^^^ newb) >>> (x % 64) : Nat) : Int) }
  ⟨bc2, .bitmap bc2⟩

/-- The method `bitmapContainer.remove(i)`. -/
def bitmapContainer.remove (bc : bitmapContainer) (i : Nat) : Effect :=
  if bc.contains i then
    let bc1 : bitmapContainer := { bc with cardinality := bc.cardinality - 1 }
    let bc2 : bitmapContainer :=
      { bc1 with bitmap :=
          bc1.bitmap.set (i / 64) (andNot64 (bc1.bitmap.getD (i / 64) 0) (shl64 1 (i % 64))) }
    if bc2.cardinality = arrayDefaultMaxSize then ⟨bc2, .array bc2.toArrayContainer⟩
    else ⟨bc2, .bitmap bc2⟩
  else ⟨bc, .bitmap bc⟩

/-- The method `bitmapContainer.iaddRange(firstOfRange, lastOfRange)`. -/
def bitmapContainer.iaddRange (bc : bitmapContainer) (firstOfRange lastOfRange : Int) : Effect :=
  let bc1 : bitmapContainer :=
    { bc with bitmap := setBitmapRange bc.bitmap firstOfRange lastOfRange }
  let bc2 := bc1.computeCardinality
  ⟨bc2, .bitmap bc2⟩

/-- The method `bitmapContainer.addRange(firstOfRange, lastOfRange)`. -/
def bitmapContainer.addRange (bc : bitmapContainer) (firstOfRange lastOfRange : Int) :
    container :=
  let answer : bitmapContainer :=
    ⟨bc.cardinality, writeFrom (List.replicate bc.bitmap.length 0) 0 bc.bitmap⟩
  let answer : bitmapContainer :=
    { answer with bitmap := setBitmapRange answer.bitmap firstOfRange lastOfRange }
  let answer := answer.computeCardinality
  .bitmap answer

/-- The method `bitmapContainer.removeRange(firstOfRange, lastOfRange)`. -/
def bitmapContainer.removeRange (bc : bitmapContainer) (firstOfRange lastOfRange : Int) :
    container :=
  let answer : bitmapContainer :=
    ⟨bc.cardinality, writeFrom (List.replicate bc.bitmap.length 0) 0 bc.bitmap⟩
  let answer : bitmapContainer :=
    { answer with bitmap := resetBitmapRange answer.bitmap firstOfRange lastOfRange }
  let answer := answer.computeCardinality
  if answer.getCardinality ≤ arrayDefaultMaxSize then .array answer.toArrayContainer
  else .bitmap answer

/-- The method `bitmapContainer.iremoveRange(firstOfRange, lastOfRange)`. -/
def bitmapContainer.iremoveRange (bc : bitmapContainer) (firstOfRange lastOfRange : Int) :
    Effect :=
  let bc1 : bitmapContainer :=
    { bc with bitmap := resetBitmapRange bc.bitmap firstOfRange lastOfRange }
  let bc2 := bc1.computeCardinality
  if bc2.getCardinality ≤ arrayDefaultMaxSize then ⟨bc2, .array bc2.toArrayContainer⟩
  else ⟨bc2, .bitmap bc2⟩

/-- The tail of `NotBitmap`: `if answer.cardinality <= arrayDefaultMaxSize` the answer is
downgraded.  `self` is the receiver after the call. -/
def bitmapContainer.NotBitmap.finish (self answer : bitmapContainer) : Effect :=
  if answer.cardinality ≤ arrayDefaultMaxSize then ⟨self, .array answer.toArrayContainer⟩
  else ⟨self, .bitmap answer⟩

/-- The body of the loop of the full-range case of `NotBitmap`:
`answer.bitmap[k] = ^bc.bitmap[k]`.  `cur a` is the receiver when the answer stands at `a`. -/
def bitmapContainer.NotBitmap.complement (cur : bitmapContainer → bitmapContainer)
    (a : bitmapContainer) (k : Nat) : bitmapContainer :=
  { a with bitmap := a.bitmap.set k (not64 ((cur a).bitmap.getD k 0)) }

/-- The copies of `NotBitmap` when `answer != bc`: `copy(answer.bitmap,
bc.bitmap[:rangeFirstWord])`, and `copy(answer.bitmap[base:], bc.bitmap[base:base+sz])` when
`sz > 0`, for `base := rangeLastWord + 1` and `sz := len(bc.bitmap) - base`. -/
def bitmapContainer.NotBitmap.copyOutside (bc answer : bitmapContainer)
    (rangeFirstWord rangeLastWord : Nat) : bitmapContainer :=
  let a : bitmapContainer :=
    { answer with bitmap := writeFrom answer.bitmap 0 (bc.bitmap.take rangeFirstWord) }
  let base := rangeLastWord + 1
  let sz : Int := (bc.bitmap.length : Int) - base
  if sz > 0 then
    { a with bitmap := writeFrom a.bitmap base ((bc.bitmap.drop base).take sz.toNat) }
  else a

/-- The body of the loop of `NotBitmap` over the words strictly between the first and the
last: `bcb := bc.bitmap[i]; cardinalityChange += (64 - 2*int(popcount(bcb)));
answer.bitmap[i] = ^bcb`, on the state `(answer, cardinalityChange)`. -/
def bitmapContainer.NotBitmap.negate (cur : bitmapContainer → bitmapContainer)
    (s : bitmapContainer × Int) (i : Nat) : bitmapContainer × Int :=
  let bcb := (cur s.1).bitmap.getD i 0
  ({ s.1 with bitmap := s.1.bitmap.set i (not64 bcb) }, s.2 + (64 - 2 * (popcount bcb : Int)))

/-- The second half of `NotBitmap` (a range that is not the full one), from the masks on:
`ans1` is the answer after the copies and `cur a` the receiver when the answer stands at
`a`. -/
def bitmapContainer.NotBitmap.flipWords (cur : bitmapContainer → bitmapContainer)
    (ans1 : bitmapContainer) (rangeFirstWord : Nat) (rangeFirstBitPos : Int)
    (rangeLastWord : Nat) (rangeLastBitPos : Int) : Effect :=
  let maskOnLeft : Nat :=
    if rangeLastBitPos ≠ 63 then sub64 (shl64 1 ((rangeLastBitPos + 1).tmod 64).toNat) 1
    else allOnes
  let mask : Nat := allOnes ^^^ sub64 (shl64 1 (rangeFirstBitPos.tmod 64).toNat) 1
  if rangeFirstWord = rangeLastWord then
    let mask := mask &&& maskOnLeft
    let cardinalityChange : Int := -(popcount ((cur ans1).bitmap.getD rangeFirstWord 0) : Int)
    let ans2 : bitmapContainer :=
      { ans1 with bitmap :=
          ans1.bitmap.set rangeFirstWord ((cur ans1).bitmap.getD rangeFirstWord 0 ^^^ mask) }
    let cardinalityChange := cardinalityChange + popcount (ans2.bitmap.getD rangeFirstWord 0)
    let ans3 : bitmapContainer :=
      { ans2 with cardinality := (cur ans2).cardinality + cardinalityChange }
    bitmapContainer.NotBitmap.finish (cur ans3) ans3
  else
    let cardinalityChange : Int := -(popcount ((cur ans1).bitmap.getD rangeFirstWord 0) : Int)
    let ans2 : bitmapContainer :=
      { ans1 with bitmap :=
          ans1.bitmap.set rangeFirstWord ((cur ans1).bitmap.getD rangeFirstWord 0 ^^^ mask) }
    let cardinalityChange := cardinalityChange + popcount (ans2.bitmap.getD rangeFirstWord 0)
    let cardinalityChange :=
      cardinalityChange + -(popcount ((cur ans2).bitmap.getD rangeLastWord 0) : Int)
    let ans3 : bitmapContainer :=
      { ans2 with bitmap :=
          ans2.bitmap.set rangeLastWord ((cur ans2).bitmap.getD rangeLastWord 0 ^^^ maskOnLeft) }
    let cardinalityChange := cardinalityChange + popcount (ans3.bitmap.getD rangeLastWord 0)
    let st : bitmapContainer × Int :=
      (List.range' (rangeFirstWord + 1) (rangeLastWord - (rangeFirstWord + 1))).foldl
        (bitmapContainer.NotBitmap.negate cur) (ans3, cardinalityChange)
    let ans4 : bitmapContainer :=
      { st.1 with cardinality := (cur st.1).cardinality + st.2 }
    bitmapContainer.NotBitmap.finish (cur ans4) ans4

/-- The method `bc.NotBitmap(answer, firstOfRange, lastOfRange)`.  The argument `answer` is
`none` when the receiver itself is passed (`answer == bc`, the call of `inot`): every write to
`answer` is then a write to `bc`, and `cur a` is the receiver as it stands when the answer
stands at `a`. -/
def bitmapContainer.NotBitmap (bc : bitmapContainer) (answer : Option bitmapContainer)
    (firstOfRange lastOfRange : Int) : Effect :=
  let ans0 : bitmapContainer := answer.getD bc
  let cur : bitmapContainer → bitmapContainer := fun a => if answer.isNone then a else bc
  if lastOfRange - firstOfRange + 1 = maxCapacity then
    let newCardinality := maxCapacity - bc.cardinality
    let ans1 : bitmapContainer :=
      (List.range bc.bitmap.length).foldl (bitmapContainer.NotBitmap.complement cur) ans0
    let ans2 : bitmapContainer := { ans1 with cardinality := newCardinality }
    if newCardinality ≤ arrayDefaultMaxSize then ⟨cur ans2, .array ans2.toArrayContainer⟩
    else ⟨cur ans2, .bitmap ans2⟩
  else
    let rangeFirstWord := (firstOfRange.tdiv 64).toNat
    let rangeFirstBitPos := firstOfRange % 64
    let rangeLastWord := (lastOfRange.tdiv 64).toNat
    let rangeLastBitPos := lastOfRange % 64
    let ans1 : bitmapContainer :=
      if answer.isSome then
        bitmapContainer.NotBitmap.copyOutside bc ans0 rangeFirstWord rangeLastWord
      else ans0
    bitmapContainer.NotBitmap.flipWords cur ans1 rangeFirstWord rangeFirstBitPos rangeLastWord
      rangeLastBitPos

/-- The method `bitmapContainer.inot(firstOfRange, lastOfRange)`:
`bc.NotBitmap(bc, firstOfRange, lastOfRange)`. -/
def bitmapContainer.inot (bc : bitmapContainer) (firstOfRange lastOfRange : Int) : Effect :=
  bc.NotBitmap none firstOfRange lastOfRange

/-- The method `bitmapContainer.not(firstOfRange, lastOfRange)`:
`bc.NotBitmap(newBitmapContainer(), firstOfRange, lastOfRange)`. -/
def bitmapContainer.not (bc : bitmapContainer) (firstOfRange lastOfRange : Int) : container :=
  (bc.NotBitmap (some newBitmapContainer) firstOfRange lastOfRange).ret

/-- The body of the loops of `orArray` and `iorArray` (the two are the same), at the index
`k` of the array operand. -/
def bitmapContainer.orArray.body (value2 : arrayContainer) (answer : bitmapContainer) (k : Nat) :
    bitmapContainer :=
  let v := value2.content.getD k 0
  let i := v >>> 6
  let bef := answer.bitmap.getD i 0
  let aft := bef ||| shl64 1 (v % 64)
  let answer : bitmapContainer := { answer with bitmap := answer.bitmap.set i aft }
  { answer with cardinality := answer.cardinality + ((sub64 bef aft >>> 63 : Nat) : Int) }

/-- The method `bitmapContainer.orArray(value2)`. -/
def bitmapContainer.orArray (bc : bitmapContainer) (value2 : arrayContainer) : container :=
  let answer := bc.clone
  let c := value2.getCardinality
  .bitmap ((List.range c.toNat).foldl (bitmapContainer.orArray.body value2) answer)

/-- The method `bitmapContainer.orBitmap(value2)`. -/
def bitmapContainer.orBitmap (bc value2 : bitmapContainer) : container :=
  let answer := newBitmapContainer
  let answer : bitmapContainer := (List.range answer.bitmap.length).foldl
    (fun a k =>
      { a with bitmap := a.bitmap.set k (bc.bitmap.getD k 0 ||| value2.bitmap.getD k 0) }) answer
  .bitmap answer.computeCardinality

/-- The method `bitmapContainer.or(a)`. -/
def bitmapContainer.or (bc : bitmapContainer) : container → container
  | .array a => bc.orArray a
  | .bitmap a => bc.orBitmap a

/-- The method `bitmapContainer.iorArray(value2)`. -/
def bitmapContainer.iorArray (bc : bitmapContainer) (value2 : arrayContainer) : Effect :=
  let answer := bc
  let c := value2.getCardinality
  let answer := (List.range c.toNat).foldl (bitmapContainer.orArray.body value2) answer
  ⟨answer, .bitmap answer⟩

/-- The method `bitmapContainer.iorBitmap(value2)`; `answer` is the receiver, so the loop
reads the words it has not yet written. -/
def bitmapContainer.iorBitmap (bc value2 : bitmapContainer) : Effect :=
  let answer : bitmapContainer := { bc with cardinality := 0 }
  let answer : bitmapContainer := (List.range answer.bitmap.length).foldl
    (fun a k =>
      { a with bitmap := a.bitmap.set k (a.bitmap.getD k 0 ||| value2.bitmap.getD k 0) }) answer
  let answer := answer.computeCardinality
  ⟨answer, .bitmap answer⟩

/-- The method `bitmapContainer.ior(a)`. -/
def bitmapContainer.ior (bc : bitmapContainer) : container → Effect
  | .array a => bc.iorArray a
  | .bitmap a => bc.iorBitmap a

/-- The body of the loop of `xorArray`, at the index `k` of the array operand. -/
def bitmapContainer.xorArray.body (value2 : arrayContainer) (answer : bitmapContainer) (k : Nat) :
    bitmapContainer :=
  let vc := value2.content.getD k 0
  let index := vc >>> 6
  let abi := answer.bitmap.getD index 0
  let mask := shl64 1 (vc % 64)
  let answer : bitmapContainer :=
    { answer with
      cardinality := answer.cardinality + (1 - 2 * (((abi &&& mask) >>> (vc % 64) : Nat) : Int)) }
  { answer with bitmap := answer.bitmap.set index (abi ^^^ mask) }

/-- The method `bitmapContainer.xorArray(value2)`. -/
def bitmapContainer.xorArray (bc : bitmapContainer) (value2 : arrayContainer) : container :=
  let answer := bc.clone
  let c := value2.getCardinality
  let answer : bitmapContainer :=
    (List.range c.toNat).foldl (bitmapContainer.xorArray.body value2) answer
  if answer.cardinality ≤ arrayDefaultMaxSize then .array answer.toArrayContainer
  else .bitmap answer

/-- The method `bitmapContainer.xorBitmap(value2)`. -/
def bitmapContainer.xorBitmap (bc value2 : bitmapContainer) : container :=
  let newCardinality : Int := (popcntXorSlice bc.bitmap value2.bitmap : Nat)
  if newCardinality > arrayDefaultMaxSize then
    let answer := newBitmapContainer
    let answer : bitmapContainer := (List.range answer.bitmap.length).foldl
      (fun a k =>
        { a with bitmap := a.bitmap.set k (bc.bitmap.getD k 0 ^^^ value2.bitmap.getD k 0) })
      answer
    .bitmap { answer with cardinality := newCardinality }
  else
    let ac := newArrayContainerSize newCardinality
    let ac : arrayContainer := ⟨fillArrayXOR ac.content bc.bitmap value2.bitmap⟩
    .array ⟨ac.content.take newCardinality.toNat⟩

/-- The method `bitmapContainer.xor(a)`. -/
def bitmapContainer.xor (bc : bitmapContainer) : container → container
  | .array a => bc.xorArray a
  | .bitmap a => bc.xorBitmap a

/-- The method `bitmapContainer.rank(x)`. -/
def bitmapContainer.rank (bc : bitmapContainer) (x : Nat) : Int :=
  let leftover := (x + 1) &&& 63
  if leftover = 0 then ((popcntSlice (bc.bitmap.take ((x + 1) / 64)) : Nat) : Int)
  else
    ((popcntSlice (bc.bitmap.take ((x + 1) / 64)) +
      popcount (shl64 (bc.bitmap.getD ((x + 1) / 64) 0) (64 - leftover)) : Nat) : Int)

/-- The loop of `selectInt`, from the word `k` on with `n` words to go; `remaining` is a
`uint16`. -/
def bitmapContainer.selectInt.loop (bitmap : List Nat) : Nat → Nat → Nat → Int
  | 0, _, _ => -1
  | n + 1, k, remaining =>
    let w := popcount (bitmap.getD k 0)
    if w % 2 ^ 16 > remaining then
      ((k * 64 + selectBitPosition (bitmap.getD k 0) remaining : Nat) : Int)
    else
      bitmapContainer.selectInt.loop bitmap n (k + 1) ((remaining + 2 ^ 16 - w % 2 ^ 16) % 2 ^ 16)

/-- The method `bitmapContainer.selectInt(x)`. -/
def bitmapContainer.selectInt (bc : bitmapContainer) (x : Nat) : Int :=
  let remaining := x
  bitmapContainer.selectInt.loop bc.bitmap bc.bitmap.length 0 remaining

/-- The body of the loop of `andArray`, at the index `k` of the array operand. -/
def bitmapContainer.andArray.body (bc : bitmapContainer) (value2 : arrayContainer)
    (answer : arrayContainer) (k : Nat) : arrayContainer :=
  let v := value2.content.getD k 0
  if bc.contains v then ⟨answer.content ++ [v]⟩ else answer

/-- The method `bitmapContainer.andArray(value2)`. -/
def bitmapContainer.andArray (bc : bitmapContainer) (value2 : arrayContainer) : arrayContainer :=
  let answer := newArrayContainerCapacity value2.content.length
  let c := value2.getCardinality
  (List.range c.toNat).foldl (bitmapContainer.andArray.body bc value2) answer

/-- The method `bitmapContainer.andBitmap(value2)`. -/
def bitmapContainer.andBitmap (bc value2 : bitmapContainer) : container :=
  let newcardinality : Int := (popcntAndSlice bc.bitmap value2.bitmap : Nat)
  if newcardinality > arrayDefaultMaxSize then
    let answer := newBitmapContainer
    let answer : bitmapContainer := (List.range answer.bitmap.length).foldl
      (fun a k =>
        { a with bitmap := a.bitmap.set k (bc.bitmap.getD k 0 &&& value2.bitmap.getD k 0) })
      answer
    .bitmap { answer with cardinality := newcardinality }
  else
    let ac := newArrayContainerSize newcardinality
    let ac : arrayContainer := ⟨fillArrayAND ac.content bc.bitmap value2.bitmap⟩
    .array ⟨ac.content.take newcardinality.toNat⟩

/-- The method `bitmapContainer.and(a)`. -/
def bitmapContainer.and (bc : bitmapContainer) : container → container
  | .array a => .array (bc.andArray a)
  | .bitmap a => bc.andBitmap a

/-- The method `bitmapContainer.iandBitmap(value2)`. -/
def bitmapContainer.iandBitmap (bc value2 : bitmapContainer) : Effect :=
  let newcardinality : Int := (popcntAndSlice bc.bitmap value2.bitmap : Nat)
  if newcardinality > arrayDefaultMaxSize then
    let bc1 : bitmapContainer := (List.range bc.bitmap.length).foldl
      (fun a k =>
        { a with bitmap := a.bitmap.set k (a.bitmap.getD k 0 &&& value2.bitmap.getD k 0) }) bc
    let bc2 : bitmapContainer := { bc1 with cardinality := newcardinality }
    ⟨bc2, .bitmap bc2⟩
  else
    let ac := newArrayContainerSize newcardinality
    let ac : arrayContainer := ⟨fillArrayAND ac.content bc.bitmap value2.bitmap⟩
    ⟨bc, .array ⟨ac.content.take newcardinality.toNat⟩⟩

/-- The method `bitmapContainer.iand(a)`. -/
def bitmapContainer.iand (bc : bitmapContainer) : container → Effect
  | .array a => ⟨bc, .array (bc.andArray a)⟩
  | .bitmap a => bc.iandBitmap a

/-- The body of the loop of `andNotArray`, at the index `k` of the array operand. -/
def bitmapContainer.andNotArray.body (value2 : arrayContainer) (answer : bitmapContainer)
    (k : Nat) : bitmapContainer :=
  let vc := value2.content.getD k 0
  let i := vc >>> 6
  let oldv := answer.bitmap.getD i 0
  let newv := andNot64 oldv (shl64 1 (vc % 64))
  let answer : bitmapContainer := { answer with bitmap := answer.bitmap.set i newv }
  { answer with
    cardinality := answer.cardinality - (((oldv ^^^ newv) >>> (vc % 64) : Nat) : Int) }

/-- The method `bitmapContainer.andNotArray(value2)`. -/
def bitmapContainer.andNotArray (bc : bitmapContainer) (value2 : arrayContainer) : container :=
  let answer := bc.clone
  let c := value2.getCardinality
  let answer : bitmapContainer :=
    (List.range c.toNat).foldl (bitmapContainer.andNotArray.body value2) answer
  if answer.cardinality ≤ arrayDefaultMaxSize then .array answer.toArrayContainer
  else .bitmap answer

/-- The method `bitmapContainer.andNotBitmap(value2)`. -/
def bitmapContainer.andNotBitmap (bc value2 : bitmapContainer) : container :=
  let newCardinality : Int := (popcntMaskSlice bc.bitmap value2.bitmap : Nat)
  if newCardinality > arrayDefaultMaxSize then
    let answer := newBitmapContainer
    let answer : bitmapContainer := (List.range answer.bitmap.length).foldl
      (fun a k =>
        { a with bitmap :=
            a.bitmap.set k (andNot64 (bc.bitmap.getD k 0) (value2.bitmap.getD k 0)) })
      answer
    .bitmap { answer with cardinality := newCardinality }
  else
    let ac := newArrayContainerSize newCardinality
    .array ⟨fillArrayANDNOT ac.content bc.bitmap value2.bitmap⟩

/-- The method `bitmapContainer.andNot(a)`. -/
def bitmapContainer.andNot (bc : bitmapContainer) : container → container
  | .array a => bc.andNotArray a
  | .bitmap a => bc.andNotBitmap a

/-- The method `bitmapContainer.iandNotBitmap(value2)`. -/
def bitmapContainer.iandNotBitmap (bc value2 : bitmapContainer) : Effect :=
  let newCardinality : Int := (popcntMaskSlice bc.bitmap value2.bitmap : Nat)
  if newCardinality > arrayDefaultMaxSize then
    let bc1 : bitmapContainer := (List.range bc.bitmap.length).foldl
      (fun a k =>
        { a with bitmap :=
            a.bitmap.set k (andNot64 (a.bitmap.getD k 0) (value2.bitmap.getD k 0)) }) bc
    let bc2 : bitmapContainer := { bc1 with cardinality := newCardinality }
    ⟨bc2, .bitmap bc2⟩
  else
    let ac := newArrayContainerSize newCardinality
    ⟨bc, .array ⟨fillArrayANDNOT ac.content bc.bitmap value2.bitmap⟩⟩

/-- The method `bitmapContainer.iandNot(a)`. -/
def bitmapContainer.iandNot (bc : bitmapContainer) : container → Effect
  | .array a => ⟨bc, bc.andNotArray a⟩
  | .bitmap a => bc.iandNotBitmap a

/-- The last loop of `NextSetBit`: `for ; x < len(bc.bitmap); x++`, from the word `x` on with
`n` words to go, followed by `return -1`. -/
def bitmapContainer.NextSetBit.scan (bitmap : List Nat) : Nat → Nat → Int
  | 0, _ => -1
  | n + 1, x =>
    if bitmap.getD x 0 ≠ 0 then ((x * 64 + numberOfTrailingZeros (bitmap.getD x 0) : Nat) : Int)
    else bitmapContainer.NextSetBit.scan bitmap n (x + 1)

/-- The method `bitmapContainer.NextSetBit(i)`. -/
def bitmapContainer.NextSetBit (bc : bitmapContainer) (i : Int) : Int :=
  let x := i.tdiv 64
  if x ≥ bc.bitmap.length then -1
  else
    let w := bc.bitmap.getD x.toNat 0
    let w := w >>> ((i.tmod 64) % 2 ^ 64).toNat
    if w ≠ 0 then i + numberOfTrailingZeros w
    else
      let x := x + 1
      bitmapContainer.NextSetBit.scan bc.bitmap (bc.bitmap.length - x.toNat) x.toNat

/-- The type `bitmapContainerShortIterator`: `ptr *bitmapContainer; i int`. -/
structure bitmapContainerShortIterator where
  ptr : bitmapContainer
  i : Int
deriving DecidableEq, Repr

/-- The method `bitmapContainerShortIterator.next()`: the value returned and the iterator
after the call. -/
def bitmapContainerShortIterator.next (bcsi : bitmapContainerShortIterator) :
    Nat × bitmapContainerShortIterator :=
  let j := bcsi.i
  ((j % 2 ^ 16).toNat, { bcsi with i := bcsi.ptr.NextSetBit (bcsi.i + 1) })

/-- The method `bitmapContainerShortIterator.hasNext()`. -/
def bitmapContainerShortIterator.hasNext (bcsi : bitmapContainerShortIterator) : Bool :=
  decide (bcsi.i ≥ 0)

/-- The function `newBitmapContainerShortIterator(a)`. -/
def newBitmapContainerShortIterator (a : bitmapContainer) : bitmapContainerShortIterator :=
  ⟨a, a.NextSetBit 0⟩

/-- The method `bitmapContainer.getShortIterator()`. -/
def bitmapContainer.getShortIterator (bc : bitmapContainer) : bitmapContainerShortIterator :=
  newBitmapContainerShortIterator bc

/-- The client loop `for it.hasNext() { out = append(out, it.next()) }`, run at most `fuel`
times: the values yielded, or `none` when the iterator still has a next value after `fuel`
calls. -/
def bitmapContainerShortIterator.drain : Nat → bitmapContainerShortIterator → Option (List Nat)
  | 0, it => if it.hasNext then none else some []
  | fuel + 1, it =>
    if it.hasNext then
      (bitmapContainerShortIterator.drain fuel it.next.2).map (fun vs => it.next.1 :: vs)
    else some []

/-- The invariant of a bitmap container: 1024 words, each a `uint64`, and a cardinality field
equal to the popcount of the words. -/
def bitmapContainer.wf (bc : bitmapContainer) : Prop :=
  bc.bitmap.length = 1024 ∧ (∀ w ∈ bc.bitmap, w < 2 ^ 64) ∧
    bc.cardinality = (popcntSlice bc.bitmap : Nat)

/-- The invariant of an array container: the content is strictly ascending `uint16` values. -/
def arrayContainer.wf (ac : arrayContainer) : Prop :=
  ac.content.Pairwise (fun a b => a < b) ∧ ∀ v ∈ ac.content, v < 2 ^ 16

/-- The word slice `ws` with the bit at position `v` set. -/
def bitSet (ws : List Nat) (v : Nat) : List Nat :=
  ws.set (v / 64) (ws.getD (v / 64) 0 ||| 2 ^ (v % 64))

/-- The word slice `ws` with the bit at position `v` cleared. -/
def bitClear (ws : List Nat) (v : Nat) : List Nat :=
  ws.set (v / 64) (andNot64 (ws.getD (v / 64) 0) (2 ^ (v % 64)))

/-- The word slice `ws` with the bit at position `v` flipped. -/
def bitFlip (ws : List Nat) (v : Nat) : List Nat :=
  ws.set (v / 64) (ws.getD (v / 64) 0 ^^^ 2 ^ (v % 64))

/-- The downgrade that ends the methods returning a container of either kind: the array
container of the set bits when the cardinality is at most `arrayDefaultMaxSize`. -/
def downgrade (b : bitmapContainer) : container :=
  if b.cardinality ≤ arrayDefaultMaxSize then .array b.toArrayContainer else .bitmap b

/-- The invariant of a container, by kind. -/
def container.wf : container → Prop
  | .array ac => ac.wf
  | .bitmap bc => bc.wf

/-- The cardinality invariant on a container: the cardinality field of a bitmap container is
the popcount of its words. -/
def container.cardinalityOK : container → Prop
  | .array _ => True
  | .bitmap bc => bc.cardinality = (popcntSlice bc.bitmap : Nat)

/-- The representation invariant on a container: an array container has at most
`arrayDefaultMaxSize` values, a bitmap container more. -/
def container.representationOK : container → Prop
  | .array ac => ac.getCardinality ≤ arrayDefaultMaxSize
  | .bitmap bc => bc.getCardinality > arrayDefaultMaxSize

/-- The content of an array container is strictly ascending. -/
def container.ascending : container → Prop
  | .array ac => ac.content.Pairwise (fun a b => a < b)
  | .bitmap _ => True

/-- The word slice `ws` with the bits at the positions of the closed range `[first, last]`
flipped. -/
def flipRange (ws : List Nat) (first last : Int) : List Nat :=
  List.zipWith (fun k w => w ^^^ rangeMask first (last + 1) k) (List.range ws.length) ws

/-- The cardinality invariant on a bitmap container: the cardinality field is the popcount of
the words. -/
def bitmapContainer.cardinalityOK (bc : bitmapContainer) : Prop :=
  bc.cardinality = (popcntSlice bc.bitmap : Nat)

/-- The cardinality invariant after a method with a pointer receiver: it holds of the receiver
after the call and of the returned container. -/
def Effect.cardinalityOK (e : Effect) : Prop :=
  e.self.cardinalityOK ∧ e.ret.cardinalityOK

/-- The invariants of a returned container: it is well formed, and it is an array container
with at most `arrayDefaultMaxSize` values or a bitmap container with more. -/
def container.valid (c : container) : Prop := c.wf ∧ c.representationOK

/-- The loop of `intersectsArray`: `for k := 0; k < c; k++`, from the index `k` on with `n`
iterations to go, followed by `return false`. -/
def bitmapContainer.intersectsArray.loop (bc : bitmapContainer) (value2 : arrayContainer) :
    Nat → Nat → Bool
  | 0, _ => false
  | n + 1, k =>
    let v := value2.content.getD k 0
    if bc.contains v then true
    else bitmapContainer.intersectsArray.loop bc value2 n (k + 1)

/-- The method `bitmapContainer.intersectsArray(value2)`. -/
def bitmapContainer.intersectsArray (bc : bitmapContainer) (value2 : arrayContainer) : Bool :=
  let c := value2.getCardinality
  bitmapContainer.intersectsArray.loop bc value2 c.toNat 0

/-- The loop of `intersectsBitmap`: `for k := 0; k < len(bc.bitmap); k++`, from the word `k` on
with `n` words to go, followed by `return false`. -/
def bitmapContainer.intersectsBitmap.loop (bc value2 : bitmapContainer) : Nat → Nat → Bool
  | 0, _ => false
  | n + 1, k =>
    if (bc.bitmap.getD k 0 &&& value2.bitmap.getD k 0) ≠ 0 then true
    else bitmapContainer.intersectsBitmap.loop bc value2 n (k + 1)

/-- The method `bitmapContainer.intersectsBitmap(value2)`. -/
def bitmapContainer.intersectsBitmap (bc value2 : bitmapContainer) : Bool :=
  bitmapContainer.intersectsBitmap.loop bc value2 bc.bitmap.length 0

/-- The method `bitmapContainer.intersects(a)`. -/
def bitmapContainer.intersects (bc : bitmapContainer) : container → Bool
  | .array a => bc.intersectsArray a
  | .bitmap a => bc.intersectsBitmap a

/-- Modelled from the spec: `fill(ws, v)`, the word-level fill of a whole slice (declared
outside the embedded files). -/
def fill (ws : List Nat) (v : Nat) : List Nat := ws.map (fun _ => v)

/-- Modelled from the spec: `fillRange(ws, from, to, v)`, the word-level fill of the words at
the indices `[from, to)` (declared outside the embedded files). -/
def fillRange (ws : List Nat) (start end_ : Int) (v : Nat) : List Nat :=
  List.zipWith (fun k w => if start ≤ ((k : Nat) : Int) ∧ ((k : Nat) : Int) < end_ then v else w)
    (List.range ws.length) ws

/-- The function `newBitmapContainerwithRange(firstOfRun, lastOfRun)`.  `x & 63` on an `int`
is `x % 64`, and the conversions to `uint64` reduce `% 2 ^ 64`. -/
def newBitmapContainerwithRange (firstOfRun lastOfRun : Int) : bitmapContainer :=
  let this := newBitmapContainer
  let this : bitmapContainer := { this with cardinality := lastOfRun - firstOfRun + 1 }
  if this.cardinality = maxCapacity then
    { this with bitmap := fill this.bitmap allOnes }
  else
    let firstWord := firstOfRun.tdiv 64
    let lastWord := lastOfRun.tdiv 64
    let zeroPrefixLength : Nat := ((firstOfRun % 64) % 2 ^ 64).toNat
    let zeroSuffixLength : Nat := ((63 - lastOfRun % 64) % 2 ^ 64).toNat
    let this : bitmapContainer :=
      { this with bitmap := fillRange this.bitmap firstWord (lastWord + 1) allOnes }
    let prefixMask := sub64 (shl64 1 zeroPrefixLength) 1
    let this : bitmapContainer :=
      { this with
        bitmap := this.bitmap.set firstWord.toNat (this.bitmap.getD firstWord.toNat 0 ^^^ prefixMask) }
    let blockOfOnes := sub64 (shl64 1 zeroSuffixLength) 1
    let maskOnLeft := shl64 blockOfOnes (sub64 64 zeroSuffixLength)
    { this with
      bitmap := this.bitmap.set lastWord.toNat (this.bitmap.getD lastWord.toNat 0 ^^^ maskOnLeft) }

/-- Modelled from the spec: `newArrayContainerRange(firstOfRun, lastOfRun)`, the array
container of the values of the closed range `[firstOfRun, lastOfRun]` (declared outside the
embedded files). -/
def newArrayContainerRange (firstOfRun lastOfRun : Int) : arrayContainer :=
  ⟨(List.range (lastOfRun - firstOfRun + 1).toNat).map
    (fun i => ((firstOfRun + ((i : Nat) : Int)) % 2 ^ 16).toNat)⟩

/-- The function `rangeOfOnes(start, last)`. -/
def rangeOfOnes (start last : Int) : container :=
  if (last - start + 1) > arrayDefaultMaxSize then .bitmap (newBitmapContainerwithRange start last)
  else .array (newArrayContainerRange start last)

/-- The slice read `s[i]` for a Go `int` index; `none` is the index-out-of-range panic. -/
def index? {α : Type} (s : List α) (i : Int) : Option α :=
  if 0 ≤ i then s[i.toNat]? else none

/-! ## `roaringArray.binarySearch` -/

/-- The second loop of `binarySearch`: `for ; low <= high; low++`, followed by
`return -(low + 1)`.  The first argument bounds the number of iterations. -/
def binarySearch.sweep (keys : List Nat) (ikey : Nat) : Nat → Int → Int → Option Int
  | 0, _, _ => none
  | fuel + 1, low, high =>
    if low ≤ high then
      match index? keys low with
      | none => none
      | some val =>
        if val ≥ ikey then
          if val = ikey then some low else some (-(low + 1))
        else binarySearch.sweep keys ikey fuel (low + 1) high
    else some (-(low + 1))

/-- The first loop of `binarySearch`: `for low+16 <= high`, continued by the second loop.
`middleIndex := int(uint((low + high)) >> 1)`. -/
def binarySearch.halve (keys : List Nat) (ikey : Nat) : Nat → Int → Int → Option Int
  | 0, _, _ => none
  | fuel + 1, low, high =>
    if low + 16 ≤ high then
      let middleIndex : Int := ((low + high) % 2 ^ 64) / 2
      match index? keys middleIndex with
      | none => none
      | some middleValue =>
        if middleValue < ikey then binarySearch.halve keys ikey fuel (middleIndex + 1) high
        else if middleValue > ikey then binarySearch.halve keys ikey fuel low (middleIndex - 1)
        else some middleIndex
    else binarySearch.sweep keys ikey ((high + 1 - low).toNat + 1) low high

/-- The method `roaringArray.binarySearch(begin, end, ikey)`. -/
def roaringArray.binarySearch (ra : roaringArray) (begin end_ : Int) (ikey : Nat) : Option Int :=
  let low := begin
  let high := end_ - 1
  binarySearch.halve ra.keys ikey ((high + 1 - low).toNat + 1) low high

/-- The outcome of a search for `k` among `keys[b:e]`: the index of `k`, or `-(p + 1)` for the
insertion point `p`. -/
def SearchPost (keys : List Nat) (k : Nat) (b e : Int) (r : Option Int) : Prop :=
  (∃ i : Int, r = some i ∧ b ≤ i ∧ i < e ∧ keys.getD i.toNat 0 = k) ∨
  (∃ p : Int, r = some (-(p + 1)) ∧ b ≤ p ∧ p ≤ e ∧
    (∀ j : Int, b ≤ j → j < p → keys.getD j.toNat 0 < k) ∧
    (∀ j : Int, p ≤ j → j < e → k < keys.getD j.toNat 0))

/-! ## `roaringArray.advanceUntil` -/

/-- The galloping loop of `advanceUntil`:
`for lower+spansize < len(ra.keys) && ra.keys[lower+spansize] < min { spansize *= 2 }`,
returning the final `spansize`.  The first argument bounds the number of iterations. -/
def advanceUntil.gallop (keys : List Nat) (min : Nat) (lower : Int) : Nat → Int → Option Int
  | 0, _ => none
  | fuel + 1, spansize =>
    if lower + spansize < keys.length then
      match index? keys (lower + spansize) with
      | none => none
      | some v =>
        if v < min then advanceUntil.gallop keys min lower fuel (spansize * 2)
        else some spansize
    else some spansize

/-- The last loop of `advanceUntil`: `for lower+1 != upper`, followed by `return upper`.
The first argument bounds the number of iterations. -/
def advanceUntil.bisect (keys : List Nat) (min : Nat) : Nat → Int → Int → Option Int
  | 0, _, _ => none
  | fuel + 1, lower, upper =>
    if lower + 1 ≠ upper then
      let mid : Int := (lower + upper).tdiv 2
      match index? keys mid with
      | none => none
      | some v =>
        if v = min then some mid
        else if v < min then advanceUntil.bisect keys min fuel mid upper
        else advanceUntil.bisect keys min fuel lower mid
    else some upper

/-- The method `roaringArray.advanceUntil(min, pos)`. -/
def roaringArray.advanceUntil (ra : roaringArray) (min : Nat) (pos : Int) : Option Int :=
  let lower := pos + 1
  if lower ≥ ra.keys.length then some lower
  else
    match index? ra.keys lower with
    | none => none
    | some v0 =>
      if v0 ≥ min then some lower
      else
        match advanceUntil.gallop ra.keys min lower (ra.keys.length + 1) 1 with
        | none => none
        | some spansize =>
          let upper : Int :=
            if lower + spansize < ra.keys.length then lower + spansize
            else ra.keys.length - 1
          match index? ra.keys upper with
          | none => none
          | some u =>
            if u = min then some upper
            else if u < min then some ra.keys.length
            else advanceUntil.bisect ra.keys min (ra.keys.length + 1)
              (lower + spansize.tdiv 2) upper

/-! ## The store of container objects

A value of the interface type `container` is a pointer to a container object.  Two
`roaringArray`s hold the same object after `clone`, so the entries of `containers` are
addresses into a store of objects, and `none` is `nil`.  The slices `keys`, `containers` and
`dirty` themselves are never shared between two arrays (`clone` and `markAllDirty` allocate
new ones), and are lists. -/

/-- The container objects of the heap; the address of an object is its index. -/
structure store where
  objects : List container
deriving DecidableEq, Repr

/-- The object at an address. -/
def store.get (st : store) (p : Nat) : Option container := st.objects[p]?

/-- The object behind a value of type `container`; `none` is the panic of a method call on
`nil`. -/
def store.deref (st : store) (c : Option Nat) : Option container :=
  match c with
  | none => none
  | some p => st.get p

/-- The allocation of a new object: the store after it, and the address of the object. -/
def store.alloc (st : store) (c : container) : store × Nat :=
  (⟨st.objects ++ [c]⟩, st.objects.length)

/-- The store after the object at the address `p` has been overwritten in place. -/
def store.put (st : store) (p : Nat) (c : container) : store := ⟨st.objects.set p c⟩

/-- Modelled from the spec: `arrayContainer.clone()`, an array container with a copy of the
content (the method is declared outside the embedded files). -/
def arrayContainer.clone (ac : arrayContainer) : arrayContainer := ⟨ac.content⟩

/-- The method `clone()` of the interface. -/
def container.clone : container → container
  | .array ac => .array ac.clone
  | .bitmap bc => .bitmap bc.clone

/-! ## Slices

Go's element assignment, slice expressions and `copy`, on lists; `none` is the run-time panic
(index or slice bounds out of range).  The model has no spare capacity: `s[:n]` with
`n > len(s)` is a panic. -/

/-- The assignment `s[i] = v`. -/
def setIndex? {α : Type} (s : List α) (i : Int) (v : α) : Option (List α) :=
  if 0 ≤ i ∧ i < s.length then some (s.set i.toNat v) else none

/-- The slice `s[:n]`. -/
def sliceTo? {α : Type} (s : List α) (n : Int) : Option (List α) :=
  if 0 ≤ n ∧ n ≤ s.length then some (s.take n.toNat) else none

/-- The call `copy(s[d:], s[f:])` on one slice: `min(len(s) - d, len(s) - f)` elements are
moved, as by `memmove`. -/
def copyWithin? {α : Type} (s : List α) (d f : Int) : Option (List α) :=
  if 0 ≤ d ∧ d ≤ s.length ∧ 0 ≤ f ∧ f ≤ s.length then
    let src := s.drop f.toNat
    let n := min (s.length - d.toNat) src.length
    some (s.take d.toNat ++ src.take n ++ s.drop (d.toNat + n))
  else none

/-- The call `copy(dst, src)` on two slices that do not overlap: `min(len(dst), len(src))`
elements are copied. -/
def copySlice {α : Type} (dst src : List α) : List α :=
  src.take dst.length ++ dst.drop src.length

/-! ## `roaringArray` -/

/-- The method `roaringArray.clear()`. -/
def roaringArray.clear (ra : roaringArray) : roaringArray :=
  { ra with keys := [], containers := [], dirty := [] }

/-- The function `newRoaringArray()`. -/
def newRoaringArray : roaringArray := (⟨[], [], []⟩ : roaringArray).clear

/-- The method `roaringArray.size()`. -/
def roaringArray.size (ra : roaringArray) : Int := ra.keys.length

/-- The method `roaringArray.hasDirty()`. -/
def roaringArray.hasDirty (ra : roaringArray) : Bool := decide (ra.dirty.length > 0)

/-- The method `roaringArray.isDirty(i)`: `ra.hasDirty() && ra.dirty[i]`. -/
def roaringArray.isDirty (ra : roaringArray) (i : Int) : Option Bool :=
  if ra.hasDirty then index? ra.dirty i else some false

/-- The method `roaringArray.markAllDirty()`. -/
def roaringArray.markAllDirty (ra : roaringArray) : roaringArray :=
  let dirty := List.replicate ra.keys.length false
  let dirty := (List.range dirty.length).foldl (fun d i => d.set i true) dirty
  { ra with dirty := dirty }

/-- The method `roaringArray.appendContainer(key, value)`. -/
def roaringArray.appendContainer (ra : roaringArray) (key : Nat) (value : Option Nat) :
    roaringArray :=
  let ra : roaringArray := { ra with keys := ra.keys ++ [key] }
  let ra : roaringArray := { ra with containers := ra.containers ++ [value] }
  if ra.hasDirty then { ra with dirty := ra.dirty ++ [false] } else ra

/-- The loop of `resize`: `for k := newsize; k < len(ra.containers); k++`, at most `n` more
times. -/
def roaringArray.resize.clear (containers : List (Option Nat)) :
    Nat → Int → Option (List (Option Nat))
  | 0, k => if k < containers.length then none else some containers
  | n + 1, k =>
    if k < containers.length then
      match setIndex? containers k none with
      | none => none
      | some c => roaringArray.resize.clear c n (k + 1)
    else some containers

/-- The method `roaringArray.resize(newsize)`. -/
def roaringArray.resize (ra : roaringArray) (newsize : Int) : Option roaringArray := do
  let containers ← roaringArray.resize.clear ra.containers (ra.containers.length + 1) newsize
  let ra : roaringArray := { ra with containers := containers }
  let keys ← sliceTo? ra.keys newsize
  let ra : roaringArray := { ra with keys := keys }
  let containers ← sliceTo? ra.containers newsize
  let ra : roaringArray := { ra with containers := containers }
  if ra.hasDirty then
    let dirty ← sliceTo? ra.dirty newsize
    some { ra with dirty := dirty }
  else some ra

/-- The method `roaringArray.removeIndexRange(begin, end)`. -/
def roaringArray.removeIndexRange (ra : roaringArray) (begin end_ : Int) :
    Option roaringArray :=
  if end_ ≤ begin then some ra
  else do
    let r := end_ - begin
    let keys ← copyWithin? ra.keys begin end_
    let ra : roaringArray := { ra with keys := keys }
    let containers ← copyWithin? ra.containers begin end_
    let ra : roaringArray := { ra with containers := containers }
    let ra : roaringArray ←
      if ra.hasDirty then
        (copyWithin? ra.dirty begin end_).map (fun dirty => { ra with dirty := dirty })
      else some ra
    ra.resize (ra.keys.length - r)

/-- The outcome of `clone`: the receiver after the call and the returned array. -/
structure Cloned where
  self : roaringArray
  ret : roaringArray
deriving DecidableEq, Repr

/-- The method `roaringArray.clone()`. -/
def roaringArray.clone (ra : roaringArray) : Cloned :=
  let sa : roaringArray :=
    ⟨List.replicate ra.keys.length 0, List.replicate ra.containers.length none,
      List.replicate ra.keys.length false⟩
  let sa : roaringArray := { sa with keys := copySlice sa.keys ra.keys }
  let sa : roaringArray := { sa with containers := copySlice sa.containers ra.containers }
  let sa := sa.markAllDirty
  let ra := ra.markAllDirty
  ⟨ra, sa⟩

/-- The method `roaringArray.getContainerAtIndex(i)`. -/
def roaringArray.getContainerAtIndex (ra : roaringArray) (i : Int) : Option (Option Nat) :=
  index? ra.containers i

/-- The method `roaringArray.getWritableContainerAtIndex(i)`: the store and the receiver
after the call, and the returned container. -/
def roaringArray.getWritableContainerAtIndex (st : store) (ra : roaringArray) (i : Int) :
    Option (store × roaringArray × Option Nat) := do
  let d ← if ra.dirty.length > 0 then index? ra.dirty i else some false
  if d then
    let c ← index? ra.containers i
    let obj ← st.deref c
    let containers ← setIndex? ra.containers i (some (st.alloc obj.clone).2)
    let dirty ← setIndex? ra.dirty i false
    let ra1 : roaringArray := { ra with containers := containers, dirty := dirty }
    let r ← index? ra1.containers i
    some ((st.alloc obj.clone).1, ra1, r)
  else
    let r ← index? ra.containers i
    some (st, ra, r)

/-- The method `roaringArray.getIndex(x)`. -/
def roaringArray.getIndex (ra : roaringArray) (x : Nat) : Option Int :=
  let size : Int := ra.keys.length
  if size = 0 then some (size - 1)
  else
    match index? ra.keys (size - 1) with
    | none => none
    | some last => if last = x then some (size - 1) else ra.binarySearch 0 size x

/-- The method `roaringArray.getKeyAtIndex(i)`. -/
def roaringArray.getKeyAtIndex (ra : roaringArray) (i : Int) : Option Nat := index? ra.keys i

/-- The method `roaringArray.insertNewKeyValueAt(i, key, value)`. -/
def roaringArray.insertNewKeyValueAt (ra : roaringArray) (i : Int) (key : Nat)
    (value : Option Nat) : Option roaringArray := do
  let ra : roaringArray := { ra with keys := ra.keys ++ [0] }
  let ra : roaringArray := { ra with containers := ra.containers ++ [none] }
  let keys ← copyWithin? ra.keys (i + 1) i
  let ra : roaringArray := { ra with keys := keys }
  let containers ← copyWithin? ra.containers (i + 1) i
  let ra : roaringArray := { ra with containers := containers }
  let keys ← setIndex? ra.keys i key
  let ra : roaringArray := { ra with keys := keys }
  let containers ← setIndex? ra.containers i value
  let ra : roaringArray := { ra with containers := containers }
  if ra.hasDirty then
    let ra : roaringArray := { ra with dirty := ra.dirty ++ [false] }
    let dirty ← copyWithin? ra.dirty (i + 1) i
    let dirty ← setIndex? dirty i false
    some { ra with dirty := dirty }
  else some ra

/-- The method `roaringArray.removeAtIndex(i)`. -/
def roaringArray.removeAtIndex (ra : roaringArray) (i : Int) : Option roaringArray := do
  let keys ← copyWithin? ra.keys i (i + 1)
  let ra : roaringArray := { ra with keys := keys }
  let containers ← copyWithin? ra.containers i (i + 1)
  let ra : roaringArray := { ra with containers := containers }
  let ra : roaringArray ←
    if ra.hasDirty then
      (copyWithin? ra.dirty i (i + 1)).map (fun dirty => { ra with dirty := dirty })
    else some ra
  ra.resize (ra.keys.length - 1)

/-- The method `roaringArray.remove(key)`: the receiver after the call and the returned
flag. -/
def roaringArray.remove (ra : roaringArray) (key : Nat) : Option (roaringArray × Bool) :=
  match ra.binarySearch 0 ra.keys.length key with
  | none => none
  | some i =>
    if i ≥ 0 then (ra.removeAtIndex i).map (fun ra1 => (ra1, true))
    else some (ra, false)

/-- The method `roaringArray.setContainerAtIndex(i, c)`. -/
def roaringArray.setContainerAtIndex (ra : roaringArray) (i : Int) (c : Option Nat) :
    Option roaringArray :=
  (setIndex? ra.containers i c).map (fun containers => { ra with containers := containers })

/-- The method `roaringArray.replaceKeyAndContainerAtIndex(i, key, c)`. -/
def roaringArray.replaceKeyAndContainerAtIndex (ra : roaringArray) (i : Int) (key : Nat)
    (c : Option Nat) : Option roaringArray := do
  let keys ← setIndex? ra.keys i key
  let ra : roaringArray := { ra with keys := keys }
  let containers ← setIndex? ra.containers i c
  let ra : roaringArray := { ra with containers := containers }
  if ra.hasDirty then
    let dirty ← setIndex? ra.dirty i false
    some { ra with dirty := dirty }
  else some ra

/-! ## Sequences of mutations of a `roaringArray` -/

/-- The lengths of the three slices of a `roaringArray` agree: as many containers as keys, and
no dirty flag or one for each key. -/
def roaringArray.shape (ra : roaringArray) : Prop :=
  ra.keys.length = ra.containers.length ∧
    (ra.dirty.length = 0 ∨ ra.dirty.length = ra.keys.length)

/-- The structural invariant of a `roaringArray`: the keys are strictly ascending, there are as
many containers as keys, and there is no dirty flag or one for each key. -/
def roaringArray.inv (ra : roaringArray) : Prop :=
  ra.keys.Pairwise (fun a b => a < b) ∧ ra.keys.length = ra.containers.length ∧
    (ra.dirty.length = 0 ∨ ra.dirty.length = ra.keys.length)

/-- The values of a `roaringArray` are of their Go types: every key is a `uint16`, and every
slot holds the address of an object of the store (no slot is `nil`). -/
def roaringArray.typed (st : store) (ra : roaringArray) : Prop :=
  (∀ k ∈ ra.keys, k < 2 ^ 16) ∧ ∀ c ∈ ra.containers, ∃ p, c = some p ∧ p < st.objects.length

/-- One call of a mutator of `roaringArray`, with its arguments; a container argument is the
address of an object.  `clone` continues with the receiver of `clone()`, `cloned` with the
array that the call returns. -/
inductive mutation where
  | appendContainer (key : Nat) (value : Nat)
  | insertNewKeyValueAt (i : Int) (key : Nat) (value : Nat)
  | remove (key : Nat)
  | removeAtIndex (i : Int)
  | removeIndexRange (begin end_ : Int)
  | replaceKeyAndContainerAtIndex (i : Int) (key : Nat) (c : Nat)
  | setContainerAtIndex (i : Int) (c : Nat)
  | getWritableContainerAtIndex (i : Int)
  | clone
  | cloned
  | markAllDirty
deriving DecidableEq, Repr

/-- The store and the array after one call; `none` is a panic. -/
def mutation.apply (st : store) (ra : roaringArray) : mutation → Option (store × roaringArray)
  | .appendContainer key value => some (st, ra.appendContainer key (some value))
  | .insertNewKeyValueAt i key value =>
    (ra.insertNewKeyValueAt i key (some value)).map (fun r => (st, r))
  | .remove key => (ra.remove key).map (fun r => (st, r.1))
  | .removeAtIndex i => (ra.removeAtIndex i).map (fun r => (st, r))
  | .removeIndexRange b e => (ra.removeIndexRange b e).map (fun r => (st, r))
  | .replaceKeyAndContainerAtIndex i key c =>
    (ra.replaceKeyAndContainerAtIndex i key (some c)).map (fun r => (st, r))
  | .setContainerAtIndex i c => (ra.setContainerAtIndex i (some c)).map (fun r => (st, r))
  | .getWritableContainerAtIndex i =>
    (ra.getWritableContainerAtIndex st i).map (fun r => (r.1, r.2.1))
  | .clone => some (st, ra.clone.self)
  | .cloned => some (st, ra.clone.ret)
  | .markAllDirty => some (st, ra.markAllDirty)

/-- The container argument of a call, if it has one. -/
def mutation.value? : mutation → Option Nat
  | .appendContainer _ value => some value
  | .insertNewKeyValueAt _ _ value => some value
  | .replaceKeyAndContainerAtIndex _ _ c => some c
  | .setContainerAtIndex _ c => some c
  | _ => none

/-- The conditions on the arguments of a call: keys are `uint16` values and containers are
objects of the store; `appendContainer` takes a key greater than the last key;
`insertNewKeyValueAt` takes an absent key and its insertion point `-(getIndex(key)) - 1`;
`replaceKeyAndContainerAtIndex` takes a key that keeps the keys ascending; indices are those of
entries, and the bounds of `removeIndexRange` are between `0` and `len(keys)`. -/
def mutation.admissible (st : store) (ra : roaringArray) : mutation → Prop
  | .appendContainer key value =>
    key < 2 ^ 16 ∧ value < st.objects.length ∧
      ∀ last, ra.keys.getLast? = some last → last < key
  | .insertNewKeyValueAt i key value =>
    key < 2 ^ 16 ∧ value < st.objects.length ∧
      ∃ g : Int, ra.getIndex key = some g ∧ g < 0 ∧ i = -g - 1
  | .remove key => key < 2 ^ 16
  | .removeAtIndex i => 0 ≤ i ∧ i < ra.keys.length
  | .removeIndexRange b e => 0 ≤ b ∧ b ≤ ra.keys.length ∧ 0 ≤ e ∧ e ≤ ra.keys.length
  | .replaceKeyAndContainerAtIndex i key c =>
    0 ≤ i ∧ i < ra.keys.length ∧ key < 2 ^ 16 ∧ c < st.objects.length ∧
      (ra.keys.set i.toNat key).Pairwise (fun a b => a < b)
  | .setContainerAtIndex i c => 0 ≤ i ∧ i < ra.keys.length ∧ c < st.objects.length
  | .getWritableContainerAtIndex i => 0 ≤ i ∧ i < ra.keys.length
  | .clone => True
  | .cloned => True
  | .markAllDirty => True

/-- The states of a store and a `roaringArray` that are reached from `newRoaringArray()` by
admissible calls, while the program allocates other objects in between. -/
inductive Reachable : store → roaringArray → Prop
  | init (st : store) : Reachable st newRoaringArray
  | alloc (st : store) (ra : roaringArray) (c : container) :
    Reachable st ra → Reachable (st.alloc c).1 ra
  | step (st : store) (ra : roaringArray) (m : mutation) (st1 : store) (ra1 : roaringArray) :
    Reachable st ra → m.admissible st ra → m.apply st ra = some (st1, ra1) → Reachable st1 ra1

/-- A write through `getWritableContainerAtIndex(i)`: the call, then an in-place mutation of
the returned container, which leaves the object `c` at its address. -/
def roaringArray.writeThrough (st : store) (ra : roaringArray) (i : Int) (c : container) :
    Option (store × roaringArray) :=
  match ra.getWritableContainerAtIndex st i with
  | none => none
  | some (st1, ra1, r) =>
    match r with
    | none => none
    | some p => if p < st1.objects.length then some (st1.put p c, ra1) else none

/-- The states reached from a store `st0` and an array `ra0` by admissible calls whose
container argument is not among `other`, by writes through `getWritableContainerAtIndex`, and
by allocations in between. -/
inductive CowReach (other : List (Option Nat)) (st0 : store) (ra0 : roaringArray) :
    store → roaringArray → Prop
  | start : CowReach other st0 ra0 st0 ra0
  | alloc (st : store) (ra : roaringArray) (c : container) :
    CowReach other st0 ra0 st ra → CowReach other st0 ra0 (st.alloc c).1 ra
  | mutate (st : store) (ra : roaringArray) (m : mutation) (st1 : store) (ra1 : roaringArray) :
    CowReach other st0 ra0 st ra → m.admissible st ra → m.value? ∉ other →
    m.apply st ra = some (st1, ra1) → CowReach other st0 ra0 st1 ra1
  | write (st : store) (ra : roaringArray) (i : Int) (c : container) (st1 : store)
    (ra1 : roaringArray) :
    CowReach other st0 ra0 st ra → 0 ≤ i → i < ra.keys.length →
    ra.writeThrough st i c = some (st1, ra1) → CowReach other st0 ra0 st1 ra1

/-- Every slot of the array that holds a container among `other` is flagged dirty. -/
def roaringArray.cowSafe (other : List (Option Nat)) (ra : roaringArray) : Prop :=
  (ra.dirty = [] ∧ ∀ c ∈ ra.containers, c ∉ other) ∨
    List.Forall₂ (fun c d => c ∈ other → d = true) ra.containers ra.dirty

/-! ## Streams and byte order

Bytes are numbers below 256.  `io.Writer`, `io.Reader` and package `encoding/binary` belong to
the Go library; the streams below stand for them. -/

/-- The errors of package `io` that a stream returns; `none : Option streamError` is `nil`. -/
inductive streamError where
  | EOF
  | ErrUnexpectedEOF
  | ErrShortWrite
deriving DecidableEq, Repr

/-- An `io.Writer`: the bytes it has taken so far, and the number of bytes it still takes
before a write fails (`none`: every write succeeds). -/
structure Writer where
  written : List Nat
  room : Option Nat
deriving DecidableEq, Repr

/-- The method `Write(p)` of an `io.Writer`: the writer after the call, the number of bytes
written and the error. -/
def Writer.Write (w : Writer) (p : List Nat) : Writer × Int × Option streamError :=
  match w.room with
  | none => (⟨w.written ++ p, none⟩, p.length, none)
  | some k =>
    if p.length ≤ k then (⟨w.written ++ p, some (k - p.length)⟩, p.length, none)
    else (⟨w.written ++ p.take k, some 0⟩, k, some .ErrShortWrite)

/-- An `io.Reader`: the bytes that are left in the stream. -/
structure Reader where
  rest : List Nat
deriving DecidableEq, Repr

/-- The read of the `n` bytes of a value by `binary.Read`, through `io.ReadFull`: nothing is
read for a value of size 0; a stream at its end returns `io.EOF`, and a stream that ends
within the value `io.ErrUnexpectedEOF`. -/
def binaryRead (stream : Reader) (n : Nat) : Reader × Except streamError (List Nat) :=
  if n = 0 then (stream, .ok [])
  else if n ≤ stream.rest.length then (⟨stream.rest.drop n⟩, .ok (stream.rest.take n))
  else if stream.rest.length = 0 then (stream, .error .EOF)
  else (⟨[]⟩, .error .ErrUnexpectedEOF)

/-- The bytes of `binary.LittleEndian.PutUint16`. -/
def putUint16 (v : Nat) : List Nat := [v % 256, v / 2 ^ 8 % 256]

/-- The bytes of `binary.LittleEndian.PutUint32`. -/
def putUint32 (v : Nat) : List Nat :=
  [v % 256, v / 2 ^ 8 % 256, v / 2 ^ 16 % 256, v / 2 ^ 24 % 256]

/-- The bytes of `binary.LittleEndian.PutUint64`. -/
def putUint64 (v : Nat) : List Nat :=
  [v % 256, v / 2 ^ 8 % 256, v / 2 ^ 16 % 256, v / 2 ^ 24 % 256, v / 2 ^ 32 % 256,
    v / 2 ^ 40 % 256, v / 2 ^ 48 % 256, v / 2 ^ 56 % 256]

/-- The value of `binary.LittleEndian.Uint32` on four bytes. -/
def getUint32 (b : List Nat) : Nat :=
  b.getD 0 0 + 2 ^ 8 * b.getD 1 0 + 2 ^ 16 * b.getD 2 0 + 2 ^ 24 * b.getD 3 0

/-- The little-endian `uint16` values that `binary.Read` decodes into a `[]uint16`. -/
def getUint16s : List Nat → List Nat
  | b0 :: b1 :: rest => (b0 + 2 ^ 8 * b1) :: getUint16s rest
  | _ => []

/-- The little-endian `uint32` values that `binary.Read` decodes into a `[]uint32`. -/
def getUint32s : List Nat → List Nat
  | b0 :: b1 :: b2 :: b3 :: rest =>
    (b0 + 2 ^ 8 * b1 + 2 ^ 16 * b2 + 2 ^ 24 * b3) :: getUint32s rest
  | _ => []

/-- The little-endian `uint64` values that `binary.Read` decodes into a `[]uint64`. -/
def getUint64s : List Nat → List Nat
  | b0 :: b1 :: b2 :: b3 :: b4 :: b5 :: b6 :: b7 :: rest =>
    (b0 + 2 ^ 8 * b1 + 2 ^ 16 * b2 + 2 ^ 24 * b3 + 2 ^ 32 * b4 + 2 ^ 40 * b5 + 2 ^ 48 * b6
      + 2 ^ 56 * b7) :: getUint64s rest
  | _ => []

/-- The call `binary.LittleEndian.PutUintN(buf[off:], v)` for the bytes `bytes` of `v`; `none`
is the panic of a slice that is too short. -/
def storeAt (buf : List Nat) (off : Int) (bytes : List Nat) : Option (List Nat) :=
  if 0 ≤ off ∧ off + bytes.length ≤ buf.length then
    some (buf.take off.toNat ++ bytes ++ buf.drop (off.toNat + bytes.length))
  else none

/-! ## Serialization of the containers -/

/-- Modelled from the spec: `getSizeInBytesFromCardinality`, the size of the payload of a
container, 8192 bytes above `ARRAY_MAX` values and 2 bytes for each value otherwise (the
function is declared outside the embedded files). -/
def getSizeInBytesFromCardinality (card : Int) : Int :=
  if card > arrayDefaultMaxSize then 8192 else 2 * card

/-- Modelled from the spec: `arrayContainer.serializedSizeInBytes()`, two bytes for each value
(declared outside the embedded files). -/
def arrayContainer.serializedSizeInBytes (ac : arrayContainer) : Int := ac.getCardinality * 2

/-- The method `bitmapContainer.serializedSizeInBytes()`. -/
def bitmapContainer.serializedSizeInBytes (bc : bitmapContainer) : Int := bc.bitmap.length * 8

/-- The method `serializedSizeInBytes()` of the interface. -/
def container.serializedSizeInBytes : container → Int
  | .array ac => ac.serializedSizeInBytes
  | .bitmap bc => bc.serializedSizeInBytes

/-- Modelled from the spec: `arrayContainer.writeTo(stream)`, which writes the values as
little-endian `uint16` (declared outside the embedded files). -/
def arrayContainer.writeTo (ac : arrayContainer) (stream : Writer) :
    Writer × Int × Option streamError :=
  match stream.Write (ac.content.flatMap putUint16) with
  | (stream, _, some e) => (stream, 0, some e)
  | (stream, _, none) => (stream, 2 * ac.content.length, none)

/-- Modelled from the spec: `bitmapContainer.writeTo(stream)`, which writes the words as
little-endian `uint64` (declared outside the embedded files). -/
def bitmapContainer.writeTo (bc : bitmapContainer) (stream : Writer) :
    Writer × Int × Option streamError :=
  match stream.Write (bc.bitmap.flatMap putUint64) with
  | (stream, _, some e) => (stream, 0, some e)
  | (stream, _, none) => (stream, 8 * bc.bitmap.length, none)

/-- The method `writeTo(stream)` of the interface. -/
def container.writeTo : container → Writer → Writer × Int × Option streamError
  | .array ac, stream => ac.writeTo stream
  | .bitmap bc, stream => bc.writeTo stream

/-- Modelled from the spec: `arrayContainer.readFrom(stream)`, which reads as many little-endian
`uint16` values as the content has room for; the container and the stream after the call, the
number of bytes and the error (declared outside the embedded files). -/
def arrayContainer.readFrom (ac : arrayContainer) (stream : Reader) :
    arrayContainer × Reader × Int × Option streamError :=
  match binaryRead stream (2 * ac.content.length) with
  | (stream, .error e) => (ac, stream, 0, some e)
  | (stream, .ok bytes) => (⟨getUint16s bytes⟩, stream, 2 * ac.content.length, none)

/-- Modelled from the spec: `bitmapContainer.readFrom(stream)`, which reads the words as
little-endian `uint64` and leaves the cardinality field alone (declared outside the embedded
files). -/
def bitmapContainer.readFrom (bc : bitmapContainer) (stream : Reader) :
    bitmapContainer × Reader × Int × Option streamError :=
  match binaryRead stream (8 * bc.bitmap.length) with
  | (stream, .error e) => (bc, stream, 0, some e)
  | (stream, .ok bytes) =>
    ({ bc with bitmap := getUint64s bytes }, stream, 8 * bc.bitmap.length, none)

/-! ## Serialization of `roaringArray`

The constant `serial_cookie` is declared outside the embedded files and is a parameter. -/

/-- The loop of `serializedSizeInBytes` over the containers. -/
def roaringArray.serializedSizeInBytes.loop (st : store) :
    List (Option Nat) → Nat → Option Nat
  | [], count => some count
  | c :: cs, count =>
    match st.deref c with
    | none => none
    | some obj =>
      let count := (count + 4 + 4) % 2 ^ 64
      let count := (count + (obj.serializedSizeInBytes % 2 ^ 64).toNat) % 2 ^ 64
      roaringArray.serializedSizeInBytes.loop st cs count

/-- The method `roaringArray.serializedSizeInBytes()`. -/
def roaringArray.serializedSizeInBytes (st : store) (ra : roaringArray) : Option Nat :=
  roaringArray.serializedSizeInBytes.loop st ra.containers (4 + 4)

/-- The first loop of `writeTo`, `for i, key := range ra.keys`, from the index `i` on over the
keys that are left. -/
def roaringArray.writeTo.keycard (st : store) (ra : roaringArray) :
    List Nat → Nat → List Nat → Option (List Nat)
  | [], _, buf => some buf
  | key :: keys, i, buf => do
    let off : Int := 8 + i * 4
    let buf ← storeAt buf off (putUint16 (key % 2 ^ 16))
    let c ← index? ra.containers i
    let obj ← st.deref c
    let buf ← storeAt buf (off + 2) (putUint16 ((obj.getCardinality - 1) % 2 ^ 16).toNat)
    roaringArray.writeTo.keycard st ra keys (i + 1) buf

/-- The second loop of `writeTo`, `for i, c := range ra.containers`, from the index `i` on over
the containers that are left: the buffer and `startOffset` after the loop. -/
def roaringArray.writeTo.offsets (st : store) (preambleSize : Int) :
    List (Option Nat) → Nat → List Nat → Int → Option (List Nat × Int)
  | [], _, buf, startOffset => some (buf, startOffset)
  | c :: cs, i, buf, startOffset => do
    let buf ← storeAt buf (preambleSize + i * 4) (putUint32 (startOffset % 2 ^ 32).toNat)
    let obj ← st.deref c
    let startOffset := startOffset + getSizeInBytesFromCardinality obj.getCardinality
    roaringArray.writeTo.offsets st preambleSize cs (i + 1) buf startOffset

/-- The third loop of `writeTo`, `for _, c := range ra.containers`: the stream after the loop,
and the error of the first write that fails. -/
def roaringArray.writeTo.payloads (st : store) :
    List (Option Nat) → Writer → Option (Writer × Option streamError)
  | [], stream => some (stream, none)
  | c :: cs, stream =>
    match st.deref c with
    | none => none
    | some obj =>
      match obj.writeTo stream with
      | (stream, _, some e) => some (stream, some e)
      | (stream, _, none) => roaringArray.writeTo.payloads st cs stream

/-- The method `roaringArray.writeTo(stream)`: the stream after the call, the returned count
and the returned error; `none` is a panic. -/
def roaringArray.writeTo (serial_cookie : Nat) (st : store) (ra : roaringArray)
    (stream : Writer) : Option (Writer × Int × Option streamError) := do
  let preambleSize : Int := 4 + 4 + 4 * ra.keys.length
  let buf := List.replicate (preambleSize + 4 * ra.keys.length).toNat 0
  let buf ← storeAt buf 0 (putUint32 (serial_cookie % 2 ^ 32))
  let buf ← storeAt buf 4 (putUint32 (ra.keys.length % 2 ^ 32))
  let buf ← roaringArray.writeTo.keycard st ra ra.keys 0 buf
  let startOffset : Int := preambleSize + 4 * ra.keys.length
  let (buf, startOffset) ← roaringArray.writeTo.offsets st preambleSize ra.containers 0 buf
    startOffset
  match stream.Write buf with
  | (stream, _, some e) => some (stream, 0, some e)
  | (stream, _, none) =>
    match roaringArray.writeTo.payloads st ra.containers stream with
    | none => none
    | some (stream, some e) => some (stream, 0, some e)
    | some (stream, none) => some (stream, startOffset, none)

/-- The loop of `readFrom`, `for i := uint32(0); i < size; i++`, from the index `i` on with
`n` iterations to go: the store, the receiver, the stream and `offset` after the loop.  The
results of the calls `nb.readFrom(stream)` are not looked at. -/
def roaringArray.readFrom.loop (keycard : List Nat) :
    Nat → Nat → store → roaringArray → Reader → Int →
      Option (store × roaringArray × Reader × Int)
  | 0, _, st, ra, stream, offset => some (st, ra, stream, offset)
  | n + 1, i, st, ra, stream, offset => do
    let card ← index? keycard (((2 * i + 1) % 2 ^ 32 : Nat) : Int)
    let c : Int := card + 1
    let offset := offset + getSizeInBytesFromCardinality c
    if c > arrayDefaultMaxSize then
      let r := newBitmapContainer.readFrom stream
      let nb : bitmapContainer := { r.1 with cardinality := c }
      let key ← index? keycard (((2 * i) % 2 ^ 32 : Nat) : Int)
      let a := st.alloc (.bitmap nb)
      roaringArray.readFrom.loop keycard n (i + 1) a.1 (ra.appendContainer key (some a.2)) r.2.1
        offset
    else
      let r := (newArrayContainerSize c).readFrom stream
      let key ← index? keycard (((2 * i) % 2 ^ 32 : Nat) : Int)
      let a := st.alloc (.array r.1)
      roaringArray.readFrom.loop keycard n (i + 1) a.1 (ra.appendContainer key (some a.2)) r.2.1
        offset

/-- The method `roaringArray.readFrom(stream)`: the store, the receiver and the stream after
the call, the returned count and the returned error; `none` is a panic.  At the test of the
cookie the variable `err` holds the error of the read of the cookie, which is `nil` there. -/
def roaringArray.readFrom (serial_cookie : Nat) (st : store) (ra : roaringArray)
    (stream : Reader) : Option (store × roaringArray × Reader × Int × Option streamError) :=
  match binaryRead stream 4 with
  | (stream, .error e) => some (st, ra, stream, 0, some e)
  | (stream, .ok b) =>
    let cookie := getUint32 b
    let err : Option streamError := none
    if cookie ≠ serial_cookie then some (st, ra, stream, 0, err)
    else
      match binaryRead stream 4 with
      | (stream, .error e) => some (st, ra, stream, 0, some e)
      | (stream, .ok b) =>
        let size := getUint32 b
        match binaryRead stream (2 * ((2 * size) % 2 ^ 32)) with
        | (stream, .error e) => some (st, ra, stream, 0, some e)
        | (stream, .ok b) =>
          let keycard := getUint16s b
          match binaryRead stream (4 * size) with
          | (stream, .error e) => some (st, ra, stream, 0, some e)
          | (stream, .ok _) =>
            let offset : Int := (((4 + 4 + 8 * size) % 2 ^ 32 : Nat) : Int)
            (roaringArray.readFrom.loop keycard size 0 st ra stream offset).map
              (fun r => (r.1, r.2.1, r.2.2.1, r.2.2.2, none))

/-! ## The wire format -/

/-- The bytes that `writeTo` writes for a container: its payload in the wire format. -/
def container.payload : container → List Nat
  | .array ac => ac.content.flatMap putUint16
  | .bitmap bc => bc.bitmap.flatMap putUint64

/-- The table of keys and cardinalities of the wire format, as the first loop of `writeTo`
fills it. -/
def keycardBytes : List Nat → List container → List Nat
  | key :: keys, obj :: objs =>
    putUint16 (key % 2 ^ 16) ++ putUint16 ((obj.getCardinality - 1) % 2 ^ 16).toNat
      ++ keycardBytes keys objs
  | _, _ => []

/-- The table of offsets of the wire format, as the second loop of `writeTo` fills it from
`startOffset` on. -/
def offsetBytes : Int → List container → List Nat
  | _, [] => []
  | start, obj :: objs =>
    putUint32 (start % 2 ^ 32).toNat
      ++ offsetBytes (start + getSizeInBytesFromCardinality obj.getCardinality) objs

/-- The sum of `getSizeInBytesFromCardinality` over containers. -/
def payloadSizes (objs : List container) : Int :=
  (objs.map (fun o => getSizeInBytesFromCardinality o.getCardinality)).sum

/-- The header of the wire format: the cookie, the number of entries, the table of keys and
cardinalities and the table of offsets. -/
def headerBytes (serial_cookie : Nat) (keys : List Nat) (objs : List container) : List Nat :=
  putUint32 (serial_cookie % 2 ^ 32) ++ putUint32 (keys.length % 2 ^ 32)
    ++ keycardBytes keys objs ++ offsetBytes (8 + 8 * keys.length) objs

/-- The conditions on a container that the wire format relies on: its values are of their Go
types (`uint16` values; 1024 `uint64` words), the cardinality field of a bitmap container is
the popcount of its words, and the container is of the right kind, an array container with at
most `arrayDefaultMaxSize` values or a bitmap container with more. -/
def container.storable : container → Prop
  | .array ac => (∀ v ∈ ac.content, v < 2 ^ 16) ∧ ac.getCardinality ≤ arrayDefaultMaxSize
  | .bitmap bc => bc.wf ∧ bc.getCardinality > arrayDefaultMaxSize

/-! ## `lazyIOR` -/

/-- The body of the loop of `lazyIORArray`, at the index `k` of the array operand. -/
def bitmapContainer.lazyIORArray.body (value2 : arrayContainer) (answer : bitmapContainer)
    (k : Nat) : bitmapContainer :=
  let vc := value2.content.getD k 0
  let i := vc >>> 6
  { answer with bitmap := answer.bitmap.set i (answer.bitmap.getD i 0 ||| shl64 1 (vc % 64)) }

/-- The method `bitmapContainer.lazyIORArray(value2)`. -/
def bitmapContainer.lazyIORArray (bc : bitmapContainer) (value2 : arrayContainer) : Effect :=
  let answer := bc
  let c := value2.getCardinality
  let answer := (List.range c.toNat).foldl (bitmapContainer.lazyIORArray.body value2) answer
  ⟨answer, .bitmap answer⟩

/-- The method `bitmapContainer.lazyIORBitmap(value2)`; `answer` is the receiver. -/
def bitmapContainer.lazyIORBitmap (bc value2 : bitmapContainer) : Effect :=
  let answer := bc
  let answer : bitmapContainer := (List.range answer.bitmap.length).foldl
    (fun a k =>
      { a with bitmap := a.bitmap.set k (a.bitmap.getD k 0 ||| value2.bitmap.getD k 0) }) answer
  ⟨answer, .bitmap answer⟩

/-- The method `bitmapContainer.lazyIOR(a)`. -/
def bitmapContainer.lazyIOR (bc : bitmapContainer) : container → Effect
  | .array a => bc.lazyIORArray a
  | .bitmap a => bc.lazyIORBitmap a

/-! ## `fillLeastSignificant16bits` -/

/-- The inner loop of `fillLeastSignificant16bits` on the word `k`: `for bitset != 0`, at most
`fuel` times, on the state `(x, pos)`; `none` is the panic of `x[pos]` out of range. -/
def bitmapContainer.fillLeastSignificant16bits.inner (k mask : Nat) :
    Nat → Nat → List Nat × Int → Option (List Nat × Int)
  | 0, bitset, s => if bitset ≠ 0 then none else some s
  | fuel + 1, bitset, s =>
    if bitset ≠ 0 then
      let t := bitset &&& neg64 bitset
      match setIndex? s.1 s.2
        (((k % 2 ^ 32 * 64 + popcount (sub64 t 1) % 2 ^ 32) % 2 ^ 32) ||| mask) with
      | none => none
      | some x =>
        bitmapContainer.fillLeastSignificant16bits.inner k mask fuel (bitset ^^^ t) (x, s.2 + 1)
    else some s

/-- The method `bitmapContainer.fillLeastSignificant16bits(x, i, mask)`; the result is the
buffer after the call. -/
def bitmapContainer.fillLeastSignificant16bits (bc : bitmapContainer) (x : List Nat) (i : Int)
    (mask : Nat) : Option (List Nat) :=
  ((List.range bc.bitmap.length).foldlM
    (fun s k =>
      bitmapContainer.fillLeastSignificant16bits.inner k mask 65 (bc.bitmap.getD k 0) s)
    (x, i)).map (fun s => s.1)

/-! ## `equals` -/

/-- A value of the empty interface `interface{}` as the `equals` methods receive it, by its
dynamic type: `nil`, a pointer to a container, a pointer to a `roaringArray` (a handle, as
`newRoaringArray` and `clone` return it), or a `roaringArray` value.  A pointer carries the
object it points to. -/
inductive dynamic where
  | nil
  | arrayContainerPtr (ac : arrayContainer)
  | bitmapContainerPtr (bc : bitmapContainer)
  | roaringArrayPtr (ra : roaringArray)
  | roaringArrayValue (ra : roaringArray)
deriving DecidableEq, Repr

/-- The conversion of a value of type `container` to `interface{}`; `none` for an address
that is not in the store. -/
def store.toDynamic (st : store) (c : Option Nat) : Option dynamic :=
  match c with
  | none => some .nil
  | some p =>
    match st.get p with
    | none => none
    | some (.array ac) => some (.arrayContainerPtr ac)
    | some (.bitmap bc) => some (.bitmapContainerPtr bc)

/-- The loop of `bitmapEquals`, `for i, v := range a`, from the index `i` on over the words
that are left, followed by `return true`. -/
def bitmapEquals.loop (b : List Nat) : List Nat → Nat → Bool
  | [], _ => true
  | v :: vs, i => if v ≠ b.getD i 0 then false else bitmapEquals.loop b vs (i + 1)

/-- The function `bitmapEquals(a, b)`. -/
def bitmapEquals (a b : List Nat) : Bool :=
  if a.length ≠ b.length then false else bitmapEquals.loop b a 0

/-- The method `bitmapContainer.equals(o)`. -/
def bitmapContainer.equals (bc : bitmapContainer) (o : dynamic) : Bool :=
  match o with
  | .bitmapContainerPtr srb =>
    if srb.cardinality ≠ bc.cardinality then false else bitmapEquals bc.bitmap srb.bitmap
  | _ => false

/-- Modelled from the spec: `arrayContainer.equals(o)`, true when `o` is an array container
with the same values (the source compares against a value that must be of the same variant;
the method is declared outside the embedded files). -/
def arrayContainer.equals (ac : arrayContainer) (o : dynamic) : Bool :=
  match o with
  | .arrayContainerPtr srb => decide (ac.content = srb.content)
  | _ => false

/-- The method `equals(o)` of the interface `container`. -/
def container.equals : container → dynamic → Bool
  | .array ac, o => ac.equals o
  | .bitmap bc, o => bc.equals o

/-- The first loop of `roaringArray.equals`, `for i, k := range ra.keys`, from the index `i`
on over the keys that are left: `some false` is `return false`, `some true` the end of the
loop. -/
def roaringArray.equals.keysLoop (srb : roaringArray) : List Nat → Nat → Option Bool
  | [], _ => some true
  | k :: ks, i =>
    match index? srb.keys i with
    | none => none
    | some k2 => if k ≠ k2 then some false else roaringArray.equals.keysLoop srb ks (i + 1)

/-- The second loop of `roaringArray.equals`, `for i, c := range ra.containers`, from the
index `i` on over the containers that are left. -/
def roaringArray.equals.containersLoop (st : store) (srb : roaringArray) :
    List (Option Nat) → Nat → Option Bool
  | [], _ => some true
  | c :: cs, i =>
    match index? srb.containers i with
    | none => none
    | some c2 =>
      match st.toDynamic c2 with
      | none => none
      | some o =>
        match st.deref c with
        | none => none
        | some obj =>
          if ¬ obj.equals o then some false
          else roaringArray.equals.containersLoop st srb cs (i + 1)

/-- The method `roaringArray.equals(o)`: the type assertion `o.(roaringArray)` holds for a
`roaringArray` value only. -/
def roaringArray.equals (st : store) (ra : roaringArray) (o : dynamic) : Option Bool :=
  match o with
  | .roaringArrayValue srb =>
    if srb.size ≠ ra.size then some false
    else
      match roaringArray.equals.keysLoop srb ra.keys 0 with
      | none => none
      | some false => some false
      | some true => roaringArray.equals.containersLoop st srb ra.containers 0
  | _ => some false

/-! ## `appendCopiesUntil` and `appendCopiesAfter` -/

/-- The loop of `appendCopiesUntil`, `for i := 0; i < sa.size(); i++`, from the index `i` on,
at most `n` more times: the store and the receiver after the loop. -/
def roaringArray.appendCopiesUntil.loop (sa : roaringArray) (stoppingKey : Nat) :
    Nat → Int → store → roaringArray → Option (store × roaringArray)
  | 0, i, st, ra => if i < sa.size then none else some (st, ra)
  | n + 1, i, st, ra =>
    if i < sa.size then
      match index? sa.keys i with
      | none => none
      | some key =>
        if key ≥ stoppingKey then some (st, ra)
        else
          match (index? sa.containers i).bind st.deref with
          | none => none
          | some obj =>
            let a := st.alloc obj.clone
            roaringArray.appendCopiesUntil.loop sa stoppingKey n (i + 1) a.1
              (ra.appendContainer key (some a.2))
    else some (st, ra)

/-- The method `roaringArray.appendCopiesUntil(sa, stoppingKey)`. -/
def roaringArray.appendCopiesUntil (st : store) (ra sa : roaringArray) (stoppingKey : Nat) :
    Option (store × roaringArray) :=
  roaringArray.appendCopiesUntil.loop sa stoppingKey sa.keys.length 0 st ra

/-- The loop of `appendCopiesAfter`, `for i := startLocation; i < sa.size(); i++`, from the
index `i` on, at most `n` more times. -/
def roaringArray.appendCopiesAfter.loop (sa : roaringArray) :
    Nat → Int → store → roaringArray → Option (store × roaringArray)
  | 0, i, st, ra => if i < sa.size then none else some (st, ra)
  | n + 1, i, st, ra =>
    if i < sa.size then
      match index? sa.keys i with
      | none => none
      | some key =>
        match (index? sa.containers i).bind st.deref with
        | none => none
        | some obj =>
          let a := st.alloc obj.clone
          roaringArray.appendCopiesAfter.loop sa n (i + 1) a.1
            (ra.appendContainer key (some a.2))
    else some (st, ra)

/-- The method `roaringArray.appendCopiesAfter(sa, beforeStart)`. -/
def roaringArray.appendCopiesAfter (st : store) (ra sa : roaringArray) (beforeStart : Nat) :
    Option (store × roaringArray) :=
  match sa.getIndex beforeStart with
  | none => none
  | some startLocation =>
    let startLocation := if startLocation ≥ 0 then startLocation + 1 else -startLocation - 1
    roaringArray.appendCopiesAfter.loop sa sa.keys.length startLocation st ra

/-- The values of an operand are of their Go types: `uint16` values in an array container,
1024 words in a bitmap container. -/
def container.typed : container → Prop
  | .array ac => ∀ v ∈ ac.content, v < 2 ^ 16
  | .bitmap bc => bc.bitmap.length = 1024

/-- The store and the array after copies of the entries `es` (a key and the object of its
container) have been appended to `ra`, in order: one new object for each entry, the clone of
the entry's object, at a new address; the keys and the addresses of the new objects after
those of `ra`; and one dirty flag `false` for each entry if `ra` has dirty flags. -/
def appendedCopies (st : store) (ra : roaringArray) (es : List (Nat × container)) :
    store × roaringArray :=
  (⟨st.objects ++ es.map (fun e => e.2.clone)⟩,
    ⟨ra.keys ++ es.map (fun e => e.1),
      ra.containers ++ (List.range es.length).map (fun j => some (st.objects.length + j)),
      if ra.dirty = [] then [] else ra.dirty ++ List.replicate es.length false⟩)

/-! ## Lemmas on slices -/

theorem index?_eq_getD (keys : List Nat) (i : Int) (h0 : 0 ≤ i) (h1 : i < keys.length) :
    index? keys i = some (keys.getD i.toNat 0) := by
  have h : i.toNat < keys.length := by omega
  simp [index?, h0, h]

theorem ascending_getD (keys : List Nat) (hs : keys.Pairwise (fun a b => a < b)) (i j : Int)
    (h0 : 0 ≤ i) (hij : i < j) (hj : j < keys.length) :
    keys.getD i.toNat 0 < keys.getD j.toNat 0 := by
  have hi' : i.toNat < keys.length := by omega
  have hj' : j.toNat < keys.length := by omega
  have := (List.pairwise_iff_getElem.mp hs) i.toNat j.toNat hi' hj' (by omega)
  simpa [hi', hj'] using this

/-- A strictly ascending slice of values below `n` has at most `n` entries. -/
theorem ascending_length_le (keys : List Nat) (n : Nat) (hs : keys.Pairwise (fun a b => a < b))
    (hk : ∀ x ∈ keys, x < n) : keys.length ≤ n := by
  have hnd : keys.Nodup := hs.imp (fun h => Nat.ne_of_lt h)
  have hsub : keys.toFinset ⊆ Finset.range n := by
    intro x hx
    exact Finset.mem_range.mpr (hk x (List.mem_toFinset.mp hx))
  have := Finset.card_le_card hsub
  rwa [List.toFinset_card_of_nodup hnd, Finset.card_range] at this

/-! ## Correctness of `binarySearch` -/

theorem SearchPost.widen {keys : List Nat} {k : Nat} {b e low high : Int} {r : Option Int}
    (h : SearchPost keys k low (high + 1) r) (hb : b ≤ low) (he : high < e)
    (hlo : ∀ j : Int, b ≤ j → j < low → keys.getD j.toNat 0 < k)
    (hhi : ∀ j : Int, high < j → j < e → k < keys.getD j.toNat 0) :
    SearchPost keys k b e r := by
  rcases h with ⟨i, hr, h1, h2, h3⟩ | ⟨p, hr, h1, h2, h3, h4⟩
  · exact Or.inl ⟨i, hr, by omega, by omega, h3⟩
  · refine Or.inr ⟨p, hr, by omega, by omega, ?_, ?_⟩
    · intro j hj1 hj2
      by_cases hjl : j < low
      · exact hlo j hj1 hjl
      · exact h3 j (by omega) hj2
    · intro j hj1 hj2
      by_cases hjh : high < j
      · exact hhi j hjh hj2
      · exact h4 j hj1 (by omega)

theorem binarySearch.sweep_spec (keys : List Nat) (k : Nat)
    (hs : keys.Pairwise (fun a b => a < b)) (high : Int) (hh : high < keys.length) :
    ∀ (fuel : Nat) (low : Int), 0 ≤ low → low ≤ high + 1 → (high + 1 - low).toNat < fuel →
      SearchPost keys k low (high + 1) (binarySearch.sweep keys k fuel low high) := by
  intro fuel
  induction fuel with
  | zero => intro low _ _ hf; omega
  | succ n ih =>
    intro low h0 h1 hf
    unfold binarySearch.sweep
    by_cases hle : low ≤ high
    · rw [if_pos hle, index?_eq_getD keys low h0 (by omega)]
      simp only
      by_cases hge : keys.getD low.toNat 0 ≥ k
      · rw [if_pos hge]
        by_cases heq : keys.getD low.toNat 0 = k
        · rw [if_pos heq]
          exact Or.inl ⟨low, rfl, le_refl _, by omega, heq⟩
        · rw [if_neg heq]
          refine Or.inr ⟨low, rfl, le_refl _, by omega, ?_, ?_⟩
          · intro j hj1 hj2; omega
          · intro j hj1 hj2
            have hlt : k < keys.getD low.toNat 0 := lt_of_le_of_ne hge (Ne.symm heq)
            by_cases hj : j = low
            · subst hj; exact hlt
            · exact lt_trans hlt (ascending_getD keys hs low j h0 (by omega) (by omega))
      · rw [if_neg hge]
        have := ih (low + 1) (by omega) (by omega) (by omega)
        rcases this with ⟨i, hr, h1, h2, h3⟩ | ⟨p, hr, h1, h2, h3, h4⟩
        · exact Or.inl ⟨i, hr, by omega, h2, h3⟩
        · refine Or.inr ⟨p, hr, by omega, h2, ?_, h4⟩
          intro j hj1 hj2
          by_cases hj : j = low
          · subst hj; omega
          · exact h3 j (by omega) hj2
    · rw [if_neg hle]
      refine Or.inr ⟨low, rfl, le_refl _, by omega, ?_, ?_⟩
      · intro j hj1 hj2; omega
      · intro j hj1 hj2; omega

theorem binarySearch.halve_spec (keys : List Nat) (k : Nat)
    (hs : keys.Pairwise (fun a b => a < b)) (hk : ∀ x ∈ keys, x < 2 ^ 16)
    (b e : Int) (hb : 0 ≤ b) (he : e ≤ keys.length) :
    ∀ (fuel : Nat) (low high : Int), b ≤ low → high < e → low ≤ high + 1 →
      (high + 1 - low).toNat < fuel →
      (∀ j : Int, b ≤ j → j < low → keys.getD j.toNat 0 < k) →
      (∀ j : Int, high < j → j < e → k < keys.getD j.toNat 0) →
      SearchPost keys k b e (binarySearch.halve keys k fuel low high) := by
  have hlen := ascending_length_le keys (2 ^ 16) hs hk
  intro fuel
  induction fuel with
  | zero => intro low high _ _ _ hf; omega
  | succ n ih =>
    intro low high h1 h2 h3 hf hlo hhi
    unfold binarySearch.halve
    by_cases hle : low + 16 ≤ high
    · rw [if_pos hle]
      have hmid : ((low + high) % 2 ^ 64) / 2 = (low + high) / 2 := by
        rw [Int.emod_eq_of_lt (by omega) (by omega)]
      simp only [hmid]
      have hm0 : low ≤ (low + high) / 2 := by omega
      have hm1 : (low + high) / 2 ≤ high := by omega
      rw [index?_eq_getD keys _ (by omega) (by omega)]
      simp only
      by_cases hlt : keys.getD ((low + high) / 2).toNat 0 < k
      · rw [if_pos hlt]
        apply ih _ _ (by omega) h2 (by omega) (by omega) _ hhi
        intro j hj1 hj2
        by_cases hj : j = (low + high) / 2
        · subst hj; exact hlt
        · exact lt_trans (ascending_getD keys hs j _ (by omega) (by omega) (by omega)) hlt
      · rw [if_neg hlt]
        by_cases hgt : keys.getD ((low + high) / 2).toNat 0 > k
        · rw [if_pos hgt]
          apply ih _ _ h1 (by omega) (by omega) (by omega) hlo
          intro j hj1 hj2
          by_cases hj : j = (low + high) / 2
          · subst hj; exact hgt
          · exact lt_trans hgt (ascending_getD keys hs _ j (by omega) (by omega) (by omega))
        · rw [if_neg hgt]
          exact Or.inl ⟨_, rfl, by omega, by omega, by omega⟩
    · rw [if_neg hle]
      exact (binarySearch.sweep_spec keys k hs high (by omega) _ low (by omega) h3
        (by omega)).widen h1 h2 hlo hhi

/-- C1: on strictly ascending `uint16` keys and `0 <= begin <= end <= len(keys)`,
`binarySearch(begin, end, k)` returns the index of `k` when `k` occurs in `keys[begin:end]`, and
otherwise `-(p + 1)` for the insertion point `p`, the unique index of `[begin, end]` with every key
of `keys[begin:p]` below `k` and every key of `keys[p:end]` above `k`; ranges of any length, so on
both sides of the switch at 16 entries. -/
theorem binarySearch_correct (ra : roaringArray) (begin end_ : Int) (k : Nat)
    (hs : ra.keys.Pairwise (fun a b => a < b)) (hk : ∀ x ∈ ra.keys, x < 2 ^ 16)
    (h0 : 0 ≤ begin) (h1 : begin ≤ end_) (h2 : end_ ≤ ra.keys.length) :
    (∀ i : Int, begin ≤ i → i < end_ → index? ra.keys i = some k →
      ra.binarySearch begin end_ k = some i) ∧
    ((∀ i : Int, begin ≤ i → i < end_ → index? ra.keys i ≠ some k) →
      ∃ p : Int, ra.binarySearch begin end_ k = some (-(p + 1)) ∧ begin ≤ p ∧ p ≤ end_ ∧
        (∀ j : Int, begin ≤ j → j < p → ∃ v, index? ra.keys j = some v ∧ v < k) ∧
        (∀ j : Int, p ≤ j → j < end_ → ∃ v, index? ra.keys j = some v ∧ k < v) ∧
        (∀ q : Int, begin ≤ q → q ≤ end_ →
          (∀ j : Int, begin ≤ j → j < q → ∃ v, index? ra.keys j = some v ∧ v < k) →
          (∀ j : Int, q ≤ j → j < end_ → ∃ v, index? ra.keys j = some v ∧ k < v) → q = p)) := by
  have hpost : SearchPost ra.keys k begin end_ (ra.binarySearch begin end_ k) := by
    unfold roaringArray.binarySearch
    have := binarySearch.halve_spec ra.keys k hs hk begin end_ h0 h2 _ begin (end_ - 1)
      (le_refl _) (by omega) (by omega) (Nat.lt_succ_self _)
      (fun j hj1 hj2 => by omega) (fun j hj1 hj2 => by omega)
    simpa using this
  have hget : ∀ j : Int, begin ≤ j → j < end_ →
      index? ra.keys j = some (ra.keys.getD j.toNat 0) :=
    fun j hj1 hj2 => index?_eq_getD ra.keys j (by omega) (by omega)
  constructor
  · intro i hi1 hi2 hik
    rw [hget i hi1 hi2] at hik
    have hik : ra.keys.getD i.toNat 0 = k := Option.some.inj hik
    rcases hpost with ⟨i', hr, h1', h2', h3'⟩ | ⟨p, hr, h1', h2', h3', h4'⟩
    · rw [hr]
      rcases lt_trichotomy i i' with h | h | h
      · have := ascending_getD ra.keys hs i i' (by omega) h (by omega); omega
      · rw [h]
      · have := ascending_getD ra.keys hs i' i (by omega) h (by omega); omega
    · by_cases hip : i < p
      · have := h3' i hi1 hip; omega
      · have := h4' i (by omega) hi2; omega
  · intro hne
    rcases hpost with ⟨i', hr, h1', h2', h3'⟩ | ⟨p, hr, h1', h2', h3', h4'⟩
    · exact absurd (by rw [hget i' h1' h2', h3']) (hne i' h1' h2')
    · refine ⟨p, hr, h1', h2', ?_, ?_, ?_⟩
      · intro j hj1 hj2
        exact ⟨_, hget j hj1 (by omega), h3' j hj1 hj2⟩
      · intro j hj1 hj2
        exact ⟨_, hget j (by omega) hj2, h4' j hj1 hj2⟩
      · intro q hq1 hq2 hql hqh
        rcases lt_trichotomy q p with h | h | h
        · obtain ⟨v, hv, hvk⟩ := hqh q (le_refl _) (by omega)
          rw [hget q hq1 (by omega)] at hv
          have := h3' q hq1 h
          have := Option.some.inj hv
          omega
        · exact h
        · obtain ⟨v, hv, hvk⟩ := hql p h1' h
          rw [hget p h1' (by omega)] at hv
          have := h4' p (le_refl _) (by omega)
          have := Option.some.inj hv
          omega

/-- C1 at a concrete array of 20 keys (the halving loop runs, then the sweep): the key 24 is
found at index 12. -/
theorem binarySearch_correct_witness :
    roaringArray.binarySearch
      ⟨[0, 2, 4, 6, 8, 10, 12, 14, 16, 18, 20, 22, 24, 26, 28, 30, 32, 34, 36, 38], [], []⟩
      0 20 24 = some 12 :=
  (binarySearch_correct
    ⟨[0, 2, 4, 6, 8, 10, 12, 14, 16, 18, 20, 22, 24, 26, 28, 30, 32, 34, 36, 38], [], []⟩
    0 20 24 (by decide) (by decide) (by decide) (by decide) (by decide)).1 12
    (by decide) (by decide) (by decide)

/-! ## Correctness of `advanceUntil` -/

theorem advanceUntil.gallop_spec (keys : List Nat) (min : Nat) (lower : Int) (h0 : 0 ≤ lower) :
    ∀ (fuel : Nat) (s : Int), 1 ≤ s →
      (lower + s.tdiv 2 < keys.length ∧ keys.getD (lower + s.tdiv 2).toNat 0 < min) →
      ((keys.length : Int) - lower - s).toNat < fuel →
      ∃ t : Int, advanceUntil.gallop keys min lower fuel s = some t ∧ 1 ≤ t ∧
        (lower + t.tdiv 2 < keys.length ∧ keys.getD (lower + t.tdiv 2).toNat 0 < min) ∧
        (lower + t < keys.length → min ≤ keys.getD (lower + t).toNat 0) := by
  intro fuel
  induction fuel with
  | zero => intro s _ _ hf; omega
  | succ n ih =>
    intro s hs hP hf
    unfold advanceUntil.gallop
    by_cases hlt : lower + s < keys.length
    · rw [if_pos hlt, index?_eq_getD keys _ (by omega) hlt]
      simp only
      by_cases hv : keys.getD (lower + s).toNat 0 < min
      · rw [if_pos hv]
        have h2 : (s * 2).tdiv 2 = s := by
          rw [Int.tdiv_eq_ediv (by omega) (by omega)]; omega
        exact ih (s * 2) (by omega) (by rw [h2]; exact ⟨hlt, hv⟩) (by omega)
      · rw [if_neg hv]
        exact ⟨s, rfl, hs, hP, fun _ => by omega⟩
    · rw [if_neg hlt]
      exact ⟨s, rfl, hs, hP, fun h => absurd h hlt⟩

theorem advanceUntil.bisect_spec (keys : List Nat) (min : Nat)
    (hs : keys.Pairwise (fun a b => a < b)) :
    ∀ (fuel : Nat) (lower upper : Int), 0 ≤ lower → lower < upper → upper < keys.length →
      keys.getD lower.toNat 0 < min → min < keys.getD upper.toNat 0 →
      (upper - lower).toNat < fuel →
      ∃ r : Int, advanceUntil.bisect keys min fuel lower upper = some r ∧ lower < r ∧
        r ≤ upper ∧ min ≤ keys.getD r.toNat 0 ∧ keys.getD (r - 1).toNat 0 < min := by
  intro fuel
  induction fuel with
  | zero => intro lower upper _ _ _ _ _ hf; omega
  | succ n ih =>
    intro lower upper h0 h1 h2 hl hu hf
    unfold advanceUntil.bisect
    by_cases hne : lower + 1 ≠ upper
    · rw [if_pos hne]
      have hmid : (lower + upper).tdiv 2 = (lower + upper) / 2 :=
        Int.tdiv_eq_ediv (by omega) (by omega)
      simp only [hmid]
      rw [index?_eq_getD keys _ (by omega) (by omega)]
      simp only
      by_cases heq : keys.getD ((lower + upper) / 2).toNat 0 = min
      · rw [if_pos heq]
        refine ⟨_, rfl, by omega, by omega, by omega, ?_⟩
        have := ascending_getD keys hs ((lower + upper) / 2 - 1) ((lower + upper) / 2)
          (by omega) (by omega) (by omega)
        omega
      · rw [if_neg heq]
        by_cases hlt : keys.getD ((lower + upper) / 2).toNat 0 < min
        · rw [if_pos hlt]
          obtain ⟨r, hr, hr1, hr2, hr3, hr4⟩ :=
            ih ((lower + upper) / 2) upper (by omega) (by omega) h2 hlt hu (by omega)
          exact ⟨r, hr, by omega, hr2, hr3, hr4⟩
        · rw [if_neg hlt]
          obtain ⟨r, hr, hr1, hr2, hr3, hr4⟩ :=
            ih lower ((lower + upper) / 2) h0 (by omega) (by omega) hl (by omega) (by omega)
          exact ⟨r, hr, hr1, by omega, hr3, hr4⟩
    · rw [if_neg hne]
      have hup : upper - 1 = lower := by omega
      exact ⟨upper, rfl, h1, le_refl _, by omega, by rw [hup]; exact hl⟩

/-- C2: on strictly ascending keys and `-1 <= pos < len(keys)`, `advanceUntil(min, pos)` returns
(it neither panics nor loops for ever) the smallest index `r > pos` with `keys[r] >= min`:
every key strictly between `pos` and `r` is below `min`, and `r` is `len(keys)` when no index
after `pos` has a key `>= min`. -/
theorem advanceUntil_correct (ra : roaringArray) (min : Nat) (pos : Int)
    (hs : ra.keys.Pairwise (fun a b => a < b))
    (hpos0 : -1 ≤ pos) (hpos1 : pos < ra.keys.length) :
    ∃ r : Int, ra.advanceUntil min pos = some r ∧ pos < r ∧ r ≤ ra.keys.length ∧
      (∀ j : Int, pos < j → j < r → ∃ v, index? ra.keys j = some v ∧ v < min) ∧
      (r < ra.keys.length → ∃ v, index? ra.keys r = some v ∧ min ≤ v) ∧
      ((∀ j : Int, pos < j → j < ra.keys.length → ∃ v, index? ra.keys j = some v ∧ v < min) →
        r = ra.keys.length) := by
  have hget : ∀ j : Int, 0 ≤ j → j < ra.keys.length →
      index? ra.keys j = some (ra.keys.getD j.toNat 0) :=
    fun j hj1 hj2 => index?_eq_getD ra.keys j hj1 hj2
  -- it is enough to bound the keys before and at the returned index
  suffices h : ∃ r : Int, ra.advanceUntil min pos = some r ∧ pos < r ∧ r ≤ ra.keys.length ∧
      (∀ j : Int, pos < j → j < r → ra.keys.getD j.toNat 0 < min) ∧
      (r < ra.keys.length → min ≤ ra.keys.getD r.toNat 0) by
    obtain ⟨r, hr, h1, h2, h3, h4⟩ := h
    refine ⟨r, hr, h1, h2, ?_, ?_, ?_⟩
    · intro j hj1 hj2
      exact ⟨_, hget j (by omega) (by omega), h3 j hj1 hj2⟩
    · intro hlt
      exact ⟨_, hget r (by omega) hlt, h4 hlt⟩
    · intro hall
      by_contra hne
      have hlt : r < ra.keys.length := lt_of_le_of_ne h2 hne
      obtain ⟨v, hv, hvm⟩ := hall r h1 hlt
      rw [hget r (by omega) hlt] at hv
      have := Option.some.inj hv
      have := h4 hlt
      omega
  unfold roaringArray.advanceUntil
  simp only
  by_cases hge : pos + 1 ≥ ra.keys.length
  · rw [if_pos hge]
    exact ⟨pos + 1, rfl, by omega, by omega, fun j _ _ => by omega, fun h => by omega⟩
  · rw [if_neg hge, hget (pos + 1) (by omega) (by omega)]
    simp only
    by_cases hv0 : ra.keys.getD (pos + 1).toNat 0 ≥ min
    · rw [if_pos hv0]
      exact ⟨pos + 1, rfl, by omega, by omega, fun j _ _ => by omega, fun _ => hv0⟩
    · rw [if_neg hv0]
      have h12 : pos + 1 + (1 : Int).tdiv 2 = pos + 1 := by
        have : (1 : Int).tdiv 2 = 0 := by decide
        rw [this, add_zero]
      obtain ⟨t, ht, ht1, ⟨ht2, ht3⟩, ht4⟩ :=
        advanceUntil.gallop_spec ra.keys min (pos + 1) (by omega) (ra.keys.length + 1) 1
          (le_refl _) (by rw [h12]; exact ⟨by omega, by omega⟩) (by omega)
      rw [ht]
      simp only
      have htd : t.tdiv 2 = t / 2 := Int.tdiv_eq_ediv (by omega) (by omega)
      rw [htd] at ht2 ht3
      by_cases hup : pos + 1 + t < ra.keys.length
      · -- the gallop stopped on a key that is not below min
        rw [if_pos hup, hget _ (by omega) hup]
        simp only
        have hu := ht4 hup
        by_cases heq : ra.keys.getD (pos + 1 + t).toNat 0 = min
        · rw [if_pos heq]
          refine ⟨_, rfl, by omega, by omega, ?_, fun _ => by omega⟩
          intro j hj1 hj2
          have := ascending_getD ra.keys hs j (pos + 1 + t) (by omega) hj2 hup
          omega
        · rw [if_neg heq, if_neg (by omega)]
          obtain ⟨r, hr, hr1, hr2, hr3, hr4⟩ :=
            advanceUntil.bisect_spec ra.keys min hs (ra.keys.length + 1) (pos + 1 + t / 2)
              (pos + 1 + t) (by omega) (by omega) hup ht3 (by omega) (by omega)
          rw [htd]
          refine ⟨r, hr, by omega, by omega, ?_, fun _ => hr3⟩
          intro j hj1 hj2
          by_cases hj : j = r - 1
          · rw [hj]; exact hr4
          · have := ascending_getD ra.keys hs j (r - 1) (by omega) (by omega) (by omega)
            omega
      · -- the gallop ran past the end: upper is the last index
        rw [if_neg hup, hget _ (by omega) (by omega)]
        simp only
        by_cases heq : ra.keys.getD ((ra.keys.length : Int) - 1).toNat 0 = min
        · rw [if_pos heq]
          refine ⟨_, rfl, by omega, by omega, ?_, fun _ => by omega⟩
          intro j hj1 hj2
          have := ascending_getD ra.keys hs j ((ra.keys.length : Int) - 1) (by omega) hj2
            (by omega)
          omega
        · rw [if_neg heq]
          by_cases hlt : ra.keys.getD ((ra.keys.length : Int) - 1).toNat 0 < min
          · rw [if_pos hlt]
            refine ⟨_, rfl, by omega, le_refl _, ?_, fun h => by omega⟩
            intro j hj1 hj2
            by_cases hj : j = (ra.keys.length : Int) - 1
            · rw [hj]; exact hlt
            · have := ascending_getD ra.keys hs j ((ra.keys.length : Int) - 1) (by omega)
                (by omega) (by omega)
              omega
          · rw [if_neg hlt]
            have hlow : pos + 1 + t / 2 < (ra.keys.length : Int) - 1 := by
              by_contra hcon
              have : pos + 1 + t / 2 = (ra.keys.length : Int) - 1 := by omega
              rw [this] at ht3
              exact hlt ht3
            obtain ⟨r, hr, hr1, hr2, hr3, hr4⟩ :=
              advanceUntil.bisect_spec ra.keys min hs (ra.keys.length + 1) (pos + 1 + t / 2)
                ((ra.keys.length : Int) - 1) (by omega) hlow (by omega) ht3 (by omega)
                (by omega)
            rw [htd]
            refine ⟨r, hr, by omega, by omega, ?_, fun _ => hr3⟩
            intro j hj1 hj2
            by_cases hj : j = r - 1
            · rw [hj]; exact hr4
            · have := ascending_getD ra.keys hs j (r - 1) (by omega) (by omega) (by omega)
              omega


/-! ## Words -/

theorem shl64_one (j : Nat) (hj : j < 64) : shl64 1 j = 2 ^ j := by
  unfold shl64
  rw [Nat.one_shiftLeft, Nat.mod_eq_of_lt]
  exact Nat.pow_lt_pow_right (by norm_num) hj

theorem allOnes_eq : allOnes = 2 ^ 64 - 1 := by decide

theorem two_pow_lt_word (j : Nat) (hj : j < 64) : 2 ^ j < 2 ^ 64 :=
  Nat.pow_lt_pow_right (by norm_num) hj

theorem testBit_word_ge (w i : Nat) (hw : w < 2 ^ 64) (hi : 64 ≤ i) : w.testBit i = false :=
  Nat.testBit_lt_two_pow (lt_of_lt_of_le hw (Nat.pow_le_pow_right (by norm_num) hi))

theorem word_lt_of_testBit (w : Nat) (h : ∀ i, 64 ≤ i → w.testBit i = false) : w < 2 ^ 64 :=
  Nat.lt_pow_two_of_testBit w h

theorem testBit_not64 (a i : Nat) : (not64 a).testBit i = (decide (i < 64) != a.testBit i) := by
  unfold not64
  rw [Nat.testBit_xor, allOnes_eq, Nat.testBit_two_pow_sub_one]

theorem testBit_andNot64 (a b i : Nat) :
    (andNot64 a b).testBit i = (a.testBit i && (decide (i < 64) != b.testBit i)) := by
  unfold andNot64
  rw [Nat.testBit_and, testBit_not64]

theorem not64_lt (a : Nat) (ha : a < 2 ^ 64) : not64 a < 2 ^ 64 := by
  apply word_lt_of_testBit
  intro i hi
  rw [testBit_not64, testBit_word_ge a i ha hi]
  simp; omega

theorem and_lt_word (a b : Nat) (ha : a < 2 ^ 64) : a &&& b < 2 ^ 64 := by
  apply word_lt_of_testBit
  intro i hi
  rw [Nat.testBit_and, testBit_word_ge a i ha hi]; rfl

theorem andNot64_lt (a b : Nat) (ha : a < 2 ^ 64) : andNot64 a b < 2 ^ 64 :=
  and_lt_word a _ ha

theorem or_lt_word (a b : Nat) (ha : a < 2 ^ 64) (hb : b < 2 ^ 64) : a ||| b < 2 ^ 64 :=
  Nat.or_lt_two_pow ha hb

theorem xor_lt_word (a b : Nat) (ha : a < 2 ^ 64) (hb : b < 2 ^ 64) : a ^^^ b < 2 ^ 64 :=
  Nat.xor_lt_two_pow ha hb

/-! ## Counting bits -/

theorem countP_range_update (f g : Nat → Bool) (n j : Nat) (hj : j < n)
    (h : ∀ i, i < n → i ≠ j → f i = g i) :
    (List.range n).countP f + (if g j then 1 else 0)
      = (List.range n).countP g + (if f j then 1 else 0) := by
  induction n with
  | zero => omega
  | succ n ih =>
    rw [List.range_succ, List.countP_append, List.countP_append]
    simp only [List.countP_cons, List.countP_nil, Nat.zero_add]
    by_cases hjn : j = n
    · subst hjn
      have hc : (List.range j).countP f = (List.range j).countP g := by
        apply List.countP_congr
        intro i hi
        have hi' := List.mem_range.mp hi
        rw [h i (by omega) (by omega)]
      rw [hc]; omega
    · have := ih (by omega) (fun i hi hne => h i (by omega) hne)
      rw [h n (by omega) (fun hh => hjn hh.symm)]
      omega

theorem countP_range_congr (f g : Nat → Bool) (n : Nat) (h : ∀ i, i < n → f i = g i) :
    (List.range n).countP f = (List.range n).countP g := by
  apply List.countP_congr
  intro i hi
  rw [h i (List.mem_range.mp hi)]

theorem popcount_le (w : Nat) : popcount w ≤ 64 := by
  unfold popcount
  have := List.countP_le_length (fun i => w.testBit i) (l := List.range 64)
  simpa using this

theorem popcount_congr (a b : Nat) (h : ∀ i, i < 64 → a.testBit i = b.testBit i) :
    popcount a = popcount b :=
  countP_range_congr _ _ 64 h

theorem popcount_update (a b j : Nat) (hj : j < 64)
    (h : ∀ i, i < 64 → i ≠ j → a.testBit i = b.testBit i) :
    popcount a + (if b.testBit j then 1 else 0) = popcount b + (if a.testBit j then 1 else 0) :=
  countP_range_update _ _ 64 j hj h

theorem popcount_zero : popcount 0 = 0 := by
  unfold popcount
  simp

/-! ## Word slices -/

theorem getD_set_eq (ws : List Nat) (i k w : Nat) :
    (ws.set i w).getD k 0 = if k = i ∧ i < ws.length then w else ws.getD k 0 := by
  simp only [List.getD_eq_getElem?_getD, List.getElem?_set]
  by_cases hki : k = i
  · subst hki
    by_cases hk : k < ws.length
    · simp [hk]
    · simp [hk, List.getElem?_eq_none (Nat.le_of_not_lt hk)]
  · have : ¬ i = k := fun h => hki h.symm
    simp [hki, this]

theorem getD_word_lt (ws : List Nat) (h : ∀ w ∈ ws, w < 2 ^ 64) (k : Nat) :
    ws.getD k 0 < 2 ^ 64 := by
  rw [List.getD_eq_getElem?_getD]
  by_cases hk : k < ws.length
  · rw [List.getElem?_eq_getElem hk]
    exact h _ (List.getElem_mem hk)
  · rw [List.getElem?_eq_none (by omega)]
    exact Nat.two_pow_pos 64

theorem set_word_lt (ws : List Nat) (h : ∀ w ∈ ws, w < 2 ^ 64) (i w : Nat) (hw : w < 2 ^ 64) :
    ∀ x ∈ ws.set i w, x < 2 ^ 64 := by
  intro x hx
  rcases List.mem_or_eq_of_mem_set hx with hx | hx
  · exact h x hx
  · rw [hx]; exact hw

theorem popcntSlice_nil : popcntSlice [] = 0 := rfl

theorem popcntSlice_cons (w : Nat) (ws : List Nat) :
    popcntSlice (w :: ws) = popcount w + popcntSlice ws := by
  simp [popcntSlice]

theorem popcntSlice_append (as bs : List Nat) :
    popcntSlice (as ++ bs) = popcntSlice as + popcntSlice bs := by
  simp [popcntSlice]

theorem popcntSlice_set (ws : List Nat) (i w : Nat) (hi : i < ws.length) :
    popcntSlice (ws.set i w) + popcount (ws.getD i 0) = popcntSlice ws + popcount w := by
  induction ws generalizing i with
  | nil => simp at hi
  | cons a as ih =>
    cases i with
    | zero => simp [popcntSlice_cons]; omega
    | succ i =>
      have := ih i (by simpa using hi)
      simp only [List.set_cons_succ, popcntSlice_cons, List.getD_cons_succ]
      omega

theorem getBit_set (ws : List Nat) (i w v : Nat) (hi : i < ws.length) :
    getBit (ws.set i w) v = if v / 64 = i then w.testBit (v % 64) else getBit ws v := by
  unfold getBit
  rw [getD_set_eq]
  by_cases h : v / 64 = i
  · simp [h, hi]
  · simp [h]

theorem getBit_cons_lt (w : Nat) (ws : List Nat) (v : Nat) (hv : v < 64) :
    getBit (w :: ws) v = w.testBit v := by
  unfold getBit
  have h1 : v / 64 = 0 := Nat.div_eq_of_lt hv
  have h2 : v % 64 = v := Nat.mod_eq_of_lt hv
  rw [h1, h2]; rfl

theorem getBit_cons_add (w : Nat) (ws : List Nat) (v : Nat) :
    getBit (w :: ws) (64 + v) = getBit ws v := by
  unfold getBit
  have h1 : (64 + v) / 64 = v / 64 + 1 := by omega
  have h2 : (64 + v) % 64 = v % 64 := by omega
  rw [h1, h2]; rfl

theorem getBit_ge (ws : List Nat) (v : Nat) (hv : 64 * ws.length ≤ v) : getBit ws v = false := by
  unfold getBit
  have : ws.length ≤ v / 64 := by omega
  rw [List.getD_eq_getElem?_getD, List.getElem?_eq_none this]
  simp

theorem popcntSlice_eq_countP (ws : List Nat) :
    popcntSlice ws = (List.range (64 * ws.length)).countP (getBit ws) := by
  induction ws with
  | nil => simp [popcntSlice]
  | cons w ws ih =>
    have hlen : 64 * (w :: ws).length = 64 + 64 * ws.length := by
      simp only [List.length_cons]; omega
    have h1 : popcount w = (List.range 64).countP (getBit (w :: ws)) := by
      unfold popcount
      apply countP_range_congr
      intro i hi
      rw [getBit_cons_lt w ws i hi]
    have h2 : (List.range (64 * ws.length)).countP (getBit (w :: ws) ∘ fun x => 64 + x)
        = (List.range (64 * ws.length)).countP (getBit ws) := by
      apply countP_range_congr
      intro i _
      simp only [Function.comp]
      rw [getBit_cons_add]
    rw [popcntSlice_cons, hlen, List.range_add, List.countP_append, List.countP_map, ih, h1, h2]

theorem countP_getBit_extend (ws : List Nat) (n : Nat) (hn : 64 * ws.length ≤ n) :
    (List.range n).countP (getBit ws) = (List.range (64 * ws.length)).countP (getBit ws) := by
  obtain ⟨d, rfl⟩ := Nat.exists_eq_add_of_le hn
  rw [List.range_add, List.countP_append, List.countP_map]
  have : (List.range d).countP (getBit ws ∘ fun x => 64 * ws.length + x) = 0 := by
    rw [List.countP_eq_zero]
    intro a _
    simp only [Function.comp]
    rw [getBit_ge ws _ (by omega)]
    simp
  omega

/-- The popcount of the 1024 words is the number of set bits among the 65536 positions. -/
theorem popcntSlice_eq_count (ws : List Nat) (hlen : ws.length = 1024) :
    popcntSlice ws = (List.range 65536).countP (getBit ws) := by
  rw [popcntSlice_eq_countP, hlen]

theorem setPositions_length (ws : List Nat) : (setPositions ws).length = popcntSlice ws := by
  rw [popcntSlice_eq_countP, setPositions, List.countP_eq_length_filter]

/-! ## Single bits of a word -/

theorem or_two_pow_of_not_testBit (w j : Nat) (h : w.testBit j = false) :
    w ||| 2 ^ j = w + 2 ^ j := by
  have hbit : w / 2 ^ j % 2 = 0 := by
    rw [Nat.testBit_to_div_mod] at h
    have := of_decide_eq_false h
    omega
  obtain ⟨a, lo, hw, hlo⟩ : ∃ a lo, w = 2 ^ (j + 1) * a + lo ∧ lo < 2 ^ j := by
    refine ⟨w / 2 ^ (j + 1), w % 2 ^ (j + 1), (Nat.div_add_mod _ _).symm, ?_⟩
    rw [Nat.mod_pow_succ, hbit, Nat.mul_zero, Nat.add_zero]
    exact Nat.mod_lt _ (Nat.two_pow_pos j)
  have hpow : 2 ^ (j + 1) = 2 ^ j + 2 ^ j := by rw [Nat.pow_succ]; omega
  have h1 : w = 2 ^ (j + 1) * a ||| lo := by
    rw [← Nat.mul_add_lt_is_or (by omega)]
    exact hw
  have h2 : 2 ^ j + lo = 2 ^ j ||| lo := by
    have := Nat.mul_add_lt_is_or hlo 1
    simpa using this
  have h4 : w + 2 ^ j = 2 ^ (j + 1) * a ||| (2 ^ j + lo) := by
    rw [← Nat.mul_add_lt_is_or (by omega)]
    omega
  rw [h4, h2]
  conv_lhs => rw [h1]
  rw [Nat.or_assoc, Nat.or_comm lo (2 ^ j)]

theorem or_two_pow_of_testBit (w j : Nat) (h : w.testBit j = true) : w ||| 2 ^ j = w := by
  apply Nat.eq_of_testBit_eq
  intro i
  rw [Nat.testBit_or, Nat.testBit_two_pow]
  by_cases hij : j = i
  · subst hij; simp [h]
  · simp [hij]

theorem and_two_pow_ne_zero (w j : Nat) : (w &&& 2 ^ j != 0) = w.testBit j := by
  rw [Nat.and_two_pow]
  cases h : w.testBit j
  · simp
  · have := Nat.two_pow_pos j
    simp

theorem and_two_pow_shiftRight (w j : Nat) : (w &&& 2 ^ j) >>> j = (w.testBit j).toNat := by
  rw [Nat.and_two_pow, Nat.shiftRight_eq_div_pow, Nat.mul_div_cancel _ (Nat.two_pow_pos j)]

/-- The update of `add`: `(previous ^ (previous | mask)) >> bitpos` is 1 exactly when the bit was
clear. -/
theorem xor_or_two_pow_shiftRight (w j : Nat) :
    (w ^^^ (w ||| 2 ^ j)) >>> j = (!w.testBit j).toNat := by
  cases h : w.testBit j
  · rw [or_two_pow_of_not_testBit w j h]
    have : w ^^^ (w + 2 ^ j) = 2 ^ j := by
      rw [← or_two_pow_of_not_testBit w j h]
      apply Nat.eq_of_testBit_eq
      intro i
      rw [Nat.testBit_xor, Nat.testBit_or, Nat.testBit_two_pow]
      by_cases hij : j = i
      · subst hij; simp [h]
      · simp [hij]
    rw [this, Nat.shiftRight_eq_div_pow, Nat.div_self (Nat.two_pow_pos j)]
    rfl
  · rw [or_two_pow_of_testBit w j h, Nat.xor_self]
    simp

/-- The update of `orArray`: `(bef - (bef | mask)) >> 63` is 1 exactly when the bit was clear. -/
theorem sub64_or_two_pow_shiftRight (w j : Nat) (hw : w < 2 ^ 64) (hj : j < 64) :
    sub64 w (w ||| 2 ^ j) >>> 63 = (!w.testBit j).toNat := by
  unfold sub64
  cases h : w.testBit j
  · have hlt : w ||| 2 ^ j < 2 ^ 64 := Nat.or_lt_two_pow hw (two_pow_lt_word j hj)
    rw [or_two_pow_of_not_testBit w j h] at hlt ⊢
    have h63 : 2 ^ j ≤ 2 ^ 63 := Nat.pow_le_pow_right (by norm_num) (by omega)
    have hpos := Nat.two_pow_pos j
    rw [Nat.shiftRight_eq_div_pow]
    simp only [Bool.not_false, Bool.toNat_true]
    generalize 2 ^ j = m at *
    norm_num at *
    omega
  · rw [or_two_pow_of_testBit w j h, Nat.shiftRight_eq_div_pow]
    simp only [Bool.not_true, Bool.toNat_false]
    have h1 : w + 2 ^ 64 - w = 2 ^ 64 := by omega
    rw [h1]
    norm_num

/-- The update of `andNotArray`: `(oldv ^ (oldv &^ mask)) >> bitpos` is 1 exactly when the bit
was set. -/
theorem xor_andNot_two_pow_shiftRight (w j : Nat) (hw : w < 2 ^ 64) (_hj : j < 64) :
    (w ^^^ andNot64 w (2 ^ j)) >>> j = (w.testBit j).toNat := by
  have : w ^^^ andNot64 w (2 ^ j) = w &&& 2 ^ j := by
    apply Nat.eq_of_testBit_eq
    intro i
    rw [Nat.testBit_xor, testBit_andNot64, Nat.testBit_and, Nat.testBit_two_pow]
    by_cases hi : i < 64
    · by_cases hij : j = i
      · subst hij; cases w.testBit j <;> simp [hi]
      · cases w.testBit i <;> simp [hi, hij]
    · rw [testBit_word_ge w i hw (by omega)]
      simp
  rw [this, and_two_pow_shiftRight]

theorem testBit_or_two_pow (w j i : Nat) :
    (w ||| 2 ^ j).testBit i = (w.testBit i || decide (j = i)) := by
  rw [Nat.testBit_or, Nat.testBit_two_pow]

theorem testBit_xor_two_pow (w j i : Nat) :
    (w ^^^ 2 ^ j).testBit i = (w.testBit i != decide (j = i)) := by
  rw [Nat.testBit_xor, Nat.testBit_two_pow]

theorem testBit_andNot64_two_pow (w j i : Nat) (hw : w < 2 ^ 64) :
    (andNot64 w (2 ^ j)).testBit i = (w.testBit i && !decide (j = i)) := by
  rw [testBit_andNot64, Nat.testBit_two_pow]
  by_cases hi : i < 64
  · simp [hi]
  · rw [testBit_word_ge w i hw (by omega)]
    simp

theorem popcount_or_two_pow (w j : Nat) (hj : j < 64) :
    popcount (w ||| 2 ^ j) = popcount w + (!w.testBit j).toNat := by
  have := popcount_update (w ||| 2 ^ j) w j hj (by
    intro i _ hij
    have hne : ¬ j = i := fun h => hij h.symm
    rw [testBit_or_two_pow]
    simp [hne])
  rw [testBit_or_two_pow] at this
  cases h : w.testBit j <;> simp [h] at this ⊢ <;> omega

theorem popcount_xor_two_pow (w j : Nat) (hj : j < 64) :
    (popcount (w ^^^ 2 ^ j) : Int) = popcount w + (1 - 2 * ((w.testBit j).toNat : Int)) := by
  have := popcount_update (w ^^^ 2 ^ j) w j hj (by
    intro i _ hij
    have hne : ¬ j = i := fun h => hij h.symm
    rw [testBit_xor_two_pow]
    simp [hne])
  rw [testBit_xor_two_pow] at this
  cases h : w.testBit j <;> simp [h] at this ⊢ <;> omega

theorem popcount_andNot64_two_pow (w j : Nat) (hw : w < 2 ^ 64) (hj : j < 64) :
    (popcount (andNot64 w (2 ^ j)) : Int) = popcount w - ((w.testBit j).toNat : Int) := by
  have := popcount_update (andNot64 w (2 ^ j)) w j hj (by
    intro i _ hij
    have hne : ¬ j = i := fun h => hij h.symm
    rw [testBit_andNot64_two_pow w j i hw]
    simp [hne])
  rw [testBit_andNot64_two_pow w j j hw] at this
  cases h : w.testBit j <;> simp [h] at this ⊢ <;> omega

/-! ## Single bits of a bit vector -/

theorem pos_eq_iff (u v : Nat) : (u / 64 = v / 64 ∧ v % 64 = u % 64) ↔ u = v := by
  constructor
  · rintro ⟨h1, h2⟩; omega
  · rintro rfl; exact ⟨rfl, rfl⟩

theorem getBit_set_or (ws : List Nat) (v u : Nat) (hv : v / 64 < ws.length) :
    getBit (ws.set (v / 64) (ws.getD (v / 64) 0 ||| 2 ^ (v % 64))) u
      = (getBit ws u || decide (u = v)) := by
  rw [getBit_set ws _ _ u hv]
  by_cases h : u / 64 = v / 64
  · rw [if_pos h, testBit_or_two_pow]
    unfold getBit
    rw [h]
    congr 1
    by_cases h2 : v % 64 = u % 64
    · have := (pos_eq_iff u v).mp ⟨h, h2⟩
      simp [h2, this]
    · have : ¬ u = v := fun e => h2 (by rw [e])
      simp [h2, this]
  · rw [if_neg h]
    have : ¬ u = v := fun e => h (by rw [e])
    simp [this]

theorem getBit_set_xor (ws : List Nat) (v u : Nat) (hv : v / 64 < ws.length) :
    getBit (ws.set (v / 64) (ws.getD (v / 64) 0 ^^^ 2 ^ (v % 64))) u
      = (getBit ws u != decide (u = v)) := by
  rw [getBit_set ws _ _ u hv]
  by_cases h : u / 64 = v / 64
  · rw [if_pos h, testBit_xor_two_pow]
    unfold getBit
    rw [h]
    congr 1
    by_cases h2 : v % 64 = u % 64
    · have := (pos_eq_iff u v).mp ⟨h, h2⟩
      simp [h2, this]
    · have : ¬ u = v := fun e => h2 (by rw [e])
      simp [h2, this]
  · rw [if_neg h]
    have : ¬ u = v := fun e => h (by rw [e])
    simp [this]

theorem getBit_set_andNot (ws : List Nat) (hw : ∀ w ∈ ws, w < 2 ^ 64) (v u : Nat)
    (hv : v / 64 < ws.length) :
    getBit (ws.set (v / 64) (andNot64 (ws.getD (v / 64) 0) (2 ^ (v % 64)))) u
      = (getBit ws u && !decide (u = v)) := by
  rw [getBit_set ws _ _ u hv]
  by_cases h : u / 64 = v / 64
  · rw [if_pos h, testBit_andNot64_two_pow _ _ _ (getD_word_lt ws hw _)]
    unfold getBit
    rw [h]
    congr 1
    by_cases h2 : v % 64 = u % 64
    · have := (pos_eq_iff u v).mp ⟨h, h2⟩
      simp [h2, this]
    · have : ¬ u = v := fun e => h2 (by rw [e])
      simp [h2, this]
  · rw [if_neg h]
    have : ¬ u = v := fun e => h (by rw [e])
    simp [this]

theorem popcntSlice_set_or (ws : List Nat) (v : Nat) (hv : v / 64 < ws.length) :
    popcntSlice (ws.set (v / 64) (ws.getD (v / 64) 0 ||| 2 ^ (v % 64)))
      = popcntSlice ws + (!getBit ws v).toNat := by
  have h1 := popcntSlice_set ws (v / 64) (ws.getD (v / 64) 0 ||| 2 ^ (v % 64)) hv
  have h2 := popcount_or_two_pow (ws.getD (v / 64) 0) (v % 64) (Nat.mod_lt _ (by norm_num))
  unfold getBit
  omega

theorem popcntSlice_set_xor (ws : List Nat) (v : Nat) (hv : v / 64 < ws.length) :
    (popcntSlice (ws.set (v / 64) (ws.getD (v / 64) 0 ^^^ 2 ^ (v % 64))) : Int)
      = popcntSlice ws + (1 - 2 * ((getBit ws v).toNat : Int)) := by
  have h1 := popcntSlice_set ws (v / 64) (ws.getD (v / 64) 0 ^^^ 2 ^ (v % 64)) hv
  have h2 := popcount_xor_two_pow (ws.getD (v / 64) 0) (v % 64) (Nat.mod_lt _ (by norm_num))
  unfold getBit
  omega

theorem popcntSlice_set_andNot (ws : List Nat) (hw : ∀ w ∈ ws, w < 2 ^ 64) (v : Nat)
    (hv : v / 64 < ws.length) :
    (popcntSlice (ws.set (v / 64) (andNot64 (ws.getD (v / 64) 0) (2 ^ (v % 64)))) : Int)
      = popcntSlice ws - ((getBit ws v).toNat : Int) := by
  have h1 := popcntSlice_set ws (v / 64) (andNot64 (ws.getD (v / 64) 0) (2 ^ (v % 64))) hv
  have h2 := popcount_andNot64_two_pow (ws.getD (v / 64) 0) (v % 64) (getD_word_lt ws hw _)
    (Nat.mod_lt _ (by norm_num))
  unfold getBit
  omega

/-! ## `contains`, `add`, `remove` -/

theorem bitmapContainer.contains_eq_getBit (bc : bitmapContainer) (i : Nat) :
    bc.contains i = getBit bc.bitmap i := by
  unfold bitmapContainer.contains getBit
  simp only
  rw [shl64_one _ (Nat.mod_lt _ (by norm_num)), and_two_pow_ne_zero]

theorem bitmapContainer.wf.pos_lt {bc : bitmapContainer} (h : bc.wf) (v : Nat)
    (hv : v < 2 ^ 16) : v / 64 < bc.bitmap.length := by
  rw [h.1]; omega

/-- The receiver after `add(x)`: the bit `x` is set, the other bits are unchanged, and the
cardinality field has grown by one exactly when the bit was clear. -/
theorem bitmapContainer.add_self (bc : bitmapContainer) (h : bc.wf) (x : Nat) (hx : x < 2 ^ 16) :
    (bc.add x).ret = .bitmap (bc.add x).self ∧ (bc.add x).self.wf ∧
      (∀ u, getBit (bc.add x).self.bitmap u = (getBit bc.bitmap u || decide (u = x))) ∧
      (bc.add x).self.cardinality = bc.cardinality + ((!getBit bc.bitmap x).toNat : Int) := by
  have hpos := h.pos_lt x hx
  have hm : shl64 1 (x % 64) = 2 ^ (x % 64) := shl64_one _ (Nat.mod_lt _ (by norm_num))
  unfold bitmapContainer.add
  simp only [hm]
  refine ⟨trivial, ⟨?_, ?_, ?_⟩, ?_, ?_⟩
  · simp [h.1]
  · exact set_word_lt _ h.2.1 _ _
      (Nat.or_lt_two_pow (getD_word_lt _ h.2.1 _) (two_pow_lt_word _ (Nat.mod_lt _ (by norm_num))))
  · rw [xor_or_two_pow_shiftRight, popcntSlice_set_or _ _ hpos, h.2.2]
    unfold getBit
    push_cast
    rfl
  · intro u
    exact getBit_set_or _ _ _ hpos
  · rw [xor_or_two_pow_shiftRight]
    rfl

/-! ## The lowest set bit of a word -/

/-- A position `j` is the lowest set bit of `b`. -/
theorem exists_lowest_bit (b : Nat) (hb : b ≠ 0) (hw : b < 2 ^ 64) :
    ∃ j, j < 64 ∧ b.testBit j = true ∧ ∀ i, i < j → b.testBit i = false := by
  have hex : ∃ i, b.testBit i = true := Nat.ne_zero_implies_bit_true hb
  classical
  refine ⟨Nat.find hex, ?_, Nat.find_spec hex, ?_⟩
  · by_contra hge
    have := testBit_word_ge b (Nat.find hex) hw (by omega)
    rw [Nat.find_spec hex] at this
    exact Bool.noConfusion this
  · intro i hi
    have := Nat.find_min hex hi
    simpa using this

theorem testBit_pred_of_lowest (b j : Nat) (hj : b.testBit j = true)
    (hlow : ∀ i, i < j → b.testBit i = false) (i : Nat) :
    (b - 1).testBit i = if i < j then true else if i = j then false else b.testBit i := by
  have hmod : b % 2 ^ (j + 1) = 2 ^ j := by
    apply Nat.eq_of_testBit_eq
    intro i
    rw [Nat.testBit_mod_two_pow, Nat.testBit_two_pow]
    by_cases h1 : i < j
    · have : ¬ j = i := by omega
      simp [hlow i h1, this]
    · by_cases h2 : i = j
      · subst h2; simp [hj]
      · have h3 : ¬ i < j + 1 := by omega
        have h4 : ¬ j = i := fun e => h2 e.symm
        simp [h3, h4]
  have hpos := Nat.two_pow_pos j
  have hb : b = 2 ^ (j + 1) * (b / 2 ^ (j + 1)) + 2 ^ j := by
    conv_lhs => rw [← Nat.div_add_mod b (2 ^ (j + 1)), hmod]
  have hb1 : b - 1 = 2 ^ (j + 1) * (b / 2 ^ (j + 1)) + (2 ^ j - 1) := by omega
  have hlt1 : 2 ^ j - 1 < 2 ^ (j + 1) := by rw [Nat.pow_succ]; omega
  have hlt2 : 2 ^ j < 2 ^ (j + 1) := by rw [Nat.pow_succ]; omega
  have e1 := Nat.testBit_mul_pow_two_add (b / 2 ^ (j + 1)) hlt1 i
  have e2 := Nat.testBit_mul_pow_two_add (b / 2 ^ (j + 1)) hlt2 i
  rw [← hb1] at e1
  rw [← hb] at e2
  rw [e1]
  by_cases h1 : i < j
  · simp [h1, Nat.testBit_two_pow_sub_one, (by omega : i < j + 1)]
  · by_cases h2 : i = j
    · subst h2
      simp [Nat.testBit_two_pow_sub_one]
    · have h3 : ¬ i < j + 1 := by omega
      rw [if_neg h3, if_neg h1, if_neg h2, e2, if_neg h3]

/-- The isolation trick `bitset & -bitset` gives the lowest set bit. -/
theorem and_neg64_of_lowest (b j : Nat) (hw : b < 2 ^ 64) (hj64 : j < 64)
    (hj : b.testBit j = true) (hlow : ∀ i, i < j → b.testBit i = false) :
    b &&& neg64 b = 2 ^ j := by
  have hb0 : b ≠ 0 := by
    intro h0; rw [h0] at hj; simp at hj
  have hneg : neg64 b = 2 ^ 64 - ((b - 1) + 1) := by
    unfold neg64
    rw [Nat.mod_eq_of_lt (by omega)]
    omega
  apply Nat.eq_of_testBit_eq
  intro i
  rw [Nat.testBit_and, hneg, Nat.testBit_two_pow_sub_succ (by omega),
    testBit_pred_of_lowest b j hj hlow i, Nat.testBit_two_pow]
  by_cases h1 : i < j
  · have : ¬ j = i := by omega
    simp [h1, hlow i h1, this]
  · by_cases h2 : i = j
    · subst h2; simp [hj, hj64]
    · have h4 : ¬ j = i := fun e => h2 e.symm
      cases hbi : b.testBit i <;> simp [h1, h2, h4, hbi]

theorem sub64_two_pow_one (j : Nat) (hj : j < 64) : sub64 (2 ^ j) 1 = 2 ^ j - 1 := by
  unfold sub64
  have h1 := two_pow_lt_word j hj
  have h2 := Nat.two_pow_pos j
  have : 2 ^ j + 2 ^ 64 - 1 = (2 ^ j - 1) + 2 ^ 64 := by omega
  rw [this, Nat.add_mod_right, Nat.mod_eq_of_lt (by omega)]

theorem countP_lt_range (n j : Nat) (hj : j ≤ n) :
    (List.range n).countP (fun i => decide (i < j)) = j := by
  induction n with
  | zero => simp; omega
  | succ n ih =>
    rw [List.range_succ, List.countP_append]
    by_cases h : j = n + 1
    · subst h
      have : (List.range n).countP (fun i => decide (i < n + 1)) = n := by
        rw [List.countP_eq_length.mpr]
        · simp
        · intro a ha
          have := List.mem_range.mp ha
          simp; omega
      simp [this]
    · rw [ih (by omega)]
      have : ¬ n < j := by omega
      simp [this]

theorem popcount_two_pow_sub_one (j : Nat) (hj : j < 64) : popcount (2 ^ j - 1) = j := by
  unfold popcount
  simp only [Nat.testBit_two_pow_sub_one]
  exact countP_lt_range 64 j (by omega)

theorem filter_range_lowest (p q : Nat → Bool) (n j : Nat) (hjn : j < n)
    (hlow : ∀ i, i < j → p i = false) (hp : p j = true) (hq : q j = false)
    (hpq : ∀ i, i ≠ j → q i = p i) :
    (List.range n).filter p = j :: (List.range n).filter q := by
  obtain ⟨d, rfl⟩ : ∃ d, n = j + (1 + d) := ⟨n - j - 1, by omega⟩
  rw [List.range_add, List.range_add 1 d, List.map_append, List.filter_append,
    List.filter_append, List.filter_append, List.filter_append]
  have h1 : (List.range j).filter p = [] := by
    rw [List.filter_eq_nil_iff]
    intro a ha
    rw [hlow a (List.mem_range.mp ha)]
    simp
  have h2 : (List.range j).filter q = [] := by
    rw [List.filter_eq_nil_iff]
    intro a ha
    have := List.mem_range.mp ha
    rw [hpq a (by omega), hlow a this]
    simp
  have h3 : (List.map (fun x => j + x) (List.range 1)).filter p = [j] := by
    show List.filter p [j + 0] = [j]
    rw [Nat.add_zero, List.filter_cons, if_pos hp, List.filter_nil]
  have h4 : (List.map (fun x => j + x) (List.range 1)).filter q = [] := by
    show List.filter q [j + 0] = []
    rw [Nat.add_zero, List.filter_cons, if_neg (by rw [hq]; exact Bool.false_ne_true),
      List.filter_nil]
  have h5 : (List.map (fun x => j + x) (List.map (fun x => 1 + x) (List.range d))).filter q
      = (List.map (fun x => j + x) (List.map (fun x => 1 + x) (List.range d))).filter p := by
    apply List.filter_congr
    intro a ha
    simp only [List.mem_map, List.mem_range] at ha
    obtain ⟨y, ⟨z, _, rfl⟩, rfl⟩ := ha
    exact hpq _ (by omega)
  rw [h1, h2, h3, h4, h5]
  rfl

theorem wordPositions_lowest (b j : Nat) (hj64 : j < 64) (hj : b.testBit j = true)
    (hlow : ∀ i, i < j → b.testBit i = false) :
    wordPositions b = j :: wordPositions (b ^^^ 2 ^ j) := by
  unfold wordPositions
  apply filter_range_lowest _ _ 64 j hj64 hlow hj
  · rw [testBit_xor_two_pow]; simp [hj]
  · intro i hi
    have : ¬ j = i := fun e => hi e.symm
    rw [testBit_xor_two_pow]; simp [this]

theorem wordPositions_length (w : Nat) : (wordPositions w).length = popcount w := by
  unfold wordPositions popcount
  rw [List.countP_eq_length_filter]

theorem wordPositions_zero : wordPositions 0 = [] := by
  unfold wordPositions
  rw [List.filter_eq_nil_iff]
  intro a _
  simp

theorem mem_wordPositions (w i : Nat) : i ∈ wordPositions w ↔ i < 64 ∧ w.testBit i = true := by
  unfold wordPositions
  simp [List.mem_filter]

/-! ## Slice copies -/

theorem ext_getD (l1 l2 : List Nat) (hlen : l1.length = l2.length)
    (h : ∀ i, i < l1.length → l1.getD i 0 = l2.getD i 0) : l1 = l2 := by
  apply List.ext_getElem hlen
  intro i h1 h2
  have := h i h1
  simpa [List.getD_eq_getElem?_getD, List.getElem?_eq_getElem h1,
    List.getElem?_eq_getElem h2] using this

theorem writeFrom_length (vals : List Nat) : ∀ (out : List Nat) (pos : Nat),
    (writeFrom out pos vals).length = out.length := by
  induction vals with
  | nil => intro out pos; rfl
  | cons v vs ih =>
    intro out pos
    show (writeFrom (out.set pos v) (pos + 1) vs).length = out.length
    rw [ih, List.length_set]

theorem writeFrom_getD (vals : List Nat) : ∀ (out : List Nat) (pos i : Nat),
    (writeFrom out pos vals).getD i 0
      = if pos ≤ i ∧ i < pos + vals.length ∧ i < out.length then vals.getD (i - pos) 0
        else out.getD i 0 := by
  induction vals with
  | nil =>
    intro out pos i
    have : ¬ (pos ≤ i ∧ i < pos + ([] : List Nat).length ∧ i < out.length) := by
      simp only [List.length_nil]; omega
    rw [if_neg this]; rfl
  | cons v vs ih =>
    intro out pos i
    show (writeFrom (out.set pos v) (pos + 1) vs).getD i 0 = _
    rw [ih, List.length_set, getD_set_eq]
    simp only [List.length_cons]
    by_cases h1 : pos + 1 ≤ i ∧ i < pos + 1 + vs.length ∧ i < out.length
    · rw [if_pos h1, if_pos (by omega)]
      obtain ⟨d, hd⟩ : ∃ d, i - pos = d + 1 := ⟨i - pos - 1, by omega⟩
      rw [hd, List.getD_cons_succ]
      congr 1; omega
    · rw [if_neg h1]
      by_cases h2 : i = pos ∧ pos < out.length
      · rw [if_pos h2, if_pos (by omega)]
        have : i - pos = 0 := by omega
        rw [this]; rfl
      · rw [if_neg h2, if_neg (by omega)]

theorem writeFrom_append (a b : List Nat) : ∀ (out : List Nat) (pos : Nat),
    writeFrom out pos (a ++ b) = writeFrom (writeFrom out pos a) (pos + a.length) b := by
  induction a with
  | nil => intro out pos; rfl
  | cons v vs ih =>
    intro out pos
    show writeFrom (out.set pos v) (pos + 1) (vs ++ b) = _
    rw [ih]
    show _ = writeFrom (writeFrom (out.set pos v) (pos + 1) vs) (pos + (vs.length + 1)) b
    congr 1; omega

/-- Writing as many values as the buffer holds, from its start, leaves the values. -/
theorem writeFrom_full (out vals : List Nat) (h : vals.length = out.length) :
    writeFrom out 0 vals = vals := by
  apply ext_getD
  · rw [writeFrom_length, h]
  · intro i hi
    rw [writeFrom_length] at hi
    rw [writeFrom_getD, if_pos (by omega)]
    rfl

theorem bitmapContainer.clone_eq (bc : bitmapContainer) : bc.clone = bc := by
  unfold bitmapContainer.clone
  rw [writeFrom_full _ _ (by simp)]

/-! ## `fillArray` -/

theorem popcount_pos_of_ne_zero (b : Nat) (hb : b ≠ 0) (hw : b < 2 ^ 64) : 0 < popcount b := by
  obtain ⟨j, hj64, hj, hlow⟩ := exists_lowest_bit b hb hw
  rw [← wordPositions_length, wordPositions_lowest b j hj64 hj hlow]
  simp

theorem bitmapContainer.fillArray.inner_eq (k : Nat) (hk : k * 64 + 63 < 2 ^ 16) :
    ∀ (fuel bitset : Nat) (s : List Nat × Nat), bitset < 2 ^ 64 → popcount bitset ≤ fuel →
      bitmapContainer.fillArray.inner k fuel bitset s
        = (writeFrom s.1 s.2 ((wordPositions bitset).map (fun j => k * 64 + j)),
            s.2 + popcount bitset) := by
  intro fuel
  induction fuel with
  | zero =>
    intro bitset s hw hp
    have hb : bitset = 0 := by
      by_contra hb
      have := popcount_pos_of_ne_zero bitset hb hw
      omega
    subst hb
    unfold bitmapContainer.fillArray.inner
    rw [wordPositions_zero, popcount_zero]
    rfl
  | succ n ih =>
    intro bitset s hw hp
    unfold bitmapContainer.fillArray.inner
    by_cases hb : bitset = 0
    · subst hb
      rw [if_neg (by simp), wordPositions_zero, popcount_zero]
      rfl
    · rw [if_pos hb]
      obtain ⟨j, hj64, hj, hlow⟩ := exists_lowest_bit bitset hb hw
      have ht : bitset &&& neg64 bitset = 2 ^ j := and_neg64_of_lowest bitset j hw hj64 hj hlow
      simp only [ht]
      rw [sub64_two_pow_one j hj64, popcount_two_pow_sub_one j hj64]
      have hpc : popcount bitset = popcount (bitset ^^^ 2 ^ j) + 1 := by
        rw [← wordPositions_length, ← wordPositions_length,
          wordPositions_lowest bitset j hj64 hj hlow]
        rfl
      rw [ih (bitset ^^^ 2 ^ j) _ (Nat.xor_lt_two_pow hw (two_pow_lt_word j hj64)) (by omega),
        wordPositions_lowest bitset j hj64 hj hlow, hpc]
      have hmod : (k * 64 + j) % 2 ^ 16 = k * 64 + j := Nat.mod_eq_of_lt (by omega)
      simp only [hmod, List.map_cons]
      refine Prod.ext ?_ ?_
      · rfl
      · simp only; omega

theorem getBit_append_left (as bs : List Nat) (v : Nat) (hv : v < 64 * as.length) :
    getBit (as ++ bs) v = getBit as v := by
  unfold getBit
  have : v / 64 < as.length := by omega
  simp only [List.getD_eq_getElem?_getD]
  rw [List.getElem?_append_left this]

theorem getBit_append_right (as bs : List Nat) (v : Nat) :
    getBit (as ++ bs) (64 * as.length + v) = getBit bs v := by
  unfold getBit
  have h1 : (64 * as.length + v) / 64 = as.length + v / 64 := by omega
  have h2 : (64 * as.length + v) % 64 = v % 64 := by omega
  simp only [List.getD_eq_getElem?_getD]
  rw [h1, h2, List.getElem?_append_right (by omega)]
  congr 3
  omega

theorem setPositions_append (as bs : List Nat) :
    setPositions (as ++ bs)
      = setPositions as ++ (setPositions bs).map (fun v => 64 * as.length + v) := by
  unfold setPositions
  rw [List.length_append, Nat.mul_add, List.range_add, List.filter_append, List.filter_map]
  congr 1
  · apply List.filter_congr
    intro v hv
    exact getBit_append_left as bs v (List.mem_range.mp hv)
  · congr 1
    apply List.filter_congr
    intro v _
    simp only [Function.comp]
    exact getBit_append_right as bs v

theorem setPositions_singleton (w : Nat) : setPositions [w] = wordPositions w := by
  unfold setPositions wordPositions
  apply List.filter_congr
  intro v hv
  have := List.mem_range.mp hv
  exact getBit_cons_lt w [] v (by simpa using this)

theorem bitmapContainer.fillArray_fold (ws : List Nat) (hlen : ws.length ≤ 1024)
    (hw : ∀ w ∈ ws, w < 2 ^ 64) (c : List Nat) :
    ∀ n, n ≤ ws.length →
      (List.range n).foldl
          (fun s k => bitmapContainer.fillArray.inner k 65 (ws.getD k 0) s) (c, 0)
        = (writeFrom c 0 (setPositions (ws.take n)), popcntSlice (ws.take n)) := by
  intro n
  induction n with
  | zero => intro _; simp [setPositions, popcntSlice, writeFrom]
  | succ n ih =>
    intro hn
    have hn' : n < ws.length := by omega
    rw [List.range_succ, List.foldl_append, ih (by omega)]
    simp only [List.foldl_cons, List.foldl_nil]
    rw [bitmapContainer.fillArray.inner_eq n (by norm_num; omega) 65 _ _
      (getD_word_lt ws hw n) (by have := popcount_le (ws.getD n 0); omega)]
    have htake : ws.take (n + 1) = ws.take n ++ [ws.getD n 0] := by
      rw [List.take_succ, List.getD_eq_getElem?_getD, List.getElem?_eq_getElem hn']
      simp
    have hlt : (ws.take n).length = n := by simp; omega
    rw [htake, setPositions_append, popcntSlice_append, writeFrom_append, hlt,
      setPositions_singleton, setPositions_length]
    refine Prod.ext ?_ ?_
    · simp only [Nat.zero_add]
      congr 1
      apply List.map_congr_left
      intro a _
      omega
    · simp [popcntSlice]

/-- The method `fillArray`, on a buffer that has one entry for each set bit, leaves the
positions of the set bits in ascending order. -/
theorem bitmapContainer.fillArray_eq (bc : bitmapContainer) (hlen : bc.bitmap.length ≤ 1024)
    (hw : ∀ w ∈ bc.bitmap, w < 2 ^ 64) (c : List Nat) (hc : c.length = popcntSlice bc.bitmap) :
    bc.fillArray c = setPositions bc.bitmap := by
  unfold bitmapContainer.fillArray
  rw [bitmapContainer.fillArray_fold bc.bitmap hlen hw c _ (le_refl _), List.take_length]
  exact writeFrom_full _ _ (by rw [setPositions_length, hc])

theorem bitmapContainer.toArrayContainer_eq (bc : bitmapContainer) (h : bc.wf) :
    bc.toArrayContainer = ⟨setPositions bc.bitmap⟩ := by
  unfold bitmapContainer.toArrayContainer arrayContainer.loadData
  simp only
  rw [bitmapContainer.fillArray_eq bc (by rw [h.1]) h.2.1]
  rw [h.2.2]
  simp

theorem mem_setPositions (ws : List Nat) (v : Nat) :
    v ∈ setPositions ws ↔ v < 64 * ws.length ∧ getBit ws v = true := by
  unfold setPositions
  simp [List.mem_filter]

theorem mem_setPositions_iff (ws : List Nat) (v : Nat) :
    v ∈ setPositions ws ↔ getBit ws v = true := by
  rw [mem_setPositions]
  constructor
  · exact fun h => h.2
  · intro h
    refine ⟨?_, h⟩
    by_contra hge
    rw [getBit_ge ws v (by omega)] at h
    exact Bool.noConfusion h

theorem setPositions_ascending (ws : List Nat) :
    (setPositions ws).Pairwise (fun a b => a < b) := by
  unfold setPositions
  exact List.Pairwise.filter _ (List.pairwise_lt_range _)

theorem setPositions_wf (ws : List Nat) (hlen : ws.length = 1024) :
    arrayContainer.wf ⟨setPositions ws⟩ := by
  refine ⟨setPositions_ascending ws, ?_⟩
  intro v hv
  have := ((mem_setPositions ws v).mp hv).1
  rw [hlen] at this
  norm_num
  omega

/-! ## `arrayContainer.contains` -/

theorem arrayContainer.contains.search_iff (content : List Nat) (x : Nat)
    (hs : content.Pairwise (fun a b => a < b)) :
    ∀ (fuel lo hi : Nat), hi ≤ content.length → hi - lo < fuel →
      (arrayContainer.contains.search content x fuel lo hi = true ↔
        ∃ i, lo ≤ i ∧ i < hi ∧ content.getD i 0 = x) := by
  have hmono : ∀ i j, i < j → j < content.length → content.getD i 0 < content.getD j 0 := by
    intro i j hij hj
    have := ascending_getD content hs i j (by omega) (by omega) (by omega)
    simpa using this
  intro fuel
  induction fuel with
  | zero => intro lo hi _ hf; omega
  | succ n ih =>
    intro lo hi hhi hf
    unfold arrayContainer.contains.search
    by_cases hlt : lo < hi
    · rw [if_pos hlt]
      simp only
      have hm1 : lo ≤ (lo + hi) / 2 := by omega
      have hm2 : (lo + hi) / 2 < hi := by omega
      by_cases h1 : content.getD ((lo + hi) / 2) 0 < x
      · rw [if_pos h1, ih _ _ hhi (by omega)]
        constructor
        · rintro ⟨i, hi1, hi2, hi3⟩; exact ⟨i, by omega, hi2, hi3⟩
        · rintro ⟨i, hi1, hi2, hi3⟩
          refine ⟨i, ?_, hi2, hi3⟩
          by_contra hcon
          by_cases he : i = (lo + hi) / 2
          · rw [he] at hi3; omega
          · have := hmono i ((lo + hi) / 2) (by omega) (by omega)
            omega
      · rw [if_neg h1]
        by_cases h2 : x < content.getD ((lo + hi) / 2) 0
        · rw [if_pos h2, ih _ _ (by omega) (by omega)]
          constructor
          · rintro ⟨i, hi1, hi2, hi3⟩; exact ⟨i, hi1, by omega, hi3⟩
          · rintro ⟨i, hi1, hi2, hi3⟩
            refine ⟨i, hi1, ?_, hi3⟩
            by_contra hcon
            by_cases he : i = (lo + hi) / 2
            · rw [he] at hi3; omega
            · have := hmono ((lo + hi) / 2) i (by omega) (by omega)
              omega
        · rw [if_neg h2]
          simp only [true_iff]
          exact ⟨(lo + hi) / 2, hm1, hm2, by omega⟩
    · rw [if_neg hlt]
      simp only [Bool.false_eq_true, false_iff]
      rintro ⟨i, hi1, hi2, _⟩
      omega

/-- On a strictly ascending content the binary search of `contains` decides membership. -/
theorem arrayContainer.contains_iff (ac : arrayContainer) (hs : ac.wf) (x : Nat) :
    ac.contains x = true ↔ x ∈ ac.content := by
  unfold arrayContainer.contains
  rw [arrayContainer.contains.search_iff ac.content x hs.1 _ 0 _ (le_refl _) (by omega)]
  constructor
  · rintro ⟨i, _, hi2, hi3⟩
    rw [← hi3, List.getD_eq_getElem?_getD, List.getElem?_eq_getElem hi2]
    exact List.getElem_mem hi2
  · intro hx
    obtain ⟨i, hi, hxi⟩ := List.getElem_of_mem hx
    refine ⟨i, Nat.zero_le _, hi, ?_⟩
    rw [List.getD_eq_getElem?_getD, List.getElem?_eq_getElem hi]
    exact hxi

/-- The array container of a downgrade holds exactly the set bits of the bitmap container. -/
theorem bitmapContainer.toArrayContainer_contains (bc : bitmapContainer) (h : bc.wf) (v : Nat) :
    bc.toArrayContainer.contains v = getBit bc.bitmap v := by
  rw [bitmapContainer.toArrayContainer_eq bc h]
  have := arrayContainer.contains_iff ⟨setPositions bc.bitmap⟩ (setPositions_wf _ h.1) v
  rw [mem_setPositions_iff] at this
  cases hb : getBit bc.bitmap v
  · cases hc : arrayContainer.contains ⟨setPositions bc.bitmap⟩ v
    · rfl
    · rw [this.mp hc] at hb; exact Bool.noConfusion hb
  · exact this.mpr hb

theorem bitmapContainer.toArrayContainer_card (bc : bitmapContainer) (h : bc.wf) :
    bc.toArrayContainer.getCardinality = bc.cardinality := by
  rw [bitmapContainer.toArrayContainer_eq bc h]
  unfold arrayContainer.getCardinality
  simp only
  rw [setPositions_length, h.2.2]

theorem popcntSlice_replicate (n w : Nat) : popcntSlice (List.replicate n w) = n * popcount w := by
  induction n with
  | zero => simp [popcntSlice]
  | succ n ih => rw [List.replicate_succ, popcntSlice_cons, ih]; ring

theorem newBitmapContainer_eq : newBitmapContainer = ⟨0, List.replicate 1024 0⟩ := rfl

theorem newBitmapContainer_wf : newBitmapContainer.wf := by
  rw [newBitmapContainer_eq]
  refine ⟨List.length_replicate _ _, ?_, ?_⟩
  · intro w hw
    rw [(List.mem_replicate.mp hw).2]
    norm_num
  · show (0 : Int) = ((popcntSlice (List.replicate 1024 0) : Nat) : Int)
    rw [popcntSlice_replicate, popcount_zero]
    rfl

/-! ## Setting, clearing and flipping one bit -/

theorem bitSet_length (ws : List Nat) (v : Nat) : (bitSet ws v).length = ws.length := by
  simp [bitSet]

theorem bitClear_length (ws : List Nat) (v : Nat) : (bitClear ws v).length = ws.length := by
  simp [bitClear]

theorem bitFlip_length (ws : List Nat) (v : Nat) : (bitFlip ws v).length = ws.length := by
  simp [bitFlip]

theorem bitSet_word_lt (ws : List Nat) (hw : ∀ w ∈ ws, w < 2 ^ 64) (v : Nat) :
    ∀ w ∈ bitSet ws v, w < 2 ^ 64 :=
  set_word_lt _ hw _ _
    (Nat.or_lt_two_pow (getD_word_lt _ hw _) (two_pow_lt_word _ (Nat.mod_lt _ (by norm_num))))

theorem bitClear_word_lt (ws : List Nat) (hw : ∀ w ∈ ws, w < 2 ^ 64) (v : Nat) :
    ∀ w ∈ bitClear ws v, w < 2 ^ 64 :=
  set_word_lt _ hw _ _ (andNot64_lt _ _ (getD_word_lt _ hw _))

theorem bitFlip_word_lt (ws : List Nat) (hw : ∀ w ∈ ws, w < 2 ^ 64) (v : Nat) :
    ∀ w ∈ bitFlip ws v, w < 2 ^ 64 :=
  set_word_lt _ hw _ _
    (Nat.xor_lt_two_pow (getD_word_lt _ hw _) (two_pow_lt_word _ (Nat.mod_lt _ (by norm_num))))

theorem getBit_bitSet (ws : List Nat) (v u : Nat) (hv : v / 64 < ws.length) :
    getBit (bitSet ws v) u = (getBit ws u || decide (u = v)) := getBit_set_or ws v u hv

theorem getBit_bitClear (ws : List Nat) (hw : ∀ w ∈ ws, w < 2 ^ 64) (v u : Nat)
    (hv : v / 64 < ws.length) :
    getBit (bitClear ws v) u = (getBit ws u && !decide (u = v)) := getBit_set_andNot ws hw v u hv

theorem getBit_bitFlip (ws : List Nat) (v u : Nat) (hv : v / 64 < ws.length) :
    getBit (bitFlip ws v) u = (getBit ws u != decide (u = v)) := getBit_set_xor ws v u hv

theorem popcntSlice_bitSet (ws : List Nat) (v : Nat) (hv : v / 64 < ws.length) :
    popcntSlice (bitSet ws v) = popcntSlice ws + (!getBit ws v).toNat := popcntSlice_set_or ws v hv

theorem popcntSlice_bitClear (ws : List Nat) (hw : ∀ w ∈ ws, w < 2 ^ 64) (v : Nat)
    (hv : v / 64 < ws.length) :
    (popcntSlice (bitClear ws v) : Int) = popcntSlice ws - ((getBit ws v).toNat : Int) :=
  popcntSlice_set_andNot ws hw v hv

theorem popcntSlice_bitFlip (ws : List Nat) (v : Nat) (hv : v / 64 < ws.length) :
    (popcntSlice (bitFlip ws v) : Int) = popcntSlice ws + (1 - 2 * ((getBit ws v).toNat : Int)) :=
  popcntSlice_set_xor ws v hv

/-! ## `add` and `remove` as bit updates -/

theorem bitmapContainer.add_eq (bc : bitmapContainer) (x : Nat) :
    bc.add x =
      ⟨⟨bc.cardinality + ((!getBit bc.bitmap x).toNat : Int), bitSet bc.bitmap x⟩,
        .bitmap ⟨bc.cardinality + ((!getBit bc.bitmap x).toNat : Int), bitSet bc.bitmap x⟩⟩ := by
  have hm : shl64 1 (x % 64) = 2 ^ (x % 64) := shl64_one _ (Nat.mod_lt _ (by norm_num))
  unfold bitmapContainer.add
  simp only [hm, xor_or_two_pow_shiftRight]
  rfl

theorem bitmapContainer.remove_eq (bc : bitmapContainer) (x : Nat) :
    bc.remove x =
      if getBit bc.bitmap x = true then
        if bc.cardinality - 1 = arrayDefaultMaxSize then
          ⟨⟨bc.cardinality - 1, bitClear bc.bitmap x⟩,
            .array (bitmapContainer.toArrayContainer ⟨bc.cardinality - 1, bitClear bc.bitmap x⟩)⟩
        else
          ⟨⟨bc.cardinality - 1, bitClear bc.bitmap x⟩,
            .bitmap ⟨bc.cardinality - 1, bitClear bc.bitmap x⟩⟩
      else ⟨bc, .bitmap bc⟩ := by
  have hm : shl64 1 (x % 64) = 2 ^ (x % 64) := shl64_one _ (Nat.mod_lt _ (by norm_num))
  unfold bitmapContainer.remove
  rw [bitmapContainer.contains_eq_getBit]
  simp only [hm]
  rfl

theorem bitmapContainer.wf_bitSet (bc : bitmapContainer) (h : bc.wf) (x : Nat) (hx : x < 2 ^ 16) :
    bitmapContainer.wf
      ⟨bc.cardinality + ((!getBit bc.bitmap x).toNat : Int), bitSet bc.bitmap x⟩ := by
  refine ⟨by rw [bitSet_length]; exact h.1, bitSet_word_lt _ h.2.1 _, ?_⟩
  show bc.cardinality + _ = ((popcntSlice (bitSet bc.bitmap x) : Nat) : Int)
  rw [popcntSlice_bitSet _ _ (h.pos_lt x hx), h.2.2]
  push_cast
  rfl

theorem bitmapContainer.wf_bitClear (bc : bitmapContainer) (h : bc.wf) (x : Nat)
    (hx : x < 2 ^ 16) :
    bitmapContainer.wf
      ⟨bc.cardinality - ((getBit bc.bitmap x).toNat : Int), bitClear bc.bitmap x⟩ := by
  refine ⟨by rw [bitClear_length]; exact h.1, bitClear_word_lt _ h.2.1 _, ?_⟩
  show bc.cardinality - _ = ((popcntSlice (bitClear bc.bitmap x) : Nat) : Int)
  rw [popcntSlice_bitClear _ h.2.1 _ (h.pos_lt x hx), h.2.2]

theorem bitmapContainer.wf_bitFlip (bc : bitmapContainer) (h : bc.wf) (x : Nat)
    (hx : x < 2 ^ 16) :
    bitmapContainer.wf
      ⟨bc.cardinality + (1 - 2 * ((getBit bc.bitmap x).toNat : Int)), bitFlip bc.bitmap x⟩ := by
  refine ⟨by rw [bitFlip_length]; exact h.1, bitFlip_word_lt _ h.2.1 _, ?_⟩
  show bc.cardinality + _ = ((popcntSlice (bitFlip bc.bitmap x) : Nat) : Int)
  rw [popcntSlice_bitFlip _ _ (h.pos_lt x hx), h.2.2]

/-- C7: on a well-formed bitmap container and `x`, `y` in `0..65535`: `add(x)` returns its
receiver, which then contains `x`, agrees with the old container on every `y != x`, and has a
cardinality grown by 1 if `x` was absent and by 0 if it was present; the container returned by
`remove(x)` does not contain `x`, agrees with the old container on every `y != x`, and has a
cardinality one less if `x` was present and the same if it was absent. -/
theorem add_remove_correct (bc : bitmapContainer) (h : bc.wf) (x y : Nat) (hx : x < 2 ^ 16)
    (hy : y < 2 ^ 16) :
    (bc.add x).ret = .bitmap (bc.add x).self ∧
    (bc.add x).self.contains x = true ∧
    (y ≠ x → (bc.add x).self.contains y = bc.contains y) ∧
    (bc.add x).self.getCardinality
      = bc.getCardinality + (if bc.contains x = true then 0 else 1) ∧
    (bc.remove x).ret.contains x = false ∧
    (y ≠ x → (bc.remove x).ret.contains y = bc.contains y) ∧
    (bc.remove x).ret.getCardinality
      = bc.getCardinality - (if bc.contains x = true then 1 else 0) := by
  have hpos := h.pos_lt x hx
  have _hy := hy
  refine ⟨?_, ?_, ?_, ?_, ?_, ?_, ?_⟩
  · rw [bitmapContainer.add_eq]
  · rw [bitmapContainer.add_eq, bitmapContainer.contains_eq_getBit]
    show getBit (bitSet bc.bitmap x) x = true
    rw [getBit_bitSet _ _ _ hpos]
    simp
  · intro hne
    rw [bitmapContainer.add_eq, bitmapContainer.contains_eq_getBit,
      bitmapContainer.contains_eq_getBit]
    show getBit (bitSet bc.bitmap x) y = _
    rw [getBit_bitSet _ _ _ hpos]
    simp [hne]
  · rw [bitmapContainer.add_eq, bitmapContainer.contains_eq_getBit]
    show bc.cardinality + _ = bc.cardinality + _
    cases getBit bc.bitmap x <;> simp
  · rw [bitmapContainer.remove_eq]
    by_cases hb : getBit bc.bitmap x = true
    · have hwf : bitmapContainer.wf ⟨bc.cardinality - 1, bitClear bc.bitmap x⟩ := by
        have := bitmapContainer.wf_bitClear bc h x hx
        rw [hb] at this
        exact this
      rw [if_pos hb]
      by_cases hc : bc.cardinality - 1 = arrayDefaultMaxSize
      · rw [if_pos hc]
        show (bitmapContainer.toArrayContainer _).contains x = false
        rw [bitmapContainer.toArrayContainer_contains _ hwf]
        show getBit (bitClear bc.bitmap x) x = false
        rw [getBit_bitClear _ h.2.1 _ _ hpos]
        simp
      · rw [if_neg hc]
        show bitmapContainer.contains _ x = false
        rw [bitmapContainer.contains_eq_getBit]
        show getBit (bitClear bc.bitmap x) x = false
        rw [getBit_bitClear _ h.2.1 _ _ hpos]
        simp
    · rw [if_neg hb]
      show bc.contains x = false
      rw [bitmapContainer.contains_eq_getBit]
      simpa using hb
  · intro hne
    rw [bitmapContainer.remove_eq]
    by_cases hb : getBit bc.bitmap x = true
    · have hwf : bitmapContainer.wf ⟨bc.cardinality - 1, bitClear bc.bitmap x⟩ := by
        have := bitmapContainer.wf_bitClear bc h x hx
        rw [hb] at this
        exact this
      rw [if_pos hb, bitmapContainer.contains_eq_getBit]
      by_cases hc : bc.cardinality - 1 = arrayDefaultMaxSize
      · rw [if_pos hc]
        show (bitmapContainer.toArrayContainer _).contains y = _
        rw [bitmapContainer.toArrayContainer_contains _ hwf]
        show getBit (bitClear bc.bitmap x) y = _
        rw [getBit_bitClear _ h.2.1 _ _ hpos]
        simp [hne]
      · rw [if_neg hc]
        show bitmapContainer.contains _ y = _
        rw [bitmapContainer.contains_eq_getBit]
        show getBit (bitClear bc.bitmap x) y = _
        rw [getBit_bitClear _ h.2.1 _ _ hpos]
        simp [hne]
    · rw [if_neg hb]
      rfl
  · rw [bitmapContainer.remove_eq, bitmapContainer.contains_eq_getBit]
    by_cases hb : getBit bc.bitmap x = true
    · have hwf : bitmapContainer.wf ⟨bc.cardinality - 1, bitClear bc.bitmap x⟩ := by
        have := bitmapContainer.wf_bitClear bc h x hx
        rw [hb] at this
        exact this
      rw [if_pos hb, if_pos hb]
      by_cases hc : bc.cardinality - 1 = arrayDefaultMaxSize
      · rw [if_pos hc]
        show (bitmapContainer.toArrayContainer _).getCardinality = _
        rw [bitmapContainer.toArrayContainer_card _ hwf]
        rfl
      · rw [if_neg hc]
        rfl
    · rw [if_neg hb, if_neg hb]
      show bc.cardinality = bc.cardinality - 0
      omega

/-- C7 at the container holding 5 and 70: adding 9 and removing 5. -/
theorem add_remove_correct_witness :
    ((newBitmapContainer.add 5).self.add 70).self.wf ∧
    ((((newBitmapContainer.add 5).self.add 70).self.add 9).self.contains 9 = true) ∧
    ((((newBitmapContainer.add 5).self.add 70).self.remove 5).ret.contains 5 = false) :=
  have hwf : ((newBitmapContainer.add 5).self.add 70).self.wf := by
    rw [bitmapContainer.add_eq, bitmapContainer.add_eq]
    exact bitmapContainer.wf_bitSet _
      (bitmapContainer.wf_bitSet _ newBitmapContainer_wf 5 (by norm_num)) 70 (by norm_num)
  ⟨hwf,
    (add_remove_correct _ hwf 9 5 (by norm_num) (by norm_num)).2.1,
    (add_remove_correct _ hwf 5 9 (by norm_num) (by norm_num)).2.2.2.2.1⟩

/-- C2 at a concrete array of 20 keys: from `pos = 2` the first key `>= 25` is at index 13. -/
theorem advanceUntil_correct_witness :
    ∃ r : Int, roaringArray.advanceUntil
      ⟨[0, 2, 4, 6, 8, 10, 12, 14, 16, 18, 20, 22, 24, 26, 28, 30, 32, 34, 36, 38], [], []⟩
      25 2 = some r ∧ 2 < r ∧ r ≤ 20 := by
  obtain ⟨r, hr, h1, h2, _⟩ := advanceUntil_correct
    ⟨[0, 2, 4, 6, 8, 10, 12, 14, 16, 18, 20, 22, 24, 26, 28, 30, 32, 34, 36, 38], [], []⟩
    25 2 (by decide) (by decide) (by decide)
  exact ⟨r, hr, h1, h2⟩

/-! ## `rank` -/

theorem getBit_take (ws : List Nat) (q v : Nat) (hv : v < 64 * q) :
    getBit (ws.take q) v = getBit ws v := by
  unfold getBit
  have : v / 64 < q := by omega
  simp only [List.getD_eq_getElem?_getD]
  rw [List.getElem?_take, if_pos this]

theorem countP_getBit_take (ws : List Nat) (q : Nat) (hq : q ≤ ws.length) :
    (List.range (64 * q)).countP (getBit ws) = popcntSlice (ws.take q) := by
  rw [popcntSlice_eq_countP, List.length_take, Nat.min_eq_left hq]
  apply countP_range_congr
  intro i hi
  rw [getBit_take ws q i hi]

theorem countP_range_shift (f : Nat → Bool) (s n : Nat) (hs : s ≤ n) :
    (List.range n).countP (fun i => decide (s ≤ i) && f (i - s))
      = (List.range (n - s)).countP f := by
  obtain ⟨d, rfl⟩ := Nat.exists_eq_add_of_le hs
  rw [List.range_add, List.countP_append, List.countP_map]
  have h1 : (List.range s).countP (fun i => decide (s ≤ i) && f (i - s)) = 0 := by
    rw [List.countP_eq_zero]
    intro a ha
    have := List.mem_range.mp ha
    simp; omega
  rw [h1, Nat.zero_add, Nat.add_sub_cancel_left]
  apply countP_range_congr
  intro i _
  simp

theorem testBit_shl64 (w s i : Nat) :
    (shl64 w s).testBit i = (decide (i < 64) && (decide (s ≤ i) && w.testBit (i - s))) := by
  unfold shl64
  rw [Nat.testBit_mod_two_pow, Nat.testBit_shiftLeft]

/-- The popcount of a word shifted left by `64 - r` counts the `r` lowest bits of the word. -/
theorem popcount_shl64 (w r : Nat) (hr : r ≤ 64) :
    popcount (shl64 w (64 - r)) = (List.range r).countP (fun i => w.testBit i) := by
  unfold popcount
  have h1 : (List.range 64).countP (fun i => (shl64 w (64 - r)).testBit i)
      = (List.range 64).countP (fun i => decide (64 - r ≤ i) && w.testBit (i - (64 - r))) := by
    apply countP_range_congr
    intro i hi
    rw [testBit_shl64]
    simp [hi]
  rw [h1, countP_range_shift (fun i => w.testBit i) (64 - r) 64 (by omega)]
  congr 2
  omega

theorem and_63 (n : Nat) : n &&& 63 = n % 64 :=
  Nat.and_pow_two_sub_one_eq_mod n 6

theorem bitmapContainer.rank_eq (bc : bitmapContainer) (hlen : bc.bitmap.length = 1024) (x : Nat)
    (hx : x < 2 ^ 16) :
    bc.rank x = (((List.range (x + 1)).countP (getBit bc.bitmap) : Nat) : Int) := by
  have hq : (x + 1) / 64 ≤ bc.bitmap.length := by rw [hlen]; omega
  have hsplit : x + 1 = 64 * ((x + 1) / 64) + (x + 1) % 64 := (Nat.div_add_mod _ _).symm
  have hcount : (List.range (x + 1)).countP (getBit bc.bitmap)
      = popcntSlice (bc.bitmap.take ((x + 1) / 64))
        + (List.range ((x + 1) % 64)).countP
            (fun i => (bc.bitmap.getD ((x + 1) / 64) 0).testBit i) := by
    conv_lhs => rw [hsplit]
    rw [List.range_add, List.countP_append, List.countP_map, countP_getBit_take _ _ hq]
    congr 1
    apply countP_range_congr
    intro i hi
    simp only [Function.comp]
    unfold getBit
    have h1 : (64 * ((x + 1) / 64) + i) / 64 = (x + 1) / 64 := by omega
    have h2 : (64 * ((x + 1) / 64) + i) % 64 = i := by omega
    rw [h1, h2]
  unfold bitmapContainer.rank
  simp only [and_63]
  rw [hcount]
  by_cases h0 : (x + 1) % 64 = 0
  · rw [if_pos h0, h0]
    simp
  · rw [if_neg h0, popcount_shl64 _ _ (by omega)]

/-- C8: for a bitmap container of 1024 words and `x` in `0..65535`, `rank(x)` is the number of
`v` in `0..x` (inclusive) with `contains(v)`; `rank(65535)` is the popcount of all the words, and
when `(x + 1) mod 64 == 0` the rank is the popcount of the complete words `bitmap[:(x+1)/64]`. -/
theorem rank_correct (bc : bitmapContainer) (hlen : bc.bitmap.length = 1024) (x : Nat)
    (hx : x < 2 ^ 16) :
    bc.rank x = (((List.range (x + 1)).countP (fun v => bc.contains v) : Nat) : Int) ∧
    bc.rank 65535 = ((popcntSlice bc.bitmap : Nat) : Int) ∧
    ((x + 1) % 64 = 0 →
      bc.rank x = ((popcntSlice (bc.bitmap.take ((x + 1) / 64)) : Nat) : Int)) := by
  have hfun : (fun v => bc.contains v) = getBit bc.bitmap := by
    funext v; exact bitmapContainer.contains_eq_getBit bc v
  refine ⟨?_, ?_, ?_⟩
  · rw [hfun]; exact bitmapContainer.rank_eq bc hlen x hx
  · rw [bitmapContainer.rank_eq bc hlen 65535 (by norm_num), popcntSlice_eq_count _ hlen]
  · intro h0
    unfold bitmapContainer.rank
    simp only [and_63]
    rw [if_pos h0]

/-- C8 at the container holding 5 and 70: two values are at most 100. -/
theorem rank_correct_witness :
    ((newBitmapContainer.add 5).self.add 70).self.rank 65535
      = ((popcntSlice ((newBitmapContainer.add 5).self.add 70).self.bitmap : Nat) : Int) :=
  (rank_correct ((newBitmapContainer.add 5).self.add 70).self
    (by rw [bitmapContainer.add_eq, bitmapContainer.add_eq]
        exact (bitmapContainer.wf_bitSet _
          (bitmapContainer.wf_bitSet _ newBitmapContainer_wf 5 (by norm_num)) 70
            (by norm_num)).1)
    100 (by norm_num)).2.1

/-! ## The sorted list of the set positions -/

theorem filter_range_getD (p : Nat → Bool) (n v : Nat) (hv : v < n) (hp : p v = true) :
    (List.range v).countP p < ((List.range n).filter p).length ∧
      ((List.range n).filter p).getD ((List.range v).countP p) 0 = v := by
  obtain ⟨d, rfl⟩ : ∃ d, n = v + (1 + d) := ⟨n - v - 1, by omega⟩
  have h3 : (List.map (fun x => v + x) (List.range (1 + d))).filter p
      = v :: (List.map (fun x => v + x) (List.map (fun x => 1 + x) (List.range d))).filter p := by
    rw [List.range_add 1 d, List.map_append, List.filter_append]
    show List.filter p [v + 0] ++ _ = _
    rw [Nat.add_zero, List.filter_cons, if_pos hp, List.filter_nil]
    rfl
  rw [List.range_add, List.filter_append, h3, List.countP_eq_length_filter]
  constructor
  · simp
  · rw [List.getD_eq_getElem?_getD, List.getElem?_append_right (le_refl _), Nat.sub_self]
    simp

theorem nodup_getD_inj (l : List Nat) (hnd : l.Nodup) (i j : Nat) (hi : i < l.length)
    (hj : j < l.length) (h : l.getD i 0 = l.getD j 0) : i = j := by
  rw [List.getD_eq_getElem?_getD, List.getD_eq_getElem?_getD, List.getElem?_eq_getElem hi,
    List.getElem?_eq_getElem hj] at h
  exact (List.Nodup.getElem_inj_iff hnd).mp (by simpa using h)

theorem filter_range_countP (p : Nat → Bool) (n k : Nat)
    (hk : k < ((List.range n).filter p).length) :
    ((List.range n).filter p).getD k 0 < n ∧ p (((List.range n).filter p).getD k 0) = true ∧
      (List.range (((List.range n).filter p).getD k 0)).countP p = k := by
  have hmem : ((List.range n).filter p).getD k 0 ∈ (List.range n).filter p := by
    rw [List.getD_eq_getElem?_getD, List.getElem?_eq_getElem hk]
    exact List.getElem_mem hk
  have h1 := List.mem_filter.mp hmem
  have hlt := List.mem_range.mp h1.1
  refine ⟨hlt, h1.2, ?_⟩
  obtain ⟨hc, hg⟩ := filter_range_getD p n _ hlt h1.2
  have hnd : ((List.range n).filter p).Nodup := (List.nodup_range n).filter _
  exact nodup_getD_inj _ hnd _ _ hc hk hg

/-! ## `selectInt` -/

theorem setPositions_cons (w : Nat) (ws : List Nat) :
    setPositions (w :: ws) = wordPositions w ++ (setPositions ws).map (fun v => 64 + v) := by
  have := setPositions_append [w] ws
  rw [setPositions_singleton] at this
  simpa using this

theorem drop_eq_getD_cons (ws : List Nat) (k : Nat) (hk : k < ws.length) :
    ws.drop k = ws.getD k 0 :: ws.drop (k + 1) := by
  rw [List.getD_eq_getElem?_getD, List.getElem?_eq_getElem hk]
  exact List.drop_eq_getElem_cons hk

theorem bitmapContainer.selectInt.loop_eq (ws : List Nat) :
    ∀ (n k rem : Nat), n + k = ws.length → rem < 2 ^ 16 →
      bitmapContainer.selectInt.loop ws n k rem
        = if rem < popcntSlice (ws.drop k)
          then ((64 * k + (setPositions (ws.drop k)).getD rem 0 : Nat) : Int) else -1 := by
  intro n
  induction n with
  | zero =>
    intro k rem hk _
    have : ws.drop k = [] := List.drop_eq_nil_of_le (by omega)
    rw [this, popcntSlice_nil, if_neg (by omega)]
    rfl
  | succ n ih =>
    intro k rem hk hrem
    unfold bitmapContainer.selectInt.loop
    have hpw := popcount_le (ws.getD k 0)
    have hmod : popcount (ws.getD k 0) % 2 ^ 16 = popcount (ws.getD k 0) :=
      Nat.mod_eq_of_lt (by omega)
    simp only [hmod]
    rw [drop_eq_getD_cons ws k (by omega), popcntSlice_cons, setPositions_cons]
    generalize ws.getD k 0 = w at *
    by_cases hgt : popcount w > rem
    · rw [if_pos hgt, if_pos (by omega)]
      unfold selectBitPosition
      have hl : rem < (wordPositions w).length := by
        rw [wordPositions_length]; exact hgt
      rw [List.getD_eq_getElem?_getD, List.getD_eq_getElem?_getD,
        List.getElem?_append_left hl]
      congr 2
      omega
    · rw [if_neg hgt]
      have hrem2 : (rem + 2 ^ 16 - popcount w) % 2 ^ 16 = rem - popcount w := by
        have : rem + 2 ^ 16 - popcount w = (rem - popcount w) + 2 ^ 16 := by omega
        rw [this, Nat.add_mod_right, Nat.mod_eq_of_lt (by omega)]
      rw [hrem2, ih (k + 1) _ (by omega) (by omega)]
      generalize ws.drop (k + 1) = rest at *
      by_cases hlt : rem - popcount w < popcntSlice rest
      · rw [if_pos hlt, if_pos (by omega)]
        have hl : (wordPositions w).length ≤ rem := by
          rw [wordPositions_length]; omega
        have hl2 : rem - popcount w < (setPositions rest).length := by
          rw [setPositions_length]; exact hlt
        rw [List.getD_eq_getElem?_getD, List.getD_eq_getElem?_getD,
          List.getElem?_append_right hl, wordPositions_length, List.getElem?_map,
          List.getElem?_eq_getElem hl2]
        simp only [Option.map_some', Option.getD_some]
        push_cast
        omega
      · rw [if_neg hlt, if_neg (by omega)]

/-- The method `selectInt(k)` returns the `k`-th set position, ascending from 0, or `-1` when
the words hold at most `k` set bits. -/
theorem bitmapContainer.selectInt_eq (bc : bitmapContainer) (k : Nat) (hk : k < 2 ^ 16) :
    bc.selectInt k
      = if k < popcntSlice bc.bitmap then (((setPositions bc.bitmap).getD k 0 : Nat) : Int)
        else -1 := by
  unfold bitmapContainer.selectInt
  simp only
  rw [bitmapContainer.selectInt.loop_eq bc.bitmap _ 0 k (by omega) hk]
  simp

theorem countP_range_succ (p : Nat → Bool) (v : Nat) :
    (List.range (v + 1)).countP p = (List.range v).countP p + (if p v then 1 else 0) := by
  rw [List.range_succ, List.countP_append]
  simp [List.countP_cons]

theorem bitmapContainer.add_wf (bc : bitmapContainer) (h : bc.wf) (x : Nat) (hx : x < 2 ^ 16) :
    (bc.add x).self.wf := by
  rw [bitmapContainer.add_eq]
  exact bitmapContainer.wf_bitSet bc h x hx

theorem bitmapContainer.add_contains (bc : bitmapContainer) (h : bc.wf) (x : Nat)
    (hx : x < 2 ^ 16) : (bc.add x).self.contains x = true := by
  rw [bitmapContainer.add_eq, bitmapContainer.contains_eq_getBit]
  show getBit (bitSet bc.bitmap x) x = true
  rw [getBit_bitSet _ _ _ (h.pos_lt x hx)]
  simp

theorem toNat_emod_cast (n : Nat) (hn : n < 2 ^ 16) : (((n : Int)) % 2 ^ 16).toNat = n := by
  have : ((n : Int)) % 2 ^ 16 = n := Int.emod_eq_of_lt (by omega) (by norm_num; omega)
  rw [this]; rfl

/-- C9: on a well-formed bitmap container, `selectInt(rank(v) - 1) == v` for every contained
`v`, `rank(selectInt(k)) == k + 1` for every `k` below the cardinality, and `selectInt(k)`
returns `-1` exactly when `k` is at least the number of set bits (`k` a `uint16`; the arguments
pass through the `uint16` conversions of the signatures). -/
theorem rank_select_roundtrip (bc : bitmapContainer) (h : bc.wf) :
    (∀ v, v < 2 ^ 16 → bc.contains v = true →
      bc.selectInt ((bc.rank v - 1) % 2 ^ 16).toNat = v) ∧
    (∀ k : Nat, k < 2 ^ 16 → (k : Int) < bc.getCardinality →
      bc.rank ((bc.selectInt k) % 2 ^ 16).toNat = k + 1) ∧
    (∀ k : Nat, k < 2 ^ 16 →
      (bc.selectInt k = -1 ↔ (List.range 65536).countP (fun v => bc.contains v) ≤ k)) := by
  have hfun : (fun v => bc.contains v) = getBit bc.bitmap := by
    funext v; exact bitmapContainer.contains_eq_getBit bc v
  have hP : setPositions bc.bitmap = (List.range 65536).filter (getBit bc.bitmap) := by
    unfold setPositions; rw [h.1]
  refine ⟨?_, ?_, ?_⟩
  · intro v hv hc
    rw [bitmapContainer.contains_eq_getBit] at hc
    obtain ⟨h1, h2⟩ := filter_range_getD (getBit bc.bitmap) 65536 v (by omega) hc
    have hle : (List.range v).countP (getBit bc.bitmap) ≤ v := by
      have := List.countP_le_length (getBit bc.bitmap) (l := List.range v)
      simpa using this
    rw [bitmapContainer.rank_eq bc h.1 v hv, countP_range_succ, hc]
    simp only [if_true]
    have e : ((((List.range v).countP (getBit bc.bitmap) + 1 : Nat) : Int) - 1)
        = (((List.range v).countP (getBit bc.bitmap) : Nat) : Int) := by
      push_cast; omega
    rw [e, toNat_emod_cast _ (by omega), bitmapContainer.selectInt_eq bc _ (by omega)]
    rw [← setPositions_length, hP, if_pos h1, h2]
  · intro k hk hcard
    have hk2 : k < popcntSlice bc.bitmap := by
      have : bc.getCardinality = bc.cardinality := rfl
      rw [this, h.2.2] at hcard
      exact_mod_cast hcard
    have hk3 : k < ((List.range 65536).filter (getBit bc.bitmap)).length := by
      rw [← hP, setPositions_length]; exact hk2
    obtain ⟨h1, h2, h3⟩ := filter_range_countP (getBit bc.bitmap) 65536 k hk3
    rw [bitmapContainer.selectInt_eq bc k hk, if_pos hk2, hP,
      toNat_emod_cast _ (by omega),
      bitmapContainer.rank_eq bc h.1 _ (by omega), countP_range_succ, h2, h3]
    simp
  · intro k hk
    rw [bitmapContainer.selectInt_eq bc k hk, hfun, ← popcntSlice_eq_count _ h.1]
    by_cases hlt : k < popcntSlice bc.bitmap
    · rw [if_pos hlt]
      constructor
      · intro he
        have : (0 : Int) ≤ (((setPositions bc.bitmap).getD k 0 : Nat) : Int) :=
          Int.ofNat_nonneg _
        omega
      · intro hle; omega
    · rw [if_neg hlt]
      constructor
      · intro _; omega
      · intro _; rfl

/-- C9 at the container holding 5 and 70: `selectInt(rank(70) - 1) == 70`. -/
theorem rank_select_roundtrip_witness :
    ((newBitmapContainer.add 5).self.add 70).self.selectInt
      ((((newBitmapContainer.add 5).self.add 70).self.rank 70 - 1) % 2 ^ 16).toNat = 70 :=
  (rank_select_roundtrip ((newBitmapContainer.add 5).self.add 70).self
    (bitmapContainer.add_wf _ (bitmapContainer.add_wf _ newBitmapContainer_wf 5 (by norm_num))
      70 (by norm_num))).1 70 (by norm_num)
    (bitmapContainer.add_contains _
      (bitmapContainer.add_wf _ newBitmapContainer_wf 5 (by norm_num)) 70 (by norm_num))

/-! ## `NextSetBit` -/

theorem numberOfTrailingZeros.go_eq (w j : Nat) (hj : w.testBit j = true) :
    ∀ (n i : Nat), i ≤ j → j < i + n → (∀ t, i ≤ t → t < j → w.testBit t = false) →
      numberOfTrailingZeros.go w n i = j := by
  intro n
  induction n with
  | zero => intro i h1 h2 _; omega
  | succ n ih =>
    intro i h1 h2 hlow
    unfold numberOfTrailingZeros.go
    by_cases hi : i = j
    · subst hi; rw [if_pos hj]
    · rw [if_neg (by rw [hlow i (le_refl _) (by omega)]; exact Bool.false_ne_true)]
      exact ih (i + 1) (by omega) (by omega) (fun t ht1 ht2 => hlow t (by omega) ht2)

theorem numberOfTrailingZeros_eq (w j : Nat) (hj64 : j < 64) (hj : w.testBit j = true)
    (hlow : ∀ i, i < j → w.testBit i = false) : numberOfTrailingZeros w = j :=
  numberOfTrailingZeros.go_eq w j hj 64 0 (Nat.zero_le _) (by omega) (fun t _ ht => hlow t ht)

/-- The outcome of a search for the first set bit at or after the position `i`. -/
theorem bitmapContainer.NextSetBit.scan_spec (ws : List Nat) (hw : ∀ w ∈ ws, w < 2 ^ 64) :
    ∀ (n x : Nat), n + x = ws.length →
      (bitmapContainer.NextSetBit.scan ws n x = -1 ∧ ∀ v, 64 * x ≤ v → getBit ws v = false) ∨
      (∃ v : Nat, bitmapContainer.NextSetBit.scan ws n x = (v : Int) ∧ 64 * x ≤ v ∧
        getBit ws v = true ∧ ∀ u, 64 * x ≤ u → u < v → getBit ws u = false) := by
  intro n
  induction n with
  | zero =>
    intro x hx
    left
    refine ⟨rfl, fun v hv => getBit_ge ws v (by omega)⟩
  | succ n ih =>
    intro x hx
    unfold bitmapContainer.NextSetBit.scan
    by_cases hz : ws.getD x 0 = 0
    · rw [if_neg (not_not.mpr hz)]
      have hword : ∀ v, 64 * x ≤ v → v < 64 * (x + 1) → getBit ws v = false := by
        intro v h1 h2
        unfold getBit
        have : v / 64 = x := by omega
        rw [this, hz]; simp
      rcases ih (x + 1) (by omega) with ⟨h1, h2⟩ | ⟨v, h1, h2, h3, h4⟩
      · left
        refine ⟨h1, fun v hv => ?_⟩
        by_cases hv2 : v < 64 * (x + 1)
        · exact hword v hv hv2
        · exact h2 v (by omega)
      · right
        refine ⟨v, h1, by omega, h3, fun u hu1 hu2 => ?_⟩
        by_cases hu3 : u < 64 * (x + 1)
        · exact hword u hu1 hu3
        · exact h4 u (by omega) hu2
    · rw [if_pos hz]
      right
      obtain ⟨j, hj64, hj, hlow⟩ := exists_lowest_bit _ hz (getD_word_lt ws hw x)
      rw [numberOfTrailingZeros_eq _ j hj64 hj hlow]
      refine ⟨x * 64 + j, rfl, by omega, ?_, ?_⟩
      · unfold getBit
        have h1 : (x * 64 + j) / 64 = x := by omega
        have h2 : (x * 64 + j) % 64 = j := by omega
        rw [h1, h2]; exact hj
      · intro u hu1 hu2
        unfold getBit
        have h1 : u / 64 = x := by omega
        rw [h1]
        exact hlow _ (by omega)

theorem bitmapContainer.NextSetBit_spec (bc : bitmapContainer)
    (hw : ∀ w ∈ bc.bitmap, w < 2 ^ 64) (i : Nat) :
    (bc.NextSetBit i = -1 ∧ ∀ v, i ≤ v → getBit bc.bitmap v = false) ∨
    (∃ v : Nat, bc.NextSetBit i = (v : Int) ∧ i ≤ v ∧ getBit bc.bitmap v = true ∧
      ∀ u, i ≤ u → u < v → getBit bc.bitmap u = false) := by
  have hdiv : ((i : Int)).tdiv 64 = ((i / 64 : Nat) : Int) := by
    rw [Int.tdiv_eq_ediv (by omega) (by omega)]; rfl
  have hmod : ((((i : Int)).tmod 64) % 2 ^ 64).toNat = i % 64 := by
    rw [Int.tmod_eq_emod (by omega) (by omega)]
    have h1 : ((i : Int) % 64) = ((i % 64 : Nat) : Int) := rfl
    rw [h1, Int.emod_eq_of_lt (by omega) (by omega)]
    rfl
  unfold bitmapContainer.NextSetBit
  simp only [hdiv, hmod]
  by_cases hx : ((i / 64 : Nat) : Int) ≥ (bc.bitmap.length : Int)
  · rw [if_pos hx]
    left
    refine ⟨rfl, fun v hv => getBit_ge _ v (by omega)⟩
  · rw [if_neg hx]
    simp only [Int.toNat_ofNat]
    by_cases hz : bc.bitmap.getD (i / 64) 0 >>> (i % 64) = 0
    · rw [if_neg (not_not.mpr hz)]
      have hword : ∀ v, i ≤ v → v < 64 * (i / 64 + 1) → getBit bc.bitmap v = false := by
        intro v h1 h2
        unfold getBit
        have e1 : v / 64 = i / 64 := by omega
        have e2 : v % 64 = i % 64 + (v % 64 - i % 64) := by omega
        have := Nat.testBit_shiftRight (i := i % 64) (j := v % 64 - i % 64)
          (bc.bitmap.getD (i / 64) 0)
        rw [hz] at this
        rw [e1, e2, ← this]
        simp
      have hx2 : ((i / 64 : Nat) : Int) + 1 = ((i / 64 + 1 : Nat) : Int) := by push_cast; rfl
      rw [hx2]
      simp only [Int.toNat_ofNat]
      rcases bitmapContainer.NextSetBit.scan_spec bc.bitmap hw
          (bc.bitmap.length - (i / 64 + 1)) (i / 64 + 1) (by omega) with
        ⟨h1, h2⟩ | ⟨v, h1, h2, h3, h4⟩
      · left
        refine ⟨h1, fun v hv => ?_⟩
        by_cases hv2 : v < 64 * (i / 64 + 1)
        · exact hword v hv hv2
        · exact h2 v (by omega)
      · right
        refine ⟨v, h1, by omega, h3, fun u hu1 hu2 => ?_⟩
        by_cases hu3 : u < 64 * (i / 64 + 1)
        · exact hword u hu1 hu3
        · exact h4 u (by omega) hu2
    · rw [if_pos hz]
      right
      have hwlt : bc.bitmap.getD (i / 64) 0 >>> (i % 64) < 2 ^ 64 := by
        rw [Nat.shiftRight_eq_div_pow]
        exact lt_of_le_of_lt (Nat.div_le_self _ _) (getD_word_lt _ hw _)
      obtain ⟨j, hj64, hj, hlow⟩ := exists_lowest_bit _ hz hwlt
      rw [numberOfTrailingZeros_eq _ j hj64 hj hlow]
      rw [Nat.testBit_shiftRight] at hj
      have hj2 : i % 64 + j < 64 := by
        by_contra hge
        rw [testBit_word_ge _ _ (getD_word_lt _ hw _) (by omega)] at hj
        exact Bool.noConfusion hj
      refine ⟨i + j, by push_cast; rfl, by omega, ?_, ?_⟩
      · unfold getBit
        have h1 : (i + j) / 64 = i / 64 := by omega
        have h2 : (i + j) % 64 = i % 64 + j := by omega
        rw [h1, h2]; exact hj
      · intro u hu1 hu2
        unfold getBit
        have h1 : u / 64 = i / 64 := by omega
        have h2 : u % 64 = i % 64 + (u - i) := by omega
        have := hlow (u - i) (by omega)
        rw [Nat.testBit_shiftRight] at this
        rw [h1, h2]; exact this

/-! ## The short iterator -/

theorem getBit_lt_of_true (ws : List Nat) (v : Nat) (h : getBit ws v = true) :
    v < 64 * ws.length := by
  by_contra hge
  rw [getBit_ge ws v (by omega)] at h
  exact Bool.noConfusion h

theorem bitmapContainerShortIterator.drain_neg (bc : bitmapContainer) (fuel : Nat) :
    bitmapContainerShortIterator.drain fuel ⟨bc, -1⟩ = some [] := by
  cases fuel <;> rfl

theorem bitmapContainerShortIterator.drain_nonneg (bc : bitmapContainer) (fuel v : Nat) :
    bitmapContainerShortIterator.drain (fuel + 1) ⟨bc, (v : Int)⟩
      = (bitmapContainerShortIterator.drain fuel ⟨bc, bc.NextSetBit ((v : Int) + 1)⟩).map
          (fun vs => (((v : Int)) % 2 ^ 16).toNat :: vs) := by
  have hn : bitmapContainerShortIterator.hasNext ⟨bc, (v : Int)⟩ = true := by
    unfold bitmapContainerShortIterator.hasNext
    exact decide_eq_true (Int.ofNat_nonneg v)
  rw [bitmapContainerShortIterator.drain, if_pos hn]
  rfl

theorem bitmapContainerShortIterator.drain_spec (bc : bitmapContainer)
    (hlen : bc.bitmap.length = 1024) (hw : ∀ w ∈ bc.bitmap, w < 2 ^ 64) :
    ∀ (fuel k : Nat), k ≤ 65536 → 65536 - k ≤ fuel →
      bitmapContainerShortIterator.drain fuel ⟨bc, bc.NextSetBit (k : Int)⟩
        = some ((List.range 65536).filter (fun v => decide (k ≤ v) && getBit bc.bitmap v)) := by
  have hnil : ∀ k, (∀ v, k ≤ v → getBit bc.bitmap v = false) →
      (List.range 65536).filter (fun v => decide (k ≤ v) && getBit bc.bitmap v) = [] := by
    intro k hk
    rw [List.filter_eq_nil_iff]
    intro v _
    by_cases hkv : k ≤ v
    · simp [hk v hkv]
    · simp [hkv]
  intro fuel
  induction fuel with
  | zero =>
    intro k hk1 hk2
    have hall : ∀ v, k ≤ v → getBit bc.bitmap v = false :=
      fun v hv => getBit_ge _ v (by rw [hlen]; omega)
    rcases bitmapContainer.NextSetBit_spec bc hw k with ⟨h1, _⟩ | ⟨v, _, h2, h3, _⟩
    · rw [h1, bitmapContainerShortIterator.drain_neg, hnil k hall]
    · rw [hall v h2] at h3
      exact Bool.noConfusion h3
  | succ n ih =>
    intro k hk1 hk2
    rcases bitmapContainer.NextSetBit_spec bc hw k with ⟨h1, h2⟩ | ⟨v, h1, h2, h3, h4⟩
    · rw [h1, bitmapContainerShortIterator.drain_neg, hnil k h2]
    · have hv : v < 65536 := by
        have := getBit_lt_of_true _ v h3
        rw [hlen] at this
        omega
      have hcast : (v : Int) + 1 = ((v + 1 : Nat) : Int) := by push_cast; rfl
      rw [h1, bitmapContainerShortIterator.drain_nonneg, hcast,
        ih (v + 1) (by omega) (by omega), toNat_emod_cast v (by omega)]
      simp only [Option.map_some']
      refine congrArg some (Eq.symm ?_)
      apply filter_range_lowest _ _ 65536 v hv
      · intro u hu
        by_cases hku : k ≤ u
        · simp [h4 u hku hu]
        · simp [hku]
      · simp [h2, h3]
      · simp
      · intro u hu
        by_cases hvu : v + 1 ≤ u
        · have : k ≤ u := by omega
          simp [hvu, this]
        · have hlt : u < v := by omega
          by_cases hku : k ≤ u
          · simp [hvu, h4 u hku hlt]
          · simp [hvu, hku]

/-- C10: on a well-formed bitmap container, calling `next()` on `getShortIterator()` while
`hasNext()` is true ends (within 65536 calls) and yields exactly the values `v` with
`contains(v)`, each once, in strictly ascending order; the number of values yielded is
`getCardinality()`. -/
theorem shortIterator_correct (bc : bitmapContainer) (h : bc.wf) :
    ∃ vs : List Nat,
      (∀ fuel, 65536 ≤ fuel →
        bitmapContainerShortIterator.drain fuel bc.getShortIterator = some vs) ∧
      vs.Pairwise (fun a b => a < b) ∧
      (∀ v, v ∈ vs → v < 2 ^ 16) ∧
      (∀ v, v < 2 ^ 16 → (v ∈ vs ↔ bc.contains v = true)) ∧
      (vs.length : Int) = bc.getCardinality := by
  have hfilter : (List.range 65536).filter (fun v => decide (0 ≤ v) && getBit bc.bitmap v)
      = setPositions bc.bitmap := by
    unfold setPositions
    rw [h.1]
    apply List.filter_congr
    intro v _
    simp
  refine ⟨setPositions bc.bitmap, ?_, setPositions_ascending _, ?_, ?_, ?_⟩
  · intro fuel hfuel
    have := bitmapContainerShortIterator.drain_spec bc h.1 h.2.1 fuel 0 (by omega) (by omega)
    rw [hfilter] at this
    exact this
  · intro v hv
    exact (setPositions_wf _ h.1).2 v hv
  · intro v _
    rw [mem_setPositions_iff, bitmapContainer.contains_eq_getBit]
  · rw [setPositions_length]
    exact h.2.2.symm

/-- C10 at the container holding 5 and 70: the drained values count its cardinality. -/
theorem shortIterator_correct_witness :
    ∃ vs : List Nat,
      bitmapContainerShortIterator.drain 65536
        ((newBitmapContainer.add 5).self.add 70).self.getShortIterator = some vs ∧
      (vs.length : Int) = ((newBitmapContainer.add 5).self.add 70).self.getCardinality := by
  obtain ⟨vs, h1, _, _, _, h5⟩ :=
    shortIterator_correct ((newBitmapContainer.add 5).self.add 70).self
      (bitmapContainer.add_wf _ (bitmapContainer.add_wf _ newBitmapContainer_wf 5 (by norm_num))
        70 (by norm_num))
  exact ⟨vs, h1 65536 (le_refl _), h5⟩

/-! ## Loops over the words -/

theorem foldl_range_inv {σ : Type} (P : Nat → σ → Prop) (f : σ → Nat → σ) (init : σ) (n : Nat)
    (h0 : P 0 init) (hstep : ∀ k s, k < n → P k s → P (k + 1) (f s k)) :
    P n ((List.range n).foldl f init) := by
  induction n with
  | zero => exact h0
  | succ n ih =>
    rw [List.range_succ, List.foldl_append]
    exact hstep n _ (Nat.lt_succ_self n)
      (ih (fun k s hk hP => hstep k s (Nat.lt_succ_of_lt hk) hP))

/-- A loop `for k := 0; k < n; k++ { a.bitmap[k] = G(a.bitmap[k], k) }` rewrites the first
`n` words and leaves the cardinality field alone. -/
theorem foldl_set_words (G : Nat → Nat → Nat) (a0 : bitmapContainer) (n : Nat) :
    ((List.range n).foldl
        (fun (a : bitmapContainer) k =>
          ({ a with bitmap := a.bitmap.set k (G (a.bitmap.getD k 0) k) } : bitmapContainer))
        a0).cardinality = a0.cardinality ∧
    ((List.range n).foldl
        (fun (a : bitmapContainer) k =>
          ({ a with bitmap := a.bitmap.set k (G (a.bitmap.getD k 0) k) } : bitmapContainer))
        a0).bitmap.length = a0.bitmap.length ∧
    ∀ i, ((List.range n).foldl
        (fun (a : bitmapContainer) k =>
          ({ a with bitmap := a.bitmap.set k (G (a.bitmap.getD k 0) k) } : bitmapContainer))
        a0).bitmap.getD i 0
      = if i < n ∧ i < a0.bitmap.length then G (a0.bitmap.getD i 0) i else a0.bitmap.getD i 0 := by
  apply foldl_range_inv
    (fun k (s : bitmapContainer) => s.cardinality = a0.cardinality ∧
      s.bitmap.length = a0.bitmap.length ∧
      ∀ i, s.bitmap.getD i 0
        = if i < k ∧ i < a0.bitmap.length then G (a0.bitmap.getD i 0) i else a0.bitmap.getD i 0)
  · refine ⟨rfl, rfl, fun i => ?_⟩
    rw [if_neg (by omega)]
  · intro k s _ ⟨h1, h2, h3⟩
    refine ⟨h1, by simp [h2], fun i => ?_⟩
    simp only
    rw [getD_set_eq, h2]
    by_cases hik : i = k
    · subst hik
      by_cases hlen : i < a0.bitmap.length
      · rw [if_pos ⟨rfl, hlen⟩, if_pos ⟨by omega, hlen⟩, h3, if_neg (by omega)]
      · rw [if_neg (by omega), if_neg (by omega), h3, if_neg (by omega)]
    · rw [if_neg (by omega), h3]
      by_cases hc : i < k ∧ i < a0.bitmap.length
      · rw [if_pos hc, if_pos (by omega)]
      · rw [if_neg hc, if_neg (by omega)]

theorem zipWith_getD (f : Nat → Nat → Nat) (x y : List Nat) (hxy : x.length = y.length) (i : Nat)
    (hi : i < x.length) : (List.zipWith f x y).getD i 0 = f (x.getD i 0) (y.getD i 0) := by
  have hy : i < y.length := by omega
  simp [List.getD_eq_getElem?_getD, List.getElem?_zipWith, List.getElem?_eq_getElem hi,
    List.getElem?_eq_getElem hy]

/-- A list of `n` words that holds `f x[k] y[k]` at each index is the word-wise combination
of `x` and `y`. -/
theorem eq_zipWith_of_getD (f : Nat → Nat → Nat) (r x y : List Nat) (hr : r.length = x.length)
    (hxy : x.length = y.length)
    (h : ∀ i, i < x.length → r.getD i 0 = f (x.getD i 0) (y.getD i 0)) :
    r = List.zipWith f x y := by
  apply ext_getD
  · rw [List.length_zipWith, hr, hxy, Nat.min_self]
  · intro i hi
    rw [h i (by omega), zipWith_getD f x y hxy i (by omega)]

theorem popcntSlice_zipWith (f : Nat → Nat → Nat) (x y : List Nat) :
    popcntSlice (List.zipWith f x y) = (List.zipWith (fun a b => popcount (f a b)) x y).sum := by
  unfold popcntSlice
  rw [List.map_zipWith]

theorem getBit_zipWith (f : Nat → Nat → Nat) (g : Bool → Bool → Bool) (x y : List Nat)
    (hxy : x.length = y.length) (hx : ∀ w ∈ x, w < 2 ^ 64)
    (hf : ∀ a b i, a < 2 ^ 64 → i < 64 → (f a b).testBit i = g (a.testBit i) (b.testBit i))
    (v : Nat) (hv : v < 64 * x.length) :
    getBit (List.zipWith f x y) v = g (getBit x v) (getBit y v) := by
  unfold getBit
  rw [zipWith_getD f x y hxy _ (by omega), hf _ _ _ (getD_word_lt x hx _) (Nat.mod_lt _ (by norm_num))]

theorem zipWith_word_lt (f : Nat → Nat → Nat) (x y : List Nat)
    (hf : ∀ a b, a ∈ x → b ∈ y → f a b < 2 ^ 64) :
    ∀ w ∈ List.zipWith f x y, w < 2 ^ 64 := by
  intro w hw
  rw [List.mem_iff_getElem] at hw
  obtain ⟨i, hi, rfl⟩ := hw
  rw [List.getElem_zipWith]
  rw [List.length_zipWith] at hi
  exact hf _ _ (List.getElem_mem _) (List.getElem_mem _)

theorem fold_zip_fresh (f : Nat → Nat → Nat) (a0 : bitmapContainer) (x y : List Nat)
    (h0 : a0.bitmap.length = x.length) (hxy : x.length = y.length) :
    (List.range a0.bitmap.length).foldl
        (fun (a : bitmapContainer) k =>
          ({ a with bitmap := a.bitmap.set k (f (x.getD k 0) (y.getD k 0)) } : bitmapContainer))
        a0
      = ⟨a0.cardinality, List.zipWith f x y⟩ := by
  obtain ⟨h1, h2, h3⟩ :=
    foldl_set_words (fun _ k => f (x.getD k 0) (y.getD k 0)) a0 a0.bitmap.length
  generalize (List.range a0.bitmap.length).foldl
        (fun (a : bitmapContainer) k =>
          ({ a with bitmap := a.bitmap.set k (f (x.getD k 0) (y.getD k 0)) } : bitmapContainer))
        a0 = r at *
  obtain ⟨rc, rb⟩ := r
  simp only at h1 h2 h3
  rw [h1, eq_zipWith_of_getD f rb x y (by omega) hxy
    (fun i hi => by rw [h3 i, if_pos (by omega)])]

theorem fold_zip_inplace (f : Nat → Nat → Nat) (a0 : bitmapContainer) (y : List Nat)
    (hxy : a0.bitmap.length = y.length) :
    (List.range a0.bitmap.length).foldl
        (fun (a : bitmapContainer) k =>
          ({ a with bitmap := a.bitmap.set k (f (a.bitmap.getD k 0) (y.getD k 0)) } :
            bitmapContainer))
        a0
      = ⟨a0.cardinality, List.zipWith f a0.bitmap y⟩ := by
  obtain ⟨h1, h2, h3⟩ :=
    foldl_set_words (fun w k => f w (y.getD k 0)) a0 a0.bitmap.length
  generalize (List.range a0.bitmap.length).foldl
        (fun (a : bitmapContainer) k =>
          ({ a with bitmap := a.bitmap.set k (f (a.bitmap.getD k 0) (y.getD k 0)) } :
            bitmapContainer))
        a0 = r at *
  obtain ⟨rc, rb⟩ := r
  simp only at h1 h2 h3
  rw [h1, eq_zipWith_of_getD f rb a0.bitmap y (by omega) hxy
    (fun i hi => by rw [h3 i, if_pos (by omega)])]

/-- The bitmap container of a word-wise combination of two bitmap containers, with the
popcount of its words as cardinality, is well formed. -/
theorem zipWith_wf (f : Nat → Nat → Nat) (x y : List Nat) (hx : x.length = 1024)
    (hy : y.length = 1024) (hf : ∀ a b, a ∈ x → b ∈ y → f a b < 2 ^ 64) :
    bitmapContainer.wf ⟨(popcntSlice (List.zipWith f x y) : Nat), List.zipWith f x y⟩ :=
  ⟨by simp [hx, hy], zipWith_word_lt f x y hf, rfl⟩

theorem getBit_zipWith_all (f : Nat → Nat → Nat) (g : Bool → Bool → Bool) (x y : List Nat)
    (hxy : x.length = y.length) (hx : ∀ w ∈ x, w < 2 ^ 64) (hg : g false false = false)
    (hf : ∀ a b i, a < 2 ^ 64 → i < 64 → (f a b).testBit i = g (a.testBit i) (b.testBit i))
    (v : Nat) : getBit (List.zipWith f x y) v = g (getBit x v) (getBit y v) := by
  by_cases hv : v < 64 * x.length
  · exact getBit_zipWith f g x y hxy hx hf v hv
  · rw [getBit_ge _ v (by simp [List.length_zipWith, ← hxy]; omega), getBit_ge x v (by omega),
      getBit_ge y v (by omega), hg]

theorem newBitmapContainer_length : newBitmapContainer.bitmap.length = 1024 := by
  rw [newBitmapContainer_eq]; exact List.length_replicate _ _

/-- The array container built from the fused popcount and `fillArray...` is the downgrade of the
bitmap container of the combined words. -/
theorem fill_take_eq (ws : List Nat) :
    (writeFrom (newArrayContainerSize ((popcntSlice ws : Nat) : Int)).content 0
        (setPositions ws)).take ((popcntSlice ws : Nat) : Int).toNat = setPositions ws := by
  have h1 : (newArrayContainerSize ((popcntSlice ws : Nat) : Int)).content.length
      = (setPositions ws).length := by
    simp [newArrayContainerSize, setPositions_length]
  rw [writeFrom_full _ _ h1.symm, Int.toNat_ofNat, ← setPositions_length, List.take_length]

theorem fill_eq (ws : List Nat) :
    writeFrom (newArrayContainerSize ((popcntSlice ws : Nat) : Int)).content 0 (setPositions ws)
      = setPositions ws := by
  have h1 : (newArrayContainerSize ((popcntSlice ws : Nat) : Int)).content.length
      = (setPositions ws).length := by
    simp [newArrayContainerSize, setPositions_length]
  rw [writeFrom_full _ _ h1.symm]

theorem bitmapContainer.orBitmap_eq (bc a : bitmapContainer) (h : bc.wf) (ha : a.wf) :
    bc.orBitmap a = .bitmap
      ⟨(popcntSlice (List.zipWith (fun x y => x ||| y) bc.bitmap a.bitmap) : Nat),
        List.zipWith (fun x y => x ||| y) bc.bitmap a.bitmap⟩ := by
  unfold bitmapContainer.orBitmap
  simp only
  rw [fold_zip_fresh (fun x y => x ||| y) newBitmapContainer bc.bitmap a.bitmap
    (by rw [newBitmapContainer_length, h.1]) (by rw [h.1, ha.1])]
  rfl

theorem bitmapContainer.iorBitmap_eq (bc a : bitmapContainer) (h : bc.wf) (ha : a.wf) :
    bc.iorBitmap a =
      ⟨⟨(popcntSlice (List.zipWith (fun x y => x ||| y) bc.bitmap a.bitmap) : Nat),
          List.zipWith (fun x y => x ||| y) bc.bitmap a.bitmap⟩,
        .bitmap ⟨(popcntSlice (List.zipWith (fun x y => x ||| y) bc.bitmap a.bitmap) : Nat),
          List.zipWith (fun x y => x ||| y) bc.bitmap a.bitmap⟩⟩ := by
  unfold bitmapContainer.iorBitmap
  simp only
  rw [fold_zip_inplace (fun x y => x ||| y) ⟨0, bc.bitmap⟩ a.bitmap
    (by show bc.bitmap.length = _; rw [h.1, ha.1])]
  rfl

theorem bitmapContainer.xorBitmap_eq (bc a : bitmapContainer) (h : bc.wf) (ha : a.wf) :
    bc.xorBitmap a = downgrade
      ⟨(popcntSlice (List.zipWith (fun x y => x ^^^ y) bc.bitmap a.bitmap) : Nat),
        List.zipWith (fun x y => x ^^^ y) bc.bitmap a.bitmap⟩ := by
  have hwf := zipWith_wf (fun x y => x ^^^ y) bc.bitmap a.bitmap h.1 ha.1
    (fun p q hp hq => Nat.xor_lt_two_pow (h.2.1 p hp) (ha.2.1 q hq))
  have hpc : popcntXorSlice bc.bitmap a.bitmap
      = popcntSlice (List.zipWith (fun x y => x ^^^ y) bc.bitmap a.bitmap) :=
    (popcntSlice_zipWith _ _ _).symm
  unfold bitmapContainer.xorBitmap downgrade
  simp only [hpc]
  by_cases hc : ((popcntSlice (List.zipWith (fun x y => x ^^^ y) bc.bitmap a.bitmap) : Nat) : Int)
      > arrayDefaultMaxSize
  · rw [if_pos hc, if_neg (by omega)]
    rw [fold_zip_fresh (fun x y => x ^^^ y) newBitmapContainer bc.bitmap a.bitmap
      (by rw [newBitmapContainer_length, h.1]) (by rw [h.1, ha.1])]
  · rw [if_neg hc, if_pos (by omega), bitmapContainer.toArrayContainer_eq _ hwf]
    unfold fillArrayXOR
    rw [fill_take_eq]

theorem bitmapContainer.andBitmap_eq (bc a : bitmapContainer) (h : bc.wf) (ha : a.wf) :
    bc.andBitmap a = downgrade
      ⟨(popcntSlice (List.zipWith (fun x y => x &&& y) bc.bitmap a.bitmap) : Nat),
        List.zipWith (fun x y => x &&& y) bc.bitmap a.bitmap⟩ := by
  have hwf := zipWith_wf (fun x y => x &&& y) bc.bitmap a.bitmap h.1 ha.1
    (fun p q hp _ => and_lt_word p q (h.2.1 p hp))
  have hpc : popcntAndSlice bc.bitmap a.bitmap
      = popcntSlice (List.zipWith (fun x y => x &&& y) bc.bitmap a.bitmap) :=
    (popcntSlice_zipWith _ _ _).symm
  unfold bitmapContainer.andBitmap downgrade
  simp only [hpc]
  by_cases hc : ((popcntSlice (List.zipWith (fun x y => x &&& y) bc.bitmap a.bitmap) : Nat) : Int)
      > arrayDefaultMaxSize
  · rw [if_pos hc, if_neg (by omega)]
    rw [fold_zip_fresh (fun x y => x &&& y) newBitmapContainer bc.bitmap a.bitmap
      (by rw [newBitmapContainer_length, h.1]) (by rw [h.1, ha.1])]
  · rw [if_neg hc, if_pos (by omega), bitmapContainer.toArrayContainer_eq _ hwf]
    unfold fillArrayAND
    rw [fill_take_eq]

theorem bitmapContainer.iandBitmap_eq (bc a : bitmapContainer) (h : bc.wf) (ha : a.wf) :
    bc.iandBitmap a =
      ⟨if ((popcntSlice (List.zipWith (fun x y => x &&& y) bc.bitmap a.bitmap) : Nat) : Int)
            > arrayDefaultMaxSize
        then ⟨(popcntSlice (List.zipWith (fun x y => x &&& y) bc.bitmap a.bitmap) : Nat),
          List.zipWith (fun x y => x &&& y) bc.bitmap a.bitmap⟩
        else bc,
      downgrade
        ⟨(popcntSlice (List.zipWith (fun x y => x &&& y) bc.bitmap a.bitmap) : Nat),
          List.zipWith (fun x y => x &&& y) bc.bitmap a.bitmap⟩⟩ := by
  have hwf := zipWith_wf (fun x y => x &&& y) bc.bitmap a.bitmap h.1 ha.1
    (fun p q hp _ => and_lt_word p q (h.2.1 p hp))
  have hpc : popcntAndSlice bc.bitmap a.bitmap
      = popcntSlice (List.zipWith (fun x y => x &&& y) bc.bitmap a.bitmap) :=
    (popcntSlice_zipWith _ _ _).symm
  unfold bitmapContainer.iandBitmap downgrade
  simp only [hpc]
  by_cases hc : ((popcntSlice (List.zipWith (fun x y => x &&& y) bc.bitmap a.bitmap) : Nat) : Int)
      > arrayDefaultMaxSize
  · rw [if_pos hc, if_pos hc, if_neg (by omega)]
    rw [fold_zip_inplace (fun x y => x &&& y) bc a.bitmap (by rw [h.1, ha.1])]
  · rw [if_neg hc, if_neg hc, if_pos (by omega), bitmapContainer.toArrayContainer_eq _ hwf]
    unfold fillArrayAND
    rw [fill_take_eq]

theorem bitmapContainer.andNotBitmap_eq (bc a : bitmapContainer) (h : bc.wf) (ha : a.wf) :
    bc.andNotBitmap a = downgrade
      ⟨(popcntSlice (List.zipWith (fun x y => andNot64 x y) bc.bitmap a.bitmap) : Nat),
        List.zipWith (fun x y => andNot64 x y) bc.bitmap a.bitmap⟩ := by
  have hwf := zipWith_wf (fun x y => andNot64 x y) bc.bitmap a.bitmap h.1 ha.1
    (fun p q hp _ => andNot64_lt p q (h.2.1 p hp))
  have hpc : popcntMaskSlice bc.bitmap a.bitmap
      = popcntSlice (List.zipWith (fun x y => andNot64 x y) bc.bitmap a.bitmap) :=
    (popcntSlice_zipWith _ _ _).symm
  unfold bitmapContainer.andNotBitmap downgrade
  simp only [hpc]
  by_cases hc : ((popcntSlice (List.zipWith (fun x y => andNot64 x y) bc.bitmap a.bitmap) : Nat)
      : Int) > arrayDefaultMaxSize
  · rw [if_pos hc, if_neg (by omega)]
    rw [fold_zip_fresh (fun x y => andNot64 x y) newBitmapContainer bc.bitmap a.bitmap
      (by rw [newBitmapContainer_length, h.1]) (by rw [h.1, ha.1])]
  · rw [if_neg hc, if_pos (by omega), bitmapContainer.toArrayContainer_eq _ hwf]
    unfold fillArrayANDNOT
    rw [fill_eq]

theorem bitmapContainer.iandNotBitmap_eq (bc a : bitmapContainer) (h : bc.wf) (ha : a.wf) :
    bc.iandNotBitmap a =
      ⟨if ((popcntSlice (List.zipWith (fun x y => andNot64 x y) bc.bitmap a.bitmap) : Nat) : Int)
            > arrayDefaultMaxSize
        then ⟨(popcntSlice (List.zipWith (fun x y => andNot64 x y) bc.bitmap a.bitmap) : Nat),
          List.zipWith (fun x y => andNot64 x y) bc.bitmap a.bitmap⟩
        else bc,
      downgrade
        ⟨(popcntSlice (List.zipWith (fun x y => andNot64 x y) bc.bitmap a.bitmap) : Nat),
          List.zipWith (fun x y => andNot64 x y) bc.bitmap a.bitmap⟩⟩ := by
  have hwf := zipWith_wf (fun x y => andNot64 x y) bc.bitmap a.bitmap h.1 ha.1
    (fun p q hp _ => andNot64_lt p q (h.2.1 p hp))
  have hpc : popcntMaskSlice bc.bitmap a.bitmap
      = popcntSlice (List.zipWith (fun x y => andNot64 x y) bc.bitmap a.bitmap) :=
    (popcntSlice_zipWith _ _ _).symm
  unfold bitmapContainer.iandNotBitmap downgrade
  simp only [hpc]
  by_cases hc : ((popcntSlice (List.zipWith (fun x y => andNot64 x y) bc.bitmap a.bitmap) : Nat)
      : Int) > arrayDefaultMaxSize
  · rw [if_pos hc, if_pos hc, if_neg (by omega)]
    rw [fold_zip_inplace (fun x y => andNot64 x y) bc a.bitmap (by rw [h.1, ha.1])]
  · rw [if_neg hc, if_neg hc, if_pos (by omega), bitmapContainer.toArrayContainer_eq _ hwf]
    unfold fillArrayANDNOT
    rw [fill_eq]

/-! ## The downgrade -/

theorem downgrade_contains (b : bitmapContainer) (h : b.wf) (v : Nat) :
    (downgrade b).contains v = getBit b.bitmap v := by
  unfold downgrade
  by_cases hc : b.cardinality ≤ arrayDefaultMaxSize
  · rw [if_pos hc]
    exact bitmapContainer.toArrayContainer_contains b h v
  · rw [if_neg hc]
    exact bitmapContainer.contains_eq_getBit b v

theorem downgrade_card (b : bitmapContainer) (h : b.wf) :
    (downgrade b).getCardinality = b.cardinality := by
  unfold downgrade
  by_cases hc : b.cardinality ≤ arrayDefaultMaxSize
  · rw [if_pos hc]
    exact bitmapContainer.toArrayContainer_card b h
  · rw [if_neg hc]
    rfl

theorem downgrade_wf (b : bitmapContainer) (h : b.wf) : (downgrade b).wf := by
  unfold downgrade
  by_cases hc : b.cardinality ≤ arrayDefaultMaxSize
  · rw [if_pos hc, bitmapContainer.toArrayContainer_eq b h]
    exact setPositions_wf _ h.1
  · rw [if_neg hc]
    exact h

theorem downgrade_cardinalityOK (b : bitmapContainer) (h : b.wf) :
    (downgrade b).cardinalityOK := by
  unfold downgrade
  by_cases hc : b.cardinality ≤ arrayDefaultMaxSize
  · rw [if_pos hc]; trivial
  · rw [if_neg hc]; exact h.2.2

theorem downgrade_representationOK (b : bitmapContainer) (h : b.wf) :
    (downgrade b).representationOK := by
  unfold downgrade
  by_cases hc : b.cardinality ≤ arrayDefaultMaxSize
  · rw [if_pos hc]
    show (bitmapContainer.toArrayContainer b).getCardinality ≤ arrayDefaultMaxSize
    rw [bitmapContainer.toArrayContainer_card b h]
    exact hc
  · rw [if_neg hc]
    show b.cardinality > arrayDefaultMaxSize
    omega

theorem downgrade_ascending (b : bitmapContainer) (h : b.wf) : (downgrade b).ascending := by
  have := downgrade_wf b h
  unfold downgrade at this ⊢
  by_cases hc : b.cardinality ≤ arrayDefaultMaxSize
  · rw [if_pos hc] at this ⊢
    exact this.1
  · rw [if_neg hc]; trivial

/-! ## Loops over the array operand -/

theorem shiftRight_6 (v : Nat) : v >>> 6 = v / 64 := by
  rw [Nat.shiftRight_eq_div_pow]

theorem bitmapContainer.orArray_body_eq (value2 : arrayContainer) (a : bitmapContainer)
    (ha : ∀ w ∈ a.bitmap, w < 2 ^ 64) (k : Nat) :
    bitmapContainer.orArray.body value2 a k
      = ⟨a.cardinality + ((!getBit a.bitmap (value2.content.getD k 0)).toNat : Int),
          bitSet a.bitmap (value2.content.getD k 0)⟩ := by
  unfold bitmapContainer.orArray.body
  simp only [shiftRight_6, shl64_one _ (Nat.mod_lt _ (by norm_num : 0 < 64))]
  rw [sub64_or_two_pow_shiftRight _ _ (getD_word_lt _ ha _) (Nat.mod_lt _ (by norm_num))]
  rfl

theorem bitmapContainer.xorArray_body_eq (value2 : arrayContainer) (a : bitmapContainer)
    (k : Nat) :
    bitmapContainer.xorArray.body value2 a k
      = ⟨a.cardinality + (1 - 2 * ((getBit a.bitmap (value2.content.getD k 0)).toNat : Int)),
          bitFlip a.bitmap (value2.content.getD k 0)⟩ := by
  unfold bitmapContainer.xorArray.body
  simp only [shiftRight_6, shl64_one _ (Nat.mod_lt _ (by norm_num : 0 < 64))]
  rw [and_two_pow_shiftRight]
  rfl

theorem bitmapContainer.andNotArray_body_eq (value2 : arrayContainer) (a : bitmapContainer)
    (ha : ∀ w ∈ a.bitmap, w < 2 ^ 64) (k : Nat) :
    bitmapContainer.andNotArray.body value2 a k
      = ⟨a.cardinality - ((getBit a.bitmap (value2.content.getD k 0)).toNat : Int),
          bitClear a.bitmap (value2.content.getD k 0)⟩ := by
  unfold bitmapContainer.andNotArray.body
  simp only [shiftRight_6, shl64_one _ (Nat.mod_lt _ (by norm_num : 0 < 64))]
  rw [xor_andNot_two_pow_shiftRight _ _ (getD_word_lt _ ha _) (Nat.mod_lt _ (by norm_num))]
  rfl

theorem take_succ_getD (l : List Nat) (k : Nat) (hk : k < l.length) :
    l.take (k + 1) = l.take k ++ [l.getD k 0] := by
  rw [List.take_succ, List.getD_eq_getElem?_getD, List.getElem?_eq_getElem hk]
  simp

theorem getD_mem (l : List Nat) (k : Nat) (hk : k < l.length) : l.getD k 0 ∈ l := by
  rw [List.getD_eq_getElem?_getD, List.getElem?_eq_getElem hk]
  exact List.getElem_mem hk

theorem getD_not_mem_take (l : List Nat) (hs : l.Pairwise (fun a b => a < b)) (k : Nat)
    (hk : k < l.length) : l.getD k 0 ∉ l.take k := by
  intro hmem
  obtain ⟨j, hj, hjk⟩ := List.getElem_of_mem hmem
  rw [List.length_take] at hj
  have hj2 : j < k := by omega
  rw [List.getElem_take] at hjk
  have := ascending_getD l hs j k (by omega) (by omega) (by omega)
  simp only [Int.toNat_ofNat] at this
  rw [List.getD_eq_getElem?_getD, List.getElem?_eq_getElem (by omega : j < l.length)] at this
  simp only [Option.getD_some] at this
  omega

theorem arrayContainer.card_toNat (a : arrayContainer) :
    a.getCardinality.toNat = a.content.length := by
  unfold arrayContainer.getCardinality
  exact Int.toNat_ofNat _

/-- The loop of `orArray` and `iorArray` sets the bits of the array operand. -/
theorem bitmapContainer.orArray_fold (bc : bitmapContainer) (h : bc.wf) (a : arrayContainer)
    (ha : a.wf) :
    ((List.range a.content.length).foldl (bitmapContainer.orArray.body a) bc).wf ∧
    (∀ u, getBit ((List.range a.content.length).foldl
        (bitmapContainer.orArray.body a) bc).bitmap u
      = (getBit bc.bitmap u || decide (u ∈ a.content))) ∧
    bc.cardinality
      ≤ ((List.range a.content.length).foldl (bitmapContainer.orArray.body a) bc).cardinality := by
  have := foldl_range_inv
    (fun k (s : bitmapContainer) => s.wf ∧
      (∀ u, getBit s.bitmap u = (getBit bc.bitmap u || decide (u ∈ a.content.take k))) ∧
      bc.cardinality ≤ s.cardinality)
    (bitmapContainer.orArray.body a) bc a.content.length
    ⟨h, fun u => by simp, le_refl _⟩
    (by
      intro k s hk ⟨h1, h2, h3⟩
      have hv : a.content.getD k 0 < 2 ^ 16 := ha.2 _ (getD_mem _ k hk)
      rw [bitmapContainer.orArray_body_eq a s h1.2.1 k]
      refine ⟨bitmapContainer.wf_bitSet s h1 _ hv, fun u => ?_, ?_⟩
      · show getBit (bitSet s.bitmap _) u = _
        rw [getBit_bitSet _ _ _ (h1.pos_lt _ hv), h2, take_succ_getD _ k hk]
        generalize a.content.getD k 0 = v at *
        simp [Bool.or_assoc]
      · show bc.cardinality ≤ s.cardinality + _
        have : (0 : Int) ≤ ((!getBit s.bitmap (a.content.getD k 0)).toNat : Int) :=
          Int.ofNat_nonneg _
        omega)
  simp only [List.take_length] at this
  exact this

/-- The loop of `xorArray` flips the bits of the array operand. -/
theorem bitmapContainer.xorArray_fold (bc : bitmapContainer) (h : bc.wf) (a : arrayContainer)
    (ha : a.wf) :
    ((List.range a.content.length).foldl (bitmapContainer.xorArray.body a) bc).wf ∧
    (∀ u, getBit ((List.range a.content.length).foldl
        (bitmapContainer.xorArray.body a) bc).bitmap u
      = (getBit bc.bitmap u != decide (u ∈ a.content))) := by
  have := foldl_range_inv
    (fun k (s : bitmapContainer) => s.wf ∧
      (∀ u, getBit s.bitmap u = (getBit bc.bitmap u != decide (u ∈ a.content.take k))))
    (bitmapContainer.xorArray.body a) bc a.content.length
    ⟨h, fun u => by simp⟩
    (by
      intro k s hk ⟨h1, h2⟩
      have hv : a.content.getD k 0 < 2 ^ 16 := ha.2 _ (getD_mem _ k hk)
      have hnm := getD_not_mem_take a.content ha.1 k hk
      rw [bitmapContainer.xorArray_body_eq a s k]
      refine ⟨bitmapContainer.wf_bitFlip s h1 _ hv, fun u => ?_⟩
      show getBit (bitFlip s.bitmap _) u = _
      rw [getBit_bitFlip _ _ _ (h1.pos_lt _ hv), h2, take_succ_getD _ k hk]
      generalize a.content.getD k 0 = v at *
      by_cases hu : u = v
      · subst hu
        simp [hnm]
      · simp [hu])
  simp only [List.take_length] at this
  exact this

/-- The loop of `andNotArray` clears the bits of the array operand. -/
theorem bitmapContainer.andNotArray_fold (bc : bitmapContainer) (h : bc.wf) (a : arrayContainer)
    (ha : a.wf) :
    ((List.range a.content.length).foldl (bitmapContainer.andNotArray.body a) bc).wf ∧
    (∀ u, getBit ((List.range a.content.length).foldl
        (bitmapContainer.andNotArray.body a) bc).bitmap u
      = (getBit bc.bitmap u && !decide (u ∈ a.content))) := by
  have := foldl_range_inv
    (fun k (s : bitmapContainer) => s.wf ∧
      (∀ u, getBit s.bitmap u = (getBit bc.bitmap u && !decide (u ∈ a.content.take k))))
    (bitmapContainer.andNotArray.body a) bc a.content.length
    ⟨h, fun u => by simp⟩
    (by
      intro k s hk ⟨h1, h2⟩
      have hv : a.content.getD k 0 < 2 ^ 16 := ha.2 _ (getD_mem _ k hk)
      rw [bitmapContainer.andNotArray_body_eq a s h1.2.1 k]
      refine ⟨bitmapContainer.wf_bitClear s h1 _ hv, fun u => ?_⟩
      show getBit (bitClear s.bitmap _) u = _
      rw [getBit_bitClear _ h1.2.1 _ _ (h1.pos_lt _ hv), h2, take_succ_getD _ k hk]
      generalize a.content.getD k 0 = v at *
      simp [Bool.and_assoc])
  simp only [List.take_length] at this
  exact this

/-- The loop of `andArray` keeps, in order, the values of the array operand that the bitmap
container holds. -/
theorem bitmapContainer.andArray_eq (bc : bitmapContainer) (a : arrayContainer) :
    bc.andArray a = ⟨a.content.filter (fun v => getBit bc.bitmap v)⟩ := by
  unfold bitmapContainer.andArray
  simp only [arrayContainer.card_toNat]
  have := foldl_range_inv
    (fun k (s : arrayContainer) => s = ⟨(a.content.take k).filter (fun v => getBit bc.bitmap v)⟩)
    (bitmapContainer.andArray.body bc a) (newArrayContainerCapacity a.content.length)
    a.content.length rfl
    (by
      intro k s hk hs
      unfold bitmapContainer.andArray.body
      simp only [bitmapContainer.contains_eq_getBit]
      rw [take_succ_getD _ k hk, List.filter_append, hs]
      generalize a.content.getD k 0 = v at *
      by_cases hb : getBit bc.bitmap v = true
      · rw [if_pos hb, List.filter_cons, if_pos hb, List.filter_nil]
      · rw [if_neg hb, List.filter_cons, if_neg hb, List.filter_nil, List.append_nil])
  simp only [List.take_length] at this
  exact this

/-! ## Masks of a range of positions -/

theorem testBit_foldl_or (L : List Nat) : ∀ (m0 i : Nat),
    (L.foldl (fun m j => m ||| 2 ^ j) m0).testBit i = (m0.testBit i || decide (i ∈ L)) := by
  induction L with
  | nil => intro m0 i; simp
  | cons a L ih =>
    intro m0 i
    rw [List.foldl_cons, ih, testBit_or_two_pow]
    by_cases h : a = i
    · subst h; simp
    · have : ¬ i = a := fun e => h e.symm
      simp [h, this]

theorem testBit_rangeMask (first last : Int) (k i : Nat) :
    (rangeMask first last k).testBit i
      = (decide (i < 64) &&
          decide (first ≤ ((64 * k + i : Nat) : Int) ∧ ((64 * k + i : Nat) : Int) < last)) := by
  unfold rangeMask
  rw [testBit_foldl_or]
  simp only [Nat.zero_testBit, Bool.false_or, List.mem_filter, List.mem_range,
    decide_eq_true_eq]
  by_cases h1 : i < 64
  · simp [h1]
  · simp [h1]

theorem rangeMask_lt (first last : Int) (k : Nat) : rangeMask first last k < 2 ^ 64 := by
  apply word_lt_of_testBit
  intro i hi
  rw [testBit_rangeMask]
  have : ¬ i < 64 := by omega
  simp [this]

theorem popcount_not64 (w : Nat) (hw : w < 2 ^ 64) : popcount (not64 w) + popcount w = 64 := by
  unfold popcount
  have h1 : (List.range 64).countP (fun i => (not64 w).testBit i)
      = (List.range 64).countP (fun i => !w.testBit i) := by
    apply countP_range_congr
    intro i hi
    rw [testBit_not64]
    simp [hi]
  have _hw := hw
  rw [h1]
  have := List.length_eq_countP_add_countP (fun i => w.testBit i) (List.range 64)
  simp only [List.length_range] at this
  have h2 : (List.range 64).countP (fun a => decide ¬w.testBit a = true)
      = (List.range 64).countP (fun i => !w.testBit i) := by
    apply countP_range_congr
    intro i _
    cases w.testBit i <;> rfl
  rw [h2] at this
  omega

/-! ## The popcount of a slice as a sum over its indices -/

theorem popcntSlice_eq_sum (l : List Nat) :
    ((popcntSlice l : Nat) : Int)
      = ∑ j in Finset.range l.length, ((popcount (l.getD j 0) : Nat) : Int) := by
  induction l with
  | nil => simp [popcntSlice]
  | cons w ws ih =>
    rw [popcntSlice_cons, List.length_cons, Finset.sum_range_succ']
    push_cast
    rw [ih]
    simp only [List.getD_cons_succ, List.getD_cons_zero]
    ring

/-- Two slices of the same length that agree outside the words `[a, b)` differ in popcount by
the sum of the differences on those words. -/
theorem popcntSlice_diff (new old : List Nat) (a b : Nat) (hlen : new.length = old.length)
    (hb : b ≤ old.length)
    (hout : ∀ j, j < a ∨ b ≤ j → new.getD j 0 = old.getD j 0) :
    ((popcntSlice new : Nat) : Int) = (popcntSlice old : Nat)
      + ∑ j in Finset.Ico a b,
          (((popcount (new.getD j 0) : Nat) : Int) - ((popcount (old.getD j 0) : Nat) : Int)) := by
  have h1 : ((popcntSlice new : Nat) : Int) - (popcntSlice old : Nat)
      = ∑ j in Finset.range old.length,
          (((popcount (new.getD j 0) : Nat) : Int) - ((popcount (old.getD j 0) : Nat) : Int)) := by
    rw [popcntSlice_eq_sum new, popcntSlice_eq_sum old, hlen, Finset.sum_sub_distrib]
  have h2 : ∑ j in Finset.range old.length,
          (((popcount (new.getD j 0) : Nat) : Int) - ((popcount (old.getD j 0) : Nat) : Int))
      = ∑ j in Finset.Ico a b,
          (((popcount (new.getD j 0) : Nat) : Int) - ((popcount (old.getD j 0) : Nat) : Int)) := by
    symm
    apply Finset.sum_subset
    · intro j hj
      rw [Finset.mem_Ico] at hj
      rw [Finset.mem_range]
      omega
    · intro j _ hj
      rw [Finset.mem_Ico] at hj
      rw [hout j (by omega)]
      simp
  rw [h2] at h1
  omega

theorem testBit_first_mask (fb i : Nat) (hfb : fb < 64) :
    (allOnes ^^^ sub64 (shl64 1 fb) 1).testBit i = (decide (fb ≤ i) && decide (i < 64)) := by
  rw [shl64_one fb hfb, sub64_two_pow_one fb hfb, Nat.testBit_xor, allOnes_eq,
    Nat.testBit_two_pow_sub_one, Nat.testBit_two_pow_sub_one]
  by_cases h1 : i < 64 <;> by_cases h2 : i < fb <;> simp [h1, h2] <;> omega

theorem testBit_last_mask (lb i : Nat) (hlb : lb < 64) :
    (if lb ≠ 63 then sub64 (shl64 1 (lb + 1)) 1 else allOnes).testBit i = decide (i ≤ lb) := by
  by_cases h : lb ≠ 63
  · rw [if_pos h, shl64_one _ (by omega), sub64_two_pow_one _ (by omega),
      Nat.testBit_two_pow_sub_one]
    by_cases h2 : i ≤ lb <;> simp [h2] <;> omega
  · rw [if_neg h, allOnes_eq, Nat.testBit_two_pow_sub_one]
    by_cases h2 : i ≤ lb <;> simp [h2] <;> omega

theorem testBit_rangeMask_nat (f l k i : Nat) :
    (rangeMask (f : Int) ((l : Int) + 1) k).testBit i
      = (decide (i < 64) && decide (f ≤ 64 * k + i ∧ 64 * k + i ≤ l)) := by
  rw [testBit_rangeMask]
  congr 1
  apply decide_eq_decide.mpr
  constructor
  · intro h; constructor <;> omega
  · intro h; constructor <;> omega

theorem mask_first_eq (f l : Nat) (hw : f / 64 < l / 64) :
    allOnes ^^^ sub64 (shl64 1 (f % 64)) 1 = rangeMask (f : Int) ((l : Int) + 1) (f / 64) := by
  apply Nat.eq_of_testBit_eq
  intro i
  rw [testBit_first_mask _ _ (Nat.mod_lt _ (by norm_num)), testBit_rangeMask_nat,
    Bool.eq_iff_iff]
  simp only [Bool.and_eq_true, decide_eq_true_eq]
  omega

theorem mask_last_eq (f l : Nat) (hw : f / 64 < l / 64) :
    (if l % 64 ≠ 63 then sub64 (shl64 1 (l % 64 + 1)) 1 else allOnes)
      = rangeMask (f : Int) ((l : Int) + 1) (l / 64) := by
  apply Nat.eq_of_testBit_eq
  intro i
  rw [testBit_last_mask _ _ (Nat.mod_lt _ (by norm_num)), testBit_rangeMask_nat,
    Bool.eq_iff_iff]
  simp only [Bool.and_eq_true, decide_eq_true_eq]
  omega

theorem mask_same_eq (f l : Nat) (hw : f / 64 = l / 64) :
    (allOnes ^^^ sub64 (shl64 1 (f % 64)) 1)
        &&& (if l % 64 ≠ 63 then sub64 (shl64 1 (l % 64 + 1)) 1 else allOnes)
      = rangeMask (f : Int) ((l : Int) + 1) (f / 64) := by
  apply Nat.eq_of_testBit_eq
  intro i
  rw [Nat.testBit_and, testBit_first_mask _ _ (Nat.mod_lt _ (by norm_num)),
    testBit_last_mask _ _ (Nat.mod_lt _ (by norm_num)), testBit_rangeMask_nat,
    Bool.eq_iff_iff]
  simp only [Bool.and_eq_true, decide_eq_true_eq]
  omega

theorem mask_interior_eq (f l j : Nat) (h1 : f / 64 < j) (h2 : j < l / 64) :
    allOnes = rangeMask (f : Int) ((l : Int) + 1) j := by
  apply Nat.eq_of_testBit_eq
  intro i
  rw [allOnes_eq, Nat.testBit_two_pow_sub_one, testBit_rangeMask_nat, Bool.eq_iff_iff]
  simp only [Bool.and_eq_true, decide_eq_true_eq]
  omega

theorem mask_outside_eq (f l j : Nat) (h : j < f / 64 ∨ l / 64 < j) :
    rangeMask (f : Int) ((l : Int) + 1) j = 0 := by
  apply Nat.eq_of_testBit_eq
  intro i
  rw [testBit_rangeMask_nat, Nat.zero_testBit, Bool.eq_iff_iff]
  simp only [Bool.and_eq_true, decide_eq_true_eq, Bool.false_eq_true, iff_false]
  intro hh
  omega

theorem mask_full_eq (j : Nat) (hj : j < 1024) :
    rangeMask ((0 : Nat) : Int) (((65535 : Nat) : Int) + 1) j = allOnes := by
  apply Nat.eq_of_testBit_eq
  intro i
  rw [allOnes_eq, Nat.testBit_two_pow_sub_one, testBit_rangeMask_nat, Bool.eq_iff_iff]
  simp only [Bool.and_eq_true, decide_eq_true_eq]
  omega

/-! ## Flipping a range of positions -/

theorem flipRange_length (ws : List Nat) (first last : Int) :
    (flipRange ws first last).length = ws.length := by
  simp [flipRange]

theorem flipRange_getD (ws : List Nat) (first last : Int) (j : Nat) (hj : j < ws.length) :
    (flipRange ws first last).getD j 0 = ws.getD j 0 ^^^ rangeMask first (last + 1) j := by
  unfold flipRange
  simp [List.getD_eq_getElem?_getD, List.getElem?_zipWith, List.getElem?_eq_getElem hj,
    List.getElem?_range hj]

theorem flipRange_word_lt (ws : List Nat) (hw : ∀ w ∈ ws, w < 2 ^ 64) (first last : Int) :
    ∀ w ∈ flipRange ws first last, w < 2 ^ 64 := by
  intro w hmem
  unfold flipRange at hmem
  rw [List.mem_iff_getElem] at hmem
  obtain ⟨i, hi, rfl⟩ := hmem
  rw [List.getElem_zipWith]
  exact Nat.xor_lt_two_pow (hw _ (List.getElem_mem _)) (rangeMask_lt _ _ _)

theorem getBit_flipRange (ws : List Nat) (f l : Nat) (hl : l < 64 * ws.length) (v : Nat) :
    getBit (flipRange ws (f : Int) (l : Int)) v
      = (getBit ws v != decide (f ≤ v ∧ v ≤ l)) := by
  by_cases hv : v < 64 * ws.length
  · unfold getBit
    rw [flipRange_getD _ _ _ _ (by omega), Nat.testBit_xor, testBit_rangeMask_nat]
    have h64 : v % 64 < 64 := Nat.mod_lt _ (by norm_num)
    have hsplit : 64 * (v / 64) + v % 64 = v := Nat.div_add_mod v 64
    rw [hsplit, decide_eq_true h64, Bool.true_and]
  · rw [getBit_ge _ v (by rw [flipRange_length]; omega), getBit_ge ws v (by omega)]
    have : ¬ (f ≤ v ∧ v ≤ l) := by omega
    simp [this]

theorem getD_of_length_le (ws : List Nat) (j : Nat) (hj : ws.length ≤ j) : ws.getD j 0 = 0 := by
  rw [List.getD_eq_getElem?_getD, List.getElem?_eq_none hj]
  rfl

/-! ## The loops of `NotBitmap` -/

theorem foldl_range'_inv {σ : Type} (P : Nat → σ → Prop) (f : σ → Nat → σ) (init : σ)
    (a n : Nat) (h0 : P 0 init) (hstep : ∀ k s, k < n → P k s → P (k + 1) (f s (a + k))) :
    P n ((List.range' a n).foldl f init) := by
  rw [List.range'_eq_map_range, List.foldl_map]
  exact foldl_range_inv P (fun s k => f s (a + k)) init n h0 hstep

theorem bitmapContainer.NotBitmap.complement_fold (src : bitmapContainer → bitmapContainer)
    (old : List Nat) (a0 : bitmapContainer) (n : Nat)
    (hsrc : ∀ (s : bitmapContainer) (j : Nat), s.bitmap.getD j 0 = a0.bitmap.getD j 0 →
      (src s).bitmap.getD j 0 = old.getD j 0) :
    ((List.range n).foldl (bitmapContainer.NotBitmap.complement src) a0).cardinality
        = a0.cardinality ∧
    ((List.range n).foldl (bitmapContainer.NotBitmap.complement src) a0).bitmap.length
        = a0.bitmap.length ∧
    ∀ i, ((List.range n).foldl (bitmapContainer.NotBitmap.complement src) a0).bitmap.getD i 0
      = if i < n ∧ i < a0.bitmap.length then not64 (old.getD i 0) else a0.bitmap.getD i 0 := by
  apply foldl_range_inv
    (fun k (s : bitmapContainer) => s.cardinality = a0.cardinality ∧
      s.bitmap.length = a0.bitmap.length ∧
      ∀ i, s.bitmap.getD i 0
        = if i < k ∧ i < a0.bitmap.length then not64 (old.getD i 0) else a0.bitmap.getD i 0)
  · refine ⟨rfl, rfl, fun i => ?_⟩
    rw [if_neg (by omega)]
  · intro k s _ ⟨h1, h2, h3⟩
    have hread : (src s).bitmap.getD k 0 = old.getD k 0 :=
      hsrc s k (by rw [h3, if_neg (by omega)])
    unfold bitmapContainer.NotBitmap.complement
    refine ⟨h1, by simp [h2], fun i => ?_⟩
    simp only
    rw [getD_set_eq, h2, hread]
    by_cases hik : i = k
    · subst hik
      by_cases hlen : i < a0.bitmap.length
      · rw [if_pos ⟨rfl, hlen⟩, if_pos ⟨by omega, hlen⟩]
      · rw [if_neg (by omega), if_neg (by omega), h3, if_neg (by omega)]
    · rw [if_neg (by omega), h3]
      by_cases hc : i < k ∧ i < a0.bitmap.length
      · rw [if_pos hc, if_pos (by omega)]
      · rw [if_neg hc, if_neg (by omega)]

theorem bitmapContainer.NotBitmap.negate_fold (src : bitmapContainer → bitmapContainer)
    (old : List Nat) (s0 : bitmapContainer × Int) (a n : Nat)
    (hn : a + n ≤ s0.1.bitmap.length)
    (hsrc : ∀ (s : bitmapContainer) (j : Nat), s.bitmap.getD j 0 = s0.1.bitmap.getD j 0 →
      a ≤ j → j < a + n → (src s).bitmap.getD j 0 = old.getD j 0) :
    ((List.range' a n).foldl (bitmapContainer.NotBitmap.negate src) s0).1.cardinality
        = s0.1.cardinality ∧
    ((List.range' a n).foldl (bitmapContainer.NotBitmap.negate src) s0).1.bitmap.length
        = s0.1.bitmap.length ∧
    (∀ i, ((List.range' a n).foldl (bitmapContainer.NotBitmap.negate src) s0).1.bitmap.getD i 0
      = if a ≤ i ∧ i < a + n then not64 (old.getD i 0) else s0.1.bitmap.getD i 0) ∧
    ((List.range' a n).foldl (bitmapContainer.NotBitmap.negate src) s0).2
      = s0.2 + ∑ j in Finset.Ico a (a + n), (64 - 2 * ((popcount (old.getD j 0) : Nat) : Int)) := by
  apply foldl_range'_inv
    (fun k (s : bitmapContainer × Int) => s.1.cardinality = s0.1.cardinality ∧
      s.1.bitmap.length = s0.1.bitmap.length ∧
      (∀ i, s.1.bitmap.getD i 0
        = if a ≤ i ∧ i < a + k then not64 (old.getD i 0) else s0.1.bitmap.getD i 0) ∧
      s.2 = s0.2
        + ∑ j in Finset.Ico a (a + k), (64 - 2 * ((popcount (old.getD j 0) : Nat) : Int)))
  · refine ⟨rfl, rfl, fun i => ?_, by simp⟩
    rw [if_neg (by omega)]
  · intro k s hk ⟨h1, h2, h3, h4⟩
    have hread : (src s.1).bitmap.getD (a + k) 0 = old.getD (a + k) 0 :=
      hsrc s.1 (a + k) (by rw [h3, if_neg (by omega)]) (by omega) (by omega)
    unfold bitmapContainer.NotBitmap.negate
    simp only [hread]
    refine ⟨h1, by simp [h2], fun i => ?_, ?_⟩
    · rw [getD_set_eq, h2]
      by_cases hik : i = a + k
      · subst hik
        rw [if_pos ⟨rfl, by omega⟩, if_pos ⟨by omega, by omega⟩]
      · rw [if_neg (by omega), h3]
        by_cases hc : a ≤ i ∧ i < a + k
        · rw [if_pos hc, if_pos (by omega)]
        · rw [if_neg hc, if_neg (by omega)]
    · rw [h4, ← Nat.add_assoc, Finset.sum_Ico_succ_top (by omega)]
      ring

theorem bitmapContainer.NotBitmap.copyOutside_spec (bc a0 : bitmapContainer) (fw lw : Nat)
    (hlen : bc.bitmap.length = 1024) (h0 : a0.bitmap.length = 1024) (hfw : fw ≤ lw)
    (hlw : lw < 1024) :
    (bitmapContainer.NotBitmap.copyOutside bc a0 fw lw).cardinality = a0.cardinality ∧
    (bitmapContainer.NotBitmap.copyOutside bc a0 fw lw).bitmap.length = 1024 ∧
    ∀ j, (bitmapContainer.NotBitmap.copyOutside bc a0 fw lw).bitmap.getD j 0
      = if j < fw ∨ lw < j then bc.bitmap.getD j 0 else a0.bitmap.getD j 0 := by
  have htake : ∀ j, j < fw → (bc.bitmap.take fw).getD j 0 = bc.bitmap.getD j 0 := by
    intro j hj
    simp only [List.getD_eq_getElem?_getD]
    rw [List.getElem?_take, if_pos hj]
  have hinner : ∀ j, (writeFrom a0.bitmap 0 (bc.bitmap.take fw)).getD j 0
      = if j < fw then bc.bitmap.getD j 0 else a0.bitmap.getD j 0 := by
    intro j
    rw [writeFrom_getD, List.length_take, hlen, h0]
    by_cases hj : j < fw
    · rw [if_pos (by omega), if_pos hj, Nat.sub_zero, htake j hj]
    · rw [if_neg (by omega), if_neg hj]
  unfold bitmapContainer.NotBitmap.copyOutside
  simp only
  by_cases hsz : ((bc.bitmap.length : Int) - ((lw + 1 : Nat) : Int)) > 0
  · rw [if_pos hsz]
    refine ⟨rfl, by simp [writeFrom_length, h0], fun j => ?_⟩
    simp only
    rw [writeFrom_getD, hinner, writeFrom_length, h0, List.length_take, List.length_drop, hlen]
    have hszn : ((((1024 : Nat) : Int)) - ((lw + 1 : Nat) : Int)).toNat = 1024 - (lw + 1) := by
      omega
    rw [hlen] at hsz
    by_cases hj : lw + 1 ≤ j ∧ j < 1024
    · rw [if_pos (by omega), if_pos (by omega)]
      simp only [List.getD_eq_getElem?_getD]
      rw [List.getElem?_take, if_pos (by omega), List.getElem?_drop]
      have e : lw + 1 + (j - (lw + 1)) = j := by omega
      rw [e]
    · rw [if_neg (by omega)]
      by_cases hj2 : j < fw
      · rw [if_pos hj2, if_pos (by omega)]
      · rw [if_neg hj2]
        by_cases hj3 : lw < j
        · rw [if_pos (by omega), getD_of_length_le bc.bitmap j (by omega),
            getD_of_length_le a0.bitmap j (by omega)]
        · rw [if_neg (by omega)]
  · rw [if_neg hsz]
    refine ⟨rfl, by simp [writeFrom_length, h0], fun j => ?_⟩
    simp only
    rw [hinner]
    rw [hlen] at hsz
    by_cases hj2 : j < fw
    · rw [if_pos hj2, if_pos (by omega)]
    · rw [if_neg hj2]
      by_cases hj3 : lw < j
      · rw [if_pos (by omega), getD_of_length_le bc.bitmap j (by omega),
          getD_of_length_le a0.bitmap j (by omega)]
      · rw [if_neg (by omega)]

theorem bitmapContainer.mk_congr (c1 c2 : Int) (b1 b2 : List Nat) (hc : c1 = c2) (hb : b1 = b2) :
    (⟨c1, b1⟩ : bitmapContainer) = ⟨c2, b2⟩ := by
  rw [hc, hb]

theorem bitmapContainer.NotBitmap.finish_congr (src : bitmapContainer → bitmapContainer)
    (x b : bitmapContainer) (h : x = b) :
    bitmapContainer.NotBitmap.finish (src x) x = bitmapContainer.NotBitmap.finish (src b) b := by
  rw [h]

theorem bitmapContainer.NotBitmap.finish_eq (self b : bitmapContainer) :
    bitmapContainer.NotBitmap.finish self b = ⟨self, downgrade b⟩ := by
  unfold bitmapContainer.NotBitmap.finish downgrade
  by_cases hc : b.cardinality ≤ arrayDefaultMaxSize
  · rw [if_pos hc, if_pos hc]
  · rw [if_neg hc, if_neg hc]

theorem firstBitPos_toNat (f : Nat) : ((((f : Int)) % 64).tmod 64).toNat = f % 64 := by
  rw [Int.tmod_eq_emod (by omega) (by omega)]
  omega

theorem lastBitPos_mask (l : Nat) :
    (if ((l : Int)) % 64 ≠ 63
        then sub64 (shl64 1 ((((l : Int)) % 64 + 1).tmod 64).toNat) 1 else allOnes)
      = (if l % 64 ≠ 63 then sub64 (shl64 1 (l % 64 + 1)) 1 else allOnes) := by
  by_cases h : l % 64 ≠ 63
  · have h2 : ((l : Int)) % 64 ≠ 63 := by omega
    have h3 : ((((l : Int)) % 64 + 1).tmod 64).toNat = l % 64 + 1 := by
      rw [Int.tmod_eq_emod (by omega) (by omega)]
      omega
    rw [if_pos h, if_pos h2, h3]
  · have h2 : ¬ ((l : Int)) % 64 ≠ 63 := by omega
    rw [if_neg h, if_neg h2]

/-- The words of a flipped range, word by word. -/
theorem flipRange_getD_cases (ws : List Nat) (hlen : ws.length = 1024) (f l j : Nat)
    (hl : l < 65536) (hj : j < 1024) :
    (flipRange ws (f : Int) (l : Int)).getD j 0
      = if j < f / 64 ∨ l / 64 < j then ws.getD j 0
        else if f / 64 = l / 64 then
          ws.getD j 0 ^^^ ((allOnes ^^^ sub64 (shl64 1 (f % 64)) 1)
            &&& (if l % 64 ≠ 63 then sub64 (shl64 1 (l % 64 + 1)) 1 else allOnes))
        else if j = f / 64 then ws.getD j 0 ^^^ (allOnes ^^^ sub64 (shl64 1 (f % 64)) 1)
        else if j = l / 64 then
          ws.getD j 0 ^^^ (if l % 64 ≠ 63 then sub64 (shl64 1 (l % 64 + 1)) 1 else allOnes)
        else not64 (ws.getD j 0) := by
  have _hl := hl
  rw [flipRange_getD _ _ _ _ (by omega)]
  by_cases h1 : j < f / 64 ∨ l / 64 < j
  · rw [if_pos h1, mask_outside_eq f l j h1, Nat.xor_zero]
  · rw [if_neg h1]
    by_cases h2 : f / 64 = l / 64
    · have hj2 : j = f / 64 := by omega
      rw [if_pos h2, mask_same_eq f l h2, hj2]
    · rw [if_neg h2]
      by_cases h3 : j = f / 64
      · rw [if_pos h3, mask_first_eq f l (by omega), h3]
      · rw [if_neg h3]
        by_cases h4 : j = l / 64
        · rw [if_pos h4, mask_last_eq f l (by omega), h4]
        · rw [if_neg h4, ← mask_interior_eq f l j (by omega) (by omega)]
          unfold not64
          exact Nat.xor_comm _ _

/-- The second half of `NotBitmap` leaves in the answer the words of the receiver with the
range flipped, and the popcount of these words as cardinality. -/
theorem bitmapContainer.NotBitmap.flipWords_eq (src : bitmapContainer → bitmapContainer)
    (bc : bitmapContainer) (h : bc.wf) (ans1 : bitmapContainer) (f l : Nat) (hfl : f ≤ l)
    (hl : l < 65536) (hlen : ans1.bitmap.length = 1024)
    (hout : ∀ j, j < f / 64 ∨ l / 64 < j → ans1.bitmap.getD j 0 = bc.bitmap.getD j 0)
    (hsrc : ∀ (s : bitmapContainer) (j : Nat), s.bitmap.getD j 0 = ans1.bitmap.getD j 0 →
      f / 64 ≤ j → j ≤ l / 64 → (src s).bitmap.getD j 0 = bc.bitmap.getD j 0)
    (hcard : ∀ s : bitmapContainer, s.cardinality = ans1.cardinality →
      (src s).cardinality = bc.cardinality) :
    bitmapContainer.NotBitmap.flipWords src ans1 (f / 64) ((f : Int) % 64) (l / 64)
        ((l : Int) % 64)
      = bitmapContainer.NotBitmap.finish
          (src ⟨(popcntSlice (flipRange bc.bitmap (f : Int) (l : Int)) : Nat),
            flipRange bc.bitmap (f : Int) (l : Int)⟩)
          ⟨(popcntSlice (flipRange bc.bitmap (f : Int) (l : Int)) : Nat),
            flipRange bc.bitmap (f : Int) (l : Int)⟩ := by
  have hfw : f / 64 < 1024 := by omega
  have hlw : l / 64 < 1024 := by omega
  have hle : f / 64 ≤ l / 64 := Nat.div_le_div_right hfl
  have hflen : (flipRange bc.bitmap (f : Int) (l : Int)).length = 1024 := by
    rw [flipRange_length, h.1]
  have hK := popcntSlice_diff (flipRange bc.bitmap (f : Int) (l : Int)) bc.bitmap (f / 64)
    (l / 64 + 1) (by rw [flipRange_length]) (by rw [h.1]; omega)
    (by
      intro j hj
      by_cases hj2 : j < 1024
      · rw [flipRange_getD_cases _ h.1 f l j hl hj2, if_pos (by omega)]
      · rw [getD_of_length_le _ j (by rw [flipRange_length, h.1]; omega),
          getD_of_length_le _ j (by rw [h.1]; omega)])
  have e_out : ∀ j, j < 1024 → (j < f / 64 ∨ l / 64 < j) →
      (flipRange bc.bitmap (f : Int) (l : Int)).getD j 0 = bc.bitmap.getD j 0 := by
    intro j hj hj2
    rw [flipRange_getD_cases _ h.1 f l j hl hj, if_pos hj2]
  have e_same : f / 64 = l / 64 →
      (flipRange bc.bitmap (f : Int) (l : Int)).getD (f / 64) 0
        = bc.bitmap.getD (f / 64) 0 ^^^ ((allOnes ^^^ sub64 (shl64 1 (f % 64)) 1)
            &&& (if l % 64 ≠ 63 then sub64 (shl64 1 (l % 64 + 1)) 1 else allOnes)) := by
    intro hw
    rw [flipRange_getD_cases _ h.1 f l _ hl hfw,
      if_neg (show ¬ (f / 64 < f / 64 ∨ l / 64 < f / 64) by omega), if_pos hw]
  have e_fw : f / 64 ≠ l / 64 →
      (flipRange bc.bitmap (f : Int) (l : Int)).getD (f / 64) 0
        = bc.bitmap.getD (f / 64) 0 ^^^ (allOnes ^^^ sub64 (shl64 1 (f % 64)) 1) := by
    intro hw
    rw [flipRange_getD_cases _ h.1 f l _ hl hfw,
      if_neg (show ¬ (f / 64 < f / 64 ∨ l / 64 < f / 64) by omega), if_neg hw, if_pos rfl]
  have e_lw : f / 64 ≠ l / 64 →
      (flipRange bc.bitmap (f : Int) (l : Int)).getD (l / 64) 0
        = bc.bitmap.getD (l / 64) 0
            ^^^ (if l % 64 ≠ 63 then sub64 (shl64 1 (l % 64 + 1)) 1 else allOnes) := by
    intro hw
    rw [flipRange_getD_cases _ h.1 f l _ hl hlw,
      if_neg (show ¬ (l / 64 < f / 64 ∨ l / 64 < l / 64) by omega), if_neg hw,
      if_neg (show ¬ l / 64 = f / 64 from fun e => hw e.symm), if_pos rfl]
  have e_int : ∀ j, f / 64 < j → j < l / 64 →
      (flipRange bc.bitmap (f : Int) (l : Int)).getD j 0 = not64 (bc.bitmap.getD j 0) := by
    intro j hj1 hj2
    rw [flipRange_getD_cases _ h.1 f l j hl (by omega),
      if_neg (show ¬ (j < f / 64 ∨ l / 64 < j) by omega),
      if_neg (show ¬ f / 64 = l / 64 by omega), if_neg (show ¬ j = f / 64 by omega),
      if_neg (show ¬ j = l / 64 by omega)]
  have hc2 : ∀ b : List Nat, (src ⟨ans1.cardinality, b⟩).cardinality = bc.cardinality :=
    fun b => hcard _ rfl
  have hr1 : (src ans1).bitmap.getD (f / 64) 0 = bc.bitmap.getD (f / 64) 0 :=
    hsrc ans1 _ rfl (le_refl _) hle
  unfold bitmapContainer.NotBitmap.flipWords
  simp only [firstBitPos_toNat, lastBitPos_mask]
  generalize allOnes ^^^ sub64 (shl64 1 (f % 64)) 1 = mL at *
  generalize (if l % 64 ≠ 63 then sub64 (shl64 1 (l % 64 + 1)) 1 else allOnes) = mR at *
  generalize hF : flipRange bc.bitmap (f : Int) (l : Int) = F at *
  by_cases hw : f / 64 = l / 64
  · rw [if_pos hw]
    apply bitmapContainer.NotBitmap.finish_congr src
    rw [hr1]
    simp only [hc2]
    have c_fw : (ans1.bitmap.set (f / 64) (bc.bitmap.getD (f / 64) 0 ^^^ (mL &&& mR))).getD
        (f / 64) 0 = bc.bitmap.getD (f / 64) 0 ^^^ (mL &&& mR) := by
      rw [getD_set_eq, if_pos ⟨rfl, by omega⟩]
    rw [c_fw]
    apply bitmapContainer.mk_congr
    · rw [← hw, Nat.Ico_succ_singleton, Finset.sum_singleton, e_same hw] at hK
      rw [hK, h.2.2]
      omega
    · apply ext_getD
      · rw [List.length_set, hlen, hflen]
      · intro j hj
        rw [List.length_set, hlen] at hj
        rw [getD_set_eq, hlen]
        by_cases hj2 : j = f / 64
        · rw [if_pos ⟨hj2, by omega⟩, hj2, e_same hw]
        · rw [if_neg (fun hh => hj2 hh.1), e_out j hj (by omega), hout j (by omega)]
  · rw [if_neg hw]
    have hlt : f / 64 < l / 64 := by omega
    apply bitmapContainer.NotBitmap.finish_congr src
    have hr2 : ∀ w, (src ⟨ans1.cardinality, ans1.bitmap.set (f / 64) w⟩).bitmap.getD (l / 64) 0
        = bc.bitmap.getD (l / 64) 0 := by
      intro w
      apply hsrc _ _ _ (by omega) (le_refl _)
      show (ans1.bitmap.set (f / 64) w).getD (l / 64) 0 = _
      rw [getD_set_eq, if_neg (by omega)]
    have c_fw : (ans1.bitmap.set (f / 64) (bc.bitmap.getD (f / 64) 0 ^^^ mL)).getD (f / 64) 0
        = bc.bitmap.getD (f / 64) 0 ^^^ mL := by
      rw [getD_set_eq, if_pos ⟨rfl, by omega⟩]
    have c_lw : ((ans1.bitmap.set (f / 64) (bc.bitmap.getD (f / 64) 0 ^^^ mL)).set (l / 64)
        (bc.bitmap.getD (l / 64) 0 ^^^ mR)).getD (l / 64) 0
        = bc.bitmap.getD (l / 64) 0 ^^^ mR := by
      rw [getD_set_eq, if_pos ⟨rfl, by rw [List.length_set]; omega⟩]
    simp only [hr1, hr2, c_fw, c_lw]
    obtain ⟨hn1, hn2, hn3, hn4⟩ := bitmapContainer.NotBitmap.negate_fold src bc.bitmap
      (⟨ans1.cardinality,
          (ans1.bitmap.set (f / 64) (bc.bitmap.getD (f / 64) 0 ^^^ mL)).set (l / 64)
            (bc.bitmap.getD (l / 64) 0 ^^^ mR)⟩,
        -((popcount (bc.bitmap.getD (f / 64) 0) : Nat) : Int)
          + ((popcount (bc.bitmap.getD (f / 64) 0 ^^^ mL) : Nat) : Int)
          + -((popcount (bc.bitmap.getD (l / 64) 0) : Nat) : Int)
          + ((popcount (bc.bitmap.getD (l / 64) 0 ^^^ mR) : Nat) : Int))
      (f / 64 + 1) (l / 64 - (f / 64 + 1))
      (by
        show _ ≤ ((ans1.bitmap.set _ _).set _ _).length
        rw [List.length_set, List.length_set, hlen]; omega)
      (by
        intro s j hs hj1 hj2
        apply hsrc s j _ (by omega) (by omega)
        rw [hs]
        show ((ans1.bitmap.set _ _).set _ _).getD j 0 = _
        rw [getD_set_eq, if_neg (by omega), getD_set_eq, if_neg (by omega)])
    simp only at hn1 hn2 hn3 hn4
    have hend : f / 64 + 1 + (l / 64 - (f / 64 + 1)) = l / 64 := by omega
    rw [hend] at hn3 hn4
    generalize (List.range' (f / 64 + 1) (l / 64 - (f / 64 + 1))).foldl
      (bitmapContainer.NotBitmap.negate src)
      (⟨ans1.cardinality,
          (ans1.bitmap.set (f / 64) (bc.bitmap.getD (f / 64) 0 ^^^ mL)).set (l / 64)
            (bc.bitmap.getD (l / 64) 0 ^^^ mR)⟩,
        -((popcount (bc.bitmap.getD (f / 64) 0) : Nat) : Int)
          + ((popcount (bc.bitmap.getD (f / 64) 0 ^^^ mL) : Nat) : Int)
          + -((popcount (bc.bitmap.getD (l / 64) 0) : Nat) : Int)
          + ((popcount (bc.bitmap.getD (l / 64) 0 ^^^ mR) : Nat) : Int)) = r at *
    rw [hcard _ hn1]
    apply bitmapContainer.mk_congr
    · have hint : ∑ j in Finset.Ico (f / 64 + 1) (l / 64),
            (((popcount (F.getD j 0) : Nat) : Int)
              - ((popcount (bc.bitmap.getD j 0) : Nat) : Int))
          = ∑ j in Finset.Ico (f / 64 + 1) (l / 64),
              (64 - 2 * ((popcount (bc.bitmap.getD j 0) : Nat) : Int)) := by
        apply Finset.sum_congr rfl
        intro j hj
        rw [Finset.mem_Ico] at hj
        rw [e_int j (by omega) (by omega)]
        have := popcount_not64 _ (getD_word_lt bc.bitmap h.2.1 j)
        omega
      rw [Finset.sum_Ico_succ_top (by omega), Finset.sum_eq_sum_Ico_succ_bot hlt, hint,
        e_fw hw, e_lw hw] at hK
      rw [hn4, hK, h.2.2]
      omega
    · apply ext_getD
      · rw [hn2]
        show ((ans1.bitmap.set _ _).set _ _).length = _
        rw [List.length_set, List.length_set, hlen, hflen]
      · intro j hj
        rw [hn2] at hj
        have hj' : j < 1024 := by
          have : ((ans1.bitmap.set (f / 64) (bc.bitmap.getD (f / 64) 0 ^^^ mL)).set (l / 64)
            (bc.bitmap.getD (l / 64) 0 ^^^ mR)).length = 1024 := by
            rw [List.length_set, List.length_set, hlen]
          exact this ▸ hj
        rw [hn3]
        by_cases hj1 : f / 64 + 1 ≤ j ∧ j < l / 64
        · rw [if_pos hj1, e_int j (by omega) (by omega)]
        · rw [if_neg hj1]
          show ((ans1.bitmap.set _ _).set _ _).getD j 0 = _
          rw [getD_set_eq, List.length_set, hlen]
          by_cases hj3 : j = l / 64
          · rw [if_pos ⟨hj3, by omega⟩, hj3, e_lw hw]
          · rw [if_neg (fun hh => hj3 hh.1), getD_set_eq, hlen]
            by_cases hj2 : j = f / 64
            · rw [if_pos ⟨hj2, by omega⟩, hj2, e_fw hw]
            · rw [if_neg (fun hh => hj2 hh.1), e_out j hj' (by omega), hout j (by omega)]

theorem popcntSlice_map_not64 (l : List Nat) (hw : ∀ w ∈ l, w < 2 ^ 64) :
    popcntSlice (l.map not64) + popcntSlice l = 64 * l.length := by
  induction l with
  | nil => rfl
  | cons a as ih =>
    rw [List.map_cons, popcntSlice_cons, popcntSlice_cons, List.length_cons]
    have h1 := popcount_not64 a (hw a (List.mem_cons_self _ _))
    have h2 := ih (fun w hmem => hw w (List.mem_cons_of_mem _ hmem))
    omega

theorem flipRange_full (ws : List Nat) (hlen : ws.length = 1024) :
    flipRange ws ((0 : Nat) : Int) ((65535 : Nat) : Int) = ws.map not64 := by
  apply ext_getD
  · rw [flipRange_length, List.length_map]
  · intro j hj
    rw [flipRange_length, hlen] at hj
    rw [flipRange_getD _ _ _ _ (by omega), mask_full_eq j hj]
    have hj2 : j < ws.length := by omega
    simp only [List.getD_eq_getElem?_getD, List.getElem?_map, List.getElem?_eq_getElem hj2,
      Option.map_some', Option.getD_some]
    unfold not64
    exact Nat.xor_comm _ _

theorem tdiv_64_toNat (f : Nat) : (((f : Int)).tdiv 64).toNat = f / 64 := by
  rw [Int.tdiv_eq_ediv (by omega) (by omega)]
  omega

/-- The method `NotBitmap` on a closed range `[f, l]` inside `0..65535`: the answer holds the
words of the receiver with the range flipped, and is downgraded when its cardinality allows;
the receiver is that answer when it was passed as the answer, and is unchanged otherwise. -/
theorem bitmapContainer.NotBitmap_eq (bc : bitmapContainer) (h : bc.wf)
    (answer : Option bitmapContainer)
    (hans : ∀ a0, answer = some a0 → a0.bitmap.length = 1024) (f l : Nat) (hfl : f ≤ l)
    (hl : l < 65536) :
    bc.NotBitmap answer (f : Int) (l : Int)
      = ⟨if answer.isNone then
            ⟨(popcntSlice (flipRange bc.bitmap (f : Int) (l : Int)) : Nat),
              flipRange bc.bitmap (f : Int) (l : Int)⟩
          else bc,
          downgrade ⟨(popcntSlice (flipRange bc.bitmap (f : Int) (l : Int)) : Nat),
            flipRange bc.bitmap (f : Int) (l : Int)⟩⟩ := by
  unfold bitmapContainer.NotBitmap
  simp only [tdiv_64_toNat]
  by_cases hfull : (l : Int) - (f : Int) + 1 = maxCapacity
  · rw [if_pos hfull]
    have hf0 : f = 0 := by unfold maxCapacity at hfull; omega
    have hl0 : l = 65535 := by unfold maxCapacity at hfull; omega
    subst hf0 hl0
    have hlen0 : (answer.getD bc).bitmap.length = 1024 := by
      cases answer with
      | none => exact h.1
      | some a0 => exact hans a0 rfl
    obtain ⟨hc1, hc2, hc3⟩ := bitmapContainer.NotBitmap.complement_fold
      (fun a => if answer.isNone then a else bc) bc.bitmap (answer.getD bc) bc.bitmap.length
      (by
        intro s j hs
        cases answer with
        | none => exact hs
        | some a0 => rfl)
    generalize (List.range bc.bitmap.length).foldl
      (bitmapContainer.NotBitmap.complement (fun a => if answer.isNone then a else bc))
      (answer.getD bc) = r at *
    have hb : r.bitmap = flipRange bc.bitmap ((0 : Nat) : Int) ((65535 : Nat) : Int) := by
      rw [flipRange_full _ h.1]
      apply ext_getD
      · rw [hc2, hlen0, List.length_map, h.1]
      · intro j hj
        rw [hc2, hlen0] at hj
        rw [hc3, hlen0, h.1, if_pos ⟨hj, hj⟩]
        have hj2 : j < bc.bitmap.length := by rw [h.1]; exact hj
        simp only [List.getD_eq_getElem?_getD, List.getElem?_map,
          List.getElem?_eq_getElem hj2, Option.map_some', Option.getD_some]
    have hcard : maxCapacity - bc.cardinality
        = ((popcntSlice (flipRange bc.bitmap ((0 : Nat) : Int) ((65535 : Nat) : Int)) : Nat)
            : Int) := by
      rw [flipRange_full _ h.1, h.2.2]
      have := popcntSlice_map_not64 bc.bitmap h.2.1
      rw [h.1] at this
      unfold maxCapacity
      omega
    have hans2 : ({ r with cardinality := maxCapacity - bc.cardinality } : bitmapContainer)
        = ⟨(popcntSlice (flipRange bc.bitmap ((0 : Nat) : Int) ((65535 : Nat) : Int)) : Nat),
            flipRange bc.bitmap ((0 : Nat) : Int) ((65535 : Nat) : Int)⟩ :=
      bitmapContainer.mk_congr _ _ _ _ hcard hb
    simp only [hans2]
    rw [hcard]
    unfold downgrade
    by_cases hc : ((popcntSlice (flipRange bc.bitmap ((0 : Nat) : Int) ((65535 : Nat) : Int))
        : Nat) : Int) ≤ arrayDefaultMaxSize
    · rw [if_pos hc, if_pos hc]
    · rw [if_neg hc, if_neg hc]
  · rw [if_neg hfull]
    have hlw : l / 64 < 1024 := by omega
    cases answer with
    | none =>
      simp only [Option.isSome_none, Option.getD_none, Option.isNone_none, if_true,
        Bool.false_eq_true, if_false]
      rw [bitmapContainer.NotBitmap.flipWords_eq (fun a => a) bc h bc f l hfl hl h.1
        (fun _ _ => rfl) (fun s j hs _ _ => hs) (fun s hs => hs),
        bitmapContainer.NotBitmap.finish_eq]
    | some a0 =>
      obtain ⟨hp1, hp2, hp3⟩ := bitmapContainer.NotBitmap.copyOutside_spec bc a0 (f / 64)
        (l / 64) h.1 (hans a0 rfl) (Nat.div_le_div_right hfl) hlw
      simp only [Option.isSome_some, Option.getD_some, Option.isNone_some, if_true,
        Bool.false_eq_true, if_false]
      rw [bitmapContainer.NotBitmap.flipWords_eq (fun _ => bc) bc h _ f l hfl hl hp2
        (fun j hj => by rw [hp3, if_pos hj]) (fun s j _ _ _ => rfl) (fun s _ => rfl),
        bitmapContainer.NotBitmap.finish_eq]

/-! ## The operations as equations -/

theorem flipRange_wf (bc : bitmapContainer) (h : bc.wf) (first last : Int) :
    bitmapContainer.wf
      ⟨(popcntSlice (flipRange bc.bitmap first last) : Nat), flipRange bc.bitmap first last⟩ :=
  ⟨by rw [flipRange_length]; exact h.1, flipRange_word_lt _ h.2.1 _ _, rfl⟩

theorem bitmapContainer.not_eq (bc : bitmapContainer) (h : bc.wf) (f l : Nat) (hfl : f ≤ l)
    (hl : l < 65536) :
    bc.not (f : Int) (l : Int)
      = downgrade ⟨(popcntSlice (flipRange bc.bitmap (f : Int) (l : Int)) : Nat),
          flipRange bc.bitmap (f : Int) (l : Int)⟩ := by
  unfold bitmapContainer.not
  rw [bitmapContainer.NotBitmap_eq bc h _
    (fun a0 ha0 => by rw [← Option.some.inj ha0]; exact newBitmapContainer_length) f l hfl hl]

theorem bitmapContainer.inot_eq (bc : bitmapContainer) (h : bc.wf) (f l : Nat) (hfl : f ≤ l)
    (hl : l < 65536) :
    bc.inot (f : Int) (l : Int)
      = ⟨⟨(popcntSlice (flipRange bc.bitmap (f : Int) (l : Int)) : Nat),
            flipRange bc.bitmap (f : Int) (l : Int)⟩,
          downgrade ⟨(popcntSlice (flipRange bc.bitmap (f : Int) (l : Int)) : Nat),
            flipRange bc.bitmap (f : Int) (l : Int)⟩⟩ := by
  unfold bitmapContainer.inot
  rw [bitmapContainer.NotBitmap_eq bc h none (fun a0 ha0 => Option.noConfusion ha0) f l hfl hl]
  rfl

theorem bitmapContainer.orArray_eq (bc : bitmapContainer) (a : arrayContainer) :
    bc.orArray a
      = .bitmap ((List.range a.content.length).foldl (bitmapContainer.orArray.body a) bc) := by
  unfold bitmapContainer.orArray
  simp only [bitmapContainer.clone_eq, arrayContainer.card_toNat]

theorem bitmapContainer.iorArray_eq (bc : bitmapContainer) (a : arrayContainer) :
    bc.iorArray a
      = ⟨(List.range a.content.length).foldl (bitmapContainer.orArray.body a) bc,
        .bitmap ((List.range a.content.length).foldl (bitmapContainer.orArray.body a) bc)⟩ := by
  unfold bitmapContainer.iorArray
  simp only [arrayContainer.card_toNat]

theorem bitmapContainer.xorArray_eq (bc : bitmapContainer) (a : arrayContainer) :
    bc.xorArray a
      = downgrade ((List.range a.content.length).foldl (bitmapContainer.xorArray.body a) bc) := by
  unfold bitmapContainer.xorArray downgrade
  simp only [bitmapContainer.clone_eq, arrayContainer.card_toNat]

theorem bitmapContainer.andNotArray_eq (bc : bitmapContainer) (a : arrayContainer) :
    bc.andNotArray a
      = downgrade
          ((List.range a.content.length).foldl (bitmapContainer.andNotArray.body a) bc) := by
  unfold bitmapContainer.andNotArray downgrade
  simp only [bitmapContainer.clone_eq, arrayContainer.card_toNat]

/-! ## Ranges set and cleared -/

theorem popcount_or_ge (w m : Nat) : popcount w ≤ popcount (w ||| m) := by
  unfold popcount
  apply List.countP_mono_left
  intro i _ hi
  rw [Nat.testBit_or, hi]
  rfl

theorem popcntSlice_zipWith_or_ge (M : Nat → Nat) : ∀ (ks ws : List Nat),
    ks.length = ws.length →
    popcntSlice ws ≤ popcntSlice (List.zipWith (fun k w => w ||| M k) ks ws) := by
  intro ks
  induction ks with
  | nil =>
    intro ws hlen
    have : ws = [] := List.length_eq_zero.mp hlen.symm
    rw [this]; simp [popcntSlice]
  | cons k ks ih =>
    intro ws hlen
    cases ws with
    | nil => simp at hlen
    | cons w ws =>
      rw [List.zipWith_cons_cons, popcntSlice_cons, popcntSlice_cons]
      have h1 := popcount_or_ge w (M k)
      have h2 := ih ws (by simpa using hlen)
      omega

theorem setBitmapRange_ge (ws : List Nat) (first last : Int) :
    popcntSlice ws ≤ popcntSlice (setBitmapRange ws first last) := by
  unfold setBitmapRange
  exact popcntSlice_zipWith_or_ge _ _ _ (List.length_range _)

theorem resetBitmapRange_wf (bc : bitmapContainer) (h : bc.wf) (first last : Int) :
    bitmapContainer.wf
      ⟨(popcntSlice (resetBitmapRange bc.bitmap first last) : Nat),
        resetBitmapRange bc.bitmap first last⟩ := by
  refine ⟨by simp [resetBitmapRange, h.1], ?_, rfl⟩
  intro w hmem
  unfold resetBitmapRange at hmem
  rw [List.mem_iff_getElem] at hmem
  obtain ⟨i, hi, rfl⟩ := hmem
  rw [List.getElem_zipWith]
  exact andNot64_lt _ _ (h.2.1 _ (List.getElem_mem _))

theorem copy_eq (bc : bitmapContainer) :
    writeFrom (List.replicate bc.bitmap.length 0) 0 bc.bitmap = bc.bitmap :=
  writeFrom_full _ _ (by simp)

theorem bitmapContainer.addRange_eq (bc : bitmapContainer) (first last : Int) :
    bc.addRange first last
      = .bitmap ⟨(popcntSlice (setBitmapRange bc.bitmap first last) : Nat),
          setBitmapRange bc.bitmap first last⟩ := by
  unfold bitmapContainer.addRange bitmapContainer.computeCardinality
  simp only [copy_eq]

theorem bitmapContainer.iaddRange_eq (bc : bitmapContainer) (first last : Int) :
    bc.iaddRange first last
      = ⟨⟨(popcntSlice (setBitmapRange bc.bitmap first last) : Nat),
          setBitmapRange bc.bitmap first last⟩,
        .bitmap ⟨(popcntSlice (setBitmapRange bc.bitmap first last) : Nat),
          setBitmapRange bc.bitmap first last⟩⟩ := by
  unfold bitmapContainer.iaddRange bitmapContainer.computeCardinality
  rfl

theorem bitmapContainer.removeRange_eq (bc : bitmapContainer) (first last : Int) :
    bc.removeRange first last
      = downgrade ⟨(popcntSlice (resetBitmapRange bc.bitmap first last) : Nat),
          resetBitmapRange bc.bitmap first last⟩ := by
  unfold bitmapContainer.removeRange bitmapContainer.computeCardinality downgrade
    bitmapContainer.getCardinality
  simp only [copy_eq]

theorem bitmapContainer.iremoveRange_eq (bc : bitmapContainer) (first last : Int) :
    bc.iremoveRange first last
      = ⟨⟨(popcntSlice (resetBitmapRange bc.bitmap first last) : Nat),
          resetBitmapRange bc.bitmap first last⟩,
        downgrade ⟨(popcntSlice (resetBitmapRange bc.bitmap first last) : Nat),
          resetBitmapRange bc.bitmap first last⟩⟩ := by
  unfold bitmapContainer.iremoveRange bitmapContainer.computeCardinality downgrade
    bitmapContainer.getCardinality
  simp only
  by_cases hc : ((popcntSlice (resetBitmapRange bc.bitmap first last) : Nat) : Int)
      ≤ arrayDefaultMaxSize
  · rw [if_pos hc, if_pos hc]
  · rw [if_neg hc, if_neg hc]

theorem flipped_semantics (bc : bitmapContainer) (h : bc.wf) (f l : Nat) (hl : l < 65536) :
    (∀ v : Nat, (downgrade ⟨(popcntSlice (flipRange bc.bitmap (f : Int) (l : Int)) : Nat),
          flipRange bc.bitmap (f : Int) (l : Int)⟩).contains v
        = (bc.contains v != decide ((f : Int) ≤ (v : Int) ∧ (v : Int) ≤ (l : Int)))) ∧
    (downgrade ⟨(popcntSlice (flipRange bc.bitmap (f : Int) (l : Int)) : Nat),
          flipRange bc.bitmap (f : Int) (l : Int)⟩).getCardinality
      = (((List.range 65536).countP
          (fun v => bc.contains v != decide ((f : Int) ≤ (v : Int) ∧ (v : Int) ≤ (l : Int))) : Nat)
          : Int) := by
  have hwf := flipRange_wf bc h (f : Int) (l : Int)
  have hbit : ∀ v : Nat, getBit (flipRange bc.bitmap (f : Int) (l : Int)) v
      = (bc.contains v != decide ((f : Int) ≤ (v : Int) ∧ (v : Int) ≤ (l : Int))) := by
    intro v
    rw [getBit_flipRange _ f l (by rw [h.1]; omega) v, bitmapContainer.contains_eq_getBit]
    congr 1
    apply decide_eq_decide.mpr
    constructor
    · intro hh; constructor <;> omega
    · intro hh; constructor <;> omega
  refine ⟨fun v => ?_, ?_⟩
  · rw [downgrade_contains _ hwf]
    exact hbit v
  · rw [downgrade_card _ hwf]
    show ((popcntSlice (flipRange bc.bitmap (f : Int) (l : Int)) : Nat) : Int) = _
    rw [popcntSlice_eq_count _ hwf.1, countP_range_congr _ _ 65536 (fun v _ => hbit v)]

/-- C6: on a well-formed bitmap container and a closed interval
`0 <= first <= last <= 65535`, the containers returned by `not(first, last)` and by
`inot(first, last)` contain `v` exactly when `contains(v)` before the call differs from
`first <= v <= last`, and their cardinality is the number of such `v` in `0..65535`. -/
theorem not_inot_correct (bc : bitmapContainer) (h : bc.wf) (first last : Int)
    (h0 : 0 ≤ first) (h1 : first ≤ last) (h2 : last ≤ 65535) :
    (∀ v : Nat, v < 65536 → (bc.not first last).contains v
        = (bc.contains v != decide (first ≤ (v : Int) ∧ (v : Int) ≤ last))) ∧
    (bc.not first last).getCardinality
      = (((List.range 65536).countP
          (fun v => bc.contains v != decide (first ≤ (v : Int) ∧ (v : Int) ≤ last)) : Nat)
          : Int) ∧
    (∀ v : Nat, v < 65536 → (bc.inot first last).ret.contains v
        = (bc.contains v != decide (first ≤ (v : Int) ∧ (v : Int) ≤ last))) ∧
    (bc.inot first last).ret.getCardinality
      = (((List.range 65536).countP
          (fun v => bc.contains v != decide (first ≤ (v : Int) ∧ (v : Int) ≤ last)) : Nat)
          : Int) := by
  obtain ⟨f, rfl⟩ := Int.eq_ofNat_of_zero_le h0
  obtain ⟨l, rfl⟩ := Int.eq_ofNat_of_zero_le (le_trans h0 h1)
  have hfl : f ≤ l := by omega
  have hl : l < 65536 := by omega
  obtain ⟨hs1, hs2⟩ := flipped_semantics bc h f l hl
  rw [bitmapContainer.not_eq bc h f l hfl hl, bitmapContainer.inot_eq bc h f l hfl hl]
  exact ⟨fun v _ => hs1 v, hs2, fun v _ => hs1 v, hs2⟩

/-- C6 at the container holding 5 and 70 and the range `[3, 200]`, which spans four words:
5 leaves the set and 6 enters it. -/
theorem not_inot_correct_witness :
    (((newBitmapContainer.add 5).self.add 70).self.not 3 200).contains 6
      = (((newBitmapContainer.add 5).self.add 70).self.contains 6
          != decide ((3 : Int) ≤ ((6 : Nat) : Int) ∧ ((6 : Nat) : Int) ≤ 200)) :=
  (not_inot_correct ((newBitmapContainer.add 5).self.add 70).self
    (bitmapContainer.add_wf _ (bitmapContainer.add_wf _ newBitmapContainer_wf 5 (by norm_num))
      70 (by norm_num)) 3 200 (by norm_num) (by norm_num) (by norm_num)).1 6 (by norm_num)

/-! ## The set operations, by operand -/

theorem container.wf_cardinalityOK (c : container) (h : c.wf) : c.cardinalityOK := by
  cases c with
  | array ac => trivial
  | bitmap b => exact h.2.2

theorem container.wf_ascending (c : container) (h : c.wf) : c.ascending := by
  cases c with
  | array ac => exact h.1
  | bitmap b => trivial

theorem arrayContainer.contains_eq_decide (ac : arrayContainer) (h : ac.wf) (v : Nat) :
    ac.contains v = decide (v ∈ ac.content) := by
  have := arrayContainer.contains_iff ac h v
  cases hc : ac.contains v
  · have : ¬ v ∈ ac.content := fun hm => by rw [this.mpr hm] at hc; exact Bool.noConfusion hc
    exact (decide_eq_false this).symm
  · exact (decide_eq_true (this.mp hc)).symm

theorem popcntSlice_zipWith_or_left_ge : ∀ (x y : List Nat), x.length = y.length →
    popcntSlice x ≤ popcntSlice (List.zipWith (fun a b => a ||| b) x y) := by
  intro x
  induction x with
  | nil => intro y _; simp [popcntSlice]
  | cons a x ih =>
    intro y hlen
    cases y with
    | nil => simp at hlen
    | cons b y =>
      rw [List.zipWith_cons_cons, popcntSlice_cons, popcntSlice_cons]
      have h1 := popcount_or_ge a b
      have h2 := ih y (by simpa using hlen)
      omega

/-- The union: `or` returns a well-formed bitmap container that holds the values of either
operand and has at least the cardinality of the receiver; `ior` leaves that container in the
receiver and returns it. -/
theorem bitmapContainer.or_sem (bc : bitmapContainer) (h : bc.wf) (a : container) (ha : a.wf) :
    ∃ b : bitmapContainer, b.wf ∧ bc.or a = .bitmap b ∧ bc.ior a = ⟨b, .bitmap b⟩ ∧
      (∀ v, getBit b.bitmap v = (bc.contains v || a.contains v)) ∧
      bc.cardinality ≤ b.cardinality := by
  cases a with
  | array ac =>
    obtain ⟨h1, h2, h3⟩ := bitmapContainer.orArray_fold bc h ac ha
    refine ⟨_, h1, bitmapContainer.orArray_eq bc ac, bitmapContainer.iorArray_eq bc ac, ?_, h3⟩
    intro v
    rw [h2 v, bitmapContainer.contains_eq_getBit]
    show _ = (_ || ac.contains v)
    rw [arrayContainer.contains_eq_decide ac ha]
  | bitmap b2 =>
    refine ⟨_, zipWith_wf (fun x y => x ||| y) bc.bitmap b2.bitmap h.1 ha.1
      (fun p q hp hq => Nat.or_lt_two_pow (h.2.1 p hp) (ha.2.1 q hq)),
      bitmapContainer.orBitmap_eq bc b2 h ha, bitmapContainer.iorBitmap_eq bc b2 h ha, ?_, ?_⟩
    · intro v
      rw [bitmapContainer.contains_eq_getBit]
      show _ = (_ || b2.contains v)
      rw [bitmapContainer.contains_eq_getBit]
      exact getBit_zipWith_all _ (fun p q => p || q) _ _ (by rw [h.1, ha.1]) h.2.1 rfl
        (fun p q i _ _ => Nat.testBit_or p q i) v
    · show bc.cardinality ≤ ((popcntSlice _ : Nat) : Int)
      rw [h.2.2]
      exact_mod_cast popcntSlice_zipWith_or_left_ge _ _ (by rw [h.1, ha.1])

/-- The symmetric difference: `xor` returns the downgrade of a well-formed bitmap container
that holds the values of exactly one operand. -/
theorem bitmapContainer.xor_sem (bc : bitmapContainer) (h : bc.wf) (a : container) (ha : a.wf) :
    ∃ b : bitmapContainer, b.wf ∧ bc.xor a = downgrade b ∧
      (∀ v, getBit b.bitmap v = (bc.contains v != a.contains v)) := by
  cases a with
  | array ac =>
    obtain ⟨h1, h2⟩ := bitmapContainer.xorArray_fold bc h ac ha
    refine ⟨_, h1, bitmapContainer.xorArray_eq bc ac, ?_⟩
    intro v
    rw [h2 v, bitmapContainer.contains_eq_getBit]
    show _ = (_ != ac.contains v)
    rw [arrayContainer.contains_eq_decide ac ha]
  | bitmap b2 =>
    refine ⟨_, zipWith_wf (fun x y => x ^^^ y) bc.bitmap b2.bitmap h.1 ha.1
      (fun p q hp hq => Nat.xor_lt_two_pow (h.2.1 p hp) (ha.2.1 q hq)),
      bitmapContainer.xorBitmap_eq bc b2 h ha, ?_⟩
    intro v
    rw [bitmapContainer.contains_eq_getBit]
    show _ = (_ != b2.contains v)
    rw [bitmapContainer.contains_eq_getBit]
    exact getBit_zipWith_all _ (fun p q => p != q) _ _ (by rw [h.1, ha.1]) h.2.1 rfl
      (fun p q i _ _ => Nat.testBit_xor p q i) v

/-- The difference: `andNot` returns the downgrade of a well-formed bitmap container that
holds the values of the receiver absent from the operand; `iandNot` returns the same
container, and leaves the receiver well formed. -/
theorem bitmapContainer.andNot_sem (bc : bitmapContainer) (h : bc.wf) (a : container)
    (ha : a.wf) :
    ∃ b : bitmapContainer, b.wf ∧ bc.andNot a = downgrade b ∧ (bc.iandNot a).ret = downgrade b ∧
      (bc.iandNot a).self.wf ∧
      (∀ v, getBit b.bitmap v = (bc.contains v && !a.contains v)) := by
  cases a with
  | array ac =>
    obtain ⟨h1, h2⟩ := bitmapContainer.andNotArray_fold bc h ac ha
    refine ⟨_, h1, bitmapContainer.andNotArray_eq bc ac, bitmapContainer.andNotArray_eq bc ac,
      h, ?_⟩
    intro v
    rw [h2 v, bitmapContainer.contains_eq_getBit]
    show _ = (_ && !ac.contains v)
    rw [arrayContainer.contains_eq_decide ac ha]
  | bitmap b2 =>
    have hwf := zipWith_wf (fun x y => andNot64 x y) bc.bitmap b2.bitmap h.1 ha.1
      (fun p q hp _ => andNot64_lt p q (h.2.1 p hp))
    refine ⟨_, hwf, bitmapContainer.andNotBitmap_eq bc b2 h ha, ?_, ?_, ?_⟩
    · show (bc.iandNotBitmap b2).ret = _
      rw [bitmapContainer.iandNotBitmap_eq bc b2 h ha]
    · show (bc.iandNotBitmap b2).self.wf
      rw [bitmapContainer.iandNotBitmap_eq bc b2 h ha]
      simp only
      split
      · exact hwf
      · exact h
    · intro v
      rw [bitmapContainer.contains_eq_getBit]
      show _ = (_ && !b2.contains v)
      rw [bitmapContainer.contains_eq_getBit]
      exact getBit_zipWith_all _ (fun p q => p && !q) _ _ (by rw [h.1, ha.1]) h.2.1 rfl
        (fun p q i hp hi => by
          rw [testBit_andNot64]
          simp [hi]) v

/-- The intersection: `and` returns a well-formed container that holds the values of both
operands, of the right kind when the operand is; `iand` returns the same container and leaves
the receiver well formed. -/
theorem bitmapContainer.and_sem (bc : bitmapContainer) (h : bc.wf) (a : container) (ha : a.wf) :
    (bc.and a).wf ∧ (bc.iand a).ret = bc.and a ∧ (bc.iand a).self.wf ∧
      (∀ v, (bc.and a).contains v = (bc.contains v && a.contains v)) ∧
      (a.representationOK → (bc.and a).representationOK) := by
  cases a with
  | array ac =>
    have hsub : (ac.content.filter (fun v => getBit bc.bitmap v)).Sublist ac.content :=
      List.filter_sublist _
    have hwf : arrayContainer.wf ⟨ac.content.filter (fun v => getBit bc.bitmap v)⟩ :=
      ⟨List.Pairwise.sublist hsub ha.1, fun v hv => ha.2 v (hsub.subset hv)⟩
    have he : bc.and (.array ac)
        = .array ⟨ac.content.filter (fun v => getBit bc.bitmap v)⟩ := by
      show container.array (bc.andArray ac) = _
      rw [bitmapContainer.andArray_eq]
    have hi : (bc.iand (.array ac)).ret = bc.and (.array ac) := rfl
    rw [he] at hi ⊢
    refine ⟨hwf, hi, h, ?_, ?_⟩
    · intro v
      show arrayContainer.contains _ v = (_ && ac.contains v)
      rw [arrayContainer.contains_eq_decide _ hwf, arrayContainer.contains_eq_decide ac ha,
        bitmapContainer.contains_eq_getBit]
      simp only [List.mem_filter]
      cases getBit bc.bitmap v <;> simp
    · intro hr
      have hr2 : ((ac.content.length : Nat) : Int) ≤ arrayDefaultMaxSize := hr
      show (((ac.content.filter (fun v => getBit bc.bitmap v)).length : Nat) : Int)
        ≤ arrayDefaultMaxSize
      have := hsub.length_le
      omega
  | bitmap b2 =>
    have hwf := zipWith_wf (fun x y => x &&& y) bc.bitmap b2.bitmap h.1 ha.1
      (fun p q hp _ => and_lt_word p q (h.2.1 p hp))
    have he : bc.and (.bitmap b2) = downgrade
        ⟨(popcntSlice (List.zipWith (fun x y => x &&& y) bc.bitmap b2.bitmap) : Nat),
          List.zipWith (fun x y => x &&& y) bc.bitmap b2.bitmap⟩ :=
      bitmapContainer.andBitmap_eq bc b2 h ha
    rw [he]
    refine ⟨downgrade_wf _ hwf, ?_, ?_, ?_, fun _ => downgrade_representationOK _ hwf⟩
    · show (bc.iandBitmap b2).ret = _
      rw [bitmapContainer.iandBitmap_eq bc b2 h ha]
    · show (bc.iandBitmap b2).self.wf
      rw [bitmapContainer.iandBitmap_eq bc b2 h ha]
      simp only
      split
      · exact hwf
      · exact h
    · intro v
      rw [downgrade_contains _ hwf, bitmapContainer.contains_eq_getBit]
      show _ = (_ && b2.contains v)
      rw [bitmapContainer.contains_eq_getBit]
      exact getBit_zipWith_all _ (fun p q => p && q) _ _ (by rw [h.1, ha.1]) h.2.1 rfl
        (fun p q i _ _ => Nat.testBit_and p q i) v

/-- The loop of `orArray` and `iorArray` keeps the cardinality field equal to the popcount of
the words, whatever the order of the values of the array operand. -/
theorem bitmapContainer.orArray_fold_wf (bc : bitmapContainer) (h : bc.wf) (a : arrayContainer)
    (ha : ∀ v ∈ a.content, v < 2 ^ 16) :
    ((List.range a.content.length).foldl (bitmapContainer.orArray.body a) bc).wf :=
  foldl_range_inv (fun _ (s : bitmapContainer) => s.wf) (bitmapContainer.orArray.body a) bc
    a.content.length h
    (by
      intro k s hk h1
      rw [bitmapContainer.orArray_body_eq a s h1.2.1 k]
      exact bitmapContainer.wf_bitSet s h1 _ (ha _ (getD_mem _ k hk)))

theorem bitmapContainer.xorArray_fold_wf (bc : bitmapContainer) (h : bc.wf) (a : arrayContainer)
    (ha : ∀ v ∈ a.content, v < 2 ^ 16) :
    ((List.range a.content.length).foldl (bitmapContainer.xorArray.body a) bc).wf :=
  foldl_range_inv (fun _ (s : bitmapContainer) => s.wf) (bitmapContainer.xorArray.body a) bc
    a.content.length h
    (by
      intro k s hk h1
      rw [bitmapContainer.xorArray_body_eq a s k]
      exact bitmapContainer.wf_bitFlip s h1 _ (ha _ (getD_mem _ k hk)))

theorem bitmapContainer.andNotArray_fold_wf (bc : bitmapContainer) (h : bc.wf)
    (a : arrayContainer) (ha : ∀ v ∈ a.content, v < 2 ^ 16) :
    ((List.range a.content.length).foldl (bitmapContainer.andNotArray.body a) bc).wf :=
  foldl_range_inv (fun _ (s : bitmapContainer) => s.wf) (bitmapContainer.andNotArray.body a) bc
    a.content.length h
    (by
      intro k s hk h1
      rw [bitmapContainer.andNotArray_body_eq a s h1.2.1 k]
      exact bitmapContainer.wf_bitClear s h1 _ (ha _ (getD_mem _ k hk)))

/-- The receiver and the result of `remove(x)` are well formed, and the result is of the right
kind when the receiver held more than `arrayDefaultMaxSize` values. -/
theorem bitmapContainer.remove_sem (bc : bitmapContainer) (h : bc.wf) (x : Nat)
    (hx : x < 2 ^ 16) :
    (bc.remove x).self.wf ∧ (bc.remove x).ret.wf ∧
      (bc.cardinality > arrayDefaultMaxSize → (bc.remove x).ret.representationOK) := by
  rw [bitmapContainer.remove_eq]
  by_cases hb : getBit bc.bitmap x = true
  · rw [if_pos hb]
    have hwf : bitmapContainer.wf ⟨bc.cardinality - 1, bitClear bc.bitmap x⟩ := by
      have := bitmapContainer.wf_bitClear bc h x hx
      rw [hb] at this
      exact this
    by_cases hc : bc.cardinality - 1 = arrayDefaultMaxSize
    · rw [if_pos hc]
      refine ⟨hwf, ?_, fun _ => ?_⟩
      · show (bitmapContainer.toArrayContainer _).wf
        rw [bitmapContainer.toArrayContainer_eq _ hwf]
        exact setPositions_wf _ hwf.1
      · show (bitmapContainer.toArrayContainer _).getCardinality ≤ arrayDefaultMaxSize
        rw [bitmapContainer.toArrayContainer_card _ hwf]
        exact le_of_eq hc
    · rw [if_neg hc]
      refine ⟨hwf, hwf, fun hgt => ?_⟩
      show bc.cardinality - 1 > arrayDefaultMaxSize
      omega
  · rw [if_neg hb]
    exact ⟨h, h, fun hgt => hgt⟩

theorem setBitmapRange_wf (bc : bitmapContainer) (h : bc.wf) (first last : Int) :
    bitmapContainer.wf
      ⟨(popcntSlice (setBitmapRange bc.bitmap first last) : Nat),
        setBitmapRange bc.bitmap first last⟩ := by
  refine ⟨by simp [setBitmapRange, h.1], ?_, rfl⟩
  intro w hmem
  unfold setBitmapRange at hmem
  rw [List.mem_iff_getElem] at hmem
  obtain ⟨i, hi, rfl⟩ := hmem
  rw [List.getElem_zipWith]
  exact Nat.or_lt_two_pow (h.2.1 _ (List.getElem_mem _)) (rangeMask_lt _ _ _)

theorem popcount_allOnes : popcount allOnes = 64 := by
  have := popcount_not64 0 (by norm_num)
  rw [popcount_zero] at this
  have e : not64 0 = allOnes := by unfold not64; simp
  rw [e] at this
  omega

/-- The bitmap container of all 65536 values is well formed. -/
theorem fullBitmap_wf : bitmapContainer.wf ⟨65536, List.replicate 1024 allOnes⟩ := by
  refine ⟨List.length_replicate _ _, ?_, ?_⟩
  · intro w hw
    rw [(List.mem_replicate.mp hw).2]
    unfold allOnes
    norm_num
  · show (65536 : Int) = ((popcntSlice (List.replicate 1024 allOnes) : Nat) : Int)
    rw [popcntSlice_replicate, popcount_allOnes]
    rfl

/-- One pass of the loops over an array operand, and `add`, change the cardinality field by
exactly the change of the popcount of the words: the branchless updates
`(bef - aft) >> 63`, `1 - 2*bit` and `(oldv ^ newv) >> bitpos` count the bits that changed. -/
theorem branchless_updates (ac : arrayContainer) (s : bitmapContainer) (k : Nat)
    (hlen : s.bitmap.length = 1024) (hw : ∀ w ∈ s.bitmap, w < 2 ^ 64)
    (hv : ac.content.getD k 0 < 2 ^ 16) :
    ((bitmapContainer.orArray.body ac s k).cardinality - s.cardinality
        = ((popcntSlice (bitmapContainer.orArray.body ac s k).bitmap : Nat) : Int)
          - ((popcntSlice s.bitmap : Nat) : Int)) ∧
    ((bitmapContainer.xorArray.body ac s k).cardinality - s.cardinality
        = ((popcntSlice (bitmapContainer.xorArray.body ac s k).bitmap : Nat) : Int)
          - ((popcntSlice s.bitmap : Nat) : Int)) ∧
    ((bitmapContainer.andNotArray.body ac s k).cardinality - s.cardinality
        = ((popcntSlice (bitmapContainer.andNotArray.body ac s k).bitmap : Nat) : Int)
          - ((popcntSlice s.bitmap : Nat) : Int)) ∧
    ((s.add (ac.content.getD k 0)).self.cardinality - s.cardinality
        = ((popcntSlice (s.add (ac.content.getD k 0)).self.bitmap : Nat) : Int)
          - ((popcntSlice s.bitmap : Nat) : Int)) := by
  have hp : ac.content.getD k 0 / 64 < s.bitmap.length := by rw [hlen]; omega
  rw [bitmapContainer.orArray_body_eq ac s hw k, bitmapContainer.xorArray_body_eq ac s k,
    bitmapContainer.andNotArray_body_eq ac s hw k, bitmapContainer.add_eq]
  simp only
  rw [popcntSlice_bitSet _ _ hp, popcntSlice_bitFlip _ _ hp, popcntSlice_bitClear _ hw _ hp]
  push_cast
  refine ⟨by ring, by ring, by ring, by ring⟩

/-! ## The contracts of the set operations -/

/-- C5: for every well-formed bitmap container `bc`, every well-formed operand `a` (a bitmap
container, or an array container with strictly ascending content) and every value `v`,
`bc.and(a)` contains `v` exactly when both operands do, `bc.or(a)` when one of them does,
`bc.xor(a)` when exactly one of them does, and `bc.andNot(a)` when `bc` does and `a` does not;
the content of a result that is an array container is strictly ascending; and for an array
operand the content of `bc.and(a)` is the subsequence of the values of the operand that `bc`
contains. -/
theorem set_algebra_semantics (bc : bitmapContainer) (h : bc.wf) (a : container) (ha : a.wf) :
    (∀ v : Nat, (bc.and a).contains v = (bc.contains v && a.contains v)) ∧
    (∀ v : Nat, (bc.or a).contains v = (bc.contains v || a.contains v)) ∧
    (∀ v : Nat, (bc.xor a).contains v = (bc.contains v != a.contains v)) ∧
    (∀ v : Nat, (bc.andNot a).contains v = (bc.contains v && !a.contains v)) ∧
    (bc.and a).ascending ∧ (bc.or a).ascending ∧ (bc.xor a).ascending ∧
    (bc.andNot a).ascending ∧
    (∀ ac : arrayContainer, a = .array ac →
      bc.and a = .array ⟨ac.content.filter (fun x => bc.contains x)⟩) := by
  obtain ⟨hand1, _, _, hand2, _⟩ := bitmapContainer.and_sem bc h a ha
  obtain ⟨bo, hbo, hor, _, hobits, _⟩ := bitmapContainer.or_sem bc h a ha
  obtain ⟨bx, hbx, hxor, hxbits⟩ := bitmapContainer.xor_sem bc h a ha
  obtain ⟨bn, hbn, hnot, _, _, hnbits⟩ := bitmapContainer.andNot_sem bc h a ha
  refine ⟨hand2, ?_, ?_, ?_, container.wf_ascending _ hand1, ?_, ?_, ?_, ?_⟩
  · intro v
    rw [hor, ← hobits v]
    exact bitmapContainer.contains_eq_getBit bo v
  · intro v
    rw [hxor, downgrade_contains _ hbx, hxbits v]
  · intro v
    rw [hnot, downgrade_contains _ hbn, hnbits v]
  · rw [hor]; trivial
  · rw [hxor]; exact downgrade_ascending _ hbx
  · rw [hnot]; exact downgrade_ascending _ hbn
  · intro ac hac
    subst hac
    show container.array (bc.andArray ac) = _
    rw [bitmapContainer.andArray_eq]
    have e : (fun x => bc.contains x) = (fun v => getBit bc.bitmap v) :=
      funext (bitmapContainer.contains_eq_getBit bc)
    rw [e]

/-- C5 at the bitmap container holding 5 and the array container `[5, 9]`: the intersection
is the array container `[5]`. -/
theorem set_algebra_semantics_witness :
    (newBitmapContainer.add 5).self.and (.array ⟨[5, 9]⟩)
      = .array ⟨[5, 9].filter (fun x => (newBitmapContainer.add 5).self.contains x)⟩ :=
  (set_algebra_semantics (newBitmapContainer.add 5).self
    (bitmapContainer.add_wf _ newBitmapContainer_wf 5 (by norm_num)) (.array ⟨[5, 9]⟩)
    ⟨by simp, by simp⟩).2.2.2.2.2.2.2.2 ⟨[5, 9]⟩ rfl

/-- C3: for every bitmap container `bc` of 1024 words whose cardinality field is the popcount
of its words, every operand that is such a bitmap container `b2` or an array container `ac`
of `uint16` values (sorted or not), every `x` in `0..65535` and every closed range
`0 <= first <= last <= 65535`, the receiver after the call and every bitmap container
returned by `add`, `remove`, `or`/`orArray`/`orBitmap`, `ior`/`iorArray`/`iorBitmap`,
`xorArray`, `xorBitmap`, `andBitmap`, `iandBitmap`, `andNotArray`, `andNotBitmap`,
`iandNotBitmap`, `not` and `inot` has a cardinality field equal to the popcount of its words;
and one pass of the loops of `orArray`/`iorArray`, `xorArray` and `andNotArray`, and `add`,
on any container of 1024 words, change the cardinality field by exactly the change of the
popcount of the words. -/
theorem cardinality_invariant (bc : bitmapContainer) (h : bc.wf) (b2 : bitmapContainer)
    (hb2 : b2.wf) (ac : arrayContainer) (hac : ∀ v ∈ ac.content, v < 2 ^ 16)
    (x : Nat) (hx : x < 2 ^ 16) (first last : Int) (h0 : 0 ≤ first) (h1 : first ≤ last)
    (h2 : last ≤ 65535) :
    (bc.add x).cardinalityOK ∧ (bc.remove x).cardinalityOK ∧
    (bc.or (.array ac)).cardinalityOK ∧ (bc.or (.bitmap b2)).cardinalityOK ∧
    (bc.orArray ac).cardinalityOK ∧ (bc.orBitmap b2).cardinalityOK ∧
    (bc.ior (.array ac)).cardinalityOK ∧ (bc.ior (.bitmap b2)).cardinalityOK ∧
    (bc.iorArray ac).cardinalityOK ∧ (bc.iorBitmap b2).cardinalityOK ∧
    (bc.xorArray ac).cardinalityOK ∧ (bc.xorBitmap b2).cardinalityOK ∧
    (bc.andBitmap b2).cardinalityOK ∧ (bc.iandBitmap b2).cardinalityOK ∧
    (bc.andNotArray ac).cardinalityOK ∧ (bc.andNotBitmap b2).cardinalityOK ∧
    (bc.iandNotBitmap b2).cardinalityOK ∧
    (bc.not first last).cardinalityOK ∧ (bc.inot first last).cardinalityOK ∧
    (∀ (s : bitmapContainer) (k : Nat), s.bitmap.length = 1024 →
      (∀ w ∈ s.bitmap, w < 2 ^ 64) → k < ac.content.length →
      ((bitmapContainer.orArray.body ac s k).cardinality - s.cardinality
          = ((popcntSlice (bitmapContainer.orArray.body ac s k).bitmap : Nat) : Int)
            - ((popcntSlice s.bitmap : Nat) : Int)) ∧
      ((bitmapContainer.xorArray.body ac s k).cardinality - s.cardinality
          = ((popcntSlice (bitmapContainer.xorArray.body ac s k).bitmap : Nat) : Int)
            - ((popcntSlice s.bitmap : Nat) : Int)) ∧
      ((bitmapContainer.andNotArray.body ac s k).cardinality - s.cardinality
          = ((popcntSlice (bitmapContainer.andNotArray.body ac s k).bitmap : Nat) : Int)
            - ((popcntSlice s.bitmap : Nat) : Int)) ∧
      ((s.add (ac.content.getD k 0)).self.cardinality - s.cardinality
          = ((popcntSlice (s.add (ac.content.getD k 0)).self.bitmap : Nat) : Int)
            - ((popcntSlice s.bitmap : Nat) : Int))) := by
  obtain ⟨f, rfl⟩ := Int.eq_ofNat_of_zero_le h0
  obtain ⟨l, rfl⟩ := Int.eq_ofNat_of_zero_le (le_trans h0 h1)
  have hfl : f ≤ l := by omega
  have hl : l < 65536 := by omega
  have hadd : (bc.add x).cardinalityOK := by
    rw [bitmapContainer.add_eq]
    exact ⟨(bitmapContainer.wf_bitSet bc h x hx).2.2, (bitmapContainer.wf_bitSet bc h x hx).2.2⟩
  have hrem : (bc.remove x).cardinalityOK := by
    obtain ⟨r1, r2, _⟩ := bitmapContainer.remove_sem bc h x hx
    exact ⟨r1.2.2, container.wf_cardinalityOK _ r2⟩
  have horA : (bc.orArray ac).cardinalityOK := by
    rw [bitmapContainer.orArray_eq]
    exact (bitmapContainer.orArray_fold_wf bc h ac hac).2.2
  have horB : (bc.orBitmap b2).cardinalityOK := by
    rw [bitmapContainer.orBitmap_eq bc b2 h hb2]
    rfl
  have hiorA : (bc.iorArray ac).cardinalityOK := by
    rw [bitmapContainer.iorArray_eq]
    exact ⟨(bitmapContainer.orArray_fold_wf bc h ac hac).2.2,
      (bitmapContainer.orArray_fold_wf bc h ac hac).2.2⟩
  have hiorB : (bc.iorBitmap b2).cardinalityOK := by
    rw [bitmapContainer.iorBitmap_eq bc b2 h hb2]
    exact ⟨rfl, rfl⟩
  have hxorA : (bc.xorArray ac).cardinalityOK := by
    rw [bitmapContainer.xorArray_eq]
    exact downgrade_cardinalityOK _ (bitmapContainer.xorArray_fold_wf bc h ac hac)
  have hxorB : (bc.xorBitmap b2).cardinalityOK := by
    rw [bitmapContainer.xorBitmap_eq bc b2 h hb2]
    exact downgrade_cardinalityOK _ (zipWith_wf (fun x y => x ^^^ y) bc.bitmap b2.bitmap h.1
      hb2.1 (fun p q hp hq => Nat.xor_lt_two_pow (h.2.1 p hp) (hb2.2.1 q hq)))
  have handwf := zipWith_wf (fun x y => x &&& y) bc.bitmap b2.bitmap h.1 hb2.1
    (fun p q hp _ => and_lt_word p q (h.2.1 p hp))
  have handB : (bc.andBitmap b2).cardinalityOK := by
    rw [bitmapContainer.andBitmap_eq bc b2 h hb2]
    exact downgrade_cardinalityOK _ handwf
  have hiandB : (bc.iandBitmap b2).cardinalityOK := by
    rw [bitmapContainer.iandBitmap_eq bc b2 h hb2]
    refine ⟨?_, downgrade_cardinalityOK _ handwf⟩
    simp only
    split
    · exact handwf.2.2
    · exact h.2.2
  have hnotwf := zipWith_wf (fun x y => andNot64 x y) bc.bitmap b2.bitmap h.1 hb2.1
    (fun p q hp _ => andNot64_lt p q (h.2.1 p hp))
  have hanA : (bc.andNotArray ac).cardinalityOK := by
    rw [bitmapContainer.andNotArray_eq]
    exact downgrade_cardinalityOK _ (bitmapContainer.andNotArray_fold_wf bc h ac hac)
  have hanB : (bc.andNotBitmap b2).cardinalityOK := by
    rw [bitmapContainer.andNotBitmap_eq bc b2 h hb2]
    exact downgrade_cardinalityOK _ hnotwf
  have hianB : (bc.iandNotBitmap b2).cardinalityOK := by
    rw [bitmapContainer.iandNotBitmap_eq bc b2 h hb2]
    refine ⟨?_, downgrade_cardinalityOK _ hnotwf⟩
    simp only
    split
    · exact hnotwf.2.2
    · exact h.2.2
  have hnot : (bc.not (f : Int) (l : Int)).cardinalityOK := by
    rw [bitmapContainer.not_eq bc h f l hfl hl]
    exact downgrade_cardinalityOK _ (flipRange_wf bc h _ _)
  have hinot : (bc.inot (f : Int) (l : Int)).cardinalityOK := by
    rw [bitmapContainer.inot_eq bc h f l hfl hl]
    exact ⟨(flipRange_wf bc h _ _).2.2, downgrade_cardinalityOK _ (flipRange_wf bc h _ _)⟩
  exact ⟨hadd, hrem, horA, horB, horA, horB, hiorA, hiorB, hiorA, hiorB, hxorA, hxorB, handB,
    hiandB, hanA, hanB, hianB, hnot, hinot,
    fun s k hlen hw hk => branchless_updates ac s k hlen hw (hac _ (getD_mem _ k hk))⟩

/-- C3 at the empty bitmap container, the bitmap container holding 5, the unsorted array
container `[9, 3, 9]`, the value 7 and the range `[3, 200]`: the receiver after `iorArray` and
the container it returns satisfy the cardinality invariant. -/
theorem cardinality_invariant_witness :
    (newBitmapContainer.iorArray ⟨[9, 3, 9]⟩).cardinalityOK :=
  (cardinality_invariant newBitmapContainer newBitmapContainer_wf
    (newBitmapContainer.add 5).self
    (bitmapContainer.add_wf _ newBitmapContainer_wf 5 (by norm_num)) ⟨[9, 3, 9]⟩
    (by simp) 7 (by norm_num) 3 200 (by norm_num) (by norm_num)
    (by norm_num)).2.2.2.2.2.2.2.2.1

/-- C4: for every well-formed bitmap container `bc` with more than `arrayDefaultMaxSize`
(4096) values, every well-formed operand `a` that is an array container of at most 4096
values or a bitmap container of more, every `x` in `0..65535`, every range `first`, `last` of
`addRange`, `iaddRange`, `removeRange`, `iremoveRange` and every closed range
`0 <= lo <= hi <= 65535` of `not`, `inot`, the container returned by each of `add`, `remove`,
`addRange`, `iaddRange`, `removeRange`, `iremoveRange`, `not`, `inot`, `and`, `iand`, `or`,
`ior`, `xor`, `andNot`, `iandNot` is well formed, and is an array container only with a
cardinality of at most 4096 and a bitmap container only with a cardinality above 4096. -/
theorem representation_invariant (bc : bitmapContainer) (h : bc.wf)
    (hc : bc.cardinality > arrayDefaultMaxSize) (a : container) (ha : a.wf)
    (har : a.representationOK) (x : Nat) (hx : x < 2 ^ 16) (first last : Int)
    (lo hi : Int) (h0 : 0 ≤ lo) (h1 : lo ≤ hi) (h2 : hi ≤ 65535) :
    (bc.add x).ret.valid ∧ (bc.remove x).ret.valid ∧
    (bc.addRange first last).valid ∧ (bc.iaddRange first last).ret.valid ∧
    (bc.removeRange first last).valid ∧ (bc.iremoveRange first last).ret.valid ∧
    (bc.not lo hi).valid ∧ (bc.inot lo hi).ret.valid ∧
    (bc.and a).valid ∧ (bc.iand a).ret.valid ∧
    (bc.or a).valid ∧ (bc.ior a).ret.valid ∧
    (bc.xor a).valid ∧
    (bc.andNot a).valid ∧ (bc.iandNot a).ret.valid := by
  obtain ⟨f, rfl⟩ := Int.eq_ofNat_of_zero_le h0
  obtain ⟨l, rfl⟩ := Int.eq_ofNat_of_zero_le (le_trans h0 h1)
  have hfl : f ≤ l := by omega
  have hl : l < 65536 := by omega
  have hdown : ∀ b : bitmapContainer, b.wf → (downgrade b).valid :=
    fun b hb => ⟨downgrade_wf b hb, downgrade_representationOK b hb⟩
  have hadd : (bc.add x).ret.valid := by
    rw [bitmapContainer.add_eq]
    refine ⟨bitmapContainer.wf_bitSet bc h x hx, ?_⟩
    show bc.cardinality + ((!getBit bc.bitmap x).toNat : Int) > arrayDefaultMaxSize
    have : (0 : Int) ≤ ((!getBit bc.bitmap x).toNat : Int) := Int.ofNat_nonneg _
    omega
  have hrem : (bc.remove x).ret.valid := by
    obtain ⟨_, r2, r3⟩ := bitmapContainer.remove_sem bc h x hx
    exact ⟨r2, r3 hc⟩
  have hset : container.valid (.bitmap
      ⟨(popcntSlice (setBitmapRange bc.bitmap first last) : Nat),
        setBitmapRange bc.bitmap first last⟩) := by
    refine ⟨setBitmapRange_wf bc h first last, ?_⟩
    show ((popcntSlice (setBitmapRange bc.bitmap first last) : Nat) : Int) > arrayDefaultMaxSize
    have h3 := setBitmapRange_ge bc.bitmap first last
    have h4 := h.2.2
    omega
  have haddR : (bc.addRange first last).valid := by
    rw [bitmapContainer.addRange_eq]; exact hset
  have hiaddR : (bc.iaddRange first last).ret.valid := by
    rw [bitmapContainer.iaddRange_eq]; exact hset
  have hremR : (bc.removeRange first last).valid := by
    rw [bitmapContainer.removeRange_eq]
    exact hdown _ (resetBitmapRange_wf bc h first last)
  have hiremR : (bc.iremoveRange first last).ret.valid := by
    rw [bitmapContainer.iremoveRange_eq]
    exact hdown _ (resetBitmapRange_wf bc h first last)
  have hnot : (bc.not (f : Int) (l : Int)).valid := by
    rw [bitmapContainer.not_eq bc h f l hfl hl]
    exact hdown _ (flipRange_wf bc h _ _)
  have hinot : (bc.inot (f : Int) (l : Int)).ret.valid := by
    rw [bitmapContainer.inot_eq bc h f l hfl hl]
    exact hdown _ (flipRange_wf bc h _ _)
  obtain ⟨a1, a2, _, _, a5⟩ := bitmapContainer.and_sem bc h a ha
  obtain ⟨bo, hbo, hor, hior, _, hoc⟩ := bitmapContainer.or_sem bc h a ha
  obtain ⟨bx, hbx, hxor, _⟩ := bitmapContainer.xor_sem bc h a ha
  obtain ⟨bn, hbn, hn1, hn2, _, _⟩ := bitmapContainer.andNot_sem bc h a ha
  have hand : (bc.and a).valid := ⟨a1, a5 har⟩
  have hov : container.valid (.bitmap bo) := by
    refine ⟨hbo, ?_⟩
    show bo.cardinality > arrayDefaultMaxSize
    omega
  refine ⟨hadd, hrem, haddR, hiaddR, hremR, hiremR, hnot, hinot, hand, ?_, ?_, ?_, ?_, ?_, ?_⟩
  · rw [a2]; exact hand
  · rw [hor]; exact hov
  · rw [hior]; exact hov
  · rw [hxor]; exact hdown _ hbx
  · rw [hn1]; exact hdown _ hbn
  · rw [hn2]; exact hdown _ hbn

/-- C4 at the bitmap container of all 65536 values, the array container `[5, 9]`, the value 7
and the ranges `[100, 200)` and `[3, 200]`: the difference with the array container is well
formed and of the right kind. -/
theorem representation_invariant_witness :
    ((bitmapContainer.mk 65536 (List.replicate 1024 allOnes)).andNot
      (.array ⟨[5, 9]⟩)).valid :=
  (representation_invariant ⟨65536, List.replicate 1024 allOnes⟩ fullBitmap_wf
    (by decide) (.array ⟨[5, 9]⟩) ⟨by simp, by simp⟩
    (by show ((2 : Nat) : Int) ≤ 4096; norm_num) 7 (by norm_num) 100 200 3 200
    (by norm_num) (by norm_num) (by norm_num)).2.2.2.2.2.2.2.2.2.2.2.2.2.1

/-! ## In-place and out-of-place operations -/

/-- C11: for every well-formed bitmap container `A`, every operand `B` (a well-formed bitmap
container, or any array container) and every closed range `0 <= first <= last <= 65535`, the
container returned by `A.clone().ior(B)` is equal to `A.or(B)` (so it has the same variant,
the same cardinality and the same values), and likewise `A.clone().iand(B)` and `A.and(B)`,
`A.clone().iandNot(B)` and `A.andNot(B)`, `A.clone().inot(first, last)` and
`A.not(first, last)`. -/
theorem inplace_agreement (bc : bitmapContainer) (h : bc.wf) (a : container)
    (ha : ∀ b2, a = .bitmap b2 → b2.wf) (first last : Int) (h0 : 0 ≤ first)
    (h1 : first ≤ last) (h2 : last ≤ 65535) :
    (bc.clone.ior a).ret = bc.or a ∧ (bc.clone.iand a).ret = bc.and a ∧
    (bc.clone.iandNot a).ret = bc.andNot a ∧
    (bc.clone.inot first last).ret = bc.not first last ∧
    (∀ v, (bc.clone.ior a).ret.contains v = (bc.or a).contains v) ∧
    (bc.clone.ior a).ret.getCardinality = (bc.or a).getCardinality := by
  obtain ⟨f, rfl⟩ := Int.eq_ofNat_of_zero_le h0
  obtain ⟨l, rfl⟩ := Int.eq_ofNat_of_zero_le (le_trans h0 h1)
  have hfl : f ≤ l := by omega
  have hl : l < 65536 := by omega
  rw [bitmapContainer.clone_eq]
  have hnot : (bc.inot (f : Int) (l : Int)).ret = bc.not (f : Int) (l : Int) := by
    rw [bitmapContainer.inot_eq bc h f l hfl hl, bitmapContainer.not_eq bc h f l hfl hl]
  have hor : (bc.ior a).ret = bc.or a := by
    cases a with
    | array ac =>
      show (bc.iorArray ac).ret = bc.orArray ac
      rw [bitmapContainer.iorArray_eq, bitmapContainer.orArray_eq]
    | bitmap b2 =>
      show (bc.iorBitmap b2).ret = bc.orBitmap b2
      rw [bitmapContainer.iorBitmap_eq bc b2 h (ha b2 rfl),
        bitmapContainer.orBitmap_eq bc b2 h (ha b2 rfl)]
  have hand : (bc.iand a).ret = bc.and a := by
    cases a with
    | array ac => rfl
    | bitmap b2 =>
      show (bc.iandBitmap b2).ret = bc.andBitmap b2
      rw [bitmapContainer.iandBitmap_eq bc b2 h (ha b2 rfl),
        bitmapContainer.andBitmap_eq bc b2 h (ha b2 rfl)]
  have handNot : (bc.iandNot a).ret = bc.andNot a := by
    cases a with
    | array ac => rfl
    | bitmap b2 =>
      show (bc.iandNotBitmap b2).ret = bc.andNotBitmap b2
      rw [bitmapContainer.iandNotBitmap_eq bc b2 h (ha b2 rfl),
        bitmapContainer.andNotBitmap_eq bc b2 h (ha b2 rfl)]
  exact ⟨hor, hand, handNot, hnot, fun v => by rw [hor], by rw [hor]⟩

/-- C11 at the bitmap container holding 5, the array container `[5, 9]` and the range
`[3, 200]`. -/
theorem inplace_agreement_witness :
    ((newBitmapContainer.add 5).self.clone.iand (.array ⟨[5, 9]⟩)).ret
      = (newBitmapContainer.add 5).self.and (.array ⟨[5, 9]⟩) :=
  (inplace_agreement (newBitmapContainer.add 5).self
    (bitmapContainer.add_wf _ newBitmapContainer_wf 5 (by norm_num)) (.array ⟨[5, 9]⟩)
    (fun _ hb => container.noConfusion hb) 3 200 (by norm_num) (by norm_num)
    (by norm_num)).2.1

/-! ## `intersects` -/

theorem bitmapContainer.intersectsArray.loop_iff (bc : bitmapContainer) (a : arrayContainer) :
    ∀ (n k : Nat), bitmapContainer.intersectsArray.loop bc a n k = true
      ↔ ∃ j, k ≤ j ∧ j < k + n ∧ bc.contains (a.content.getD j 0) = true := by
  intro n
  induction n with
  | zero =>
    intro k
    simp [bitmapContainer.intersectsArray.loop]
    intro j hj hj2
    omega
  | succ n ih =>
    intro k
    unfold bitmapContainer.intersectsArray.loop
    simp only
    by_cases hc : bc.contains (a.content.getD k 0) = true
    · rw [if_pos hc]
      simp only [true_iff]
      exact ⟨k, le_refl _, by omega, hc⟩
    · rw [if_neg hc, ih (k + 1)]
      constructor
      · rintro ⟨j, h1, h2, h3⟩
        exact ⟨j, by omega, by omega, h3⟩
      · rintro ⟨j, h1, h2, h3⟩
        have hne : j ≠ k := fun e => hc (e ▸ h3)
        exact ⟨j, by omega, by omega, h3⟩

theorem bitmapContainer.intersectsBitmap.loop_word_iff (bc b2 : bitmapContainer) :
    ∀ (n k : Nat), bitmapContainer.intersectsBitmap.loop bc b2 n k = true
      ↔ ∃ j, k ≤ j ∧ j < k + n ∧ (bc.bitmap.getD j 0 &&& b2.bitmap.getD j 0) ≠ 0 := by
  intro n
  induction n with
  | zero =>
    intro k
    simp [bitmapContainer.intersectsBitmap.loop]
    intro j hj hj2
    omega
  | succ n ih =>
    intro k
    unfold bitmapContainer.intersectsBitmap.loop
    by_cases hc : (bc.bitmap.getD k 0 &&& b2.bitmap.getD k 0) ≠ 0
    · rw [if_pos hc]
      simp only [true_iff]
      exact ⟨k, le_refl _, by omega, hc⟩
    · rw [if_neg hc, ih (k + 1)]
      constructor
      · rintro ⟨j, h1, h2, h3⟩
        exact ⟨j, by omega, by omega, h3⟩
      · rintro ⟨j, h1, h2, h3⟩
        have hne : j ≠ k := fun e => hc (e ▸ h3)
        exact ⟨j, by omega, by omega, h3⟩

/-- A slice of words has a non-zero word exactly when it has a set bit. -/
theorem exists_word_ne_zero_iff (ws : List Nat) (hw : ∀ w ∈ ws, w < 2 ^ 64) :
    (∃ j, j < ws.length ∧ ws.getD j 0 ≠ 0) ↔ ∃ v, v < 64 * ws.length ∧ getBit ws v = true := by
  constructor
  · rintro ⟨j, hj, hne⟩
    obtain ⟨i, hi⟩ := Nat.ne_zero_implies_bit_true hne
    have hi64 : i < 64 := by
      by_contra hge
      rw [testBit_word_ge _ i (getD_word_lt ws hw j) (by omega)] at hi
      exact Bool.noConfusion hi
    refine ⟨64 * j + i, by omega, ?_⟩
    unfold getBit
    have e1 : (64 * j + i) / 64 = j := by omega
    have e2 : (64 * j + i) % 64 = i := by omega
    rw [e1, e2]
    exact hi
  · rintro ⟨v, hv, hb⟩
    refine ⟨v / 64, by omega, ?_⟩
    intro hz
    unfold getBit at hb
    rw [hz] at hb
    simp at hb

theorem bitmapContainer.intersectsArray_iff (bc : bitmapContainer) (a : arrayContainer) :
    bc.intersectsArray a = true ↔ ∃ v, v ∈ a.content ∧ bc.contains v = true := by
  unfold bitmapContainer.intersectsArray
  simp only [arrayContainer.card_toNat]
  rw [bitmapContainer.intersectsArray.loop_iff]
  constructor
  · rintro ⟨j, _, hj, hc⟩
    exact ⟨_, getD_mem _ j (by omega), hc⟩
  · rintro ⟨v, hv, hc⟩
    obtain ⟨j, hj, rfl⟩ := List.getElem_of_mem hv
    refine ⟨j, Nat.zero_le _, by omega, ?_⟩
    rw [List.getD_eq_getElem?_getD, List.getElem?_eq_getElem hj]
    exact hc

theorem bitmapContainer.intersectsBitmap_iff (bc b2 : bitmapContainer) (h : bc.wf)
    (h2 : b2.wf) :
    bc.intersectsBitmap b2 = true
      ↔ ∃ v, v < 65536 ∧
          getBit (List.zipWith (fun x y => x &&& y) bc.bitmap b2.bitmap) v = true := by
  have hwf := zipWith_wf (fun x y => x &&& y) bc.bitmap b2.bitmap h.1 h2.1
    (fun p q hp _ => and_lt_word p q (h.2.1 p hp))
  have hiff := exists_word_ne_zero_iff _ hwf.2.1
  have hlen : (List.zipWith (fun x y => x &&& y) bc.bitmap b2.bitmap).length = 1024 := hwf.1
  rw [hlen] at hiff
  unfold bitmapContainer.intersectsBitmap
  rw [bitmapContainer.intersectsBitmap.loop_word_iff, h.1]
  have e : (64 * 1024 : Nat) = 65536 := by norm_num
  rw [e] at hiff
  rw [← hiff]
  constructor
  · rintro ⟨j, _, hj, hne⟩
    refine ⟨j, by omega, ?_⟩
    rw [zipWith_getD _ _ _ (by rw [h.1, h2.1]) j (by rw [h.1]; omega)]
    exact hne
  · rintro ⟨j, hj, hne⟩
    refine ⟨j, Nat.zero_le _, by omega, ?_⟩
    rw [zipWith_getD _ _ _ (by rw [h.1, h2.1]) j (by rw [h.1]; omega)] at hne
    exact hne

/-- C12: for every well-formed bitmap container `A` and every well-formed operand `B` (bitmap
container or array container), `A.intersects(B)` is true exactly when
`A.and(B).getCardinality() > 0`, and exactly when some `v` in `0..65535` has `A.contains(v)`
and `B.contains(v)`. -/
theorem intersects_correct (bc : bitmapContainer) (h : bc.wf) (a : container) (ha : a.wf) :
    (bc.intersects a = true ↔ (bc.and a).getCardinality > 0) ∧
    (bc.intersects a = true
      ↔ ∃ v : Nat, v < 65536 ∧ bc.contains v = true ∧ a.contains v = true) := by
  cases a with
  | array ac =>
    have hi : bc.intersects (.array ac) = bc.intersectsArray ac := rfl
    rw [hi, bitmapContainer.intersectsArray_iff]
    constructor
    · show _ ↔ ((((bc.andArray ac).content.length : Nat) : Int) > 0)
      rw [bitmapContainer.andArray_eq]
      simp only [gt_iff_lt, Nat.cast_pos, List.length_pos_iff_exists_mem, List.mem_filter]
      constructor
      · rintro ⟨v, hv, hc⟩
        exact ⟨v, hv, by rw [← bitmapContainer.contains_eq_getBit]; exact hc⟩
      · rintro ⟨v, hv, hc⟩
        exact ⟨v, hv, by rw [bitmapContainer.contains_eq_getBit]; exact hc⟩
    · constructor
      · rintro ⟨v, hv, hc⟩
        exact ⟨v, by have := ha.2 v hv; omega, hc, (arrayContainer.contains_iff ac ha v).mpr hv⟩
      · rintro ⟨v, _, hc, hv⟩
        exact ⟨v, (arrayContainer.contains_iff ac ha v).mp hv, hc⟩
  | bitmap b2 =>
    have hwf := zipWith_wf (fun x y => x &&& y) bc.bitmap b2.bitmap h.1 ha.1
      (fun p q hp _ => and_lt_word p q (h.2.1 p hp))
    have hi : bc.intersects (.bitmap b2) = bc.intersectsBitmap b2 := rfl
    have he : bc.and (.bitmap b2) = downgrade
        ⟨(popcntSlice (List.zipWith (fun x y => x &&& y) bc.bitmap b2.bitmap) : Nat),
          List.zipWith (fun x y => x &&& y) bc.bitmap b2.bitmap⟩ :=
      bitmapContainer.andBitmap_eq bc b2 h ha
    have hbits : ∀ v, getBit (List.zipWith (fun x y => x &&& y) bc.bitmap b2.bitmap) v
        = (bc.contains v && b2.contains v) := by
      intro v
      rw [bitmapContainer.contains_eq_getBit, bitmapContainer.contains_eq_getBit]
      exact getBit_zipWith_all _ (fun p q => p && q) _ _ (by rw [h.1, ha.1]) h.2.1 rfl
        (fun p q i _ _ => Nat.testBit_and p q i) v
    rw [hi, bitmapContainer.intersectsBitmap_iff bc b2 h ha, he, downgrade_card _ hwf]
    constructor
    · show _ ↔ (((popcntSlice (List.zipWith (fun x y => x &&& y) bc.bitmap b2.bitmap) : Nat)
        : Int) > 0)
      rw [popcntSlice_eq_count _ hwf.1]
      simp only [gt_iff_lt, Nat.cast_pos, List.countP_pos_iff, List.mem_range]
    · constructor
      · rintro ⟨v, hv, hb⟩
        rw [hbits v, Bool.and_eq_true] at hb
        exact ⟨v, hv, hb.1, hb.2⟩
      · rintro ⟨v, hv, hb1, hb2⟩
        refine ⟨v, hv, ?_⟩
        rw [hbits v, Bool.and_eq_true]
        exact ⟨hb1, hb2⟩

/-- C12 at the bitmap container holding 5 and the array container `[5, 9]`, which
intersect. -/
theorem intersects_correct_witness :
    ((newBitmapContainer.add 5).self.intersects (.array ⟨[5, 9]⟩) = true
      ↔ ∃ v : Nat, v < 65536 ∧ (newBitmapContainer.add 5).self.contains v = true
          ∧ (container.array ⟨[5, 9]⟩).contains v = true) :=
  (intersects_correct (newBitmapContainer.add 5).self
    (bitmapContainer.add_wf _ newBitmapContainer_wf 5 (by norm_num)) (.array ⟨[5, 9]⟩)
    ⟨by simp, by simp⟩).2

/-! ## The range constructors -/

theorem replicate_zero_getD (n j : Nat) : (List.replicate n 0).getD j 0 = 0 := by
  rw [List.getD_eq_getElem?_getD, List.getElem?_replicate]
  split <;> rfl

theorem fillRange_length (ws : List Nat) (s e : Int) (v : Nat) :
    (fillRange ws s e v).length = ws.length := by
  simp [fillRange]

theorem fillRange_getD (ws : List Nat) (s e : Int) (v j : Nat) (hj : j < ws.length) :
    (fillRange ws s e v).getD j 0
      = if s ≤ ((j : Nat) : Int) ∧ ((j : Nat) : Int) < e then v else ws.getD j 0 := by
  unfold fillRange
  rw [List.getD_eq_getElem?_getD, List.getElem?_zipWith, List.getElem?_eq_getElem hj,
    List.getElem?_range hj, List.getD_eq_getElem?_getD, List.getElem?_eq_getElem hj]
  rfl

theorem testBit_suffix_mask (lb i : Nat) (hlb : lb < 64) :
    (shl64 (sub64 (shl64 1 (63 - lb)) 1) (sub64 64 (63 - lb))).testBit i
      = (decide (lb < i) && decide (i < 64)) := by
  have e : sub64 64 (63 - lb) = lb + 1 := by unfold sub64; omega
  rw [e, testBit_shl64, shl64_one _ (by omega), sub64_two_pow_one _ (by omega),
    Nat.testBit_two_pow_sub_one, Bool.eq_iff_iff]
  simp only [Bool.and_eq_true, decide_eq_true_eq]
  omega

theorem range_word_same (f l : Nat) (hfl : f ≤ l) (hw : f / 64 = l / 64) :
    (allOnes ^^^ sub64 (shl64 1 (f % 64)) 1)
        ^^^ shl64 (sub64 (shl64 1 (63 - l % 64)) 1) (sub64 64 (63 - l % 64))
      = rangeMask (f : Int) ((l : Int) + 1) (f / 64) := by
  apply Nat.eq_of_testBit_eq
  intro i
  rw [Nat.testBit_xor, testBit_first_mask _ _ (Nat.mod_lt _ (by norm_num)),
    testBit_suffix_mask _ _ (Nat.mod_lt _ (by norm_num)), testBit_rangeMask_nat]
  by_cases h1 : i < 64 <;> by_cases h2 : f % 64 ≤ i <;> by_cases h3 : l % 64 < i <;>
    simp [h1, h2, h3] <;> omega

theorem range_word_last (f l : Nat) (hw : f / 64 < l / 64) :
    allOnes ^^^ shl64 (sub64 (shl64 1 (63 - l % 64)) 1) (sub64 64 (63 - l % 64))
      = rangeMask (f : Int) ((l : Int) + 1) (l / 64) := by
  apply Nat.eq_of_testBit_eq
  intro i
  rw [Nat.testBit_xor, allOnes_eq, Nat.testBit_two_pow_sub_one,
    testBit_suffix_mask _ _ (Nat.mod_lt _ (by norm_num)), testBit_rangeMask_nat]
  by_cases h1 : i < 64 <;> by_cases h3 : l % 64 < i <;> simp [h1, h3] <;> omega

theorem prefixLength_toNat (f : Nat) : ((((f : Int)) % 64) % 2 ^ 64).toNat = f % 64 := by
  omega

theorem suffixLength_toNat (l : Nat) : ((63 - ((l : Int)) % 64) % 2 ^ 64).toNat = 63 - l % 64 := by
  omega

/-- The words of `newBitmapContainerwithRange(f, l)` hold exactly the bits of the closed range
`[f, l]`, and the cardinality field is `l - f + 1`. -/
theorem newBitmapContainerwithRange_eq (f l : Nat) (hfl : f ≤ l) (hl : l < 65536) :
    newBitmapContainerwithRange (f : Int) (l : Int)
      = ⟨(l : Int) - (f : Int) + 1, flipRange (List.replicate 1024 0) (f : Int) (l : Int)⟩ := by
  unfold newBitmapContainerwithRange
  rw [newBitmapContainer_eq]
  generalize hZ : List.replicate 1024 0 = Z
  have hZlen : Z.length = 1024 := by rw [← hZ]; exact List.length_replicate _ _
  have hZget : ∀ j, Z.getD j 0 = 0 := by intro j; rw [← hZ]; exact replicate_zero_getD _ _
  have hZmem : ∀ x ∈ Z, x = 0 := by
    intro x hx; rw [← hZ] at hx; exact (List.mem_replicate.mp hx).2
  simp only
  by_cases hfull : (l : Int) - (f : Int) + 1 = maxCapacity
  · rw [if_pos hfull]
    have hf0 : f = 0 := by unfold maxCapacity at hfull; omega
    have hl0 : l = 65535 := by unfold maxCapacity at hfull; omega
    subst hf0; subst hl0
    rw [flipRange_full _ hZlen]
    refine congrArg (bitmapContainer.mk _) ?_
    unfold fill
    apply List.map_congr_left
    intro x hx
    rw [hZmem x hx]
    unfold not64
    rfl
  · rw [if_neg hfull]
    refine congrArg (bitmapContainer.mk _) ?_
    rw [tdiv_64_toNat, tdiv_64_toNat, prefixLength_toNat, suffixLength_toNat]
    have hlenF : (fillRange Z ((f : Int).tdiv 64) ((l : Int).tdiv 64 + 1)
        allOnes).length = 1024 := by
      rw [fillRange_length]; exact hZlen
    have hF : ∀ j, j < 1024 →
        (fillRange Z ((f : Int).tdiv 64) ((l : Int).tdiv 64 + 1)
          allOnes).getD j 0 = if f / 64 ≤ j ∧ j ≤ l / 64 then allOnes else 0 := by
      intro j hj
      rw [fillRange_getD _ _ _ _ _ (by rw [hZlen]; exact hj),
        hZget, Int.tdiv_eq_ediv (by omega) (by omega),
        Int.tdiv_eq_ediv (by omega) (by omega)]
      by_cases hc : f / 64 ≤ j ∧ j ≤ l / 64
      · rw [if_pos hc, if_pos (by omega)]
      · rw [if_neg hc, if_neg (by omega)]
    generalize fillRange Z ((f : Int).tdiv 64) ((l : Int).tdiv 64 + 1)
      allOnes = F at hlenF hF
    apply ext_getD
    · rw [List.length_set, List.length_set, hlenF, flipRange_length, hZlen]
    · intro j hj
      rw [List.length_set, List.length_set, hlenF] at hj
      have hfw : f / 64 < 1024 := by omega
      have hlw : l / 64 < 1024 := by omega
      rw [flipRange_getD _ _ _ _ (by rw [hZlen]; exact hj),
        hZget, Nat.zero_xor, getD_set_eq, getD_set_eq, getD_set_eq,
        List.length_set, hlenF, hF _ hfw, hF _ hlw, hF _ hj]
      by_cases h1 : j = f / 64
      · by_cases h2 : j = l / 64
        · have hsame : f / 64 = l / 64 := by omega
          rw [if_pos ⟨h2, hlw⟩, if_pos ⟨hsame.symm, hfw⟩, if_pos ⟨le_refl _, by omega⟩, h1]
          exact range_word_same f l hfl hsame
        · have hlt : f / 64 < l / 64 := by
            have : f / 64 ≤ l / 64 := Nat.div_le_div_right hfl
            omega
          rw [if_neg (fun hh => h2 hh.1), if_pos ⟨h1, hfw⟩, if_pos ⟨le_refl _, by omega⟩, h1]
          exact mask_first_eq f l hlt
      · by_cases h2 : j = l / 64
        · have hlt : f / 64 < l / 64 := by
            have : f / 64 ≤ l / 64 := Nat.div_le_div_right hfl
            omega
          rw [if_pos ⟨h2, hlw⟩, if_neg (fun hh => by omega), if_pos ⟨by omega, le_refl _⟩, h2]
          exact range_word_last f l hlt
        · rw [if_neg (fun hh => h2 hh.1), if_neg (fun hh => h1 hh.1)]
          by_cases h3 : f / 64 ≤ j ∧ j ≤ l / 64
          · rw [if_pos h3]
            exact mask_interior_eq f l j (by omega) (by omega)
          · rw [if_neg h3]
            exact (mask_outside_eq f l j (by omega)).symm

theorem countP_interval (f l n : Nat) (hfl : f ≤ l) (hn : l < n) :
    (List.range n).countP (fun v => decide (f ≤ v ∧ v ≤ l)) = l + 1 - f := by
  have h1 := countP_range_shift (fun i => decide (i < l + 1 - f)) f n (by omega)
  rw [countP_lt_range (n - f) (l + 1 - f) (by omega)] at h1
  rw [← h1]
  apply countP_range_congr
  intro v _
  rw [Bool.eq_iff_iff]
  simp only [Bool.and_eq_true, decide_eq_true_eq]
  omega

theorem getBit_replicate_zero (n v : Nat) : getBit (List.replicate n 0) v = false := by
  unfold getBit
  rw [replicate_zero_getD, Nat.zero_testBit]

theorem newBitmapContainerwithRange_spec (f l : Nat) (hfl : f ≤ l) (hl : l < 65536) :
    (∀ v : Nat, (newBitmapContainerwithRange (f : Int) (l : Int)).contains v
        = decide (f ≤ v ∧ v ≤ l)) ∧
    (newBitmapContainerwithRange (f : Int) (l : Int)).cardinality = (l : Int) - (f : Int) + 1 ∧
    (newBitmapContainerwithRange (f : Int) (l : Int)).wf := by
  rw [newBitmapContainerwithRange_eq f l hfl hl]
  have hZlen0 : (List.replicate 1024 0).length = 1024 := List.length_replicate _ _
  have hZbit0 : ∀ v, getBit (List.replicate 1024 0) v = false := getBit_replicate_zero 1024
  have hZlt0 : ∀ w ∈ List.replicate 1024 0, w < 2 ^ 64 := by
    intro w hw
    rw [(List.mem_replicate.mp hw).2]
    exact Nat.two_pow_pos 64
  generalize List.replicate 1024 0 = Z at hZlen0 hZbit0 hZlt0 ⊢
  have hbit : ∀ v : Nat, getBit (flipRange Z (f : Int) (l : Int)) v
      = decide (f ≤ v ∧ v ≤ l) := by
    intro v
    rw [getBit_flipRange _ f l (by rw [hZlen0]; omega) v, hZbit0]
    simp
  have hlen : (flipRange Z (f : Int) (l : Int)).length = 1024 := by
    rw [flipRange_length]; exact hZlen0
  refine ⟨fun v => ?_, rfl, hlen, flipRange_word_lt _ hZlt0 _ _, ?_⟩
  · rw [bitmapContainer.contains_eq_getBit]
    exact hbit v
  · show (l : Int) - (f : Int) + 1
      = ((popcntSlice (flipRange Z (f : Int) (l : Int)) : Nat) : Int)
    rw [popcntSlice_eq_count _ hlen,
      countP_range_congr _ _ 65536 (fun v _ => hbit v), countP_interval f l 65536 hfl hl]
    omega

theorem rangeOfOnes_spec (f l : Nat) (hfl : f ≤ l) :
    ((l : Int) - (f : Int) + 1 > 4096 →
      rangeOfOnes (f : Int) (l : Int) = .bitmap (newBitmapContainerwithRange (f : Int) (l : Int))) ∧
    ((l : Int) - (f : Int) + 1 ≤ 4096 →
      rangeOfOnes (f : Int) (l : Int) = .array (newArrayContainerRange (f : Int) (l : Int)) ∧
      (newArrayContainerRange (f : Int) (l : Int)).getCardinality = (l : Int) - (f : Int) + 1) := by
  unfold rangeOfOnes arrayDefaultMaxSize
  constructor
  · intro h
    rw [if_pos h]
  · intro h
    rw [if_neg (by omega)]
    refine ⟨rfl, ?_⟩
    unfold newArrayContainerRange arrayContainer.getCardinality
    simp only [List.length_map, List.length_range]
    omega

/-- C13: for every closed interval `0 <= first <= last <= 65535`,
`newBitmapContainerwithRange(first, last)` contains `v` exactly when `first <= v <= last`, its
cardinality field is `last - first + 1` and is the popcount of its 1024 words;
`rangeOfOnes(first, last)` is that bitmap container when `last - first + 1 > 4096` and an
array container of `last - first + 1` values otherwise; `rangeOfOnes(0, 4095)` is an array
container of cardinality 4096 and `rangeOfOnes(0, 4096)` a bitmap container of cardinality
4097. -/
theorem range_constructors_correct (first last : Int) (h0 : 0 ≤ first) (h1 : first ≤ last)
    (h2 : last ≤ 65535) :
    (∀ v : Nat, v < 65536 → (newBitmapContainerwithRange first last).contains v
        = decide (first ≤ (v : Int) ∧ (v : Int) ≤ last)) ∧
    (newBitmapContainerwithRange first last).cardinality = last - first + 1 ∧
    (newBitmapContainerwithRange first last).cardinality
      = ((popcntSlice (newBitmapContainerwithRange first last).bitmap : Nat) : Int) ∧
    (newBitmapContainerwithRange first last).bitmap.length = 1024 ∧
    (last - first + 1 > 4096 →
      rangeOfOnes first last = .bitmap (newBitmapContainerwithRange first last)) ∧
    (last - first + 1 ≤ 4096 →
      ∃ ac : arrayContainer, rangeOfOnes first last = .array ac ∧
        ac.getCardinality = last - first + 1) ∧
    (∃ ac : arrayContainer, rangeOfOnes 0 4095 = .array ac ∧ ac.getCardinality = 4096) ∧
    (∃ b : bitmapContainer, rangeOfOnes 0 4096 = .bitmap b ∧ b.getCardinality = 4097) := by
  obtain ⟨f, rfl⟩ := Int.eq_ofNat_of_zero_le h0
  obtain ⟨l, rfl⟩ := Int.eq_ofNat_of_zero_le (le_trans h0 h1)
  have hfl : f ≤ l := by omega
  have hl : l < 65536 := by omega
  obtain ⟨s1, s2, s3⟩ := newBitmapContainerwithRange_spec f l hfl hl
  obtain ⟨r1, r2⟩ := rangeOfOnes_spec f l hfl
  refine ⟨fun v _ => ?_, s2, s3.2.2, s3.1, r1, fun h => ⟨_, r2 h⟩, ?_, ?_⟩
  · rw [s1 v]
    apply decide_eq_decide.mpr
    constructor
    · intro hh; constructor <;> omega
    · intro hh; constructor <;> omega
  · have := (rangeOfOnes_spec 0 4095 (by norm_num)).2 (by norm_num)
    exact ⟨_, this.1, by rw [this.2]; norm_num⟩
  · have := (rangeOfOnes_spec 0 4096 (by norm_num)).1 (by norm_num)
    refine ⟨_, this, ?_⟩
    show (newBitmapContainerwithRange ((0 : Nat) : Int) ((4096 : Nat) : Int)).cardinality = 4097
    rw [(newBitmapContainerwithRange_spec 0 4096 (by norm_num) (by norm_num)).2.1]
    norm_num

/-- C13 at the range `[70, 200]`, which starts and ends inside words: the cardinality field is
131. -/
theorem range_constructors_correct_witness :
    (newBitmapContainerwithRange 70 200).cardinality = 200 - 70 + 1 :=
  (range_constructors_correct 70 200 (by norm_num) (by norm_num) (by norm_num)).2.1

/-! ## Slices: normal forms -/

theorem setIndex?_eq {α : Type} (s : List α) (i : Nat) (v : α) (hi : i < s.length) :
    setIndex? s ((i : Nat) : Int) v = some (s.set i v) := by
  unfold setIndex?
  rw [if_pos ⟨by omega, by omega⟩, Int.toNat_ofNat]

theorem sliceTo?_eq {α : Type} (s : List α) (n : Nat) (hn : n ≤ s.length) :
    sliceTo? s ((n : Nat) : Int) = some (s.take n) := by
  unfold sliceTo?
  rw [if_pos ⟨by omega, by omega⟩, Int.toNat_ofNat]

theorem index?_eq_some {α : Type} (s : List α) (i : Nat) (hi : i < s.length) :
    index? s ((i : Nat) : Int) = some (s.get ⟨i, hi⟩) := by
  unfold index?
  rw [if_pos (by omega), Int.toNat_ofNat, List.getElem?_eq_getElem hi]
  rfl

/-- Shifting the elements from `i` on one place to the right in a slice grown by one element,
and storing `v` at `i`, inserts `v` at `i`. -/
theorem insert_normal {α : Type} (s : List α) (x v : α) (i : Nat) (hi : i ≤ s.length) :
    (copyWithin? (s ++ [x]) (((i : Nat) : Int) + 1) ((i : Nat) : Int)).bind
        (fun t => setIndex? t ((i : Nat) : Int) v)
      = some (s.take i ++ v :: s.drop i) := by
  obtain ⟨a, b, rfl, ha⟩ : ∃ a b, s = a ++ b ∧ a.length = i :=
    ⟨s.take i, s.drop i, (List.take_append_drop i s).symm, by simp [hi]⟩
  subst ha
  unfold copyWithin?
  have e1 : (((a.length : Nat) : Int) + 1).toNat = a.length + 1 := by omega
  rw [if_pos ⟨by omega, by simp, by omega, by simp; omega⟩, e1, Int.toNat_ofNat]
  simp only [Option.some_bind]
  have hlen : (a ++ b ++ [x]).length = a.length + b.length + 1 := by simp; omega
  have hmin : min ((a ++ b ++ [x]).length - (a.length + 1))
      (List.drop a.length (a ++ b ++ [x])).length = b.length := by
    simp
    omega
  rw [hmin]
  have h1 : List.drop a.length (a ++ b ++ [x]) = b ++ [x] := by
    rw [List.append_assoc, List.drop_left]
  have h2 : List.take (a.length + 1) (a ++ b ++ [x]) = a ++ List.take 1 (b ++ [x]) := by
    rw [List.append_assoc, List.take_append]
  have h3 : List.drop (a.length + 1 + b.length) (a ++ b ++ [x]) = [] := by
    apply List.drop_of_length_le
    rw [hlen]; omega
  rw [h1, h2, h3, List.take_left, List.append_nil, List.take_left, List.drop_left]
  have h4 : (a ++ List.take 1 (b ++ [x]) ++ b).length = a.length + 1 + b.length := by
    cases b <;> simp
    omega
  rw [setIndex?_eq _ _ _ (by rw [h4]; omega)]
  congr 1
  cases b with
  | nil => simp
  | cons y b => simp

/-- Moving the elements from `e` on down to `b` and cutting the slice by `e - b` removes the
elements at `[b, e)`. -/
theorem remove_normal {α : Type} (s : List α) (b e : Nat) (hbe : b ≤ e) (he : e ≤ s.length) :
    ∃ t, copyWithin? s ((b : Nat) : Int) ((e : Nat) : Int) = some t ∧ t.length = s.length ∧
      t.take (s.length - (e - b)) = s.take b ++ s.drop e := by
  unfold copyWithin?
  rw [if_pos ⟨by omega, by omega, by omega, by omega⟩, Int.toNat_ofNat, Int.toNat_ofNat]
  refine ⟨_, rfl, ?_, ?_⟩
  · simp
    omega
  · have hmin : min (s.length - b) (List.drop e s).length = s.length - e := by
      simp; omega
    simp only [hmin]
    have h1 : List.take (s.length - e) (List.drop e s) = List.drop e s := by
      apply List.take_of_length_le
      simp
    rw [h1]
    have h2 : (List.take b s ++ List.drop e s).length = s.length - (e - b) := by
      simp; omega
    rw [← h2, List.take_left]

/-! ## The methods of `roaringArray` on valid indices -/

theorem roaringArray.resize.clear_spec : ∀ (fuel : Nat) (c : List (Option Nat)) (k : Nat),
    c.length ≤ k + fuel →
    ∃ t, roaringArray.resize.clear c fuel ((k : Nat) : Int) = some t ∧ t.length = c.length ∧
      t.take k = c.take k := by
  intro fuel
  induction fuel with
  | zero =>
    intro c k h
    unfold roaringArray.resize.clear
    rw [if_neg (by omega)]
    exact ⟨c, rfl, rfl, rfl⟩
  | succ fuel ih =>
    intro c k h
    unfold roaringArray.resize.clear
    by_cases hk : ((k : Nat) : Int) < c.length
    · rw [if_pos hk, setIndex?_eq c k none (by omega)]
      simp only
      have e : ((k : Nat) : Int) + 1 = ((k + 1 : Nat) : Int) := by omega
      rw [e]
      obtain ⟨t, h1, h2, h3⟩ := ih (c.set k none) (k + 1) (by rw [List.length_set]; omega)
      refine ⟨t, h1, by rw [h2, List.length_set], ?_⟩
      have h4 := congrArg (List.take k) h3
      rw [List.take_take, List.take_take, Nat.min_eq_left (by omega)] at h4
      rw [h4]
      rw [List.set_take, List.set_eq_of_length_le (by rw [List.length_take]; omega)]
    · rw [if_neg hk]
      exact ⟨c, rfl, rfl, rfl⟩

theorem roaringArray.hasDirty_eq (ra : roaringArray) :
    ra.hasDirty = decide (ra.dirty ≠ []) := by
  unfold roaringArray.hasDirty
  cases ra.dirty <;> simp

theorem roaringArray.resize_eq (ra : roaringArray) (m : Nat) (hs : ra.shape)
    (hm : m ≤ ra.keys.length) :
    ra.resize ((m : Nat) : Int)
      = some ⟨ra.keys.take m, ra.containers.take m, ra.dirty.take m⟩ := by
  obtain ⟨t, h1, h2, h3⟩ := roaringArray.resize.clear_spec (ra.containers.length + 1)
    ra.containers m (by omega)
  unfold roaringArray.resize
  rw [h1]
  simp only [Option.bind_eq_bind, Option.some_bind]
  rw [sliceTo?_eq _ _ hm]
  simp only [Option.some_bind]
  rw [sliceTo?_eq _ _ (by rw [h2, ← hs.1]; exact hm)]
  simp only [Option.some_bind, h3]
  by_cases hd : ra.dirty.length > 0
  · have hdl : ra.dirty.length = ra.keys.length := by
      rcases hs.2 with h | h
      · omega
      · exact h
    simp only [roaringArray.hasDirty, hd, decide_True, if_true]
    rw [sliceTo?_eq _ _ (by rw [hdl]; exact hm)]
    rfl
  · have hnil : ra.dirty = [] := List.length_eq_zero.mp (by omega)
    rw [hnil]
    simp [roaringArray.hasDirty]

theorem index?_natCast {α : Type} (s : List α) (i : Nat) :
    index? s ((i : Nat) : Int) = s[i]? := by
  unfold index?
  rw [if_pos (by omega), Int.toNat_ofNat]

theorem roaringArray.removeIndexRange_eq (ra : roaringArray) (b e : Nat) (hs : ra.shape)
    (hbe : b < e) (he : e ≤ ra.keys.length) :
    ra.removeIndexRange ((b : Nat) : Int) ((e : Nat) : Int)
      = some ⟨ra.keys.take b ++ ra.keys.drop e, ra.containers.take b ++ ra.containers.drop e,
          ra.dirty.take b ++ ra.dirty.drop e⟩ := by
  obtain ⟨tk, hk1, hk2, hk3⟩ := remove_normal ra.keys b e (by omega) he
  obtain ⟨tc, hc1, hc2, hc3⟩ := remove_normal ra.containers b e (by omega) (by rw [← hs.1]; exact he)
  have hm : ((tk.length : Nat) : Int) - (((e : Nat) : Int) - ((b : Nat) : Int))
      = ((ra.keys.length - (e - b) : Nat) : Int) := by omega
  unfold roaringArray.removeIndexRange
  rw [if_neg (by omega), hk1]
  simp only [Option.bind_eq_bind, Option.some_bind]
  rw [hc1]
  simp only [Option.some_bind]
  by_cases hd : ra.dirty.length > 0
  · have hdl : ra.dirty.length = ra.keys.length := by
      rcases hs.2 with h | h
      · omega
      · exact h
    obtain ⟨td, hd1, hd2, hd3⟩ := remove_normal ra.dirty b e (by omega) (by rw [hdl]; exact he)
    simp only [roaringArray.hasDirty, hd, decide_True, if_true, hd1, Option.map_some',
      Option.some_bind]
    rw [hm, roaringArray.resize_eq _ _ ⟨by simp only; rw [hk2, hc2]; exact hs.1,
      Or.inr (by simp only; rw [hd2, hk2]; exact hdl)⟩ (by simp only; rw [hk2]; omega)]
    simp only
    rw [← hs.1] at hc3
    rw [hdl] at hd3
    rw [hk3, hc3, hd3]
  · have hnil : ra.dirty = [] := List.length_eq_zero.mp (by omega)
    simp only [roaringArray.hasDirty, hd, decide_False, Bool.false_eq_true, if_false,
      Option.some_bind]
    rw [hm, roaringArray.resize_eq _ _ ⟨by simp only; rw [hk2, hc2]; exact hs.1,
      Or.inl (by simp only; rw [hnil]; rfl)⟩ (by simp only; rw [hk2]; omega)]
    simp only
    rw [← hs.1] at hc3
    rw [hk3, hc3, hnil]
    simp

theorem roaringArray.removeAtIndex_eq (ra : roaringArray) (i : Nat) (hs : ra.shape)
    (hi : i < ra.keys.length) :
    ra.removeAtIndex ((i : Nat) : Int)
      = some ⟨ra.keys.take i ++ ra.keys.drop (i + 1),
          ra.containers.take i ++ ra.containers.drop (i + 1),
          ra.dirty.take i ++ ra.dirty.drop (i + 1)⟩ := by
  rw [← roaringArray.removeIndexRange_eq ra i (i + 1) hs (by omega) (by omega)]
  unfold roaringArray.removeAtIndex roaringArray.removeIndexRange
  have e1 : ((i : Nat) : Int) + 1 = ((i + 1 : Nat) : Int) := by omega
  have e2 : ((i + 1 : Nat) : Int) - ((i : Nat) : Int) = 1 := by omega
  rw [if_neg (by omega), e1]
  simp only [e2]

theorem roaringArray.insertNewKeyValueAt_eq (ra : roaringArray) (i key : Nat)
    (value : Option Nat) (hs : ra.shape) (hi : i ≤ ra.keys.length) :
    ra.insertNewKeyValueAt ((i : Nat) : Int) key value
      = some ⟨ra.keys.take i ++ key :: ra.keys.drop i,
          ra.containers.take i ++ value :: ra.containers.drop i,
          if ra.dirty = [] then [] else ra.dirty.take i ++ false :: ra.dirty.drop i⟩ := by
  obtain ⟨tk, hk1, hk2⟩ := Option.bind_eq_some.mp (insert_normal ra.keys 0 key i hi)
  obtain ⟨tc, hc1, hc2⟩ := Option.bind_eq_some.mp
    (insert_normal ra.containers none value i (by rw [← hs.1]; exact hi))
  unfold roaringArray.insertNewKeyValueAt
  simp only [Option.bind_eq_bind, hk1, hc1, hk2, hc2, Option.some_bind]
  by_cases hd : ra.dirty.length > 0
  · have hdl : ra.dirty.length = ra.keys.length := by
      rcases hs.2 with h | h
      · omega
      · exact h
    have hne : ra.dirty ≠ [] := by
      intro h; rw [h] at hd; simp at hd
    obtain ⟨td, hd1, hd2⟩ := Option.bind_eq_some.mp
      (insert_normal ra.dirty false false i (by rw [hdl]; exact hi))
    simp only [roaringArray.hasDirty, hd, decide_True, if_true, hd1, hd2, Option.some_bind,
      if_neg hne]
  · have hnil : ra.dirty = [] := List.length_eq_zero.mp (by omega)
    simp only [roaringArray.hasDirty, hd, decide_False, Bool.false_eq_true, if_false,
      if_pos hnil]
    rw [hnil]

theorem roaringArray.appendContainer_eq (ra : roaringArray) (key : Nat) (value : Option Nat) :
    ra.appendContainer key value
      = ⟨ra.keys ++ [key], ra.containers ++ [value],
          if ra.dirty = [] then [] else ra.dirty ++ [false]⟩ := by
  unfold roaringArray.appendContainer
  by_cases hd : ra.dirty.length > 0
  · have hne : ra.dirty ≠ [] := by
      intro h; rw [h] at hd; simp at hd
    simp only [roaringArray.hasDirty, hd, decide_True, if_true, if_neg hne]
  · have hnil : ra.dirty = [] := List.length_eq_zero.mp (by omega)
    simp only [roaringArray.hasDirty, hd, decide_False, Bool.false_eq_true, if_false,
      if_pos hnil]
    rw [hnil]

theorem roaringArray.setContainerAtIndex_eq (ra : roaringArray) (i : Nat) (c : Option Nat)
    (hs : ra.shape) (hi : i < ra.keys.length) :
    ra.setContainerAtIndex ((i : Nat) : Int) c
      = some ⟨ra.keys, ra.containers.set i c, ra.dirty⟩ := by
  unfold roaringArray.setContainerAtIndex
  rw [setIndex?_eq _ _ _ (by rw [← hs.1]; exact hi)]
  rfl

theorem roaringArray.replaceKeyAndContainerAtIndex_eq (ra : roaringArray) (i key : Nat)
    (c : Option Nat) (hs : ra.shape) (hi : i < ra.keys.length) :
    ra.replaceKeyAndContainerAtIndex ((i : Nat) : Int) key c
      = some ⟨ra.keys.set i key, ra.containers.set i c, ra.dirty.set i false⟩ := by
  unfold roaringArray.replaceKeyAndContainerAtIndex
  rw [setIndex?_eq _ _ _ hi]
  simp only [Option.bind_eq_bind, Option.some_bind]
  rw [setIndex?_eq _ _ _ (by rw [← hs.1]; exact hi)]
  simp only [Option.some_bind]
  by_cases hd : ra.dirty.length > 0
  · have hdl : ra.dirty.length = ra.keys.length := by
      rcases hs.2 with h | h
      · omega
      · exact h
    simp only [roaringArray.hasDirty, hd, decide_True, if_true]
    rw [setIndex?_eq _ _ _ (by rw [hdl]; exact hi)]
    rfl
  · have hnil : ra.dirty = [] := List.length_eq_zero.mp (by omega)
    simp only [roaringArray.hasDirty, hd, decide_False, Bool.false_eq_true, if_false]
    rw [hnil]
    rfl

theorem markAll_fold (m : Nat) :
    (List.range m).foldl (fun d i => d.set i true) (List.replicate m false)
      = List.replicate m true := by
  have := foldl_range_inv
    (fun k (d : List Bool) => d = List.replicate k true ++ List.replicate (m - k) false)
    (fun d i => d.set i true) (List.replicate m false) m (by simp)
    (by
      intro k d hk hd
      rw [hd]
      show (List.replicate k true ++ List.replicate (m - k) false).set k true = _
      rw [List.set_append_right _ _ (by simp), List.length_replicate, Nat.sub_self]
      obtain ⟨r, hr⟩ : ∃ r, m - k = r + 1 := ⟨m - k - 1, by omega⟩
      have hr2 : m - (k + 1) = r := by omega
      rw [hr, hr2, List.replicate_succ, List.set_cons_zero, List.replicate_succ',
        List.append_assoc]
      rfl)
  simp only [Nat.sub_self, List.replicate_zero, List.append_nil] at this
  exact this

theorem roaringArray.markAllDirty_eq (ra : roaringArray) :
    ra.markAllDirty = ⟨ra.keys, ra.containers, List.replicate ra.keys.length true⟩ := by
  unfold roaringArray.markAllDirty
  simp only [List.length_replicate, markAll_fold]

theorem copySlice_fresh {α : Type} (x : α) (s : List α) :
    copySlice (List.replicate s.length x) s = s := by
  unfold copySlice
  simp

theorem roaringArray.clone_normal (ra : roaringArray) :
    ra.clone = ⟨⟨ra.keys, ra.containers, List.replicate ra.keys.length true⟩,
      ⟨ra.keys, ra.containers, List.replicate ra.keys.length true⟩⟩ := by
  unfold roaringArray.clone
  simp only [copySlice_fresh, roaringArray.markAllDirty_eq]

/-- The call `getWritableContainerAtIndex(i)` on a dirty entry: the object is cloned at a new
address, which is stored in the slot `i` and returned, and `dirty[i]` is cleared. -/
theorem roaringArray.getWritableContainerAtIndex_dirty (st : store) (ra : roaringArray)
    (i p : Nat) (obj : container) (hd : ra.dirty[i]? = some true)
    (hc : ra.containers[i]? = some (some p)) (hp : st.get p = some obj) :
    ra.getWritableContainerAtIndex st ((i : Nat) : Int)
      = some (⟨st.objects ++ [obj.clone]⟩,
          ⟨ra.keys, ra.containers.set i (some st.objects.length), ra.dirty.set i false⟩,
          some st.objects.length) := by
  have hi1 : i < ra.dirty.length := by
    by_contra h
    rw [List.getElem?_eq_none (by omega)] at hd
    exact Option.noConfusion hd
  have hi2 : i < ra.containers.length := by
    by_contra h
    rw [List.getElem?_eq_none (by omega)] at hc
    exact Option.noConfusion hc
  unfold roaringArray.getWritableContainerAtIndex
  rw [if_pos (by omega), index?_natCast, index?_natCast, hd, hc]
  simp only [Option.bind_eq_bind, Option.some_bind, if_true, store.deref, hp, store.alloc]
  rw [setIndex?_eq _ _ _ hi2, setIndex?_eq _ _ _ hi1]
  simp only [Option.some_bind]
  rw [index?_natCast, List.getElem?_set_self hi2]
  rfl

/-- The call `getWritableContainerAtIndex(i)` on an entry that is not dirty returns the stored
container and changes nothing. -/
theorem roaringArray.getWritableContainerAtIndex_clean (st : store) (ra : roaringArray)
    (i : Nat) (c : Option Nat) (hd : ra.dirty = [] ∨ ra.dirty[i]? = some false)
    (hc : ra.containers[i]? = some c) :
    ra.getWritableContainerAtIndex st ((i : Nat) : Int) = some (st, ra, c) := by
  unfold roaringArray.getWritableContainerAtIndex
  by_cases hlen : ra.dirty.length > 0
  · have hd2 : ra.dirty[i]? = some false := by
      rcases hd with h | h
      · rw [h] at hlen; simp at hlen
      · exact h
    rw [if_pos hlen, index?_natCast, index?_natCast, hd2, hc]
    rfl
  · rw [if_neg hlen, index?_natCast, hc]
    rfl

/-! ## The structural invariant along calls -/

theorem forall2_set {α β : Type} (R : α → β → Prop) :
    ∀ (l1 : List α) (l2 : List β), List.Forall₂ R l1 l2 → ∀ (i : Nat) (a : α) (b : β),
      R a b → List.Forall₂ R (l1.set i a) (l2.set i b) := by
  intro l1 l2 h
  induction h with
  | nil => intro i a b _; exact List.Forall₂.nil
  | cons hab _ ih =>
    intro i a b hr
    cases i with
    | zero => exact List.Forall₂.cons hr (by assumption)
    | succ i => exact List.Forall₂.cons hab (ih i a b hr)

theorem forall2_set_left {α β : Type} (R : α → β → Prop) :
    ∀ (l1 : List α) (l2 : List β), List.Forall₂ R l1 l2 → ∀ (i : Nat) (a : α),
      (∀ b, R a b) → List.Forall₂ R (l1.set i a) l2 := by
  intro l1 l2 h
  induction h with
  | nil => intro i a _; exact List.Forall₂.nil
  | cons hab _ ih =>
    intro i a hr
    cases i with
    | zero => exact List.Forall₂.cons (hr _) (by assumption)
    | succ i => exact List.Forall₂.cons hab (ih i a hr)

theorem forall2_insert {α β : Type} (R : α → β → Prop) (l1 : List α) (l2 : List β)
    (h : List.Forall₂ R l1 l2) (i : Nat) (a : α) (b : β) (hr : R a b) :
    List.Forall₂ R (l1.take i ++ a :: l1.drop i) (l2.take i ++ b :: l2.drop i) :=
  List.rel_append (List.forall₂_take i h) (List.Forall₂.cons hr (List.forall₂_drop i h))

theorem forall2_remove {α β : Type} (R : α → β → Prop) (l1 : List α) (l2 : List β)
    (h : List.Forall₂ R l1 l2) (b e : Nat) :
    List.Forall₂ R (l1.take b ++ l1.drop e) (l2.take b ++ l2.drop e) :=
  List.rel_append (List.forall₂_take b h) (List.forall₂_drop e h)

theorem forall2_replicate_true {α : Type} (P : α → Prop) :
    ∀ (l : List α), List.Forall₂ (fun c d => P c → d = true) l (List.replicate l.length true)
  | [] => List.Forall₂.nil
  | _ :: l => List.Forall₂.cons (fun _ => rfl) (forall2_replicate_true P l)

theorem take_drop_sublist {α : Type} (l : List α) (b e : Nat) (hbe : b ≤ e) :
    (l.take b ++ l.drop e).Sublist l := by
  have h1 : (l.take b ++ l.drop e).Sublist (l.take b ++ l.drop b) :=
    List.Sublist.append (List.Sublist.refl _) (List.drop_sublist_drop_left l hbe)
  rwa [List.take_append_drop] at h1

theorem mem_take_drop {α : Type} (l : List α) (b e : Nat) (x : α)
    (h : x ∈ l.take b ++ l.drop e) : x ∈ l := by
  rcases List.mem_append.mp h with h | h
  · exact List.mem_of_mem_take h
  · exact List.mem_of_mem_drop h

theorem mem_insert_at {α : Type} (l : List α) (i : Nat) (v x : α)
    (h : x ∈ l.take i ++ v :: l.drop i) : x = v ∨ x ∈ l := by
  rcases List.mem_append.mp h with h | h
  · exact Or.inr (List.mem_of_mem_take h)
  · rcases List.mem_cons.mp h with h | h
    · exact Or.inl h
    · exact Or.inr (List.mem_of_mem_drop h)

theorem mem_set_cases {α : Type} (l : List α) (i : Nat) (v x : α) (h : x ∈ l.set i v) :
    x = v ∨ x ∈ l := by
  rcases List.mem_or_eq_of_mem_set h with h | h
  · exact Or.inr h
  · exact Or.inl h

/-- Inserting a key at its insertion point keeps the keys strictly ascending. -/
theorem pairwise_insert (keys : List Nat) (i key : Nat)
    (hs : keys.Pairwise (fun a b => a < b)) (hi : i ≤ keys.length)
    (hlo : ∀ j : Nat, j < i → keys.getD j 0 < key)
    (hhi : ∀ j : Nat, i ≤ j → j < keys.length → key < keys.getD j 0) :
    (keys.take i ++ key :: keys.drop i).Pairwise (fun a b => a < b) := by
  have hlo2 : ∀ a ∈ keys.take i, a < key := by
    intro a ha
    obtain ⟨j, hj, rfl⟩ := List.mem_iff_getElem.mp ha
    rw [List.length_take] at hj
    have := hlo j (by omega)
    rw [List.getElem_take]
    rw [List.getD_eq_getElem _ _ (by omega)] at this
    exact this
  have hhi2 : ∀ a ∈ keys.drop i, key < a := by
    intro a ha
    obtain ⟨j, hj, rfl⟩ := List.mem_iff_getElem.mp ha
    rw [List.length_drop] at hj
    have := hhi (i + j) (by omega) (by omega)
    rw [List.getElem_drop]
    rw [List.getD_eq_getElem _ _ (by omega)] at this
    exact this
  have hsplit : (keys.take i ++ keys.drop i).Pairwise (fun a b => a < b) := by
    rw [List.take_append_drop]; exact hs
  rw [List.pairwise_append] at hsplit ⊢
  refine ⟨hsplit.1, List.pairwise_cons.mpr ⟨hhi2, hsplit.2.1⟩, ?_⟩
  intro a ha b hb
  rcases List.mem_cons.mp hb with hb | hb
  · rw [hb]; exact hlo2 a ha
  · exact hsplit.2.2 a ha b hb

/-- The search of `remove` and `getIndex`, on the whole array. -/
theorem roaringArray.binarySearch_post (ra : roaringArray) (k : Nat)
    (hs : ra.keys.Pairwise (fun a b => a < b)) (hk : ∀ x ∈ ra.keys, x < 2 ^ 16) :
    SearchPost ra.keys k 0 ra.keys.length (ra.binarySearch 0 ra.keys.length k) := by
  unfold roaringArray.binarySearch
  have := binarySearch.halve_spec ra.keys k hs hk 0 ra.keys.length (le_refl _) (le_refl _) _ 0
    ((ra.keys.length : Int) - 1)
    (le_refl _) (by omega) (by omega) (Nat.lt_succ_self _)
    (fun j hj1 hj2 => by omega) (fun j hj1 hj2 => by omega)
  simpa using this

/-- In strictly ascending keys, no key is above the last one. -/
theorem le_getLast (keys : List Nat) (hs : keys.Pairwise (fun a b => a < b)) (last : Nat)
    (hl : keys.getLast? = some last) : ∀ a ∈ keys, a ≤ last := by
  intro a ha
  obtain ⟨j, hj, rfl⟩ := List.mem_iff_getElem.mp ha
  have hne : keys ≠ [] := by intro h; rw [h] at hj; simp at hj
  rw [List.getLast?_eq_getElem?] at hl
  have hl2 : keys[keys.length - 1] = last := by
    rw [List.getElem?_eq_getElem (by omega)] at hl
    exact Option.some.inj hl
  by_cases hjl : j = keys.length - 1
  · subst hjl; omega
  · have := (List.pairwise_iff_getElem.mp hs) j (keys.length - 1) hj (by omega) (by omega)
    omega

theorem roaringArray.inv.shape {ra : roaringArray} (h : ra.inv) : ra.shape := ⟨h.2.1, h.2.2⟩

theorem roaringArray.cowSafe_nil (ra : roaringArray) (h : ra.inv) : ra.cowSafe [] := by
  rcases h.2.2 with hd | hd
  · exact Or.inl ⟨List.eq_nil_of_length_eq_zero hd, fun c _ => List.not_mem_nil c⟩
  · right
    rw [List.forall₂_iff_get]
    refine ⟨by rw [hd, h.2.1], ?_⟩
    intro i _ _ hmem
    exact absurd hmem (List.not_mem_nil _)

/-- The state after an insertion at the insertion point of the key. -/
theorem good_insert (other : List (Option Nat)) (st : store) (ra : roaringArray) (i key v : Nat)
    (hinv : ra.inv) (hty : ra.typed st) (hcow : ra.cowSafe other)
    (hi : i ≤ ra.keys.length) (hkey : key < 2 ^ 16) (hv : v < st.objects.length)
    (hvo : some v ∉ other)
    (hlo : ∀ j : Nat, j < i → ra.keys.getD j 0 < key)
    (hhi : ∀ j : Nat, i ≤ j → j < ra.keys.length → key < ra.keys.getD j 0) :
    roaringArray.inv ⟨ra.keys.take i ++ key :: ra.keys.drop i,
        ra.containers.take i ++ some v :: ra.containers.drop i,
        if ra.dirty = [] then [] else ra.dirty.take i ++ false :: ra.dirty.drop i⟩ ∧
      roaringArray.typed st ⟨ra.keys.take i ++ key :: ra.keys.drop i,
        ra.containers.take i ++ some v :: ra.containers.drop i,
        if ra.dirty = [] then [] else ra.dirty.take i ++ false :: ra.dirty.drop i⟩ ∧
      roaringArray.cowSafe other ⟨ra.keys.take i ++ key :: ra.keys.drop i,
        ra.containers.take i ++ some v :: ra.containers.drop i,
        if ra.dirty = [] then [] else ra.dirty.take i ++ false :: ra.dirty.drop i⟩ := by
  obtain ⟨hs, hl, hd⟩ := hinv
  refine ⟨⟨pairwise_insert ra.keys i key hs hi hlo hhi, ?_, ?_⟩, ⟨?_, ?_⟩, ?_⟩
  · simp only [List.length_append, List.length_take, List.length_cons, List.length_drop]
    omega
  · by_cases hnil : ra.dirty = []
    · left; simp [hnil]
    · right
      have : ra.dirty.length ≠ 0 := fun h => hnil (List.eq_nil_of_length_eq_zero h)
      simp only [if_neg hnil, List.length_append, List.length_take, List.length_cons,
        List.length_drop]
      omega
  · intro k hk
    rcases mem_insert_at _ _ _ _ hk with h | h
    · rw [h]; exact hkey
    · exact hty.1 k h
  · intro c hc
    rcases mem_insert_at _ _ _ _ hc with h | h
    · exact ⟨v, h, hv⟩
    · exact hty.2 c h
  · rcases hcow with ⟨hnil, hall⟩ | hf
    · left
      refine ⟨by simp [hnil], ?_⟩
      intro c hc
      rcases mem_insert_at _ _ _ _ hc with h | h
      · rw [h]; exact hvo
      · exact hall c h
    · by_cases hnil : ra.dirty = []
      · left
        have hc0 : ra.containers = [] := by
          have := hf.length_eq
          rw [hnil] at this
          exact List.eq_nil_of_length_eq_zero this
        refine ⟨by simp [hnil], ?_⟩
        intro c hc
        rcases mem_insert_at _ _ _ _ hc with h | h
        · rw [h]; exact hvo
        · rw [hc0] at h; exact absurd h (List.not_mem_nil _)
      · right
        simp only [if_neg hnil]
        exact forall2_insert _ _ _ hf i (some v) false (fun h => absurd h hvo)

/-- The state after the removal of the entries `b` to `e - 1`. -/
theorem good_remove (other : List (Option Nat)) (st : store) (ra : roaringArray) (b e : Nat)
    (hinv : ra.inv) (hty : ra.typed st) (hcow : ra.cowSafe other)
    (hbe : b ≤ e) (he : e ≤ ra.keys.length) :
    roaringArray.inv ⟨ra.keys.take b ++ ra.keys.drop e,
        ra.containers.take b ++ ra.containers.drop e, ra.dirty.take b ++ ra.dirty.drop e⟩ ∧
      roaringArray.typed st ⟨ra.keys.take b ++ ra.keys.drop e,
        ra.containers.take b ++ ra.containers.drop e, ra.dirty.take b ++ ra.dirty.drop e⟩ ∧
      roaringArray.cowSafe other ⟨ra.keys.take b ++ ra.keys.drop e,
        ra.containers.take b ++ ra.containers.drop e, ra.dirty.take b ++ ra.dirty.drop e⟩ := by
  obtain ⟨hs, hl, hd⟩ := hinv
  refine ⟨⟨List.Pairwise.sublist (take_drop_sublist _ b e hbe) hs, ?_, ?_⟩, ⟨?_, ?_⟩, ?_⟩
  · simp only [List.length_append, List.length_take, List.length_drop]
    omega
  · simp only [List.length_append, List.length_take, List.length_drop]
    omega
  · intro k hk
    exact hty.1 k (mem_take_drop _ _ _ _ hk)
  · intro c hc
    exact hty.2 c (mem_take_drop _ _ _ _ hc)
  · rcases hcow with ⟨hnil, hall⟩ | hf
    · left
      refine ⟨by simp [hnil], ?_⟩
      intro c hc
      exact hall c (mem_take_drop _ _ _ _ hc)
    · right
      exact forall2_remove _ _ _ hf b e

/-- The state after the replacement of a key, a container and a flag. -/
theorem good_set (other : List (Option Nat)) (st : store) (ra : roaringArray)
    (keys : List Nat) (dirty : List Bool) (i v : Nat)
    (hinv : ra.inv) (hty : ra.typed st) (hcow : ra.cowSafe other)
    (hkeys : keys.Pairwise (fun a b => a < b)) (hlen : keys.length = ra.keys.length)
    (hk16 : ∀ k ∈ keys, k < 2 ^ 16)
    (hdirty : dirty = ra.dirty ∨ ∃ d, dirty = ra.dirty.set i d)
    (hv : v < st.objects.length) (hvo : some v ∉ other) :
    roaringArray.inv ⟨keys, ra.containers.set i (some v), dirty⟩ ∧
      roaringArray.typed st ⟨keys, ra.containers.set i (some v), dirty⟩ ∧
      roaringArray.cowSafe other ⟨keys, ra.containers.set i (some v), dirty⟩ := by
  obtain ⟨hs, hl, hd⟩ := hinv
  have hdl : dirty.length = ra.dirty.length := by
    rcases hdirty with h | ⟨d, h⟩ <;> rw [h]
    exact List.length_set _ _ _
  have hdn : dirty = [] ↔ ra.dirty = [] := by
    constructor <;> intro h
    · apply List.eq_nil_of_length_eq_zero; rw [← hdl, h]; rfl
    · apply List.eq_nil_of_length_eq_zero; rw [hdl, h]; rfl
  refine ⟨⟨hkeys, ?_, ?_⟩, ⟨hk16, ?_⟩, ?_⟩
  · show keys.length = (ra.containers.set i (some v)).length
    rw [List.length_set]; omega
  · show dirty.length = 0 ∨ dirty.length = keys.length
    omega
  · intro c hc
    rcases mem_set_cases _ _ _ _ hc with h | h
    · exact ⟨v, h, hv⟩
    · exact hty.2 c h
  · rcases hcow with ⟨hnil, hall⟩ | hf
    · left
      refine ⟨hdn.mpr hnil, ?_⟩
      intro c hc
      rcases mem_set_cases _ _ _ _ hc with h | h
      · rw [h]; exact hvo
      · exact hall c h
    · right
      rcases hdirty with h | ⟨d, h⟩ <;> rw [h]
      · exact forall2_set_left _ _ _ hf i (some v) (fun _ h => absurd h hvo)
      · exact forall2_set _ _ _ hf i (some v) d (fun h => absurd h hvo)

/-- The state after every flag has been set. -/
theorem good_markAll (other : List (Option Nat)) (st : store) (ra : roaringArray)
    (hinv : ra.inv) (hty : ra.typed st) :
    roaringArray.inv ⟨ra.keys, ra.containers, List.replicate ra.keys.length true⟩ ∧
      roaringArray.typed st ⟨ra.keys, ra.containers, List.replicate ra.keys.length true⟩ ∧
      roaringArray.cowSafe other
        ⟨ra.keys, ra.containers, List.replicate ra.keys.length true⟩ := by
  obtain ⟨hs, hl, hd⟩ := hinv
  refine ⟨⟨hs, hl, Or.inr (List.length_replicate _ _)⟩, hty, Or.inr ?_⟩
  show List.Forall₂ _ ra.containers (List.replicate ra.keys.length true)
  rw [hl]
  exact forall2_replicate_true _ _

theorem roaringArray.typed.mono {st st1 : store} {ra : roaringArray} (h : ra.typed st)
    (hle : st.objects.length ≤ st1.objects.length) : ra.typed st1 :=
  ⟨h.1, fun c hc => by
    obtain ⟨p, hp, hlt⟩ := h.2 c hc
    exact ⟨p, hp, by omega⟩⟩

/-- The result of `getIndex` for an absent key is `-(p + 1)` for the insertion point `p`. -/
theorem roaringArray.getIndex_absent (ra : roaringArray) (key : Nat) (g : Int)
    (hs : ra.keys.Pairwise (fun a b => a < b)) (hk : ∀ x ∈ ra.keys, x < 2 ^ 16)
    (hg : ra.getIndex key = some g) (hneg : g < 0) :
    ∃ p : Nat, g = -((p : Int) + 1) ∧ p ≤ ra.keys.length ∧
      (∀ j : Nat, j < p → ra.keys.getD j 0 < key) ∧
      (∀ j : Nat, p ≤ j → j < ra.keys.length → key < ra.keys.getD j 0) := by
  unfold roaringArray.getIndex at hg
  simp only at hg
  by_cases h0 : ((ra.keys.length : Nat) : Int) = 0
  · rw [if_pos h0] at hg
    have hg2 : g = -1 := by
      have := Option.some.inj hg
      omega
    refine ⟨0, by omega, by omega, fun j hj => by omega, fun j _ hj => by omega⟩
  · rw [if_neg h0] at hg
    rw [index?_eq_getD ra.keys _ (by omega) (by omega)] at hg
    simp only at hg
    split at hg
    · have := Option.some.inj hg
      omega
    · rcases roaringArray.binarySearch_post ra key hs hk with
        ⟨i, hr, h1, h2, h3⟩ | ⟨p, hr, h1, h2, h3, h4⟩
      · rw [hr] at hg
        have := Option.some.inj hg
        omega
      · rw [hr] at hg
        have hgp := Option.some.inj hg
        refine ⟨p.toNat, by omega, by omega, ?_, ?_⟩
        · intro j hj
          have := h3 (j : Int) (by omega) (by omega)
          simpa using this
        · intro j hj1 hj2
          have := h4 (j : Int) (by omega) (by omega)
          simpa using this

/-- One admissible call returns, and keeps the structural invariant, the types of the values
and the dirty flags of the containers among `other`; the store only grows. -/
theorem mutation.apply_spec (other : List (Option Nat)) (st : store) (ra : roaringArray)
    (m : mutation) (hinv : ra.inv) (hty : ra.typed st) (hcow : ra.cowSafe other)
    (hother : ∀ c ∈ other, ∃ p, c = some p ∧ p < st.objects.length)
    (hm : m.admissible st ra) (hv : m.value? ∉ other) :
    ∃ st1 ra1, m.apply st ra = some (st1, ra1) ∧ ra1.inv ∧ ra1.typed st1 ∧
      ra1.cowSafe other ∧ ∃ ext, st1.objects = st.objects ++ ext := by
  have hshape := hinv.shape
  cases m with
  | appendContainer key v =>
    obtain ⟨hk, hv1, hlast⟩ := hm
    refine ⟨st, _, rfl, ?_⟩
    have hlo : ∀ j : Nat, j < ra.keys.length → ra.keys.getD j 0 < key := by
      intro j hj
      have hne : ra.keys ≠ [] := by intro h; rw [h] at hj; simp at hj
      obtain ⟨last, hl⟩ : ∃ last, ra.keys.getLast? = some last :=
        ⟨ra.keys.getLast hne, List.getLast?_eq_getLast _ hne⟩
      have := le_getLast ra.keys hinv.1 last hl _ (getD_mem ra.keys j hj)
      have := hlast last hl
      omega
    have h := good_insert other st ra ra.keys.length key v hinv hty hcow (le_refl _) hk hv1 hv
      hlo (fun j h1 h2 => by omega)
    have e : ra.appendContainer key (some v)
        = ⟨ra.keys.take ra.keys.length ++ key :: ra.keys.drop ra.keys.length,
          ra.containers.take ra.keys.length ++ some v :: ra.containers.drop ra.keys.length,
          if ra.dirty = [] then []
          else ra.dirty.take ra.keys.length ++ false :: ra.dirty.drop ra.keys.length⟩ := by
      rw [roaringArray.appendContainer_eq]
      have hd : ra.dirty ≠ [] → ra.dirty.length = ra.keys.length := by
        intro hne
        rcases hinv.2.2 with h | h
        · exact absurd (List.eq_nil_of_length_eq_zero h) hne
        · exact h
      congr 1
      · simp
      · rw [hinv.2.1]; simp
      · by_cases hne : ra.dirty = []
        · simp [hne]
        · rw [if_neg hne, if_neg hne, ← hd hne]; simp
    rw [e]
    exact ⟨h.1, h.2.1, h.2.2, [], by simp⟩
  | insertNewKeyValueAt i key v =>
    obtain ⟨hk, hv1, g, hg, hneg, hi⟩ := hm
    obtain ⟨p, hgp, hp, hlo, hhi⟩ := roaringArray.getIndex_absent ra key g hinv.1 hty.1 hg hneg
    have hip : i = ((p : Nat) : Int) := by omega
    have h := good_insert other st ra p key v hinv hty hcow hp hk hv1 hv hlo hhi
    refine ⟨st, _, ?_, h.1, h.2.1, h.2.2, [], by simp⟩
    show (ra.insertNewKeyValueAt i key (some v)).map (fun r => (st, r)) = _
    rw [hip, roaringArray.insertNewKeyValueAt_eq ra p key (some v) hshape hp]
    rfl
  | remove key =>
    show ∃ st1 ra1, (ra.remove key).map (fun r => (st, r.1)) = some (st1, ra1) ∧ _
    unfold roaringArray.remove
    rcases roaringArray.binarySearch_post ra key hinv.1 hty.1 with
      ⟨i, hr, h1, h2, h3⟩ | ⟨p, hr, h1, h2, h3, h4⟩
    · rw [hr]
      simp only
      rw [if_pos (by omega)]
      have hi : i = ((i.toNat : Nat) : Int) := by omega
      have h := good_remove other st ra i.toNat (i.toNat + 1) hinv hty hcow (by omega) (by omega)
      refine ⟨st, _, ?_, h.1, h.2.1, h.2.2, [], by simp⟩
      rw [hi, roaringArray.removeAtIndex_eq ra i.toNat hshape (by omega)]
      rfl
    · rw [hr]
      simp only
      rw [if_neg (by omega)]
      exact ⟨st, ra, rfl, hinv, hty, hcow, [], by simp⟩
  | removeAtIndex i =>
    obtain ⟨h0, h1⟩ := hm
    have hi : i = ((i.toNat : Nat) : Int) := by omega
    have h := good_remove other st ra i.toNat (i.toNat + 1) hinv hty hcow (by omega) (by omega)
    refine ⟨st, _, ?_, h.1, h.2.1, h.2.2, [], by simp⟩
    show (ra.removeAtIndex i).map (fun r => (st, r)) = _
    rw [hi, roaringArray.removeAtIndex_eq ra i.toNat hshape (by omega)]
    rfl
  | removeIndexRange b e =>
    obtain ⟨hb0, hb1, he0, he1⟩ := hm
    show ∃ st1 ra1, (ra.removeIndexRange b e).map (fun r => (st, r)) = some (st1, ra1) ∧ _
    by_cases hbe : e ≤ b
    · refine ⟨st, ra, ?_, hinv, hty, hcow, [], by simp⟩
      unfold roaringArray.removeIndexRange
      rw [if_pos hbe]
      rfl
    · have hb : b = ((b.toNat : Nat) : Int) := by omega
      have he : e = ((e.toNat : Nat) : Int) := by omega
      have h := good_remove other st ra b.toNat e.toNat hinv hty hcow (by omega) (by omega)
      refine ⟨st, _, ?_, h.1, h.2.1, h.2.2, [], by simp⟩
      rw [hb, he, roaringArray.removeIndexRange_eq ra b.toNat e.toNat hshape (by omega)
        (by omega)]
      rfl
  | replaceKeyAndContainerAtIndex i key c =>
    obtain ⟨h0, h1, hk, hc, hp⟩ := hm
    have hi : i = ((i.toNat : Nat) : Int) := by omega
    have h := good_set other st ra (ra.keys.set i.toNat key) (ra.dirty.set i.toNat false)
      i.toNat c hinv hty hcow hp (List.length_set _ _ _)
      (fun k hk1 => by
        rcases mem_set_cases _ _ _ _ hk1 with h | h
        · rw [h]; exact hk
        · exact hty.1 k h)
      (Or.inr ⟨false, rfl⟩) hc hv
    refine ⟨st, _, ?_, h.1, h.2.1, h.2.2, [], by simp⟩
    show (ra.replaceKeyAndContainerAtIndex i key (some c)).map (fun r => (st, r)) = _
    have e := roaringArray.replaceKeyAndContainerAtIndex_eq ra i.toNat key (some c) hshape
      (by omega)
    rw [← hi] at e
    rw [e]
    rfl
  | setContainerAtIndex i c =>
    obtain ⟨h0, h1, hc⟩ := hm
    have hi : i = ((i.toNat : Nat) : Int) := by omega
    have h := good_set other st ra ra.keys ra.dirty i.toNat c hinv hty hcow hinv.1 rfl hty.1
      (Or.inl rfl) hc hv
    refine ⟨st, _, ?_, h.1, h.2.1, h.2.2, [], by simp⟩
    show (ra.setContainerAtIndex i (some c)).map (fun r => (st, r)) = _
    rw [hi, roaringArray.setContainerAtIndex_eq ra i.toNat (some c) hshape (by omega)]
    rfl
  | getWritableContainerAtIndex i =>
    obtain ⟨h0, h1⟩ := hm
    have hi : i = ((i.toNat : Nat) : Int) := by omega
    have hlt : i.toNat < ra.containers.length := by rw [← hinv.2.1]; omega
    obtain ⟨p, hp, hpl⟩ := hty.2 _ (List.getElem_mem hlt)
    have hc : ra.containers[i.toNat]? = some (some p) := by
      rw [List.getElem?_eq_getElem hlt, hp]
    show ∃ st1 ra1, (ra.getWritableContainerAtIndex st i).map (fun r => (r.1, r.2.1))
      = some (st1, ra1) ∧ _
    by_cases hd : ra.dirty[i.toNat]? = some true
    · have hobj : st.get p = some st.objects[p] := by
        unfold store.get
        exact List.getElem?_eq_getElem hpl
      have hfresh : some st.objects.length ∉ other := by
        intro hmem
        obtain ⟨q, hq, hql⟩ := hother _ hmem
        have := Option.some.inj hq
        omega
      have hty1 : ra.typed ⟨st.objects ++ [st.objects[p].clone]⟩ :=
        hty.mono (by simp)
      have h := good_set other ⟨st.objects ++ [st.objects[p].clone]⟩ ra ra.keys
        (ra.dirty.set i.toNat false) i.toNat st.objects.length hinv hty1 hcow hinv.1 rfl hty.1
        (Or.inr ⟨false, rfl⟩) (by simp) hfresh
      refine ⟨_, _, ?_, h.1, h.2.1, h.2.2, [st.objects[p].clone], rfl⟩
      rw [hi, roaringArray.getWritableContainerAtIndex_dirty st ra i.toNat p _ hd hc hobj]
      rfl
    · have hd2 : ra.dirty = [] ∨ ra.dirty[i.toNat]? = some false := by
        rcases hinv.2.2 with h | h
        · exact Or.inl (List.eq_nil_of_length_eq_zero h)
        · right
          have hl2 : i.toNat < ra.dirty.length := by omega
          rw [List.getElem?_eq_getElem hl2] at hd ⊢
          cases hb : ra.dirty[i.toNat] with
          | true => rw [hb] at hd; exact absurd rfl hd
          | false => rfl
      refine ⟨st, ra, ?_, hinv, hty, hcow, [], by simp⟩
      rw [hi, roaringArray.getWritableContainerAtIndex_clean st ra i.toNat _ hd2 hc]
      rfl
  | clone =>
    have h := good_markAll other st ra hinv hty
    refine ⟨st, _, rfl, ?_⟩
    rw [roaringArray.clone_normal]
    exact ⟨h.1, h.2.1, h.2.2, [], by simp⟩
  | cloned =>
    have h := good_markAll other st ra hinv hty
    refine ⟨st, _, rfl, ?_⟩
    rw [roaringArray.clone_normal]
    exact ⟨h.1, h.2.1, h.2.2, [], by simp⟩
  | markAllDirty =>
    have h := good_markAll other st ra hinv hty
    refine ⟨st, _, rfl, ?_⟩
    rw [roaringArray.markAllDirty_eq]
    exact ⟨h.1, h.2.1, h.2.2, [], by simp⟩

theorem newRoaringArray_eq : newRoaringArray = ⟨[], [], []⟩ := rfl

/-- Every reachable state has the structural invariant and values of the Go types. -/
theorem Reachable.inv_typed {st : store} {ra : roaringArray} (h : Reachable st ra) :
    ra.inv ∧ ra.typed st := by
  induction h with
  | init st =>
    rw [newRoaringArray_eq]
    exact ⟨⟨List.Pairwise.nil, rfl, Or.inl rfl⟩, fun k hk => absurd hk (List.not_mem_nil _),
      fun c hc => absurd hc (List.not_mem_nil _)⟩
  | alloc st ra c _ ih =>
    exact ⟨ih.1, ih.2.mono (by simp [store.alloc])⟩
  | step st ra m st1 ra1 _ hm happ ih =>
    obtain ⟨st2, ra2, h2, hinv, hty, _, _⟩ := mutation.apply_spec [] st ra m ih.1 ih.2
      (roaringArray.cowSafe_nil ra ih.1) (fun c hc => absurd hc (List.not_mem_nil _)) hm
      (List.not_mem_nil _)
    rw [happ] at h2
    have e := Option.some.inj h2
    rw [Prod.mk.injEq] at e
    rw [e.1, e.2]
    exact ⟨hinv, hty⟩

/-- C14: in every state reached from `newRoaringArray()` by a sequence of `appendContainer`
(with a key greater than the last key), `insertNewKeyValueAt` (at the insertion point
`-(getIndex(key)) - 1` of an absent key), `remove`, `removeAtIndex`, `removeIndexRange`,
`replaceKeyAndContainerAtIndex` (with a key that keeps the order), `setContainerAtIndex`,
`getWritableContainerAtIndex`, `clone` and `markAllDirty` with valid indices, the keys are
strictly ascending, `len(keys) == len(containers)`, and `len(dirty)` is `0` or `len(keys)`;
and every such call in such a state returns (no panic) a state with the same three
properties. -/
theorem structural_invariant (st : store) (ra : roaringArray) (h : Reachable st ra) :
    (ra.keys.Pairwise (fun a b => a < b) ∧ ra.keys.length = ra.containers.length ∧
      (ra.dirty.length = 0 ∨ ra.dirty.length = ra.keys.length)) ∧
    ∀ m : mutation, m.admissible st ra →
      ∃ st1 ra1, m.apply st ra = some (st1, ra1) ∧ Reachable st1 ra1 ∧
        ra1.keys.Pairwise (fun a b => a < b) ∧ ra1.keys.length = ra1.containers.length ∧
        (ra1.dirty.length = 0 ∨ ra1.dirty.length = ra1.keys.length) := by
  have hg := h.inv_typed
  refine ⟨hg.1, ?_⟩
  intro m hm
  obtain ⟨st1, ra1, h1, hinv, _, _, _⟩ := mutation.apply_spec [] st ra m hg.1 hg.2
    (roaringArray.cowSafe_nil ra hg.1) (fun c hc => absurd hc (List.not_mem_nil _)) hm
    (List.not_mem_nil _)
  exact ⟨st1, ra1, h1, Reachable.step st ra m st1 ra1 h hm h1, hinv⟩

/-- C14 at the array with the one key 3, reached by `appendContainer(3, c)` on a new array: it
has the three properties, and `insertNewKeyValueAt(0, 1, c)` returns an array that has them. -/
theorem structural_invariant_witness :
    ([3].Pairwise (fun a b : Nat => a < b) ∧ [3].length = [some 0].length ∧
      (([] : List Bool).length = 0 ∨ ([] : List Bool).length = [3].length)) ∧
    ∃ st1 ra1, (mutation.insertNewKeyValueAt 0 1 0).apply ⟨[.array ⟨[7]⟩]⟩ ⟨[3], [some 0], []⟩
        = some (st1, ra1) ∧ Reachable st1 ra1 ∧
      ra1.keys.Pairwise (fun a b => a < b) ∧ ra1.keys.length = ra1.containers.length ∧
      (ra1.dirty.length = 0 ∨ ra1.dirty.length = ra1.keys.length) :=
  have h := structural_invariant ⟨[.array ⟨[7]⟩]⟩ ⟨[3], [some 0], []⟩
    (Reachable.step ⟨[.array ⟨[7]⟩]⟩ newRoaringArray (.appendContainer 3 0) _ _
      (Reachable.init _)
      ⟨by norm_num, by decide, fun _ hl => by simp [newRoaringArray_eq] at hl⟩ rfl)
  ⟨h.1, h.2 (.insertNewKeyValueAt 0 1 0)
    ⟨by norm_num, by decide, -1, by decide, by decide, by decide⟩⟩

/-- C15: `sa = ra.clone()` has the keys of `ra` in the same order and the same container at
every index, the keys and the containers of `ra` are unchanged, and after the call
`isDirty(i)` is true for every index `i` of `ra` and of `sa`, whatever the dirty flags of `ra`
were. -/
theorem clone_correct (ra : roaringArray) :
    ra.clone.ret.keys = ra.keys ∧ ra.clone.ret.containers = ra.containers ∧
    ra.clone.self.keys = ra.keys ∧ ra.clone.self.containers = ra.containers ∧
    (∀ i : Int, 0 ≤ i → i < ra.clone.self.size → ra.clone.self.isDirty i = some true) ∧
    (∀ i : Int, 0 ≤ i → i < ra.clone.ret.size → ra.clone.ret.isDirty i = some true) := by
  rw [roaringArray.clone_normal]
  have hd : ∀ i : Int, 0 ≤ i → i < ra.keys.length →
      roaringArray.isDirty ⟨ra.keys, ra.containers, List.replicate ra.keys.length true⟩ i
        = some true := by
    intro i h0 h1
    unfold roaringArray.isDirty
    rw [roaringArray.hasDirty_eq]
    have hne : List.replicate ra.keys.length true ≠ [] := by
      intro h
      have := congrArg List.length h
      rw [List.length_replicate, List.length_nil] at this
      omega
    have hi : i = ((i.toNat : Nat) : Int) := by omega
    simp only [hne, ne_eq, not_false_eq_true, decide_True, if_true]
    rw [hi, index?_natCast, List.getElem?_replicate]
    rw [if_pos (by omega)]
  exact ⟨rfl, rfl, rfl, rfl, hd, hd⟩

/-- C15 at an array of two entries without dirty flags: after `clone()`, the entry 1 of the
receiver is dirty. -/
theorem clone_correct_witness :
    (roaringArray.clone ⟨[1, 5], [some 0, some 1], []⟩).self.isDirty 1 = some true :=
  (clone_correct ⟨[1, 5], [some 0, some 1], []⟩).2.2.2.2.1 1 (by decide) (by decide)

/-! ## Copy on write -/

theorem store.deref_append (st : store) (ext : List container) (c : Option Nat) (p : Nat)
    (hc : c = some p) (hp : p < st.objects.length) :
    store.deref ⟨st.objects ++ ext⟩ c = st.deref c := by
  rw [hc]
  show (st.objects ++ ext)[p]? = st.objects[p]?
  exact List.getElem?_append_left hp

theorem store.deref_put (st : store) (q : Nat) (obj : container) (c : Option Nat)
    (hc : c ≠ some q) : (st.put q obj).deref c = st.deref c := by
  cases c with
  | none => rfl
  | some p =>
    show (st.objects.set q obj)[p]? = st.objects[p]?
    rw [List.getElem?_set_ne]
    intro h
    exact hc (by rw [h])

/-- The call `getWritableContainerAtIndex(i)` at an index of the array returns a container that
is not among `other`, when every slot that holds a container among `other` is dirty. -/
theorem roaringArray.getWritableContainerAtIndex_spec (other : List (Option Nat)) (st : store)
    (ra : roaringArray) (i : Int) (hinv : ra.inv) (hty : ra.typed st) (hcow : ra.cowSafe other)
    (hother : ∀ c ∈ other, ∃ p, c = some p ∧ p < st.objects.length)
    (h0 : 0 ≤ i) (h1 : i < ra.keys.length) :
    ∃ st1 ra1 p, ra.getWritableContainerAtIndex st i = some (st1, ra1, some p) ∧
      ra1.inv ∧ ra1.typed st1 ∧ ra1.cowSafe other ∧ (∃ ext, st1.objects = st.objects ++ ext) ∧
      p < st1.objects.length ∧ some p ∉ other := by
  have hi : i = ((i.toNat : Nat) : Int) := by omega
  have hlt : i.toNat < ra.containers.length := by rw [← hinv.2.1]; omega
  obtain ⟨p, hp, hpl⟩ := hty.2 _ (List.getElem_mem hlt)
  have hc : ra.containers[i.toNat]? = some (some p) := by
    rw [List.getElem?_eq_getElem hlt, hp]
  by_cases hd : ra.dirty[i.toNat]? = some true
  · have hobj : st.get p = some st.objects[p] := by
      unfold store.get
      exact List.getElem?_eq_getElem hpl
    have hfresh : some st.objects.length ∉ other := by
      intro hmem
      obtain ⟨q, hq, hql⟩ := hother _ hmem
      have := Option.some.inj hq
      omega
    have hty1 : ra.typed ⟨st.objects ++ [st.objects[p].clone]⟩ :=
      hty.mono (by simp)
    have h := good_set other ⟨st.objects ++ [st.objects[p].clone]⟩ ra ra.keys
      (ra.dirty.set i.toNat false) i.toNat st.objects.length hinv hty1 hcow hinv.1 rfl hty.1
      (Or.inr ⟨false, rfl⟩) (by simp) hfresh
    refine ⟨_, _, st.objects.length, ?_, h.1, h.2.1, h.2.2, ⟨[st.objects[p].clone], rfl⟩,
      by simp, hfresh⟩
    have e := roaringArray.getWritableContainerAtIndex_dirty st ra i.toNat p _ hd hc hobj
    rw [← hi] at e
    exact e
  · have hd2 : ra.dirty = [] ∨ ra.dirty[i.toNat]? = some false := by
      rcases hinv.2.2 with h | h
      · exact Or.inl (List.eq_nil_of_length_eq_zero h)
      · right
        have hl2 : i.toNat < ra.dirty.length := by omega
        rw [List.getElem?_eq_getElem hl2] at hd ⊢
        cases hb : ra.dirty[i.toNat] with
        | true => rw [hb] at hd; exact absurd rfl hd
        | false => rfl
    have hpo : some p ∉ other := by
      intro hmem
      rcases hcow with ⟨_, hall⟩ | hf
      · exact hall _ (List.getElem_mem hlt) (by rw [hp]; exact hmem)
      · have hl2 : i.toNat < ra.dirty.length := by rw [← hf.length_eq]; exact hlt
        have := hf.get hlt hl2
        simp only [List.get_eq_getElem] at this
        rw [hp] at this
        have ht := this hmem
        rw [List.getElem?_eq_getElem hl2, ht] at hd
        exact hd rfl
    refine ⟨st, ra, p, ?_, hinv, hty, hcow, ⟨[], by simp⟩, hpl, hpo⟩
    have e := roaringArray.getWritableContainerAtIndex_clean st ra i.toNat _ hd2 hc
    rw [← hi] at e
    exact e

/-- A write through `getWritableContainerAtIndex(i)` at an index of the array returns, and
leaves the containers among `other` as they are. -/
theorem roaringArray.writeThrough_spec (other : List (Option Nat)) (st : store)
    (ra : roaringArray) (i : Int) (obj : container) (hinv : ra.inv) (hty : ra.typed st)
    (hcow : ra.cowSafe other)
    (hother : ∀ c ∈ other, ∃ p, c = some p ∧ p < st.objects.length)
    (h0 : 0 ≤ i) (h1 : i < ra.keys.length) :
    ∃ st1 ra1, ra.writeThrough st i obj = some (st1, ra1) ∧
      ra1.inv ∧ ra1.typed st1 ∧ ra1.cowSafe other ∧
      st.objects.length ≤ st1.objects.length ∧ ∀ c ∈ other, st1.deref c = st.deref c := by
  obtain ⟨st1, ra1, p, hg, hinv1, hty1, hcow1, ⟨ext, hext⟩, hp, hpo⟩ :=
    roaringArray.getWritableContainerAtIndex_spec other st ra i hinv hty hcow hother h0 h1
  refine ⟨st1.put p obj, ra1, ?_, hinv1, ?_, hcow1, ?_, ?_⟩
  · unfold roaringArray.writeThrough
    rw [hg]
    simp only
    rw [if_pos hp]
  · exact hty1.mono (by simp [store.put])
  · simp [store.put, hext]
  · intro c hc
    rw [store.deref_put st1 p obj c (fun h => hpo (by rw [← h]; exact hc))]
    obtain ⟨q, hq, hql⟩ := hother c hc
    have : st1 = ⟨st.objects ++ ext⟩ := by
      cases st1
      simp only at hext
      rw [hext]
    rw [this]
    exact store.deref_append st ext c q hq hql

/-- Along calls and writes on one array, the containers among `other` stay as they were, when
every slot of the array that holds one of them is dirty at the start. -/
theorem CowReach.frame (other : List (Option Nat)) (st0 : store) (ra0 : roaringArray)
    (h0inv : ra0.inv) (h0ty : ra0.typed st0) (h0cow : ra0.cowSafe other)
    (hother : ∀ c ∈ other, ∃ p, c = some p ∧ p < st0.objects.length)
    {st : store} {ra : roaringArray} (h : CowReach other st0 ra0 st ra) :
    ra.inv ∧ ra.typed st ∧ ra.cowSafe other ∧ st0.objects.length ≤ st.objects.length ∧
      ∀ c ∈ other, st.deref c = st0.deref c := by
  induction h with
  | start => exact ⟨h0inv, h0ty, h0cow, le_refl _, fun _ _ => rfl⟩
  | alloc st ra c _ ih =>
    obtain ⟨hinv, hty, hcow, hle, hsame⟩ := ih
    refine ⟨hinv, hty.mono (by simp [store.alloc]), hcow, by simp [store.alloc]; omega, ?_⟩
    intro c1 hc1
    obtain ⟨q, hq, hql⟩ := hother c1 hc1
    rw [← hsame c1 hc1]
    exact store.deref_append st [c] c1 q hq (by omega)
  | mutate st ra m st1 ra1 _ hm hv happ ih =>
    obtain ⟨hinv, hty, hcow, hle, hsame⟩ := ih
    obtain ⟨st2, ra2, h2, hinv2, hty2, hcow2, ext, hext⟩ := mutation.apply_spec other st ra m
      hinv hty hcow
      (fun c hc => by
        obtain ⟨q, hq, hql⟩ := hother c hc
        exact ⟨q, hq, by omega⟩) hm hv
    rw [happ] at h2
    have e := Option.some.inj h2
    rw [Prod.mk.injEq] at e
    rw [e.1, e.2]
    refine ⟨hinv2, hty2, hcow2, by rw [hext]; simp; omega, ?_⟩
    intro c1 hc1
    obtain ⟨q, hq, hql⟩ := hother c1 hc1
    rw [← hsame c1 hc1]
    have : st2 = ⟨st.objects ++ ext⟩ := by
      cases st2
      simp only at hext
      rw [hext]
    rw [this]
    exact store.deref_append st ext c1 q hq (by omega)
  | write st ra i c st1 ra1 _ hi0 hi1 hw ih =>
    obtain ⟨hinv, hty, hcow, hle, hsame⟩ := ih
    obtain ⟨st2, ra2, h2, hinv2, hty2, hcow2, hle2, hsame2⟩ :=
      roaringArray.writeThrough_spec other st ra i c hinv hty hcow
        (fun c hc => by
          obtain ⟨q, hq, hql⟩ := hother c hc
          exact ⟨q, hq, by omega⟩) hi0 hi1
    rw [hw] at h2
    have e := Option.some.inj h2
    rw [Prod.mk.injEq] at e
    rw [e.1, e.2]
    exact ⟨hinv2, hty2, hcow2, by omega, fun c1 hc1 => by rw [hsame2 c1 hc1, hsame c1 hc1]⟩

/-- The call `getWritableContainerAtIndex(i)` allocates at most one object and writes none. -/
theorem roaringArray.getWritableContainerAtIndex_store (st : store) (ra : roaringArray)
    (i : Int) (r : store × roaringArray × Option Nat)
    (h : ra.getWritableContainerAtIndex st i = some r) :
    ∃ ext, r.1.objects = st.objects ++ ext := by
  unfold roaringArray.getWritableContainerAtIndex at h
  have key : ∀ d : Bool,
      (if d = true then do
          let c ← index? ra.containers i
          let obj ← st.deref c
          let containers ← setIndex? ra.containers i (some (st.alloc obj.clone).2)
          let dirty ← setIndex? ra.dirty i false
          let ra1 : roaringArray := { keys := ra.keys, containers := containers, dirty := dirty }
          let r ← index? ra1.containers i
          some ((st.alloc obj.clone).1, ra1, r)
        else do
          let r ← index? ra.containers i
          some (st, ra, r)) = some r → ∃ ext, r.1.objects = st.objects ++ ext := by
    intro d hd
    cases d with
    | false =>
      simp only [Bool.false_eq_true, if_false, Option.bind_eq_bind, Option.bind_eq_some] at hd
      obtain ⟨_, _, hr⟩ := hd
      rw [← Option.some.inj hr]
      exact ⟨[], by simp⟩
    | true =>
      simp only [if_true, Option.bind_eq_bind, Option.bind_eq_some] at hd
      obtain ⟨_, _, obj, _, _, _, _, _, _, _, hr⟩ := hd
      rw [← Option.some.inj hr]
      exact ⟨[obj.clone], rfl⟩
  by_cases hlen : ra.dirty.length > 0
  · simp only [if_pos hlen, Option.bind_eq_bind, Option.bind_eq_some] at h
    obtain ⟨d, _, hd⟩ := h
    exact key d hd
  · simp only [if_neg hlen, Option.bind_eq_bind, Option.some_bind] at h
    exact key false h

/-- One call of a mutator leaves every object of the store as it is. -/
theorem mutation.apply_frame (st : store) (ra : roaringArray) (m : mutation) (st1 : store)
    (ra1 : roaringArray) (h : m.apply st ra = some (st1, ra1)) :
    ∀ p, p < st.objects.length → st1.get p = st.get p := by
  have hst : ∀ (o : Option roaringArray), o.map (fun r => (st, r)) = some (st1, ra1) →
      st1 = st := by
    intro o ho
    cases o with
    | none => simp at ho
    | some r =>
      simp only [Option.map_some'] at ho
      have := Option.some.inj ho
      rw [Prod.mk.injEq] at this
      exact this.1.symm
  have hpair : ∀ (r : roaringArray), some (st, r) = some (st1, ra1) → st1 = st := by
    intro r hr
    have := Option.some.inj hr
    rw [Prod.mk.injEq] at this
    exact this.1.symm
  intro p hp
  cases m with
  | appendContainer key v => rw [hpair _ h]
  | insertNewKeyValueAt i key v => rw [hst _ h]
  | remove key =>
    have h2 : (ra.remove key).map (fun r => (st, r.1)) = some (st1, ra1) := h
    cases hr : ra.remove key with
    | none => rw [hr] at h2; simp at h2
    | some r =>
      rw [hr] at h2
      simp only [Option.map_some'] at h2
      rw [hpair _ h2]
  | removeAtIndex i => rw [hst _ h]
  | removeIndexRange b e => rw [hst _ h]
  | replaceKeyAndContainerAtIndex i key c => rw [hst _ h]
  | setContainerAtIndex i c => rw [hst _ h]
  | getWritableContainerAtIndex i =>
    have h2 : (ra.getWritableContainerAtIndex st i).map (fun r => (r.1, r.2.1))
      = some (st1, ra1) := h
    cases hg : ra.getWritableContainerAtIndex st i with
    | none => rw [hg] at h2; simp at h2
    | some r =>
      rw [hg] at h2
      simp only [Option.map_some'] at h2
      have h3 := Option.some.inj h2
      rw [Prod.mk.injEq] at h3
      obtain ⟨ext, hext⟩ := roaringArray.getWritableContainerAtIndex_store st ra i r hg
      rw [← h3.1]
      unfold store.get
      rw [hext]
      exact List.getElem?_append_left hp
  | clone => rw [hpair _ h]
  | cloned => rw [hpair _ h]
  | markAllDirty => rw [hpair _ h]

theorem roaringArray.isDirty_true (r : roaringArray) (i : Nat)
    (h : r.isDirty ((i : Nat) : Int) = some true) : r.dirty[i]? = some true := by
  unfold roaringArray.isDirty at h
  by_cases hd : r.hasDirty = true
  · rw [if_pos hd, index?_natCast] at h
    exact h
  · rw [if_neg hd] at h
    exact absurd (Option.some.inj h) (by decide)

theorem roaringArray.isDirty_false (r : roaringArray) (i : Nat)
    (h : r.isDirty ((i : Nat) : Int) = some false) :
    r.dirty = [] ∨ r.dirty[i]? = some false := by
  unfold roaringArray.isDirty at h
  by_cases hd : r.hasDirty = true
  · rw [if_pos hd, index?_natCast] at h
    exact Or.inr h
  · left
    rw [roaringArray.hasDirty_eq] at hd
    simpa using hd

/-- C16: copy on write.  After `ra2 = ra.clone()`, along every sequence of calls of the mutators
of `ra` (whose container argument is not a container of `ra2`), of writes through
`ra.getWritableContainerAtIndex(i)` (the call, then any in-place mutation of the returned
container) and of allocations, every container of `ra2` is the object it was, hence represents
the set it did, and every such write returns; the keys of `ra2` are in slices of its own, which
no call on `ra` takes.  The same holds with `ra` and `ra2` exchanged.  One call of a mutator,
with any arguments, leaves every object of the store as it is.  On a dirty entry,
`getWritableContainerAtIndex(i)` stores a clone in slot `i`, clears `dirty[i]`, leaves every
other slot and flag unchanged, and returns the clone; on an entry that is not dirty it returns
the stored container and changes nothing. -/
theorem copy_on_write (st : store) (ra : roaringArray) (hinv : ra.inv) (hty : ra.typed st) :
    (∀ st1 ra1, CowReach ra.clone.ret.containers st ra.clone.self st1 ra1 →
      (∀ c ∈ ra.clone.ret.containers, st1.deref c = st.deref c) ∧
      ∀ (i : Int) (obj : container), 0 ≤ i → i < ra1.keys.length →
        ∃ st2 ra2, ra1.writeThrough st1 i obj = some (st2, ra2) ∧
          ∀ c ∈ ra.clone.ret.containers, st2.deref c = st.deref c) ∧
    (∀ st1 ra1, CowReach ra.clone.self.containers st ra.clone.ret st1 ra1 →
      (∀ c ∈ ra.clone.self.containers, st1.deref c = st.deref c) ∧
      ∀ (i : Int) (obj : container), 0 ≤ i → i < ra1.keys.length →
        ∃ st2 ra2, ra1.writeThrough st1 i obj = some (st2, ra2) ∧
          ∀ c ∈ ra.clone.self.containers, st2.deref c = st.deref c) ∧
    (∀ (s : store) (r : roaringArray) (m : mutation) (s1 : store) (r1 : roaringArray),
      m.apply s r = some (s1, r1) → ∀ p, p < s.objects.length → s1.get p = s.get p) ∧
    (∀ (s : store) (r : roaringArray) (i p : Nat) (obj : container),
      r.isDirty i = some true → r.containers[i]? = some (some p) → s.get p = some obj →
      r.getWritableContainerAtIndex s i
        = some (⟨s.objects ++ [obj.clone]⟩,
            ⟨r.keys, r.containers.set i (some s.objects.length), r.dirty.set i false⟩,
            some s.objects.length)) ∧
    (∀ (s : store) (r : roaringArray) (i : Nat) (c : Option Nat),
      r.isDirty i = some false → r.containers[i]? = some c →
      r.getWritableContainerAtIndex s i = some (s, r, c)) := by
  have hstart := good_markAll ra.containers st ra hinv hty
  have hother : ∀ c ∈ ra.containers, ∃ p, c = some p ∧ p < st.objects.length := hty.2
  have main : ∀ st1 ra1,
      CowReach ra.containers st ⟨ra.keys, ra.containers, List.replicate ra.keys.length true⟩
        st1 ra1 →
      (∀ c ∈ ra.containers, st1.deref c = st.deref c) ∧
      ∀ (i : Int) (obj : container), 0 ≤ i → i < ra1.keys.length →
        ∃ st2 ra2, ra1.writeThrough st1 i obj = some (st2, ra2) ∧
          ∀ c ∈ ra.containers, st2.deref c = st.deref c := by
    intro st1 ra1 hreach
    obtain ⟨hinv1, hty1, hcow1, hle, hsame⟩ :=
      CowReach.frame ra.containers st _ hstart.1 hstart.2.1 hstart.2.2 hother hreach
    refine ⟨hsame, ?_⟩
    intro i obj h0 h1
    obtain ⟨st2, ra2, hw, _, _, _, _, hsame2⟩ :=
      roaringArray.writeThrough_spec ra.containers st1 ra1 i obj hinv1 hty1 hcow1
        (fun c hc => by
          obtain ⟨q, hq, hql⟩ := hother c hc
          exact ⟨q, hq, by omega⟩) h0 h1
    exact ⟨st2, ra2, hw, fun c hc => by rw [hsame2 c hc, hsame c hc]⟩
  rw [roaringArray.clone_normal]
  refine ⟨main, main, ?_, ?_, ?_⟩
  · intro s r m s1 r1 h
    exact mutation.apply_frame s r m s1 r1 h
  · intro s r i p obj hd hc hp
    exact roaringArray.getWritableContainerAtIndex_dirty s r i p obj
      (roaringArray.isDirty_true r i hd) hc hp
  · intro s r i c hd hc
    exact roaringArray.getWritableContainerAtIndex_clean s r i c
      (roaringArray.isDirty_false r i hd) hc

/-- C16 at an array with one entry, whose container holds the value 7: after `clone()`, a write
through `getWritableContainerAtIndex(0)` of the receiver that leaves the value 9 in the
returned container goes to a new object, and the container of the clone is the object it
was. -/
theorem copy_on_write_witness :
    roaringArray.writeThrough ⟨[.array ⟨[7]⟩]⟩ (roaringArray.clone ⟨[3], [some 0], []⟩).self 0
        (.array ⟨[9]⟩)
      = some (⟨[.array ⟨[7]⟩, .array ⟨[9]⟩]⟩, ⟨[3], [some 1], [false]⟩) ∧
    store.deref ⟨[.array ⟨[7]⟩, .array ⟨[9]⟩]⟩ (some 0)
      = store.deref ⟨[.array ⟨[7]⟩]⟩ (some 0) :=
  ⟨by decide,
    ((copy_on_write ⟨[.array ⟨[7]⟩]⟩ ⟨[3], [some 0], []⟩
      ⟨List.pairwise_singleton _ _, rfl, Or.inl rfl⟩
      ⟨fun k hk => by rw [List.mem_singleton.mp hk]; norm_num,
        fun c hc => ⟨0, List.mem_singleton.mp hc, by decide⟩⟩).1
      ⟨[.array ⟨[7]⟩, .array ⟨[9]⟩]⟩ ⟨[3], [some 1], [false]⟩
      (CowReach.write ⟨[.array ⟨[7]⟩]⟩ _ 0 (.array ⟨[9]⟩) _ _ CowReach.start
        (by decide) (by decide) (by decide))).1 (some 0) (by decide)⟩

/-! ## Byte order -/

theorem putUint16_length (v : Nat) : (putUint16 v).length = 2 := rfl

theorem putUint32_length (v : Nat) : (putUint32 v).length = 4 := rfl

theorem putUint64_length (v : Nat) : (putUint64 v).length = 8 := rfl

theorem flatMap_putUint16_length (vs : List Nat) : (vs.flatMap putUint16).length = 2 * vs.length := by
  induction vs with
  | nil => rfl
  | cons v vs ih => simp only [List.flatMap_cons, List.length_append, ih, putUint16_length,
      List.length_cons]; omega

theorem flatMap_putUint64_length (vs : List Nat) : (vs.flatMap putUint64).length = 8 * vs.length := by
  induction vs with
  | nil => rfl
  | cons v vs ih => simp only [List.flatMap_cons, List.length_append, ih, putUint64_length,
      List.length_cons]; omega

theorem getUint16s_put (v : Nat) (rest : List Nat) :
    getUint16s (putUint16 v ++ rest) = v % 2 ^ 16 :: getUint16s rest := by
  show getUint16s (v % 256 :: v / 2 ^ 8 % 256 :: rest) = _
  rw [getUint16s]
  congr 1
  omega

theorem getUint64s_put (v : Nat) (rest : List Nat) :
    getUint64s (putUint64 v ++ rest) = v % 2 ^ 64 :: getUint64s rest := by
  show getUint64s (v % 256 :: v / 2 ^ 8 % 256 :: v / 2 ^ 16 % 256 :: v / 2 ^ 24 % 256
    :: v / 2 ^ 32 % 256 :: v / 2 ^ 40 % 256 :: v / 2 ^ 48 % 256 :: v / 2 ^ 56 % 256 :: rest) = _
  rw [getUint64s]
  congr 1
  omega

theorem getUint32_put (v : Nat) : getUint32 (putUint32 v) = v % 2 ^ 32 := by
  show v % 256 + 2 ^ 8 * (v / 2 ^ 8 % 256) + 2 ^ 16 * (v / 2 ^ 16 % 256)
    + 2 ^ 24 * (v / 2 ^ 24 % 256) = _
  omega

theorem getUint16s_flatMap (vs : List Nat) (h : ∀ v ∈ vs, v < 2 ^ 16) :
    getUint16s (vs.flatMap putUint16) = vs := by
  induction vs with
  | nil => rfl
  | cons v vs ih =>
    rw [List.flatMap_cons, getUint16s_put, ih (fun x hx => h x (List.mem_cons_of_mem _ hx)),
      Nat.mod_eq_of_lt (h v (List.mem_cons_self _ _))]

theorem getUint64s_flatMap (vs : List Nat) (h : ∀ v ∈ vs, v < 2 ^ 64) :
    getUint64s (vs.flatMap putUint64) = vs := by
  induction vs with
  | nil => rfl
  | cons v vs ih =>
    rw [List.flatMap_cons, getUint64s_put, ih (fun x hx => h x (List.mem_cons_of_mem _ hx)),
      Nat.mod_eq_of_lt (h v (List.mem_cons_self _ _))]

/-- A store of bytes over a part of the buffer that has their length. -/
theorem storeAt_eq (a old z bytes : List Nat) (off : Int) (ho : off = a.length)
    (hl : old.length = bytes.length) :
    storeAt (a ++ old ++ z) off bytes = some (a ++ bytes ++ z) := by
  unfold storeAt
  rw [if_pos (by simp only [List.length_append]; omega)]
  have h1 : off.toNat = a.length := by omega
  rw [h1]
  congr 2
  · rw [List.append_assoc, List.take_left']
    rfl
  · rw [← hl, ← List.length_append, List.drop_left']
    rfl

/-- A read of the bytes at the front of a stream. -/
theorem binaryRead_append (bytes rest : List Nat) (n : Nat) (hn : bytes.length = n) :
    binaryRead ⟨bytes ++ rest⟩ n = (⟨rest⟩, .ok bytes) := by
  unfold binaryRead
  by_cases h0 : n = 0
  · rw [if_pos h0]
    have : bytes = [] := List.eq_nil_of_length_eq_zero (by omega)
    rw [this]
    rfl
  · rw [if_neg h0, if_pos (by simp only [List.length_append]; omega)]
    simp only
    rw [← hn, List.drop_left', List.take_left']
    · rfl
    · rfl

/-! ## The header that `writeTo` builds -/

theorem deref_of_map (st : store) (cs : List (Option Nat)) (objs : List container)
    (hmap : cs.map st.deref = objs.map some) (i : Nat) (hi : i < objs.length) :
    ∃ c, cs[i]? = some c ∧ st.deref c = some objs[i] := by
  have hlen : cs.length = objs.length := by
    have := congrArg List.length hmap
    simpa using this
  have h1 : (cs.map st.deref)[i]? = (objs.map some)[i]? := by rw [hmap]
  rw [List.getElem?_map, List.getElem?_map, List.getElem?_eq_getElem (by omega),
    List.getElem?_eq_getElem hi] at h1
  exact ⟨cs[i], List.getElem?_eq_getElem (by omega), Option.some.inj h1⟩

theorem split22 (Z : List Nat) (m : Nat) (h : Z.length = 4 * (m + 1)) :
    ∃ z1 z2 Z1, Z = z1 ++ (z2 ++ Z1) ∧ z1.length = 2 ∧ z2.length = 2 ∧ Z1.length = 4 * m := by
  refine ⟨Z.take 2, (Z.drop 2).take 2, Z.drop 4, ?_, ?_, ?_, ?_⟩
  · rw [← List.drop_drop 2 2 Z, List.take_append_drop, List.take_append_drop]
  · rw [List.length_take]; omega
  · rw [List.length_take, List.length_drop]; omega
  · rw [List.length_drop]; omega

theorem split4 (Z : List Nat) (m : Nat) (h : Z.length = 4 * (m + 1)) :
    ∃ z1 Z1, Z = z1 ++ Z1 ∧ z1.length = 4 ∧ Z1.length = 4 * m := by
  refine ⟨Z.take 4, Z.drop 4, (List.take_append_drop 4 Z).symm, ?_, ?_⟩
  · rw [List.length_take]; omega
  · rw [List.length_drop]; omega

theorem roaringArray.writeTo.keycard_eq (st : store) (ra : roaringArray)
    (objs : List container) (hmap : ra.containers.map st.deref = objs.map some) :
    ∀ (ks : List Nat) (i : Nat) (P Z T : List Nat), i + ks.length ≤ objs.length →
      P.length = 8 + 4 * i → Z.length = 4 * ks.length →
      roaringArray.writeTo.keycard st ra ks i (P ++ Z ++ T)
        = some (P ++ keycardBytes ks (objs.drop i) ++ T) := by
  intro ks
  induction ks with
  | nil =>
    intro i P Z T _ _ hZ
    have : Z = [] := List.eq_nil_of_length_eq_zero (by simpa using hZ)
    rw [this]
    simp [roaringArray.writeTo.keycard, keycardBytes]
  | cons k ks ih =>
    intro i P Z T hi hP hZ
    have hil : i < objs.length := by simp only [List.length_cons] at hi; omega
    obtain ⟨c, hc, hobj⟩ := deref_of_map st ra.containers objs hmap i hil
    obtain ⟨z1, z2, Z1, rfl, h1, h2, h3⟩ := split22 Z ks.length hZ
    have hdrop : objs.drop i = objs[i] :: objs.drop (i + 1) := List.drop_eq_getElem_cons hil
    have e1 : storeAt (P ++ (z1 ++ (z2 ++ Z1)) ++ T) (8 + ((i : Nat) : Int) * 4)
        (putUint16 (k % 2 ^ 16))
        = some (P ++ putUint16 (k % 2 ^ 16) ++ z2 ++ (Z1 ++ T)) := by
      have := storeAt_eq P z1 (z2 ++ (Z1 ++ T)) (putUint16 (k % 2 ^ 16))
        (8 + ((i : Nat) : Int) * 4) (by omega) (by rw [h1, putUint16_length])
      simpa only [List.append_assoc] using this
    have e2 : storeAt (P ++ putUint16 (k % 2 ^ 16) ++ z2 ++ (Z1 ++ T))
        (8 + ((i : Nat) : Int) * 4 + 2)
        (putUint16 ((objs[i].getCardinality - 1) % 2 ^ 16).toNat)
        = some (P ++ putUint16 (k % 2 ^ 16)
            ++ putUint16 ((objs[i].getCardinality - 1) % 2 ^ 16).toNat ++ Z1 ++ T) := by
      have := storeAt_eq (P ++ putUint16 (k % 2 ^ 16)) z2 (Z1 ++ T)
        (putUint16 ((objs[i].getCardinality - 1) % 2 ^ 16).toNat)
        (8 + ((i : Nat) : Int) * 4 + 2)
        (by rw [List.length_append, putUint16_length]; omega)
        (by rw [h2, putUint16_length])
      simpa only [List.append_assoc] using this
    rw [roaringArray.writeTo.keycard]
    simp only [Option.bind_eq_bind]
    rw [e1, Option.some_bind, index?_natCast, hc, Option.some_bind, hobj, Option.some_bind, e2,
      Option.some_bind]
    have hrec := ih (i + 1) (P ++ putUint16 (k % 2 ^ 16)
      ++ putUint16 ((objs[i].getCardinality - 1) % 2 ^ 16).toNat) Z1 T
      (by simp only [List.length_cons] at hi; omega)
      (by simp only [List.length_append, putUint16_length]; omega) h3
    rw [hrec, hdrop]
    simp only [keycardBytes, List.append_assoc]

theorem roaringArray.writeTo.offsets_eq (st : store) (pre : Nat) :
    ∀ (cs : List (Option Nat)) (objs : List container), cs.map st.deref = objs.map some →
      ∀ (i : Nat) (P Z T : List Nat) (start : Int), P.length = pre + 4 * i →
        Z.length = 4 * cs.length →
        roaringArray.writeTo.offsets st ((pre : Nat) : Int) cs i (P ++ Z ++ T) start
          = some (P ++ offsetBytes start objs ++ T, start + payloadSizes objs) := by
  intro cs
  induction cs with
  | nil =>
    intro objs hmap i P Z T start _ hZ
    have hZ0 : Z = [] := List.eq_nil_of_length_eq_zero (by simpa using hZ)
    have ho : objs = [] := by
      have := congrArg List.length hmap
      simp only [List.map_nil, List.length_nil, List.length_map] at this
      exact List.eq_nil_of_length_eq_zero this.symm
    rw [hZ0, ho]
    simp [roaringArray.writeTo.offsets, offsetBytes, payloadSizes]
  | cons c cs ih =>
    intro objs hmap i P Z T start hP hZ
    cases objs with
    | nil => simp at hmap
    | cons o objs =>
      simp only [List.map_cons, List.cons.injEq] at hmap
      obtain ⟨z1, Z1, rfl, h1, h3⟩ := split4 Z cs.length hZ
      have e1 : storeAt (P ++ (z1 ++ Z1) ++ T) (((pre : Nat) : Int) + ((i : Nat) : Int) * 4)
          (putUint32 (start % 2 ^ 32).toNat)
          = some (P ++ putUint32 (start % 2 ^ 32).toNat ++ Z1 ++ T) := by
        have := storeAt_eq P z1 (Z1 ++ T) (putUint32 (start % 2 ^ 32).toNat)
          (((pre : Nat) : Int) + ((i : Nat) : Int) * 4) (by omega)
          (by rw [h1, putUint32_length])
        simpa only [List.append_assoc] using this
      rw [roaringArray.writeTo.offsets]
      simp only [Option.bind_eq_bind]
      rw [e1, Option.some_bind, hmap.1, Option.some_bind]
      have hrec := ih objs hmap.2 (i + 1) (P ++ putUint32 (start % 2 ^ 32).toNat) Z1 T
        (start + getSizeInBytesFromCardinality o.getCardinality)
        (by simp only [List.length_append, putUint32_length]; omega) h3
      rw [hrec]
      simp only [offsetBytes, payloadSizes, List.map_cons, List.sum_cons, List.append_assoc,
        add_assoc]

theorem keycardBytes_length : ∀ (ks : List Nat) (objs : List container),
    ks.length = objs.length → (keycardBytes ks objs).length = 4 * ks.length
  | [], [], _ => rfl
  | [], _ :: _, h => by simp at h
  | _ :: _, [], h => by simp at h
  | k :: ks, o :: objs, h => by
    simp only [keycardBytes, List.length_append, putUint16_length, List.length_cons]
    rw [keycardBytes_length ks objs (by simpa using h)]
    omega

theorem offsetBytes_length : ∀ (objs : List container) (start : Int),
    (offsetBytes start objs).length = 4 * objs.length
  | [], _ => rfl
  | o :: objs, start => by
    simp only [offsetBytes, List.length_append, putUint32_length, List.length_cons]
    rw [offsetBytes_length objs]
    omega

/-! ## `writeTo` -/

theorem map_deref_length (st : store) (cs : List (Option Nat)) (objs : List container)
    (hmap : cs.map st.deref = objs.map some) : cs.length = objs.length := by
  have := congrArg List.length hmap
  simpa using this

/-- The call `writeTo` writes the header in one piece, then the payloads. -/
theorem roaringArray.writeTo_eq (serial_cookie : Nat) (st : store) (ra : roaringArray)
    (objs : List container) (w : Writer) (hlen : ra.keys.length = ra.containers.length)
    (hmap : ra.containers.map st.deref = objs.map some) :
    ra.writeTo serial_cookie st w
      = (match w.Write (headerBytes serial_cookie ra.keys objs) with
        | (stream, _, some e) => some (stream, 0, some e)
        | (stream, _, none) =>
          match roaringArray.writeTo.payloads st ra.containers stream with
          | none => none
          | some (stream, some e) => some (stream, 0, some e)
          | some (stream, none) =>
            some (stream, 8 + 8 * (ra.keys.length : Int) + payloadSizes objs, none)) := by
  have hol := map_deref_length st ra.containers objs hmap
  have hN : (4 + 4 + 4 * (ra.keys.length : Int) + 4 * (ra.keys.length : Int)).toNat
      = 4 + (4 + (4 * ra.keys.length + 4 * ra.keys.length)) := by omega
  have hpre : (4 + 4 + 4 * (ra.keys.length : Int)) = ((8 + 4 * ra.keys.length : Nat) : Int) := by
    push_cast; ring
  have e0 : storeAt (List.replicate (4 + (4 + (4 * ra.keys.length + 4 * ra.keys.length))) 0) 0
      (putUint32 (serial_cookie % 2 ^ 32))
      = some (putUint32 (serial_cookie % 2 ^ 32)
          ++ List.replicate (4 + (4 * ra.keys.length + 4 * ra.keys.length)) 0) := by
    have := storeAt_eq [] (List.replicate 4 0)
      (List.replicate (4 + (4 * ra.keys.length + 4 * ra.keys.length)) 0)
      (putUint32 (serial_cookie % 2 ^ 32)) 0 rfl rfl
    rw [List.nil_append, List.nil_append, List.append_replicate_replicate] at this
    exact this
  have e1 : storeAt (putUint32 (serial_cookie % 2 ^ 32)
        ++ List.replicate (4 + (4 * ra.keys.length + 4 * ra.keys.length)) 0) 4
      (putUint32 (ra.keys.length % 2 ^ 32))
      = some (putUint32 (serial_cookie % 2 ^ 32) ++ putUint32 (ra.keys.length % 2 ^ 32)
          ++ List.replicate (4 * ra.keys.length) 0 ++ List.replicate (4 * ra.keys.length) 0) := by
    have := storeAt_eq (putUint32 (serial_cookie % 2 ^ 32)) (List.replicate 4 0)
      (List.replicate (4 * ra.keys.length + 4 * ra.keys.length) 0)
      (putUint32 (ra.keys.length % 2 ^ 32)) 4 rfl rfl
    rw [List.append_assoc, List.append_replicate_replicate] at this
    rw [this, List.append_assoc _ (List.replicate _ _), List.append_replicate_replicate]
  have e2 := roaringArray.writeTo.keycard_eq st ra objs hmap ra.keys 0
    (putUint32 (serial_cookie % 2 ^ 32) ++ putUint32 (ra.keys.length % 2 ^ 32))
    (List.replicate (4 * ra.keys.length) 0) (List.replicate (4 * ra.keys.length) 0)
    (by omega) rfl (List.length_replicate _ _)
  have e3 := roaringArray.writeTo.offsets_eq st (8 + 4 * ra.keys.length) ra.containers objs hmap
    0 (putUint32 (serial_cookie % 2 ^ 32) ++ putUint32 (ra.keys.length % 2 ^ 32)
      ++ keycardBytes ra.keys objs) (List.replicate (4 * ra.keys.length) 0) []
    (((8 + 4 * ra.keys.length : Nat) : Int) + 4 * (ra.keys.length : Int))
    (by
      simp only [List.length_append, putUint32_length]
      rw [keycardBytes_length ra.keys objs (by omega)]
      omega)
    (by rw [List.length_replicate, hlen])
  rw [List.drop_zero] at e2
  rw [List.append_nil, List.append_nil] at e3
  rw [roaringArray.writeTo]
  simp only [Option.bind_eq_bind]
  rw [hN, e0, Option.some_bind, e1, Option.some_bind, e2, Option.some_bind, hpre, e3,
    Option.some_bind]
  have hh : putUint32 (serial_cookie % 2 ^ 32) ++ putUint32 (ra.keys.length % 2 ^ 32)
      ++ keycardBytes ra.keys objs
      ++ offsetBytes (((8 + 4 * ra.keys.length : Nat) : Int) + 4 * (ra.keys.length : Int)) objs
      = headerBytes serial_cookie ra.keys objs := by
    unfold headerBytes
    congr 2
    push_cast; ring
  have hc : ((8 + 4 * ra.keys.length : Nat) : Int) + 4 * (ra.keys.length : Int)
      + payloadSizes objs = 8 + 8 * (ra.keys.length : Int) + payloadSizes objs := by
    push_cast; ring
  simp only [hh, hc]

theorem Writer.Write_ok (w : Writer) (p : List Nat) :
    ((w.Write p).2.2 = none → (w.Write p).1.written = w.written ++ p) ∧
      (w.room = none → (w.Write p).2.2 = none ∧ (w.Write p).1.room = none) := by
  unfold Writer.Write
  cases hr : w.room with
  | none => simp
  | some k =>
    by_cases hk : p.length ≤ k
    · simp [hk]
    · simp [hk]

theorem arrayContainer.writeTo_array_proj (ac : arrayContainer) (w : Writer) :
    (ac.writeTo w).1 = (w.Write (ac.content.flatMap putUint16)).1 ∧
      (ac.writeTo w).2.2 = (w.Write (ac.content.flatMap putUint16)).2.2 := by
  unfold arrayContainer.writeTo
  rcases w.Write (ac.content.flatMap putUint16) with ⟨w1, k, _ | e⟩ <;> exact ⟨rfl, rfl⟩

theorem bitmapContainer.writeTo_bitmap_proj (bc : bitmapContainer) (w : Writer) :
    (bc.writeTo w).1 = (w.Write (bc.bitmap.flatMap putUint64)).1 ∧
      (bc.writeTo w).2.2 = (w.Write (bc.bitmap.flatMap putUint64)).2.2 := by
  unfold bitmapContainer.writeTo
  rcases w.Write (bc.bitmap.flatMap putUint64) with ⟨w1, k, _ | e⟩ <;> exact ⟨rfl, rfl⟩

theorem container.writeTo_proj (obj : container) (w : Writer) :
    (obj.writeTo w).1 = (w.Write obj.payload).1 ∧
      (obj.writeTo w).2.2 = (w.Write obj.payload).2.2 := by
  cases obj with
  | array ac => exact arrayContainer.writeTo_array_proj ac w
  | bitmap bc => exact bitmapContainer.writeTo_bitmap_proj bc w

theorem container.writeTo_ok (obj : container) (w : Writer) :
    ((obj.writeTo w).2.2 = none → (obj.writeTo w).1.written = w.written ++ obj.payload) ∧
      (w.room = none → (obj.writeTo w).2.2 = none ∧ (obj.writeTo w).1.room = none) := by
  rw [(container.writeTo_proj obj w).1, (container.writeTo_proj obj w).2]
  exact Writer.Write_ok w obj.payload

/-- The third loop of `writeTo` returns; when it returns no error it has written the payloads
in index order, and it returns no error on a stream that takes every write. -/
theorem roaringArray.writeTo.payloads_ok (st : store) :
    ∀ (cs : List (Option Nat)) (objs : List container), cs.map st.deref = objs.map some →
      ∀ w : Writer, ∃ w1 err, roaringArray.writeTo.payloads st cs w = some (w1, err) ∧
        (err = none → w1.written = w.written ++ objs.flatMap container.payload) ∧
        (w.room = none → err = none ∧ w1.room = none) := by
  intro cs
  induction cs with
  | nil =>
    intro objs hmap w
    have ho : objs = [] := by
      have := map_deref_length st [] objs hmap
      exact List.eq_nil_of_length_eq_zero this.symm
    rw [ho]
    exact ⟨w, none, rfl, fun _ => by simp, fun h => ⟨rfl, h⟩⟩
  | cons c cs ih =>
    intro objs hmap w
    cases objs with
    | nil => simp at hmap
    | cons o objs =>
      simp only [List.map_cons, List.cons.injEq] at hmap
      have hok := container.writeTo_ok o w
      rw [roaringArray.writeTo.payloads, hmap.1]
      simp only
      rcases hw : o.writeTo w with ⟨w1, k, _ | e⟩
      · rw [hw] at hok
        simp only
        obtain ⟨w2, err, h2, h3, h4⟩ := ih objs hmap.2 w1
        refine ⟨w2, err, h2, ?_, ?_⟩
        · intro he
          rw [h3 he, hok.1 rfl, List.flatMap_cons, List.append_assoc]
        · intro hroom
          exact h4 (hok.2 hroom).2
      · rw [hw] at hok
        simp only
        refine ⟨w1, some e, rfl, fun h => by simp at h, ?_⟩
        intro hroom
        have := (hok.2 hroom).1
        simp at this

/-- The call `writeTo` returns; without error it has written the header and the payloads in
index order and returns `8 + 8n` plus the sizes of the payloads; with an error it returns 0;
and it returns no error on a stream that takes every write. -/
theorem roaringArray.writeTo_spec (serial_cookie : Nat) (st : store) (ra : roaringArray)
    (objs : List container) (w : Writer) (hlen : ra.keys.length = ra.containers.length)
    (hmap : ra.containers.map st.deref = objs.map some) :
    ∃ w1 n err, ra.writeTo serial_cookie st w = some (w1, n, err) ∧
      (w.room = none → err = none) ∧
      (err = none →
        w1.written = w.written ++ headerBytes serial_cookie ra.keys objs
            ++ objs.flatMap container.payload ∧
          n = 8 + 8 * (ra.keys.length : Int) + payloadSizes objs) ∧
      (err ≠ none → n = 0) := by
  rw [roaringArray.writeTo_eq serial_cookie st ra objs w hlen hmap]
  have hW := Writer.Write_ok w (headerBytes serial_cookie ra.keys objs)
  rcases hw : w.Write (headerBytes serial_cookie ra.keys objs) with ⟨w1, k, _ | e⟩
  · rw [hw] at hW
    simp only
    obtain ⟨w2, err, h2, h3, h4⟩ := roaringArray.writeTo.payloads_ok st ra.containers objs hmap w1
    rw [h2]
    cases err with
    | none =>
      refine ⟨w2, _, none, rfl, fun _ => rfl, fun _ => ⟨?_, rfl⟩, fun h => absurd rfl h⟩
      rw [h3 rfl, hW.1 rfl]
    | some e =>
      refine ⟨w2, 0, some e, rfl, ?_, fun h => by simp at h, fun _ => rfl⟩
      intro hroom
      exact (h4 (hW.2 hroom).2).1
  · rw [hw] at hW
    simp only
    refine ⟨w1, 0, some e, rfl, ?_, fun h => by simp at h, fun _ => rfl⟩
    intro hroom
    exact (hW.2 hroom).1

/-! ## `readFrom` -/

theorem arrayContainer.readFrom_array_payload (ac : arrayContainer)
    (h : ∀ v ∈ ac.content, v < 2 ^ 16) (rest : List Nat) :
    (newArrayContainerSize (ac.content.length : Int)).readFrom
        ⟨ac.content.flatMap putUint16 ++ rest⟩
      = (ac, ⟨rest⟩, 2 * (ac.content.length : Int), none) := by
  unfold arrayContainer.readFrom newArrayContainerSize
  simp only [Int.toNat_ofNat, List.length_replicate]
  rw [binaryRead_append _ _ _ (flatMap_putUint16_length ac.content)]
  simp only
  rw [getUint16s_flatMap _ h]

theorem bitmapContainer.readFrom_bitmap_payload (bc : bitmapContainer) (hl : bc.bitmap.length = 1024)
    (h : ∀ v ∈ bc.bitmap, v < 2 ^ 64) (rest : List Nat) :
    newBitmapContainer.readFrom ⟨bc.bitmap.flatMap putUint64 ++ rest⟩
      = (⟨0, bc.bitmap⟩, ⟨rest⟩, 8192, none) := by
  unfold bitmapContainer.readFrom
  rw [newBitmapContainer_length]
  rw [binaryRead_append _ _ _ (by rw [flatMap_putUint64_length, hl])]
  simp only
  rw [getUint64s_flatMap _ h]
  rfl

/-- The entries of the table of keys and cardinalities, as `readFrom` decodes them. -/
theorem getUint16s_keycardBytes : ∀ (ks : List Nat) (objs : List container) (rest : List Nat)
    (j : Nat), ks.length = objs.length → j < objs.length →
    (getUint16s (keycardBytes ks objs ++ rest))[2 * j]? = (ks[j]?).map (fun k => k % 2 ^ 16) ∧
    (getUint16s (keycardBytes ks objs ++ rest))[2 * j + 1]?
      = (objs[j]?).map (fun o => ((o.getCardinality - 1) % 2 ^ 16).toNat)
  | [], [], _, j, _, hj => by simp at hj
  | [], _ :: _, _, _, h, _ => by simp at h
  | _ :: _, [], _, _, h, _ => by simp at h
  | k :: ks, o :: objs, rest, j, h, hj => by
    have e : getUint16s (keycardBytes (k :: ks) (o :: objs) ++ rest)
        = k % 2 ^ 16 :: ((o.getCardinality - 1) % 2 ^ 16).toNat
          :: getUint16s (keycardBytes ks objs ++ rest) := by
      simp only [keycardBytes, List.append_assoc]
      rw [getUint16s_put, getUint16s_put]
      congr 1
      · exact Nat.mod_mod _ _
      · congr 1
        apply Nat.mod_eq_of_lt
        omega
    rw [e]
    cases j with
    | zero => exact ⟨by simp, by simp⟩
    | succ j =>
      have ih := getUint16s_keycardBytes ks objs rest j (by simpa using h)
        (by simpa using hj)
      have e1 : 2 * (j + 1) = (2 * j) + 1 + 1 := by ring
      rw [e1]
      simp only [List.getElem?_cons_succ]
      exact ih

/-- The cardinality of a container that is storable and not empty is
between 1 and 65536. -/
theorem container.card_bounds (o : container) (hv : o.storable) (hpos : 0 < o.getCardinality) :
    1 ≤ o.getCardinality ∧ o.getCardinality ≤ 65536 := by
  refine ⟨by omega, ?_⟩
  cases o with
  | array ac =>
    have h : ac.getCardinality ≤ arrayDefaultMaxSize := hv.2
    show ac.getCardinality ≤ 65536
    unfold arrayDefaultMaxSize at h
    omega
  | bitmap bc =>
    have h : bc.wf := hv.1
    show bc.cardinality ≤ 65536
    rw [h.2.2, popcntSlice_eq_count _ h.1]
    have := List.countP_le_length (getBit bc.bitmap) (l := List.range 65536)
    rw [List.length_range] at this
    omega

/-- One container read back from its payload, as the body of the loop of `readFrom` does for
the cardinality `c` of the table. -/
theorem readFrom_step (o : container) (hv : o.storable) (rest : List Nat) :
    (o.getCardinality > arrayDefaultMaxSize →
      container.bitmap
        ⟨o.getCardinality, (newBitmapContainer.readFrom ⟨o.payload ++ rest⟩).1.bitmap⟩ = o ∧
      (newBitmapContainer.readFrom ⟨o.payload ++ rest⟩).2.1 = ⟨rest⟩) ∧
    (¬ o.getCardinality > arrayDefaultMaxSize →
      container.array ((newArrayContainerSize o.getCardinality).readFrom
        ⟨o.payload ++ rest⟩).1 = o ∧
      ((newArrayContainerSize o.getCardinality).readFrom ⟨o.payload ++ rest⟩).2.1 = ⟨rest⟩) := by
  cases o with
  | array ac =>
    have h : ac.getCardinality ≤ arrayDefaultMaxSize := hv.2
    constructor
    · intro hgt
      have : ac.getCardinality > arrayDefaultMaxSize := hgt
      omega
    · intro _
      have e := arrayContainer.readFrom_array_payload ac hv.1 rest
      rw [show (container.array ac).payload = ac.content.flatMap putUint16 from rfl,
        show (container.array ac).getCardinality = (ac.content.length : Int) from rfl, e]
      exact ⟨rfl, rfl⟩
  | bitmap bc =>
    have h : bc.getCardinality > arrayDefaultMaxSize := hv.2
    have hwf : bc.wf := hv.1
    constructor
    · intro _
      have e := bitmapContainer.readFrom_bitmap_payload bc hwf.1 hwf.2.1 rest
      rw [show (container.bitmap bc).payload = bc.bitmap.flatMap putUint64 from rfl, e]
      exact ⟨rfl, rfl⟩
    · intro hle
      exact absurd h hle

/-- The loop of `readFrom` on the payloads of containers that are storable and not
empty: it allocates the containers, appends the entries, and adds the sizes of the
payloads to `offset`. -/
theorem roaringArray.readFrom.loop_payloads (kc K : List Nat) (O : List container)
    (hK : K.length = O.length) (hk16 : ∀ k ∈ K, k < 2 ^ 16)
    (hO : ∀ o ∈ O, o.storable ∧ 0 < o.getCardinality) (hn : O.length < 2 ^ 31)
    (hkc : ∀ j, j < O.length → kc[2 * j]? = (K[j]?).map (fun k => k % 2 ^ 16) ∧
      kc[2 * j + 1]? = (O[j]?).map (fun o => ((o.getCardinality - 1) % 2 ^ 16).toNat)) :
    ∀ (m i : Nat), i + m = O.length → ∀ (st : store) (ra : roaringArray) (rest : List Nat)
      (offset : Int), ra.dirty = [] →
      roaringArray.readFrom.loop kc m i st ra ⟨(O.drop i).flatMap container.payload ++ rest⟩
          offset
        = some (⟨st.objects ++ O.drop i⟩,
            ⟨ra.keys ++ K.drop i,
              ra.containers ++ (List.range m).map (fun j => some (st.objects.length + j)), []⟩,
            ⟨rest⟩, offset + payloadSizes (O.drop i)) := by
  intro m
  induction m with
  | zero =>
    intro i hi st ra rest offset hd
    have h1 : O.drop i = [] := List.drop_of_length_le (by omega)
    have h2 : K.drop i = [] := List.drop_of_length_le (by omega)
    rw [h1, h2]
    cases ra
    cases st
    simp only at hd
    simp [roaringArray.readFrom.loop, payloadSizes, hd]
  | succ m ih =>
    intro i hi st ra rest offset hd
    have hil : i < O.length := by omega
    have hiK : i < K.length := by omega
    have hdO : O.drop i = O[i] :: O.drop (i + 1) := List.drop_eq_getElem_cons hil
    have hdK : K.drop i = K[i] :: K.drop (i + 1) := List.drop_eq_getElem_cons hiK
    obtain ⟨hv, hpos⟩ := hO _ (List.getElem_mem hil)
    obtain ⟨hc1, hc2⟩ := container.card_bounds _ hv hpos
    have hkey : kc[2 * i]? = some K[i] := by
      rw [(hkc i hil).1, List.getElem?_eq_getElem hiK]
      simp only [Option.map_some']
      rw [Nat.mod_eq_of_lt (hk16 _ (List.getElem_mem hiK))]
    have hcard : kc[2 * i + 1]? = some ((O[i].getCardinality - 1) % 2 ^ 16).toNat := by
      rw [(hkc i hil).2, List.getElem?_eq_getElem hil]
      rfl
    have hcc : ((((O[i].getCardinality - 1) % 2 ^ 16).toNat : Nat) : Int) + 1
        = O[i].getCardinality := by omega
    have hstep := readFrom_step O[i] hv ((O.drop (i + 1)).flatMap container.payload ++ rest)
    rw [roaringArray.readFrom.loop]
    simp only [Option.bind_eq_bind]
    rw [Nat.mod_eq_of_lt (by omega : 2 * i + 1 < 2 ^ 32),
      Nat.mod_eq_of_lt (by omega : 2 * i < 2 ^ 32), index?_natCast, index?_natCast, hcard, hkey]
    simp only [Option.some_bind]
    rw [hcc, hdO, List.flatMap_cons, List.append_assoc]
    have hrange : (List.range (m + 1)).map (fun j => some (st.objects.length + j))
        = some st.objects.length
          :: (List.range m).map (fun j => some (st.objects.length + 1 + j)) := by
      rw [List.range_succ_eq_map, List.map_cons, List.map_map]
      congr 1
      apply List.map_congr_left
      intro j _
      simp only [Function.comp, Nat.succ_eq_add_one]
      congr 1
      omega
    have hfin : ∀ (key : Nat),
        roaringArray.readFrom.loop kc m (i + 1) (st.alloc O[i]).1
          (ra.appendContainer key (some (st.alloc O[i]).2))
          ⟨(O.drop (i + 1)).flatMap container.payload ++ rest⟩
          (offset + getSizeInBytesFromCardinality O[i].getCardinality)
        = some (⟨st.objects ++ O[i] :: O.drop (i + 1)⟩,
            ⟨ra.keys ++ key :: K.drop (i + 1),
              ra.containers ++ (List.range (m + 1)).map (fun j => some (st.objects.length + j)),
              []⟩,
            ⟨rest⟩, offset + payloadSizes (O[i] :: O.drop (i + 1))) := by
      intro key
      have := ih (i + 1) (by omega) (st.alloc O[i]).1
        (ra.appendContainer key (some (st.alloc O[i]).2)) rest
        (offset + getSizeInBytesFromCardinality O[i].getCardinality)
        (by rw [roaringArray.appendContainer_eq, if_pos hd])
      rw [this, roaringArray.appendContainer_eq, hrange]
      simp only [store.alloc, List.append_assoc, List.singleton_append, List.length_append,
        List.length_singleton, payloadSizes, List.map_cons, List.sum_cons, add_assoc]
    by_cases hgt : O[i].getCardinality > arrayDefaultMaxSize
    · rw [if_pos hgt, (hstep.1 hgt).1, (hstep.1 hgt).2, hdK]
      exact hfin K[i]
    · rw [if_neg hgt, (hstep.2 hgt).1, (hstep.2 hgt).2, hdK]
      exact hfin K[i]

/-- The call `readFrom` on the bytes of a header and of the payloads of containers that are
storable and not empty. -/
theorem roaringArray.readFrom_eq (serial_cookie : Nat) (hc : serial_cookie < 2 ^ 32)
    (K : List Nat) (O : List container) (hK : K.length = O.length)
    (hk16 : ∀ k ∈ K, k < 2 ^ 16) (hO : ∀ o ∈ O, o.storable ∧ 0 < o.getCardinality)
    (hn : O.length ≤ 65536) (st : store) (ra : roaringArray) (hd : ra.dirty = [])
    (rest : List Nat) :
    ra.readFrom serial_cookie st
        ⟨headerBytes serial_cookie K O ++ O.flatMap container.payload ++ rest⟩
      = some (⟨st.objects ++ O⟩,
          ⟨ra.keys ++ K,
            ra.containers ++ (List.range O.length).map (fun j => some (st.objects.length + j)),
            []⟩,
          ⟨rest⟩, 8 + 8 * (K.length : Int) + payloadSizes O, none) := by
  have hbytes : headerBytes serial_cookie K O ++ O.flatMap container.payload ++ rest
      = putUint32 (serial_cookie % 2 ^ 32) ++ (putUint32 (K.length % 2 ^ 32)
        ++ (keycardBytes K O ++ (offsetBytes (8 + 8 * K.length) O
          ++ (O.flatMap container.payload ++ rest)))) := by
    unfold headerBytes
    simp only [List.append_assoc]
  have hsize : K.length % 2 ^ 32 = K.length := Nat.mod_eq_of_lt (by omega)
  have hkc := getUint16s_keycardBytes K O [] 
  simp only [List.append_nil] at hkc
  have hloop := roaringArray.readFrom.loop_payloads (getUint16s (keycardBytes K O)) K O hK hk16 hO
    (by omega) (fun j hj => hkc j hK hj) O.length 0 (by omega) st ra rest
    ((((4 + 4 + 8 * K.length) % 2 ^ 32 : Nat) : Int)) hd
  rw [List.drop_zero, List.drop_zero] at hloop
  rw [hbytes]
  unfold roaringArray.readFrom
  rw [binaryRead_append _ _ 4 (putUint32_length _)]
  simp only
  rw [getUint32_put, Nat.mod_mod, Nat.mod_eq_of_lt hc]
  simp only [ne_eq, not_true_eq_false, if_false]
  rw [binaryRead_append _ _ 4 (putUint32_length _)]
  simp only
  rw [getUint32_put, Nat.mod_mod, hsize]
  rw [binaryRead_append _ _ (2 * (2 * K.length % 2 ^ 32))
    (by rw [keycardBytes_length K O hK, Nat.mod_eq_of_lt (by omega)]; omega)]
  simp only
  rw [binaryRead_append _ _ (4 * K.length) (by rw [offsetBytes_length, hK])]
  simp only
  rw [hK] at hloop ⊢
  rw [hloop]
  simp only [Option.map_some']
  have hoff : ((((4 + 4 + 8 * O.length) % 2 ^ 32 : Nat) : Int)) = 8 + 8 * (O.length : Int) := by
    rw [Nat.mod_eq_of_lt (by omega : 4 + 4 + 8 * O.length < 2 ^ 32)]
    push_cast
    ring
  rw [hoff]

/-- The containers allocated one after the other by `readFrom`, seen through the slots that
hold their addresses. -/
theorem map_deref_range (A O : List container) :
    ((List.range O.length).map (fun j => some (A.length + j))).map (store.deref ⟨A ++ O⟩)
      = O.map some := by
  apply List.ext_getElem
  · simp
  · intro i h1 h2
    simp only [List.length_map, List.length_range] at h1
    simp only [List.getElem_map, List.getElem_range]
    show (A ++ O)[A.length + i]? = some O[i]
    rw [List.getElem?_append_right (by omega)]
    simp only [Nat.add_sub_cancel_left]
    exact List.getElem?_eq_getElem h1

/-- The payload of a container of the right kind has the size that
`getSizeInBytesFromCardinality` gives for its cardinality, which is also its
`serializedSizeInBytes()`. -/
theorem container.payload_length (o : container) (hv : o.storable) :
    (o.payload.length : Int) = getSizeInBytesFromCardinality o.getCardinality ∧
      o.serializedSizeInBytes = getSizeInBytesFromCardinality o.getCardinality ∧
      0 ≤ getSizeInBytesFromCardinality o.getCardinality ∧
      getSizeInBytesFromCardinality o.getCardinality ≤ 8192 := by
  unfold getSizeInBytesFromCardinality
  cases o with
  | array ac =>
    have h : ((ac.content.length : Nat) : Int) ≤ arrayDefaultMaxSize := hv.2
    have h2 : ¬ (container.array ac).getCardinality > arrayDefaultMaxSize := by
      show ¬ ((ac.content.length : Nat) : Int) > arrayDefaultMaxSize
      omega
    rw [if_neg h2]
    show (((ac.content.flatMap putUint16).length : Nat) : Int) = 2 * ((ac.content.length : Nat) : Int)
      ∧ ((ac.content.length : Nat) : Int) * 2 = 2 * ((ac.content.length : Nat) : Int)
      ∧ 0 ≤ 2 * ((ac.content.length : Nat) : Int) ∧ 2 * ((ac.content.length : Nat) : Int) ≤ 8192
    rw [flatMap_putUint16_length]
    unfold arrayDefaultMaxSize at h
    refine ⟨by push_cast; ring, by ring, by omega, by omega⟩
  | bitmap bc =>
    have h : bc.cardinality > arrayDefaultMaxSize := hv.2
    have hwf : bc.wf := hv.1
    have h2 : (container.bitmap bc).getCardinality > arrayDefaultMaxSize := h
    rw [if_pos h2]
    show (((bc.bitmap.flatMap putUint64).length : Nat) : Int) = 8192
      ∧ ((bc.bitmap.length : Nat) : Int) * 8 = 8192 ∧ (0 : Int) ≤ 8192 ∧ (8192 : Int) ≤ 8192
    rw [flatMap_putUint64_length, hwf.1]
    refine ⟨by norm_num, by norm_num, by norm_num, le_refl _⟩

theorem payloadSizes_eq (objs : List container) (hv : ∀ o ∈ objs, o.storable) :
    payloadSizes objs = ((objs.flatMap container.payload).length : Int) ∧
      payloadSizes objs = (objs.map (fun o => (o.payload.length : Int))).sum ∧
      0 ≤ payloadSizes objs ∧ payloadSizes objs ≤ 8192 * objs.length := by
  induction objs with
  | nil => simp [payloadSizes]
  | cons o objs ih =>
    obtain ⟨h1, h2, h3, h4⟩ := ih (fun x hx => hv x (List.mem_cons_of_mem _ hx))
    obtain ⟨g1, _, g3, g4⟩ := container.payload_length o (hv o (List.mem_cons_self _ _))
    have e : payloadSizes (o :: objs)
        = getSizeInBytesFromCardinality o.getCardinality + payloadSizes objs := by
      simp [payloadSizes]
    rw [e]
    refine ⟨?_, ?_, by omega, ?_⟩
    · rw [List.flatMap_cons, List.length_append, h1, ← g1]
      push_cast
      ring
    · rw [List.map_cons, List.sum_cons, ← h2, g1]
    · rw [List.length_cons]
      push_cast
      omega

theorem headerBytes_length (serial_cookie : Nat) (keys : List Nat) (objs : List container)
    (h : keys.length = objs.length) :
    (headerBytes serial_cookie keys objs).length = 8 + 8 * keys.length := by
  unfold headerBytes
  simp only [List.length_append, putUint32_length, keycardBytes_length keys objs h,
    offsetBytes_length]
  omega

/-- The loop of `serializedSizeInBytes` adds 8 and the size of the payload for each
container, as long as the count stays below `2 ^ 64`. -/
theorem roaringArray.serializedSizeInBytes.loop_sum (st : store) :
    ∀ (cs : List (Option Nat)) (objs : List container), cs.map st.deref = objs.map some →
      (∀ o ∈ objs, o.storable) → ∀ count : Nat, count + 8200 * objs.length < 2 ^ 64 →
      ∃ r : Nat, roaringArray.serializedSizeInBytes.loop st cs count = some r ∧
        (r : Int) = count + 8 * objs.length + payloadSizes objs := by
  intro cs
  induction cs with
  | nil =>
    intro objs hmap _ count _
    have ho : objs = [] :=
      List.eq_nil_of_length_eq_zero (map_deref_length st [] objs hmap).symm
    rw [ho]
    exact ⟨count, rfl, by simp [payloadSizes]⟩
  | cons c cs ih =>
    intro objs hmap hv count hb
    cases objs with
    | nil => simp at hmap
    | cons o objs =>
      simp only [List.map_cons, List.cons.injEq] at hmap
      obtain ⟨_, g2, g3, g4⟩ := container.payload_length o (hv o (List.mem_cons_self _ _))
      rw [List.length_cons] at hb
      have e1 : (count + 4 + 4) % 2 ^ 64 = count + 8 := by
        rw [Nat.mod_eq_of_lt (by omega)]
      have e2 : (o.serializedSizeInBytes % 2 ^ 64).toNat
          = (getSizeInBytesFromCardinality o.getCardinality).toNat := by
        rw [g2]
        congr 1
        omega
      have e3 : (count + 8 + (getSizeInBytesFromCardinality o.getCardinality).toNat) % 2 ^ 64
          = count + 8 + (getSizeInBytesFromCardinality o.getCardinality).toNat := by
        rw [Nat.mod_eq_of_lt (by omega)]
      obtain ⟨r, hr, hr2⟩ := ih objs hmap.2 (fun x hx => hv x (List.mem_cons_of_mem _ hx))
        (count + 8 + (getSizeInBytesFromCardinality o.getCardinality).toNat) (by omega)
      refine ⟨r, ?_, ?_⟩
      · rw [roaringArray.serializedSizeInBytes.loop, hmap.1]
        simp only
        rw [e1, e2, e3]
        exact hr
      · rw [hr2]
        have e : payloadSizes (o :: objs)
            = getSizeInBytesFromCardinality o.getCardinality + payloadSizes objs := by
          simp [payloadSizes]
        rw [e, List.length_cons]
        push_cast
        omega

/-- C17: serialization round trip.  For a `roaringArray` `X` with strictly ascending `uint16`
keys and as many containers as keys, whose containers `objs` are not empty, hold values of
their Go types (`uint16` values; 1024 `uint64` words) and are array containers of cardinality
`<= 4096` or bitmap containers of cardinality `> 4096` with cardinality = popcount:
`X.writeTo` on an empty stream that takes every write returns without error, and `readFrom`
on a fresh `roaringArray` with the bytes written returns without error an array `Y` with the
keys of `X` and, at every index, a container object equal to the one of `X` (same variant, same
cardinality, same elements). -/
theorem serialization_round_trip (serial_cookie : Nat) (hc : serial_cookie < 2 ^ 32)
    (st : store) (X : roaringArray) (objs : List container)
    (hkeys : X.keys.Pairwise (fun a b => a < b)) (hk16 : ∀ k ∈ X.keys, k < 2 ^ 16)
    (hlen : X.keys.length = X.containers.length)
    (hmap : X.containers.map st.deref = objs.map some)
    (hobjs : ∀ o ∈ objs, o.storable ∧ 0 < o.getCardinality) (st1 : store) :
    ∃ w n, X.writeTo serial_cookie st ⟨[], none⟩ = some (w, n, none) ∧
      ∃ st2 Y r m, newRoaringArray.readFrom serial_cookie st1 ⟨w.written⟩
          = some (st2, Y, r, m, none) ∧
        Y.keys = X.keys ∧ Y.containers.map st2.deref = X.containers.map st.deref := by
  have hol := map_deref_length st X.containers objs hmap
  have hn : objs.length ≤ 65536 := by
    have := ascending_length_le X.keys (2 ^ 16) hkeys hk16
    omega
  obtain ⟨w, n, err, hw, h1, h2, _⟩ :=
    roaringArray.writeTo_spec serial_cookie st X objs ⟨[], none⟩ hlen hmap
  have herr : err = none := h1 rfl
  rw [herr] at hw
  refine ⟨w, n, hw, ?_⟩
  have hbytes : w.written
      = headerBytes serial_cookie X.keys objs ++ objs.flatMap container.payload ++ [] := by
    rw [(h2 herr).1]
    simp
  have hr := roaringArray.readFrom_eq serial_cookie hc X.keys objs (by omega) hk16 hobjs hn st1
    newRoaringArray rfl []
  rw [← hbytes] at hr
  refine ⟨_, _, _, _, hr, ?_, ?_⟩
  · show [] ++ X.keys = X.keys
    rfl
  · show (([] : List (Option Nat))
        ++ (List.range objs.length).map (fun j => some (st1.objects.length + j))).map
        (store.deref ⟨st1.objects ++ objs⟩) = _
    rw [List.nil_append, map_deref_range, hmap]

/-- C17 at an array of two entries, with the array containers `{1, 258}` and `{7}`. -/
theorem serialization_round_trip_witness :
    ∃ w n, roaringArray.writeTo 12346 ⟨[.array ⟨[1, 258]⟩, .array ⟨[7]⟩]⟩
        ⟨[3, 9], [some 0, some 1], []⟩ ⟨[], none⟩ = some (w, n, none) ∧
      ∃ st2 Y r m, newRoaringArray.readFrom 12346 ⟨[]⟩ ⟨w.written⟩
          = some (st2, Y, r, m, none) ∧
        Y.keys = [3, 9] ∧
        Y.containers.map st2.deref
          = [some 0, some 1].map (store.deref ⟨[.array ⟨[1, 258]⟩, .array ⟨[7]⟩]⟩) :=
  serialization_round_trip 12346 (by norm_num) ⟨[.array ⟨[1, 258]⟩, .array ⟨[7]⟩]⟩
    ⟨[3, 9], [some 0, some 1], []⟩ [.array ⟨[1, 258]⟩, .array ⟨[7]⟩]
    (by decide) (by decide) rfl rfl
    (by
      intro o ho
      simp only [List.mem_cons, List.mem_singleton, List.not_mem_nil, or_false] at ho
      rcases ho with rfl | rfl
      · exact ⟨⟨by decide, by show ((2 : Nat) : Int) ≤ 4096; norm_num⟩,
          by decide⟩
      · exact ⟨⟨by decide, by show ((1 : Nat) : Int) ≤ 4096; norm_num⟩,
          by decide⟩)
    ⟨[]⟩

/-- C19, amended: for a `roaringArray` with strictly ascending `uint16` keys and as many
containers as keys, whose containers satisfy the representation invariants (array containers
of cardinality `<= 4096`, bitmap containers of cardinality `> 4096` with cardinality =
popcount), `writeTo` returns on every stream, without error on a stream that takes every
write; and when it returns no error, the count it returns is `serializedSizeInBytes()` and is
the number of bytes written, `8 + 8n` plus the sizes of the payloads; and when moreover no
container is empty, it is the count that `readFrom` returns on those bytes. -/
theorem serialized_size (serial_cookie : Nat) (hc : serial_cookie < 2 ^ 32)
    (st : store) (ra : roaringArray) (objs : List container)
    (hkeys : ra.keys.Pairwise (fun a b => a < b)) (hk16 : ∀ k ∈ ra.keys, k < 2 ^ 16)
    (hlen : ra.keys.length = ra.containers.length)
    (hmap : ra.containers.map st.deref = objs.map some)
    (hobjs : ∀ o ∈ objs, o.storable) (w : Writer) :
    ∃ w1 n err, ra.writeTo serial_cookie st w = some (w1, n, err) ∧
      (w.room = none → err = none) ∧
      (err = none →
        ra.serializedSizeInBytes st = some n.toNat ∧ 0 ≤ n ∧
        n = 8 + 8 * (ra.keys.length : Int)
          + (objs.map (fun o => (o.payload.length : Int))).sum ∧
        ∃ bytes, w1.written = w.written ++ bytes ∧ (bytes.length : Int) = n ∧
          ((∀ o ∈ objs, 0 < o.getCardinality) → ∀ st1 : store, ∃ st2 rb r,
            newRoaringArray.readFrom serial_cookie st1 ⟨bytes⟩
              = some (st2, rb, r, n, none))) := by
  have hol := map_deref_length st ra.containers objs hmap
  have hn : objs.length ≤ 65536 := by
    have := ascending_length_le ra.keys (2 ^ 16) hkeys hk16
    omega
  obtain ⟨p1, p2, p3, p4⟩ := payloadSizes_eq objs hobjs
  obtain ⟨w1, n, err, hw, h1, h2, _⟩ :=
    roaringArray.writeTo_spec serial_cookie st ra objs w hlen hmap
  refine ⟨w1, n, err, hw, h1, ?_⟩
  intro herr
  obtain ⟨hwr, hcount⟩ := h2 herr
  obtain ⟨r, hr, hr2⟩ := roaringArray.serializedSizeInBytes.loop_sum st ra.containers objs hmap
    hobjs (4 + 4) (by omega)
  refine ⟨?_, by omega, by rw [hcount, p2], ?_⟩
  · unfold roaringArray.serializedSizeInBytes
    rw [hr]
    congr 1
    push_cast at hr2
    omega
  · refine ⟨headerBytes serial_cookie ra.keys objs ++ objs.flatMap container.payload,
      by rw [hwr, List.append_assoc], ?_, ?_⟩
    · rw [List.length_append, headerBytes_length serial_cookie ra.keys objs (by omega), hcount,
        p1]
      push_cast
      ring
    · intro hpos st1
      have hrd := roaringArray.readFrom_eq serial_cookie hc ra.keys objs (by omega) hk16
        (fun o ho => ⟨hobjs o ho, hpos o ho⟩) hn st1 newRoaringArray rfl []
      rw [List.append_nil] at hrd
      rw [hcount]
      exact ⟨_, _, _, hrd⟩

/-- C19 at an array of one entry with the array container `{7}`: `writeTo` returns the value
of `serializedSizeInBytes()`, the number of bytes written, and `readFrom` returns it on those
bytes. -/
theorem serialized_size_witness :
    ∃ w1 n, roaringArray.writeTo 12346 ⟨[.array ⟨[7]⟩]⟩ ⟨[3], [some 0], []⟩ ⟨[], none⟩
        = some (w1, n, none) ∧
      roaringArray.serializedSizeInBytes ⟨[.array ⟨[7]⟩]⟩ ⟨[3], [some 0], []⟩ = some n.toNat ∧
      (w1.written.length : Int) = n ∧
      ∃ st2 rb r, newRoaringArray.readFrom 12346 ⟨[]⟩ ⟨w1.written⟩
        = some (st2, rb, r, n, none) := by
  obtain ⟨w1, n, err, h, h1, h2⟩ :=
    serialized_size 12346 (by norm_num) ⟨[.array ⟨[7]⟩]⟩ ⟨[3], [some 0], []⟩ [.array ⟨[7]⟩]
      (by decide) (by decide) rfl rfl
      (by
        intro o ho
        rw [List.mem_singleton.mp ho]
        exact ⟨by decide, by show ((1 : Nat) : Int) ≤ 4096; norm_num⟩)
      ⟨[], none⟩
  have he : err = none := h1 rfl
  subst he
  obtain ⟨hs, _, _, bytes, hb, hl, hr⟩ := h2 rfl
  have hb2 : w1.written = bytes := hb
  refine ⟨w1, n, h, hs, ?_, ?_⟩
  · rw [hb2]
    exact hl
  · rw [hb2]
    exact hr (fun o ho => by rw [List.mem_singleton.mp ho]; decide) ⟨[]⟩

/-- C19 as stated fails on an empty array container, which satisfies the representation
invariants: for the array with the one key 3 and an empty array container, `writeTo` writes 16
bytes and returns 16, and `readFrom` on those bytes returns 8208, because the cardinality field
`uint16(0 - 1) = 65535` of the table is read as a cardinality of 65536. -/
theorem serialized_size_counterexample :
    (container.array ⟨[]⟩).valid ∧
    roaringArray.writeTo 12346 ⟨[.array ⟨[]⟩]⟩ ⟨[3], [some 0], []⟩ ⟨[], none⟩
      = some (⟨[58, 48, 0, 0, 1, 0, 0, 0, 3, 0, 255, 255, 16, 0, 0, 0], none⟩, 16, none) ∧
    roaringArray.serializedSizeInBytes ⟨[.array ⟨[]⟩]⟩ ⟨[3], [some 0], []⟩ = some 16 ∧
    ∃ st2 rb r, newRoaringArray.readFrom 12346 ⟨[]⟩
        ⟨[58, 48, 0, 0, 1, 0, 0, 0, 3, 0, 255, 255, 16, 0, 0, 0]⟩
      = some (st2, rb, r, 8208, none) :=
  ⟨⟨⟨List.Pairwise.nil, fun v hv => absurd hv (List.not_mem_nil v)⟩,
      by show ((0 : Nat) : Int) ≤ 4096; norm_num⟩,
    by decide, by decide, ⟨_, _, _, rfl⟩⟩

/-- C20: on a stream whose first little-endian `uint32` is `serial_cookie + 1`, not the
cookie, `readFrom` leaves the array as it is and returns the count 0 with the error `nil`:
`return 0, err` returns the error of the read of the cookie, which succeeded. -/
theorem readFrom_bad_cookie (serial_cookie : Nat) (st : store) (ra : roaringArray)
    (rest : List Nat) :
    ra.readFrom serial_cookie st ⟨putUint32 ((serial_cookie + 1) % 2 ^ 32) ++ rest⟩
      = some (st, ra, ⟨rest⟩, 0, none) := by
  unfold roaringArray.readFrom
  rw [binaryRead_append _ _ 4 (putUint32_length _)]
  simp only
  rw [getUint32_put, Nat.mod_mod]
  have hne : (serial_cookie + 1) % 2 ^ 32 ≠ serial_cookie := by omega
  rw [if_pos hne]

/-! ## The positions of the wire format -/

/-- A window of a list that lies within the middle one of three parts. -/
theorem window {α : Type} (A B C : List α) (q n : Nat) (h : q + n ≤ B.length) :
    ((A ++ (B ++ C)).drop (A.length + q)).take n = (B.drop q).take n := by
  rw [List.drop_append, List.drop_append_of_le_length (by omega),
    List.take_append_of_le_length (by rw [List.length_drop]; omega)]

theorem take_drop_chunk {α : Type} (A B : List α) (n : Nat) (h : A.length = n) :
    (A ++ B).take n = A ∧ (A ++ B).drop n = B := by
  subst h
  exact ⟨List.take_left' rfl, List.drop_left' rfl⟩

theorem drop_chunk {α : Type} (A B : List α) (n m : Nat) (h : A.length = n) :
    (A ++ B).drop (n + m) = B.drop m := by
  subst h
  exact List.drop_append m

theorem keycardBytes_at : ∀ (ks : List Nat) (objs : List container) (i : Nat)
    (hk : i < ks.length) (ho : i < objs.length),
    ((keycardBytes ks objs).drop (4 * i)).take 2 = putUint16 (ks[i] % 2 ^ 16) ∧
    ((keycardBytes ks objs).drop (4 * i + 2)).take 2
      = putUint16 ((objs[i].getCardinality - 1) % 2 ^ 16).toNat
  | [], _, _, hk, _ => by simp at hk
  | _ :: _, [], _, _, ho => by simp at ho
  | k :: ks, o :: objs, 0, _, _ => by
    simp only [keycardBytes, List.append_assoc, Nat.mul_zero, List.drop_zero, Nat.zero_add,
      List.getElem_cons_zero]
    constructor
    · exact (take_drop_chunk _ _ 2 (putUint16_length _)).1
    · rw [(take_drop_chunk _ _ 2 (putUint16_length _)).2]
      exact (take_drop_chunk _ _ 2 (putUint16_length _)).1
  | k :: ks, o :: objs, i + 1, hk, ho => by
    have ih := keycardBytes_at ks objs i (by simpa using hk) (by simpa using ho)
    have e : keycardBytes (k :: ks) (o :: objs)
        = (putUint16 (k % 2 ^ 16) ++ putUint16 ((o.getCardinality - 1) % 2 ^ 16).toNat)
          ++ keycardBytes ks objs := rfl
    have hl : (putUint16 (k % 2 ^ 16)
        ++ putUint16 ((o.getCardinality - 1) % 2 ^ 16).toNat).length = 4 := rfl
    have e1 : 4 * (i + 1) = 4 + 4 * i := by ring
    have e2 : 4 * (i + 1) + 2 = 4 + (4 * i + 2) := by ring
    rw [e, e2, e1]
    simp only [List.getElem_cons_succ]
    rw [drop_chunk _ _ 4 _ hl, drop_chunk _ _ 4 _ hl]
    exact ih

theorem payloadSizes_take_succ (objs : List container) (i : Nat) (h : i < objs.length) :
    payloadSizes (objs.take (i + 1))
      = payloadSizes (objs.take i) + getSizeInBytesFromCardinality objs[i].getCardinality := by
  unfold payloadSizes
  rw [List.take_succ, List.getElem?_eq_getElem h, Option.toList_some, List.map_append,
    List.sum_append]
  simp

theorem offsetBytes_at : ∀ (objs : List container) (start : Int) (i : Nat),
    i < objs.length →
    ((offsetBytes start objs).drop (4 * i)).take 4
      = putUint32 ((start + payloadSizes (objs.take i)) % 2 ^ 32).toNat
  | [], _, _, h => by simp at h
  | o :: objs, start, 0, _ => by
    simp only [offsetBytes, Nat.mul_zero, List.drop_zero, List.take_zero, payloadSizes,
      List.map_nil, List.sum_nil, add_zero]
    exact (take_drop_chunk _ _ 4 (putUint32_length _)).1
  | o :: objs, start, i + 1, h => by
    have ih := offsetBytes_at objs (start + getSizeInBytesFromCardinality o.getCardinality) i
      (by simpa using h)
    have e1 : 4 * (i + 1) = 4 + 4 * i := by ring
    have hl : (putUint32 (start % 2 ^ 32).toNat).length = 4 := rfl
    rw [offsetBytes, e1, drop_chunk _ _ 4 _ hl, ih]
    congr 3
    simp only [payloadSizes, List.take_succ_cons, List.map_cons, List.sum_cons]
    ring

theorem payload_at : ∀ (objs : List container) (i : Nat) (h : i < objs.length),
    ((objs.flatMap container.payload).drop
        ((objs.take i).flatMap container.payload).length).take objs[i].payload.length
      = objs[i].payload
  | [], _, h => by simp at h
  | o :: objs, 0, _ => by
    simp only [List.take_zero, List.flatMap_nil, List.length_nil, List.drop_zero,
      List.flatMap_cons, List.getElem_cons_zero]
    exact List.take_left' rfl
  | o :: objs, i + 1, h => by
    have ih := payload_at objs i (by simpa using h)
    simp only [List.take_succ_cons, List.flatMap_cons, List.length_append,
      List.getElem_cons_succ]
    rw [List.drop_append]
    exact ih

/-- The positions of the parts of a header followed by payloads. -/
theorem layout_at (serial_cookie : Nat) (hc : serial_cookie < 2 ^ 32) (K : List Nat)
    (O : List container) (hK : K.length = O.length) (hk16 : ∀ k ∈ K, k < 2 ^ 16)
    (hO : ∀ o ∈ O, o.storable ∧ 0 < o.getCardinality) (hn : O.length ≤ 65536) (b : List Nat)
    (hb : b = headerBytes serial_cookie K O ++ O.flatMap container.payload) :
    b.take 4 = putUint32 serial_cookie ∧ (b.drop 4).take 4 = putUint32 K.length ∧
    (∀ (i : Nat) (hk : i < K.length) (ho : i < O.length),
      (b.drop (8 + 4 * i)).take 2 = putUint16 K[i] ∧
      (b.drop (8 + 4 * i + 2)).take 2 = putUint16 (O[i].getCardinality - 1).toNat ∧
      (b.drop (8 + 4 * K.length + 4 * i)).take 4
        = putUint32 (8 + 8 * (K.length : Int) + payloadSizes (O.take i)).toNat ∧
      (b.drop (8 + 8 * (K.length : Int) + payloadSizes (O.take i)).toNat).take
          (getSizeInBytesFromCardinality O[i].getCardinality).toNat = O[i].payload) ∧
    (b.length : Int) = 8 + 8 * (K.length : Int) + payloadSizes O := by
  have hv : ∀ o ∈ O, o.storable := fun o ho => (hO o ho).1
  have hkl := keycardBytes_length K O hK
  have hb1 : b = putUint32 (serial_cookie % 2 ^ 32) ++ (putUint32 (K.length % 2 ^ 32)
      ++ (keycardBytes K O ++ (offsetBytes (8 + 8 * K.length) O
        ++ O.flatMap container.payload))) := by
    rw [hb]
    unfold headerBytes
    simp only [List.append_assoc]
  have hb2 : b = (putUint32 (serial_cookie % 2 ^ 32) ++ putUint32 (K.length % 2 ^ 32))
      ++ (keycardBytes K O ++ (offsetBytes (8 + 8 * K.length) O
        ++ O.flatMap container.payload)) := by
    rw [hb1, List.append_assoc]
  have hb3 : b = (putUint32 (serial_cookie % 2 ^ 32) ++ putUint32 (K.length % 2 ^ 32)
      ++ keycardBytes K O) ++ (offsetBytes (8 + 8 * K.length) O
        ++ O.flatMap container.payload) := by
    rw [hb1]
    simp only [List.append_assoc]
  have hb4 : b = headerBytes serial_cookie K O ++ (O.flatMap container.payload ++ []) := by
    rw [hb, List.append_nil]
  have hl3 : (putUint32 (serial_cookie % 2 ^ 32) ++ putUint32 (K.length % 2 ^ 32)
      ++ keycardBytes K O).length = 8 + 4 * K.length := by
    simp only [List.length_append, putUint32_length, hkl]
  have hhl := headerBytes_length serial_cookie K O hK
  refine ⟨?_, ?_, ?_, ?_⟩
  · rw [hb1, Nat.mod_eq_of_lt hc]
    exact (take_drop_chunk _ _ 4 (putUint32_length _)).1
  · rw [hb1, (take_drop_chunk _ _ 4 (putUint32_length _)).2,
      Nat.mod_eq_of_lt (by omega : K.length < 2 ^ 32)]
    exact (take_drop_chunk _ _ 4 (putUint32_length _)).1
  · intro i hk ho
    obtain ⟨hval, hpos⟩ := hO _ (List.getElem_mem ho)
    obtain ⟨hc1, hc2⟩ := container.card_bounds _ hval hpos
    obtain ⟨a1, a2⟩ := keycardBytes_at K O i hk ho
    have a3 := offsetBytes_at O (8 + 8 * K.length) i ho
    have a4 := payload_at O i ho
    obtain ⟨p1, _, p3, p4⟩ := payloadSizes_eq (O.take i)
      (fun o h => hv o (List.mem_of_mem_take h))
    have hti : (O.take i).length = i := by rw [List.length_take]; omega
    rw [hti] at p4
    obtain ⟨g1, _, g3, _⟩ := container.payload_length O[i] hval
    refine ⟨?_, ?_, ?_, ?_⟩
    · have := window (putUint32 (serial_cookie % 2 ^ 32) ++ putUint32 (K.length % 2 ^ 32))
        (keycardBytes K O) (offsetBytes (8 + 8 * K.length) O ++ O.flatMap container.payload)
        (4 * i) 2 (by omega)
      rw [← hb2, show (putUint32 (serial_cookie % 2 ^ 32)
        ++ putUint32 (K.length % 2 ^ 32)).length = 8 from rfl] at this
      rw [this, a1, Nat.mod_eq_of_lt (hk16 _ (List.getElem_mem hk))]
    · have := window (putUint32 (serial_cookie % 2 ^ 32) ++ putUint32 (K.length % 2 ^ 32))
        (keycardBytes K O) (offsetBytes (8 + 8 * K.length) O ++ O.flatMap container.payload)
        (4 * i + 2) 2 (by omega)
      rw [← hb2, show (putUint32 (serial_cookie % 2 ^ 32)
        ++ putUint32 (K.length % 2 ^ 32)).length = 8 from rfl, ← Nat.add_assoc] at this
      rw [this, a2]
      congr 2
      omega
    · have := window (putUint32 (serial_cookie % 2 ^ 32) ++ putUint32 (K.length % 2 ^ 32)
          ++ keycardBytes K O) (offsetBytes (8 + 8 * K.length) O)
        (O.flatMap container.payload) (4 * i) 4 (by rw [offsetBytes_length]; omega)
      rw [← hb3, hl3] at this
      rw [this, a3]
      congr 2
      omega
    · have hq : (8 + 8 * (K.length : Int) + payloadSizes (O.take i)).toNat
          = (headerBytes serial_cookie K O).length
            + ((O.take i).flatMap container.payload).length := by
        rw [hhl]
        omega
      have hsz : (getSizeInBytesFromCardinality O[i].getCardinality).toNat
          = O[i].payload.length := by omega
      have hle : ((O.take i).flatMap container.payload).length + O[i].payload.length
          ≤ (O.flatMap container.payload).length := by
        have e : O.flatMap container.payload
            = (O.take i).flatMap container.payload
              ++ (O[i].payload ++ (O.drop (i + 1)).flatMap container.payload) := by
          conv_lhs => rw [← List.take_append_drop i O, List.drop_eq_getElem_cons ho]
          rw [List.flatMap_append, List.flatMap_cons]
        rw [e]
        simp only [List.length_append]
        omega
      have := window (headerBytes serial_cookie K O) (O.flatMap container.payload) []
        ((O.take i).flatMap container.payload).length O[i].payload.length hle
      rw [← hb4] at this
      rw [hq, hsz, this, a4]
  · obtain ⟨p1, _, _, _⟩ := payloadSizes_eq O hv
    rw [hb, List.length_append, hhl, p1]
    push_cast
    ring

/-- C18, amended: for a `roaringArray` with strictly ascending `uint16` keys and as many
containers as keys, whose `n` containers are not empty and satisfy the representation
invariants (array containers of cardinality `<= 4096`, bitmap containers of cardinality
`> 4096` with cardinality = popcount), a call
of `writeTo` that returns no error has written bytes `b` with: bytes 0..3 the cookie and bytes
4..7 `n`, little-endian `u32`; for each `i < n`, bytes `8+4i..8+4i+1` the key `i` and bytes
`8+4i+2..8+4i+3` the cardinality of container `i` minus 1, little-endian `u16`; bytes
`8+4n+4i..8+4n+4i+3` the little-endian `u32` offset `8 + 8n` plus the payload sizes of the
containers before `i` (8192 above 4096 values, else twice the cardinality); the payload of
container `i` at that offset; and `8 + 8n` plus all payload sizes as the number of bytes.  The
call returns no error on a stream that takes every write. -/
theorem wire_layout (serial_cookie : Nat) (hc : serial_cookie < 2 ^ 32)
    (st : store) (ra : roaringArray) (objs : List container)
    (hkeys : ra.keys.Pairwise (fun a b => a < b)) (hk16 : ∀ k ∈ ra.keys, k < 2 ^ 16)
    (hlen : ra.keys.length = ra.containers.length)
    (hmap : ra.containers.map st.deref = objs.map some)
    (hobjs : ∀ o ∈ objs, o.storable ∧ 0 < o.getCardinality) (w : Writer) :
    ∃ w1 n err, ra.writeTo serial_cookie st w = some (w1, n, err) ∧
      (w.room = none → err = none) ∧
      (err = none → ∃ b, w1.written = w.written ++ b ∧
        b.take 4 = putUint32 serial_cookie ∧
        (b.drop 4).take 4 = putUint32 ra.keys.length ∧
        (∀ (i : Nat) (hk : i < ra.keys.length) (ho : i < objs.length),
          (b.drop (8 + 4 * i)).take 2 = putUint16 ra.keys[i] ∧
          (b.drop (8 + 4 * i + 2)).take 2 = putUint16 (objs[i].getCardinality - 1).toNat ∧
          (b.drop (8 + 4 * ra.keys.length + 4 * i)).take 4
            = putUint32 (8 + 8 * (ra.keys.length : Int) + payloadSizes (objs.take i)).toNat ∧
          (b.drop (8 + 8 * (ra.keys.length : Int) + payloadSizes (objs.take i)).toNat).take
              (getSizeInBytesFromCardinality objs[i].getCardinality).toNat
            = objs[i].payload) ∧
        (b.length : Int) = 8 + 8 * (ra.keys.length : Int) + payloadSizes objs) := by
  have hol := map_deref_length st ra.containers objs hmap
  have hn : objs.length ≤ 65536 := by
    have := ascending_length_le ra.keys (2 ^ 16) hkeys hk16
    omega
  obtain ⟨w1, n, err, hw, h1, h2, _⟩ :=
    roaringArray.writeTo_spec serial_cookie st ra objs w hlen hmap
  refine ⟨w1, n, err, hw, h1, ?_⟩
  intro herr
  refine ⟨headerBytes serial_cookie ra.keys objs ++ objs.flatMap container.payload,
    by rw [(h2 herr).1, List.append_assoc], ?_⟩
  exact layout_at serial_cookie hc ra.keys objs (by omega) hk16 hobjs hn _ rfl

/-- The window of a list that is the middle one of three parts. -/
theorem window_at {α : Type} (A B C : List α) (p n : Nat) (hp : A.length = p)
    (hn : B.length = n) : ((A ++ (B ++ C)).drop p).take n = B := by
  subst hp hn
  rw [List.drop_left' rfl, List.take_left' rfl]

/-- C18 at an array of two entries, with the array containers `{1, 258}` and `{7}`: the bytes
written start with the cookie and are 30 in number. -/
theorem wire_layout_witness :
    ∃ w1 n err, roaringArray.writeTo 12346 ⟨[.array ⟨[1, 258]⟩, .array ⟨[7]⟩]⟩
        ⟨[3, 9], [some 0, some 1], []⟩ ⟨[], none⟩ = some (w1, n, err) ∧
      (err = none → ∃ b, w1.written = [] ++ b ∧ b.take 4 = putUint32 12346 ∧
        (b.length : Int) = 8 + 8 * (([3, 9] : List Nat).length : Int)
          + payloadSizes [.array ⟨[1, 258]⟩, .array ⟨[7]⟩]) := by
  obtain ⟨w1, n, err, h, _, h2⟩ :=
    wire_layout 12346 (by norm_num) ⟨[.array ⟨[1, 258]⟩, .array ⟨[7]⟩]⟩
      ⟨[3, 9], [some 0, some 1], []⟩ [.array ⟨[1, 258]⟩, .array ⟨[7]⟩]
      (by decide) (by decide) rfl rfl
      (by
        intro o ho
        simp only [List.mem_cons, List.mem_singleton, List.not_mem_nil, or_false] at ho
        rcases ho with rfl | rfl
        · exact ⟨⟨by decide, by show ((2 : Nat) : Int) ≤ 4096; norm_num⟩,
            by decide⟩
        · exact ⟨⟨by decide, by show ((1 : Nat) : Int) ≤ 4096; norm_num⟩,
            by decide⟩)
      ⟨[], none⟩
  refine ⟨w1, n, err, h, fun he => ?_⟩
  obtain ⟨b, hb, h4, _, _, hl⟩ := h2 he
  exact ⟨b, hb, h4, hl⟩

/-- C18 as stated fails on a bitmap container of cardinality 1, which is between 1 and 65536:
for the array with the keys 1 and 2, a bitmap container that holds the value 0 and the array
container `{5}`, the table of offsets gives 26 for the second payload (`24 + 2 * 1`), the two
bytes at 26 are not that payload, and the payload is at 8216, after the 8192 bytes of the
bitmap. -/
theorem wire_layout_counterexample :
    (container.bitmap ⟨1, 1 :: List.replicate 1023 0⟩).getCardinality = 1 ∧
    (container.array ⟨[5]⟩).getCardinality = 1 ∧
    ∃ w1 n, roaringArray.writeTo 12346
        ⟨[.bitmap ⟨1, 1 :: List.replicate 1023 0⟩, .array ⟨[5]⟩]⟩
        ⟨[1, 2], [some 0, some 1], []⟩ ⟨[], none⟩ = some (w1, n, none) ∧
      (w1.written.drop 20).take 4 = putUint32 26 ∧
      (w1.written.drop 26).take 2 ≠ container.payload (.array ⟨[5]⟩) ∧
      (w1.written.drop 8216).take 2 = container.payload (.array ⟨[5]⟩) := by
  have key : ∀ R : List Nat, R.length = 1023 →
      ∃ w1 n, roaringArray.writeTo 12346 ⟨[.bitmap ⟨1, 1 :: R⟩, .array ⟨[5]⟩]⟩
          ⟨[1, 2], [some 0, some 1], []⟩ ⟨[], none⟩ = some (w1, n, none) ∧
        (w1.written.drop 20).take 4 = putUint32 26 ∧
        (w1.written.drop 26).take 2 ≠ container.payload (.array ⟨[5]⟩) ∧
        (w1.written.drop 8216).take 2 = container.payload (.array ⟨[5]⟩) := by
    intro R hRl
    obtain ⟨w1, n, err, hw, h1, h2, _⟩ := roaringArray.writeTo_spec 12346
      ⟨[.bitmap ⟨1, 1 :: R⟩, .array ⟨[5]⟩]⟩ ⟨[1, 2], [some 0, some 1], []⟩
      [.bitmap ⟨1, 1 :: R⟩, .array ⟨[5]⟩] ⟨[], none⟩ rfl rfl
    have herr : err = none := h1 rfl
    rw [herr] at hw
    have hwr := (h2 herr).1
    have hhdr : headerBytes 12346 [1, 2] [.bitmap ⟨1, 1 :: R⟩, .array ⟨[5]⟩]
        = [58, 48, 0, 0, 2, 0, 0, 0, 1, 0, 0, 0, 2, 0, 0, 0, 24, 0, 0, 0] ++ [26, 0, 0, 0] := by
      have h0 : headerBytes 12346 [1, 2] [.bitmap ⟨1, 1 :: R⟩, .array ⟨[5]⟩]
          = headerBytes 12346 [1, 2] [.bitmap ⟨1, []⟩, .array ⟨[5]⟩] := rfl
      rw [h0]
      decide
    have hpay : ([container.bitmap ⟨1, 1 :: R⟩, .array ⟨[5]⟩]).flatMap container.payload
        = ([1, 0] ++ ([0, 0] ++ ([0, 0, 0, 0] ++ R.flatMap putUint64))) ++ [5, 0] := rfl
    have hR : (R.flatMap putUint64).length = 8184 := by
      rw [flatMap_putUint64_length, hRl]
    simp only [List.nil_append] at hwr
    rw [hhdr, hpay] at hwr
    refine ⟨w1, n, hw, ?_, ?_, ?_⟩
    · have hL : w1.written
          = [58, 48, 0, 0, 2, 0, 0, 0, 1, 0, 0, 0, 2, 0, 0, 0, 24, 0, 0, 0] ++ ([26, 0, 0, 0]
            ++ (([1, 0] ++ ([0, 0] ++ ([0, 0, 0, 0] ++ R.flatMap putUint64))) ++ [5, 0])) := by
        rw [hwr]
        simp only [List.append_assoc]
      rw [hL, window_at [58, 48, 0, 0, 2, 0, 0, 0, 1, 0, 0, 0, 2, 0, 0, 0, 24, 0, 0, 0]
        [26, 0, 0, 0] _ 20 4 rfl rfl]
      rfl
    · have hL : w1.written
          = ([58, 48, 0, 0, 2, 0, 0, 0, 1, 0, 0, 0, 2, 0, 0, 0, 24, 0, 0, 0] ++ [26, 0, 0, 0]
              ++ [1, 0])
            ++ ([0, 0] ++ ([0, 0, 0, 0] ++ R.flatMap putUint64 ++ [5, 0])) := by
        rw [hwr]
        simp only [List.append_assoc]
      rw [hL, window_at ([58, 48, 0, 0, 2, 0, 0, 0, 1, 0, 0, 0, 2, 0, 0, 0, 24, 0, 0, 0]
        ++ [26, 0, 0, 0] ++ [1, 0]) [0, 0] _ 26 2 (by decide) rfl]
      decide
    · have hL : w1.written
          = ([58, 48, 0, 0, 2, 0, 0, 0, 1, 0, 0, 0, 2, 0, 0, 0, 24, 0, 0, 0] ++ [26, 0, 0, 0]
              ++ ([1, 0] ++ ([0, 0] ++ ([0, 0, 0, 0] ++ R.flatMap putUint64))))
            ++ ([5, 0] ++ []) := by
        rw [hwr]
        simp only [List.append_assoc, List.append_nil]
      rw [hL, window_at ([58, 48, 0, 0, 2, 0, 0, 0, 1, 0, 0, 0, 2, 0, 0, 0, 24, 0, 0, 0]
        ++ [26, 0, 0, 0] ++ ([1, 0] ++ ([0, 0] ++ ([0, 0, 0, 0] ++ R.flatMap putUint64))))
        [5, 0] [] 8216 2 (by simp only [List.length_append, hR]; rfl) rfl]
      rfl
  exact ⟨rfl, rfl, key (List.replicate 1023 0) (List.length_replicate _ _)⟩

/-! ## `lazyIOR` -/

theorem bitmapContainer.orArray_body_bitmap (value2 : arrayContainer) (a : bitmapContainer)
    (k : Nat) :
    (bitmapContainer.orArray.body value2 a k).bitmap
      = bitSet a.bitmap (value2.content.getD k 0) := by
  unfold bitmapContainer.orArray.body
  simp only [shiftRight_6, shl64_one _ (Nat.mod_lt _ (by norm_num : 0 < 64))]
  rfl

theorem bitmapContainer.lazyIORArray_body_eq (value2 : arrayContainer) (a : bitmapContainer)
    (k : Nat) :
    bitmapContainer.lazyIORArray.body value2 a k
      = ⟨a.cardinality, bitSet a.bitmap (value2.content.getD k 0)⟩ := by
  unfold bitmapContainer.lazyIORArray.body
  simp only [shiftRight_6, shl64_one _ (Nat.mod_lt _ (by norm_num : 0 < 64))]
  rfl

/-- The loop of `lazyIORArray` writes the words that the loop of `iorArray` writes, and leaves
the cardinality field alone. -/
theorem bitmapContainer.lazyIORArray_fold (value2 : arrayContainer) (bc : bitmapContainer) :
    ∀ n : Nat, (List.range n).foldl (bitmapContainer.lazyIORArray.body value2) bc
      = ⟨bc.cardinality,
          ((List.range n).foldl (bitmapContainer.orArray.body value2) bc).bitmap⟩ := by
  intro n
  induction n with
  | zero => rfl
  | succ n ih =>
    rw [List.range_succ, List.foldl_append, List.foldl_append, ih]
    simp only [List.foldl_cons, List.foldl_nil]
    rw [bitmapContainer.lazyIORArray_body_eq, bitmapContainer.orArray_body_bitmap]

/-- C23: for a well-formed bitmap container `bc` and an operand `a` (an array container of
`uint16` values or a bitmap container of 1024 words), `bc.lazyIOR(a)` leaves in the receiver
the 1024 words that `bc.ior(a)` leaves, keeps the cardinality field at its previous value and
returns the receiver; and `computeCardinality()` after it makes the receiver equal, words and
cardinality, to the receiver after `bc.ior(a)`, which is what `bc.ior(a)` returns. -/
theorem lazyIOR_correct (bc : bitmapContainer) (h : bc.wf) (a : container) (ha : a.typed) :
    (bc.lazyIOR a).self.bitmap = (bc.ior a).self.bitmap ∧
    (bc.lazyIOR a).self.bitmap.length = 1024 ∧
    (bc.lazyIOR a).self.cardinality = bc.cardinality ∧
    (bc.lazyIOR a).ret = .bitmap (bc.lazyIOR a).self ∧
    (bc.lazyIOR a).self.computeCardinality = (bc.ior a).self ∧
    container.bitmap (bc.lazyIOR a).self.computeCardinality = (bc.ior a).ret := by
  cases a with
  | array ac =>
    have hv : ∀ v ∈ ac.content, v < 2 ^ 16 := ha
    have hwf := bitmapContainer.orArray_fold_wf bc h ac hv
    have e1 : bc.ior (.array ac)
        = ⟨(List.range ac.content.length).foldl (bitmapContainer.orArray.body ac) bc,
          .bitmap ((List.range ac.content.length).foldl (bitmapContainer.orArray.body ac) bc)⟩ :=
      bitmapContainer.iorArray_eq bc ac
    have e2 : bc.lazyIOR (.array ac)
        = ⟨⟨bc.cardinality,
            ((List.range ac.content.length).foldl (bitmapContainer.orArray.body ac) bc).bitmap⟩,
          .bitmap ⟨bc.cardinality,
            ((List.range ac.content.length).foldl
              (bitmapContainer.orArray.body ac) bc).bitmap⟩⟩ := by
      show bc.lazyIORArray ac = _
      unfold bitmapContainer.lazyIORArray
      simp only [arrayContainer.getCardinality, Int.toNat_ofNat]
      rw [bitmapContainer.lazyIORArray_fold]
    rw [e1, e2]
    have e3 : bitmapContainer.computeCardinality ⟨bc.cardinality,
          ((List.range ac.content.length).foldl (bitmapContainer.orArray.body ac) bc).bitmap⟩
        = (List.range ac.content.length).foldl (bitmapContainer.orArray.body ac) bc := by
      unfold bitmapContainer.computeCardinality
      simp only
      rw [← hwf.2.2]
    exact ⟨rfl, hwf.1, rfl, rfl, e3, by rw [e3]⟩
  | bitmap b =>
    have hl : b.bitmap.length = 1024 := ha
    have hxy : bc.bitmap.length = b.bitmap.length := by rw [h.1, hl]
    have e1 : bc.ior (.bitmap b)
        = ⟨⟨(popcntSlice (List.zipWith (fun x y => x ||| y) bc.bitmap b.bitmap) : Nat),
            List.zipWith (fun x y => x ||| y) bc.bitmap b.bitmap⟩,
          .bitmap ⟨(popcntSlice (List.zipWith (fun x y => x ||| y) bc.bitmap b.bitmap) : Nat),
            List.zipWith (fun x y => x ||| y) bc.bitmap b.bitmap⟩⟩ := by
      show bc.iorBitmap b = _
      unfold bitmapContainer.iorBitmap
      simp only
      rw [fold_zip_inplace (fun x y => x ||| y) ⟨0, bc.bitmap⟩ b.bitmap hxy]
      rfl
    have e2 : bc.lazyIOR (.bitmap b)
        = ⟨⟨bc.cardinality, List.zipWith (fun x y => x ||| y) bc.bitmap b.bitmap⟩,
          .bitmap ⟨bc.cardinality, List.zipWith (fun x y => x ||| y) bc.bitmap b.bitmap⟩⟩ := by
      show bc.lazyIORBitmap b = _
      unfold bitmapContainer.lazyIORBitmap
      simp only
      rw [fold_zip_inplace (fun x y => x ||| y) bc b.bitmap hxy]
    rw [e1, e2]
    refine ⟨rfl, ?_, rfl, rfl, rfl, rfl⟩
    show (List.zipWith (fun x y => x ||| y) bc.bitmap b.bitmap).length = 1024
    rw [List.length_zipWith, h.1, hl]
    rfl

/-- C23 at the empty bitmap container and the array operand `{3, 65}`: the cardinality field
stays what it was. -/
theorem lazyIOR_correct_witness :
    (newBitmapContainer.lazyIOR (.array ⟨[3, 65]⟩)).self.cardinality
      = newBitmapContainer.cardinality :=
  (lazyIOR_correct newBitmapContainer newBitmapContainer_wf (.array ⟨[3, 65]⟩)
    (fun v hv => by
      simp only [List.mem_cons, List.mem_singleton, List.not_mem_nil, or_false] at hv
      rcases hv with rfl | rfl <;> norm_num)).2.2.1

/-! ## `fillLeastSignificant16bits` -/

/-- Writing values that fit into the buffer splices them in at `pos`. -/
theorem writeFrom_splice (vals : List Nat) : ∀ (out : List Nat) (pos : Nat),
    pos + vals.length ≤ out.length →
      writeFrom out pos vals = out.take pos ++ vals ++ out.drop (pos + vals.length) := by
  intro out pos h
  apply ext_getD
  · rw [writeFrom_length]
    simp only [List.length_append, List.length_take, List.length_drop]
    omega
  · intro i hi
    rw [writeFrom_length] at hi
    rw [writeFrom_getD]
    simp only [List.getD_eq_getElem?_getD]
    by_cases h1 : i < pos
    · rw [if_neg (by omega), List.append_assoc, List.getElem?_append_left
        (by rw [List.length_take]; omega), List.getElem?_take_of_lt h1]
    · by_cases h2 : i < pos + vals.length
      · rw [if_pos (by omega), List.append_assoc, List.getElem?_append_right
          (by rw [List.length_take]; omega), List.length_take, Nat.min_eq_left (by omega),
          List.getElem?_append_left (by omega)]
      · rw [if_neg (by omega), List.getElem?_append_right
          (by simp only [List.length_append, List.length_take]; omega),
          List.getElem?_drop]
        simp only [List.length_append, List.length_take]
        congr 2
        omega

theorem bitmapContainer.fillLeastSignificant16bits.inner_splice (k mask : Nat)
    (hk : k * 64 + 63 < 2 ^ 32) :
    ∀ (fuel bitset : Nat) (x : List Nat) (pos : Nat), bitset < 2 ^ 64 → popcount bitset ≤ fuel →
      pos + popcount bitset ≤ x.length →
      bitmapContainer.fillLeastSignificant16bits.inner k mask fuel bitset (x, (pos : Int))
        = some (writeFrom x pos ((wordPositions bitset).map (fun j => (k * 64 + j) ||| mask)),
            ((pos + popcount bitset : Nat) : Int)) := by
  intro fuel
  induction fuel with
  | zero =>
    intro bitset x pos hw hp _
    have hb : bitset = 0 := by
      by_contra hb
      have := popcount_pos_of_ne_zero bitset hb hw
      omega
    subst hb
    unfold bitmapContainer.fillLeastSignificant16bits.inner
    rw [wordPositions_zero, popcount_zero]
    rfl
  | succ n ih =>
    intro bitset x pos hw hp hx
    unfold bitmapContainer.fillLeastSignificant16bits.inner
    by_cases hb : bitset = 0
    · subst hb
      rw [if_neg (by simp), wordPositions_zero, popcount_zero]
      rfl
    · rw [if_pos hb]
      obtain ⟨j, hj64, hj, hlow⟩ := exists_lowest_bit bitset hb hw
      have ht : bitset &&& neg64 bitset = 2 ^ j := and_neg64_of_lowest bitset j hw hj64 hj hlow
      simp only [ht]
      rw [sub64_two_pow_one j hj64, popcount_two_pow_sub_one j hj64]
      have hpc : popcount bitset = popcount (bitset ^^^ 2 ^ j) + 1 := by
        rw [← wordPositions_length, ← wordPositions_length,
          wordPositions_lowest bitset j hj64 hj hlow]
        rfl
      have hmod : (k % 2 ^ 32 * 64 + j % 2 ^ 32) % 2 ^ 32 = k * 64 + j := by
        rw [Nat.mod_eq_of_lt (show k < 2 ^ 32 by omega),
          Nat.mod_eq_of_lt (show j < 2 ^ 32 by omega), Nat.mod_eq_of_lt (by omega)]
      have hset : setIndex? x (pos : Int) ((k * 64 + j) ||| mask)
          = some (x.set pos ((k * 64 + j) ||| mask)) := by
        unfold setIndex?
        rw [if_pos ⟨by omega, by omega⟩]
        rfl
      rw [hmod, hset]
      simp only
      have hrec := ih (bitset ^^^ 2 ^ j) (x.set pos ((k * 64 + j) ||| mask)) (pos + 1)
        (Nat.xor_lt_two_pow hw (two_pow_lt_word j hj64)) (by omega)
        (by rw [List.length_set]; omega)
      rw [show ((pos : Int) + 1) = ((pos + 1 : Nat) : Int) by push_cast; rfl, hrec,
        wordPositions_lowest bitset j hj64 hj hlow, hpc]
      simp only [List.map_cons]
      refine congrArg some (Prod.ext ?_ ?_)
      · rfl
      · simp only; congr 1; omega

theorem popcntSlice_take_le (ws : List Nat) (n : Nat) :
    popcntSlice (ws.take n) ≤ popcntSlice ws := by
  have := popcntSlice_append (ws.take n) (ws.drop n)
  rw [List.take_append_drop] at this
  omega

theorem bitmapContainer.fillLeastSignificant16bits.fold_splice (ws : List Nat)
    (hlen : ws.length ≤ 1024) (hw : ∀ w ∈ ws, w < 2 ^ 64) (x : List Nat) (i mask : Nat)
    (hx : i + popcntSlice ws ≤ x.length) :
    ∀ n, n ≤ ws.length →
      (List.range n).foldlM
          (fun s k => bitmapContainer.fillLeastSignificant16bits.inner k mask 65
            (ws.getD k 0) s) (x, (i : Int))
        = some (writeFrom x i ((setPositions (ws.take n)).map (fun p => p ||| mask)),
            ((i + popcntSlice (ws.take n) : Nat) : Int)) := by
  intro n
  induction n with
  | zero => intro _; simp [setPositions, popcntSlice, writeFrom]
  | succ n ih =>
    intro hn
    have hn' : n < ws.length := by omega
    have htake : ws.take (n + 1) = ws.take n ++ [ws.getD n 0] := by
      rw [List.take_succ, List.getD_eq_getElem?_getD, List.getElem?_eq_getElem hn']
      simp
    have hle := popcntSlice_take_le ws (n + 1)
    rw [htake, popcntSlice_append] at hle
    have hone : popcntSlice [ws.getD n 0] = popcount (ws.getD n 0) := by simp [popcntSlice]
    rw [hone] at hle
    rw [List.range_succ, List.foldlM_append, ih (by omega)]
    simp only [List.foldlM_cons, List.foldlM_nil, Option.some_bind, Option.bind_eq_bind,
      Option.pure_def]
    rw [bitmapContainer.fillLeastSignificant16bits.inner_splice n mask (by norm_num; omega) 65 _ _ _
      (getD_word_lt ws hw n) (by have := popcount_le (ws.getD n 0); omega)
      (by rw [writeFrom_length]; omega)]
    have hlt : (ws.take n).length = n := by simp; omega
    rw [htake, setPositions_append, popcntSlice_append, List.map_append, writeFrom_append, hlt,
      setPositions_singleton, List.length_map, setPositions_length, hone]
    simp only [Option.bind_some, List.map_map]
    refine congrArg some (Prod.ext ?_ ?_)
    · simp only
      congr 1
      apply List.map_congr_left
      intro a _
      simp only [Function.comp]
      congr 1
      omega
    · simp only; congr 1; omega

theorem bitmapContainer.fillArray_prefix (bc : bitmapContainer) (hlen : bc.bitmap.length ≤ 1024)
    (hw : ∀ w ∈ bc.bitmap, w < 2 ^ 64) (buf : List Nat)
    (hbuf : popcntSlice bc.bitmap ≤ buf.length) :
    bc.fillArray buf = setPositions bc.bitmap ++ buf.drop (popcntSlice bc.bitmap) := by
  unfold bitmapContainer.fillArray
  rw [bitmapContainer.fillArray_fold bc.bitmap hlen hw buf _ (le_refl _), List.take_length,
    writeFrom_splice _ _ _ (by rw [setPositions_length]; omega), setPositions_length]
  simp

theorem setPositions_replicate_zero (n : Nat) : setPositions (List.replicate n 0) = [] := by
  unfold setPositions
  rw [List.filter_eq_nil_iff]
  intro v _
  rw [getBit_replicate_zero]
  simp

/-- C24: for a bitmap container `bc` whose words hold `c` set bits, the list
`setPositions bc.bitmap` is the strictly ascending list `p_0 < ... < p_{c-1}` of the values
that `bc` contains.  On a buffer `x` with at least `i + c` entries,
`fillLeastSignificant16bits(x, i, mask)` returns normally and leaves `x[:i]`, then the values
`p_j | mask` in order, then `x[i+c:]`: exactly the entries `x[i..i+c)` are written.  On a
buffer with at least `c` entries `fillArray` leaves `p_0 .. p_{c-1}` in positions `0 .. c-1` and
the rest of the buffer as it was, so that `toArrayContainer`, on a container whose cardinality
field is `c`, has the content `p_0 .. p_{c-1}`, strictly ascending. -/
theorem fill_positions (bc : bitmapContainer) (hlen : bc.bitmap.length ≤ 1024)
    (hw : ∀ w ∈ bc.bitmap, w < 2 ^ 64) (x : List Nat) (i mask : Nat)
    (hx : i + popcntSlice bc.bitmap ≤ x.length) (buf : List Nat)
    (hbuf : popcntSlice bc.bitmap ≤ buf.length) :
    (setPositions bc.bitmap).Pairwise (fun a b => a < b) ∧
    (∀ v, v ∈ setPositions bc.bitmap ↔ bc.contains v = true) ∧
    (setPositions bc.bitmap).length = popcntSlice bc.bitmap ∧
    bc.fillLeastSignificant16bits x (i : Int) mask
      = some (x.take i ++ (setPositions bc.bitmap).map (fun p => p ||| mask)
          ++ x.drop (i + popcntSlice bc.bitmap)) ∧
    bc.fillArray buf = setPositions bc.bitmap ++ buf.drop (popcntSlice bc.bitmap) ∧
    (bc.cardinality = (popcntSlice bc.bitmap : Nat) →
      bc.toArrayContainer.content = setPositions bc.bitmap ∧
      bc.toArrayContainer.content.Pairwise (fun a b => a < b)) := by
  refine ⟨setPositions_ascending _, ?_, setPositions_length _, ?_,
    bitmapContainer.fillArray_prefix bc hlen hw buf hbuf, ?_⟩
  · intro v
    rw [mem_setPositions_iff, bitmapContainer.contains_eq_getBit]
  · unfold bitmapContainer.fillLeastSignificant16bits
    rw [bitmapContainer.fillLeastSignificant16bits.fold_splice bc.bitmap hlen hw x i mask hx _
      (le_refl _), List.take_length,
      writeFrom_splice _ _ _ (by rw [List.length_map, setPositions_length]; exact hx),
      List.length_map, setPositions_length]
    rfl
  · intro hc
    have e : bc.toArrayContainer.content = setPositions bc.bitmap := by
      unfold bitmapContainer.toArrayContainer arrayContainer.loadData
      simp only
      rw [bitmapContainer.fillArray_eq bc hlen hw]
      rw [hc]
      simp
    rw [e]
    exact ⟨rfl, setPositions_ascending _⟩

/-- C24 at the bitmap container holding 0, 2 and 67, a buffer of five entries, the index 1 and
the mask `7 << 16`: the entries 1, 2 and 3 are written. -/
theorem fill_positions_witness :
    bitmapContainer.fillLeastSignificant16bits ⟨3, 5 :: 8 :: List.replicate 1022 0⟩
        [9, 9, 9, 9, 9] 1 458752
      = some [9, 458752, 458754, 458819, 9] := by
  have key : ∀ R : List Nat, R.length = 1022 → (∀ w ∈ R, w < 2 ^ 64) → popcntSlice R = 0 →
      setPositions R = [] →
      bitmapContainer.fillLeastSignificant16bits ⟨3, 5 :: 8 :: R⟩ [9, 9, 9, 9, 9] 1 458752
        = some [9, 458752, 458754, 458819, 9] := by
    intro R hR hRw hR0 hRs
    have hpc : popcntSlice (5 :: 8 :: R) = 3 := by
      rw [popcntSlice_cons, popcntSlice_cons, hR0]
      rfl
    have hsp : setPositions (5 :: 8 :: R) = [0, 2, 67] := by
      rw [setPositions_cons, setPositions_cons, hRs]
      rfl
    have hlen : (5 :: 8 :: R).length ≤ 1024 := by
      rw [List.length_cons, List.length_cons, hR]
    have hw : ∀ w ∈ 5 :: 8 :: R, w < 2 ^ 64 := by
      intro w hw
      rcases List.mem_cons.mp hw with rfl | hw
      · norm_num
      · rcases List.mem_cons.mp hw with rfl | hw
        · norm_num
        · exact hRw w hw
    have h := (fill_positions ⟨3, 5 :: 8 :: R⟩ hlen hw [9, 9, 9, 9, 9] 1
      458752 (by rw [hpc]; decide) [0, 0, 0] (by rw [hpc]; decide)).2.2.2.1
    rw [show (bitmapContainer.mk 3 (5 :: 8 :: R)).bitmap = 5 :: 8 :: R from rfl, hsp, hpc] at h
    exact h.trans (by decide)
  exact key (List.replicate 1022 0) (List.length_replicate _ _)
    (fun w hw => by rw [(List.mem_replicate.mp hw).2]; norm_num)
    (by rw [popcntSlice_replicate, popcount_zero])
    (setPositions_replicate_zero 1022)

/-! ## Appending copies of entries -/

theorem appendedCopies_nil (st : store) (ra : roaringArray) :
    appendedCopies st ra [] = (st, ra) := by
  unfold appendedCopies
  cases ra with
  | mk keys containers dirty =>
    cases st with
    | mk objects =>
      by_cases hd : dirty = []
      · simp [hd]
      · simp [hd]

theorem appendedCopies_cons (st : store) (ra : roaringArray) (e : Nat × container)
    (es : List (Nat × container)) :
    appendedCopies st ra (e :: es)
      = appendedCopies (st.alloc e.2.clone).1
          (ra.appendContainer e.1 (some (st.alloc e.2.clone).2)) es := by
  rw [roaringArray.appendContainer_eq]
  unfold appendedCopies store.alloc
  simp only [List.map_cons, List.length_cons, List.append_assoc, List.singleton_append,
    List.length_append, List.length_nil]
  refine Prod.ext rfl ?_
  simp only
  congr 1
  · rw [List.range_succ_eq_map, List.map_cons, List.map_map]
    congr 2
    apply List.map_congr_left
    intro j _
    simp only [Function.comp]
    congr 1
    omega
  · by_cases hd : ra.dirty = []
    · simp [hd]
    · simp [hd, List.replicate_succ]

theorem map_deref_alloc (st : store) (cs : List (Option Nat)) (objs : List container)
    (ext : List container) (hmap : cs.map st.deref = objs.map some) :
    cs.map (store.deref ⟨st.objects ++ ext⟩) = objs.map some := by
  rw [← hmap]
  apply List.map_congr_left
  intro c hc
  have hl := map_deref_length st cs objs hmap
  obtain ⟨i, hi, rfl⟩ := List.mem_iff_getElem.mp hc
  obtain ⟨c1, h1, h2⟩ := deref_of_map st cs objs hmap i (by omega)
  rw [List.getElem?_eq_getElem hi] at h1
  have h1 := Option.some.inj h1
  rw [h1]
  cases c1 with
  | none => exact absurd h2 (by simp [store.deref])
  | some p =>
    have hp : p < st.objects.length := by
      have : st.objects[p]? = some objs[i] := h2
      by_contra hn
      rw [List.getElem?_eq_none (by omega)] at this
      exact absurd this (by simp)
    exact store.deref_append st ext (some p) p rfl hp

theorem zip_drop_cons (keys : List Nat) (objs : List container) (i : Nat)
    (hk : i < keys.length) (ho : i < objs.length) :
    (keys.zip objs).drop i = (keys[i], objs[i]) :: (keys.zip objs).drop (i + 1) := by
  have hz : i < (keys.zip objs).length := by
    rw [List.length_zip]; omega
  rw [List.drop_eq_getElem_cons hz, List.getElem_zip]

theorem zip_drop_length (keys : List Nat) (objs : List container) (i : Nat)
    (hk : keys.length ≤ i) : (keys.zip objs).drop i = [] := by
  apply List.drop_eq_nil_of_le
  rw [List.length_zip]
  omega

theorem roaringArray.appendCopiesAfter.loop_suffix (sa : roaringArray) (objs : List container)
    (hlen : sa.keys.length = sa.containers.length) :
    ∀ (n i : Nat) (st : store) (ra : roaringArray),
      sa.containers.map st.deref = objs.map some → sa.keys.length - i ≤ n →
      roaringArray.appendCopiesAfter.loop sa n (i : Int) st ra
        = some (appendedCopies st ra ((sa.keys.zip objs).drop i)) := by
  intro n
  induction n with
  | zero =>
    intro i st ra _ hn
    unfold roaringArray.appendCopiesAfter.loop
    rw [if_neg (by unfold roaringArray.size; omega), zip_drop_length _ _ _ (by omega),
      appendedCopies_nil]
  | succ n ih =>
    intro i st ra hmap hn
    have hol := map_deref_length st sa.containers objs hmap
    unfold roaringArray.appendCopiesAfter.loop
    by_cases hi : i < sa.keys.length
    · have ho : i < objs.length := by omega
      rw [if_pos (by unfold roaringArray.size; omega), index?_natCast, index?_natCast,
        List.getElem?_eq_getElem hi]
      obtain ⟨c, hc1, hc2⟩ := deref_of_map st sa.containers objs hmap i ho
      rw [hc1]
      simp only [Option.some_bind, Option.bind_eq_bind, hc2]
      have hrec := ih (i + 1) (st.alloc objs[i].clone).1
        (ra.appendContainer sa.keys[i] (some (st.alloc objs[i].clone).2))
        (map_deref_alloc st sa.containers objs [objs[i].clone] hmap) (by omega)
      rw [show ((i : Nat) : Int) + 1 = ((i + 1 : Nat) : Int) by push_cast; rfl, hrec,
        zip_drop_cons sa.keys objs i hi ho, appendedCopies_cons]
    · rw [if_neg (by unfold roaringArray.size; omega), zip_drop_length _ _ _ (by omega),
        appendedCopies_nil]

theorem roaringArray.appendCopiesUntil.loop_prefix (sa : roaringArray) (objs : List container)
    (k : Nat) (hlen : sa.keys.length = sa.containers.length) :
    ∀ (n i : Nat) (st : store) (ra : roaringArray),
      sa.containers.map st.deref = objs.map some → sa.keys.length - i ≤ n →
      roaringArray.appendCopiesUntil.loop sa k n (i : Int) st ra
        = some (appendedCopies st ra
            (((sa.keys.zip objs).drop i).takeWhile (fun e => decide (e.1 < k)))) := by
  intro n
  induction n with
  | zero =>
    intro i st ra _ hn
    unfold roaringArray.appendCopiesUntil.loop
    rw [if_neg (by unfold roaringArray.size; omega), zip_drop_length _ _ _ (by omega),
      List.takeWhile_nil, appendedCopies_nil]
  | succ n ih =>
    intro i st ra hmap hn
    have hol := map_deref_length st sa.containers objs hmap
    unfold roaringArray.appendCopiesUntil.loop
    by_cases hi : i < sa.keys.length
    · have ho : i < objs.length := by omega
      rw [if_pos (by unfold roaringArray.size; omega), index?_natCast, index?_natCast,
        List.getElem?_eq_getElem hi, zip_drop_cons sa.keys objs i hi ho]
      simp only
      by_cases hk : sa.keys[i] ≥ k
      · rw [if_pos hk, List.takeWhile_cons_of_neg (by simp; omega), appendedCopies_nil]
      · rw [if_neg hk, List.takeWhile_cons_of_pos (by simp; omega)]
        obtain ⟨c, hc1, hc2⟩ := deref_of_map st sa.containers objs hmap i ho
        rw [hc1]
        simp only [Option.some_bind, Option.bind_eq_bind, hc2]
        have hrec := ih (i + 1) (st.alloc objs[i].clone).1
          (ra.appendContainer sa.keys[i] (some (st.alloc objs[i].clone).2))
          (map_deref_alloc st sa.containers objs [objs[i].clone] hmap) (by omega)
        rw [show ((i : Nat) : Int) + 1 = ((i + 1 : Nat) : Int) by push_cast; rfl, hrec,
          appendedCopies_cons]
    · rw [if_neg (by unfold roaringArray.size; omega), zip_drop_length _ _ _ (by omega),
        List.takeWhile_nil, appendedCopies_nil]

/-- Among entries with strictly ascending keys, the entries before the first key that is not
below `k` are the entries with a key below `k`. -/
theorem takeWhile_eq_filter_lt {α : Type} (k : Nat) :
    ∀ (l : List (Nat × α)), (l.map (fun e => e.1)).Pairwise (fun a b => a < b) →
      l.takeWhile (fun e => decide (e.1 < k)) = l.filter (fun e => decide (e.1 < k)) := by
  intro l
  induction l with
  | nil => intro _; rfl
  | cons e l ih =>
    intro h
    rw [List.map_cons, List.pairwise_cons] at h
    by_cases hk : e.1 < k
    · rw [List.takeWhile_cons_of_pos (by simpa using hk),
        List.filter_cons_of_pos (by simpa using hk), ih h.2]
    · rw [List.takeWhile_cons_of_neg (by simpa using hk),
        List.filter_cons_of_neg (by simpa using hk)]
      symm
      rw [List.filter_eq_nil_iff]
      intro x hx
      have := h.1 x.1 (List.mem_map.mpr ⟨x, hx, rfl⟩)
      simp only [decide_eq_true_eq]
      omega

/-- The entries from the index `p` on are the entries with a key above `k`, when the keys
before `p` are at most `k` and the keys from `p` on are above `k`. -/
theorem drop_eq_filter_gt {α : Type} (k : Nat) :
    ∀ (l : List (Nat × α)) (p : Nat),
      (∀ (j : Nat) (hj : j < l.length), j < p → l[j].1 ≤ k) →
      (∀ (j : Nat) (hj : j < l.length), p ≤ j → k < l[j].1) →
      l.drop p = l.filter (fun e => decide (k < e.1)) := by
  intro l
  induction l with
  | nil => intro p _ _; simp
  | cons e l ih =>
    intro p hlo hhi
    cases p with
    | zero =>
      rw [List.drop_zero]
      symm
      rw [List.filter_eq_self]
      intro x hx
      obtain ⟨j, hj, rfl⟩ := List.mem_iff_getElem.mp hx
      simpa using hhi j hj (Nat.zero_le _)
    | succ p =>
      have h0 := hlo 0 (by simp) (by omega)
      rw [List.drop_succ_cons, List.filter_cons_of_neg
        (by simp only [List.getElem_cons_zero] at h0; simp; omega)]
      apply ih
      · intro j hj hjp
        have := hlo (j + 1) (by simp; omega) (by omega)
        simpa using this
      · intro j hj hjp
        have := hhi (j + 1) (by simp; omega) (by omega)
        simpa using this

/-- The start of the loop of `appendCopiesAfter`: the index after the key, or the insertion
point of an absent key. -/
theorem roaringArray.getIndex_start (sa : roaringArray) (k : Nat)
    (hs : sa.keys.Pairwise (fun a b => a < b)) (hk : ∀ x ∈ sa.keys, x < 2 ^ 16) :
    ∃ (g : Int) (p : Nat), sa.getIndex k = some g ∧
      (if g ≥ 0 then g + 1 else -g - 1) = (p : Int) ∧
      (∀ (j : Nat) (hj : j < sa.keys.length), j < p → sa.keys[j] ≤ k) ∧
      (∀ (j : Nat) (hj : j < sa.keys.length), p ≤ j → k < sa.keys[j]) := by
  have hget : ∀ (j : Nat) (hj : j < sa.keys.length), sa.keys.getD j 0 = sa.keys[j] := by
    intro j hj
    rw [List.getD_eq_getElem?_getD, List.getElem?_eq_getElem hj]
    rfl
  have hfound : ∀ i : Nat, i < sa.keys.length → sa.keys.getD i 0 = k →
      (∀ (j : Nat) (hj : j < sa.keys.length), j < i + 1 → sa.keys[j] ≤ k) ∧
      (∀ (j : Nat) (hj : j < sa.keys.length), i + 1 ≤ j → k < sa.keys[j]) := by
    intro i hi hik
    rw [hget i hi] at hik
    constructor
    · intro j hj hji
      by_cases hje : j = i
      · subst hje; omega
      · have := (List.pairwise_iff_getElem.mp hs) j i hj hi (by omega)
        omega
    · intro j hj hji
      have := (List.pairwise_iff_getElem.mp hs) i j hi hj (by omega)
      omega
  have hsearch : ∀ r, SearchPost sa.keys k 0 sa.keys.length r →
      ∃ (g : Int) (p : Nat), r = some g ∧
        (if g ≥ 0 then g + 1 else -g - 1) = (p : Int) ∧
        (∀ (j : Nat) (hj : j < sa.keys.length), j < p → sa.keys[j] ≤ k) ∧
        (∀ (j : Nat) (hj : j < sa.keys.length), p ≤ j → k < sa.keys[j]) := by
    intro r hr
    rcases hr with ⟨i, hr, h1, h2, h3⟩ | ⟨p, hr, h1, h2, h3, h4⟩
    · obtain ⟨hA, hB⟩ := hfound i.toNat (by omega) h3
      refine ⟨i, i.toNat + 1, hr, ?_, hA, hB⟩
      rw [if_pos (by omega)]
      push_cast
      omega
    · refine ⟨-(p + 1), p.toNat, hr, ?_, ?_, ?_⟩
      · rw [if_neg (by omega)]
        omega
      · intro j hj hjp
        have := h3 (j : Int) (by omega) (by omega)
        rw [Int.toNat_ofNat, hget j hj] at this
        omega
      · intro j hj hjp
        have := h4 (j : Int) (by omega) (by omega)
        rw [Int.toNat_ofNat, hget j hj] at this
        exact this
  unfold roaringArray.getIndex
  simp only
  by_cases h0 : ((sa.keys.length : Nat) : Int) = 0
  · rw [if_pos h0]
    refine ⟨-1, 0, by rw [h0]; rfl, by decide, fun j hj => by omega, fun j hj => by omega⟩
  · rw [if_neg h0, index?_eq_getD sa.keys _ (by omega) (by omega)]
    simp only
    by_cases hl : sa.keys.getD ((sa.keys.length : Int) - 1).toNat 0 = k
    · rw [if_pos hl]
      have hlast : ((sa.keys.length : Int) - 1).toNat = sa.keys.length - 1 := by omega
      rw [hlast] at hl
      obtain ⟨hA, hB⟩ := hfound (sa.keys.length - 1) (by omega) hl
      refine ⟨_, sa.keys.length - 1 + 1, rfl, ?_, hA, hB⟩
      rw [if_pos (by omega)]
      omega
    · rw [if_neg hl]
      exact hsearch _ (roaringArray.binarySearch_post sa k hs hk)

theorem container.clone_value (c : container) : c.clone = c := by
  cases c with
  | array ac => rfl
  | bitmap bc => exact congrArg container.bitmap (bitmapContainer.clone_eq bc)

theorem zip_keys (keys : List Nat) (objs : List container) (hl : keys.length = objs.length) :
    (keys.zip objs).map (fun e => e.1) = keys := by
  have := List.map_fst_zip keys objs (by omega)
  exact this

/-- What `appendedCopies` leaves: the entries of `ra` first and unchanged, then the keys of
`es`; the new slots hold, in order, objects equal to those of `es`; no object of the store
before the call has changed, so an array whose containers were objects of that store still
sees the same objects. -/
theorem appendedCopies_view (st : store) (ra : roaringArray) (es : List (Nat × container)) :
    (appendedCopies st ra es).2.keys = ra.keys ++ es.map (fun e => e.1) ∧
    (appendedCopies st ra es).2.containers.take ra.containers.length = ra.containers ∧
    ((appendedCopies st ra es).2.containers.drop ra.containers.length).map
        (appendedCopies st ra es).1.deref = es.map (fun e => some e.2) ∧
    (appendedCopies st ra es).1.objects.take st.objects.length = st.objects ∧
    (∀ (cs : List (Option Nat)) (objs : List container), cs.map st.deref = objs.map some →
      cs.map (appendedCopies st ra es).1.deref = objs.map some) := by
  unfold appendedCopies
  refine ⟨rfl, ?_, ?_, ?_, ?_⟩
  · simp only
    rw [List.take_left]
  · simp only
    rw [List.drop_left]
    have := map_deref_range st.objects (es.map (fun e => e.2.clone))
    rw [List.length_map] at this
    rw [this, List.map_map]
    apply List.map_congr_left
    intro e _
    simp only [Function.comp]
    rw [container.clone_value]
  · simp only
    rw [List.take_left]
  · intro cs objs h
    exact map_deref_alloc st cs objs _ h

/-- C25: let `sa` have strictly ascending `uint16` keys and as many containers as keys, each
slot holding an object of the store (`objs`, in order).  For every destination `ra` and every
key `k`, `ra.appendCopiesUntil(sa, k)` returns and leaves the store and the array that result
from appending to `ra`, in order, copies of exactly the entries of `sa` with a key below `k`;
`ra.appendCopiesAfter(sa, k)` does so with exactly the entries with a key above `k`, whether
or not `k` is a key of `sa`.  After appending copies of any entries, the keys and the
containers of `ra` come first and unchanged, the new slots hold objects equal to the copied
ones, no earlier object of the store has changed, and `sa` sees the same objects as before. -/
theorem appendCopies_correct (st : store) (ra sa : roaringArray) (objs : List container)
    (k : Nat) (hasc : sa.keys.Pairwise (fun a b => a < b)) (hkeys : ∀ x ∈ sa.keys, x < 2 ^ 16)
    (hlen : sa.keys.length = sa.containers.length)
    (hmap : sa.containers.map st.deref = objs.map some) :
    roaringArray.appendCopiesUntil st ra sa k
      = some (appendedCopies st ra ((sa.keys.zip objs).filter (fun e => decide (e.1 < k)))) ∧
    roaringArray.appendCopiesAfter st ra sa k
      = some (appendedCopies st ra ((sa.keys.zip objs).filter (fun e => decide (k < e.1)))) ∧
    (∀ es : List (Nat × container),
      (appendedCopies st ra es).2.keys = ra.keys ++ es.map (fun e => e.1) ∧
      (appendedCopies st ra es).2.containers.take ra.containers.length = ra.containers ∧
      ((appendedCopies st ra es).2.containers.drop ra.containers.length).map
          (appendedCopies st ra es).1.deref = es.map (fun e => some e.2) ∧
      (appendedCopies st ra es).1.objects.take st.objects.length = st.objects ∧
      sa.containers.map (appendedCopies st ra es).1.deref = objs.map some) := by
  have hol := map_deref_length st sa.containers objs hmap
  have hzk := zip_keys sa.keys objs (by omega)
  refine ⟨?_, ?_, ?_⟩
  · unfold roaringArray.appendCopiesUntil
    have := roaringArray.appendCopiesUntil.loop_prefix sa objs k hlen sa.keys.length 0 st ra hmap
      (by omega)
    rw [List.drop_zero, takeWhile_eq_filter_lt k _ (by rw [hzk]; exact hasc)] at this
    exact this
  · unfold roaringArray.appendCopiesAfter
    obtain ⟨g, p, hg, hp, hlo, hhi⟩ := roaringArray.getIndex_start sa k hasc hkeys
    rw [hg]
    simp only
    rw [hp, roaringArray.appendCopiesAfter.loop_suffix sa objs hlen sa.keys.length p st ra hmap
      (by omega)]
    have hzl : (sa.keys.zip objs).length = sa.keys.length := by
      rw [List.length_zip]; omega
    rw [drop_eq_filter_gt k (sa.keys.zip objs) p]
    · intro j hj hjp
      rw [List.getElem_zip]
      exact hlo j (by omega) hjp
    · intro j hj hjp
      rw [List.getElem_zip]
      exact hhi j (by omega) hjp
  · intro es
    obtain ⟨h1, h2, h3, h4, h5⟩ := appendedCopies_view st ra es
    exact ⟨h1, h2, h3, h4, h5 sa.containers objs hmap⟩

/-- C25 at a source with the keys 3, 7 and 9, a destination with the key 1 and dirty flags,
and the key 7: `appendCopiesUntil` appends a copy of the entry 3, `appendCopiesAfter` a copy of
the entry 9. -/
theorem appendCopies_correct_witness :
    roaringArray.appendCopiesUntil
        ⟨[.array ⟨[1]⟩, .array ⟨[2]⟩, .array ⟨[5]⟩]⟩ ⟨[1], [some 0], [false]⟩
        ⟨[3, 7, 9], [some 0, some 1, some 2], []⟩ 7
      = some (⟨[.array ⟨[1]⟩, .array ⟨[2]⟩, .array ⟨[5]⟩, .array ⟨[1]⟩]⟩,
          ⟨[1, 3], [some 0, some 3], [false, false]⟩) ∧
    roaringArray.appendCopiesAfter
        ⟨[.array ⟨[1]⟩, .array ⟨[2]⟩, .array ⟨[5]⟩]⟩ ⟨[1], [some 0], [false]⟩
        ⟨[3, 7, 9], [some 0, some 1, some 2], []⟩ 7
      = some (⟨[.array ⟨[1]⟩, .array ⟨[2]⟩, .array ⟨[5]⟩, .array ⟨[5]⟩]⟩,
          ⟨[1, 9], [some 0, some 3], [false, false]⟩) := by
  have h := appendCopies_correct ⟨[.array ⟨[1]⟩, .array ⟨[2]⟩, .array ⟨[5]⟩]⟩
    ⟨[1], [some 0], [false]⟩ ⟨[3, 7, 9], [some 0, some 1, some 2], []⟩
    [.array ⟨[1]⟩, .array ⟨[2]⟩, .array ⟨[5]⟩] 7 (by decide) (by decide) rfl rfl
  exact ⟨h.1.trans (by decide), h.2.1.trans (by decide)⟩

/-! ## `equals` -/

/-- A `roaringArray` value is compared by its length, its keys and its containers: the array
with the key 3 and the array container `{1}` equals itself, passed as a value. -/
theorem roaringArray.equals_value_example :
    roaringArray.equals ⟨[.array ⟨[1]⟩]⟩ ⟨[3], [some 0], []⟩
        (.roaringArrayValue ⟨[3], [some 0], []⟩) = some true ∧
    roaringArray.equals ⟨[]⟩ newRoaringArray (.roaringArrayValue newRoaringArray) = some true := by
  decide

/-- C22: on a handle (a pointer to a `roaringArray`, as `newRoaringArray` and `clone` return
it) the type assertion `o.(roaringArray)` of `equals` fails, and `equals` returns false,
whatever the two arrays hold: so does `ra.equals(ra)`, and `ra.equals(ra.clone())`. -/
theorem equals_handle_false (st : store) (ra rb : roaringArray) :
    roaringArray.equals st ra (.roaringArrayPtr rb) = some false ∧
    roaringArray.equals st ra (.roaringArrayPtr ra) = some false ∧
    roaringArray.equals st ra.clone.self (.roaringArrayPtr ra.clone.ret) = some false :=
  ⟨rfl, rfl, rfl⟩

/-! ## Failing streams -/

/-- A write that fails makes `writeTo` return the count 0 and the error of that write, for the
header and for the payloads. -/
theorem roaringArray.writeTo_failure (serial_cookie : Nat) (st : store) (ra : roaringArray)
    (objs : List container) (w : Writer) (hlen : ra.keys.length = ra.containers.length)
    (hmap : ra.containers.map st.deref = objs.map some) :
    (∀ s n e, w.Write (headerBytes serial_cookie ra.keys objs) = (s, n, some e) →
      ra.writeTo serial_cookie st w = some (s, 0, some e)) ∧
    (∀ s n s1 e, w.Write (headerBytes serial_cookie ra.keys objs) = (s, n, none) →
      roaringArray.writeTo.payloads st ra.containers s = some (s1, some e) →
      ra.writeTo serial_cookie st w = some (s1, 0, some e)) := by
  rw [roaringArray.writeTo_eq serial_cookie st ra objs w hlen hmap]
  constructor
  · intro s n e h
    rw [h]
  · intro s n s1 e h h2
    rw [h]
    simp only
    rw [h2]

/-- A writer that takes 10 bytes fails within the header of 16 bytes, and one that takes 17
bytes within the payload of 2 bytes: `writeTo` returns the count 0 and the error. -/
theorem roaringArray.writeTo_short_example :
    roaringArray.writeTo 12346 ⟨[.array ⟨[1]⟩]⟩ ⟨[3], [some 0], []⟩ ⟨[], some 10⟩
      = some (⟨[58, 48, 0, 0, 1, 0, 0, 0, 3, 0], some 0⟩, 0, some .ErrShortWrite) ∧
    roaringArray.writeTo 12346 ⟨[.array ⟨[1]⟩]⟩ ⟨[3], [some 0], []⟩ ⟨[], some 17⟩
      = some (⟨[58, 48, 0, 0, 1, 0, 0, 0, 3, 0, 0, 0, 16, 0, 0, 0, 1], some 0⟩, 0,
          some .ErrShortWrite) := by
  decide

/-- C21: a stream that carries the cookie (12346), the count 1, the table entry (key 3,
cardinality 1) and the offset 16, and ends there, before the two bytes of the payload: the
read of the container fails, its result is not looked at, and `readFrom` appends an entry for
the key 3 and returns the count 18 with the error `nil`. -/
theorem readFrom_truncated :
    newRoaringArray.readFrom 12346 ⟨[]⟩ ⟨[58, 48, 0, 0, 1, 0, 0, 0, 3, 0, 0, 0, 16, 0, 0, 0]⟩
      = some (⟨[.array ⟨[0]⟩]⟩, ⟨[3], [some 0], []⟩, ⟨[]⟩, 18, none) := by
  decide

end Roaring
